import Mathlib

/-!
# Verification of the incremental enumeration algorithm engine

Shallow embedding of the core components of the enumeration-of-solution-parts
library (lazy array, incremental quicksort, incremental DFS, SSSD/APSD
enumerators, incremental MST enumerators), together with theorems settling the
frozen claims about them.

Conventions used throughout:
* Rust `usize`/`u32` indices are modelled as `Nat` (the claims are not about
  integer overflow).
* A Rust method `fn next(&mut self) -> Option<A>` on an enumerator becomes a
  Lean function `State → Option (Option A × State)`: the outer `Option` is
  `none` exactly on the `panic!`/`expect` paths of the source, and the inner
  pair holds the emitted item (or `none` for exhaustion) together with the
  updated enumerator state.
* Raw, possibly uninitialized memory is modelled by total functions whose
  initial contents are arbitrary ("junk") parameters; the theorems quantify
  over the junk.
-/

namespace Spec2Proof

/-! ## Sparse lazy array (`src/data_structures/lazy_array.rs`)

`LazyArray<T>` keeps a buffer `data` of at most `size` initialized slots, an
index map `data_indices : logical → slot` and a reverse map
`reverse_indices : slot → logical` used to validate that a slot claimed by a
logical index still belongs to it.  Slots at positions `≥ num_valid` are
invalid.  The three buffers are allocated without initialization, so their
initial contents are arbitrary; we model them as total functions over `Nat`
whose initial values are junk parameters of `new`.
-/

structure LazyArray (T : Type) where
  size : Nat
  data : Nat → T
  numValid : Nat
  dataIndices : Nat → Nat
  reverseIndices : Nat → Nat

namespace LazyArray

variable {T : Type}

/-- `LazyArray::new(size)` modulo the zero-sized-type assertion (see
`newChecked`).  The three junk functions are the arbitrary contents of the
freshly allocated, uninitialized buffers. -/
def new (size : Nat) (junkData : Nat → T) (junkDI junkRI : Nat → Nat) :
    LazyArray T :=
  { size := size
    data := junkData
    numValid := 0
    dataIndices := junkDI
    reverseIndices := junkRI }

/-- `LazyArray::new` including its `assert!(mem::size_of::<T>() != 0)`.
The compile-time constant `mem::size_of::<T>()` is passed explicitly as
`szT`; the assertion failure (panic) is modelled as `none`. -/
def newChecked (szT : Nat) (size : Nat) (junkData : Nat → T)
    (junkDI junkRI : Nat → Nat) : Option (LazyArray T) :=
  if szT = 0 then none
  else some (new size junkData junkDI junkRI)

/-- `LazyArray::get_data_index` (precondition `real_index < size` is the
caller's duty; the function itself only reads the two index buffers). -/
def getDataIndex (la : LazyArray T) (realIndex : Nat) : Option Nat :=
  let dataIndex := la.dataIndices realIndex
  if la.numValid ≤ dataIndex then none
  else if la.reverseIndices dataIndex = realIndex then some dataIndex
  else none

/-- `LazyArray::get`. -/
def get (la : LazyArray T) (index : Nat) : Option T :=
  if la.size ≤ index then none
  else (la.getDataIndex index).map fun dataIndex => la.data dataIndex

/-- `LazyArray::create_data_index`: claim the next slot for `realIndex`. -/
def createDataIndex (la : LazyArray T) (realIndex : Nat) (value : T) :
    LazyArray T :=
  { la with
    data := fun j => if j = la.numValid then value else la.data j
    reverseIndices := fun j =>
      if j = la.numValid then realIndex else la.reverseIndices j
    dataIndices := fun j =>
      if j = realIndex then la.numValid else la.dataIndices j
    numValid := la.numValid + 1 }

/-- `LazyArray::set`; the out-of-bounds `assert!` (panic) is modelled as
`none`. -/
def set (la : LazyArray T) (index : Nat) (element : T) :
    Option (LazyArray T) :=
  if la.size ≤ index then none
  else some (match la.getDataIndex index with
    | some dataIndex =>
        { la with
          data := fun j => if j = dataIndex then element else la.data j }
    | none => la.createDataIndex index element)

end LazyArray

end Spec2Proof

namespace Spec2Proof

/-! ### Lemmas about `LazyArray` -/

namespace LazyArray

variable {T : Type}

theorem get_new (size : Nat) (junkData : Nat → T) (junkDI junkRI : Nat → Nat)
    (i : Nat) : get (new size junkData junkDI junkRI) i = none := by
  simp [get, new, getDataIndex]

theorem get_oob (la : LazyArray T) (i : Nat) (h : la.size ≤ i) :
    get la i = none := by
  simp [get, h]

theorem set_oob (la : LazyArray T) (i : Nat) (v : T) (h : la.size ≤ i) :
    set la i v = none := by
  simp [set, h]

theorem set_inb (la : LazyArray T) (i : Nat) (v : T) (h : i < la.size) :
    ∃ la2, set la i v = some la2 := by
  simp [set, Nat.not_le.mpr h]

/-- Setting an in-bounds index makes `get` return exactly that value. -/
theorem get_set_same (la : LazyArray T) (i : Nat) (v : T) (la2 : LazyArray T)
    (h : set la i v = some la2) : get la2 i = some v := by
  unfold set at h
  by_cases hsz : la.size ≤ i
  · simp [hsz] at h
  · simp only [hsz, if_false] at h
    have hi : i < la.size := Nat.lt_of_not_le hsz
    cases hdi : getDataIndex la i with
    | some di =>
        rw [hdi] at h
        obtain rfl : _ = la2 := Option.some_injective _ h
        unfold getDataIndex at hdi
        by_cases h1 : la.numValid ≤ la.dataIndices i
        · simp [h1] at hdi
        · simp only [h1, if_false] at hdi
          by_cases h2 : la.reverseIndices (la.dataIndices i) = i
          · simp only [h2, if_true] at hdi
            obtain rfl : la.dataIndices i = di := Option.some_injective _ hdi
            simp [get, getDataIndex, hsz, h1, h2]
          · simp [h2] at hdi
    | none =>
        rw [hdi] at h
        obtain rfl : _ = la2 := Option.some_injective _ h
        simp [get, getDataIndex, createDataIndex, hsz, Nat.lt_irrefl]

/-- Setting index `i` leaves `get` at any other index unchanged. -/
theorem get_set_other (la : LazyArray T) (i : Nat) (v : T) (la2 : LazyArray T)
    (j : Nat) (hij : j ≠ i) (h : set la i v = some la2) :
    get la2 j = get la j := by
  unfold set at h
  by_cases hsz : la.size ≤ i
  · simp [hsz] at h
  · simp only [hsz, if_false] at h
    by_cases hszj : la.size ≤ j
    · cases hdi : getDataIndex la i with
      | some di =>
          rw [hdi] at h
          obtain rfl : _ = la2 := Option.some_injective _ h
          simp [get, hszj]
      | none =>
          rw [hdi] at h
          obtain rfl : _ = la2 := Option.some_injective _ h
          simp [get, createDataIndex, hszj]
    · cases hdi : getDataIndex la i with
      | some di =>
          rw [hdi] at h
          obtain rfl : _ = la2 := Option.some_injective _ h
          -- replacement in place: index maps unchanged, only slot `di` of the
          -- data buffer changed, and slot `di` belongs to `i ≠ j`.
          unfold getDataIndex at hdi
          by_cases h1 : la.numValid ≤ la.dataIndices i
          · simp [h1] at hdi
          · simp only [h1, if_false] at hdi
            by_cases h2 : la.reverseIndices (la.dataIndices i) = i
            · simp only [h2, if_true] at hdi
              obtain rfl : la.dataIndices i = di := Option.some_injective _ hdi
              simp only [get, getDataIndex, hszj, if_false]
              cases hj1 : (if la.numValid ≤ la.dataIndices j then none
                else if la.reverseIndices (la.dataIndices j) = j
                then some (la.dataIndices j) else none) with
              | none => simp [hj1]
              | some dj =>
                  by_cases hj2 : la.numValid ≤ la.dataIndices j
                  · simp [hj2] at hj1
                  · simp only [hj2, if_false] at hj1
                    by_cases hj3 : la.reverseIndices (la.dataIndices j) = j
                    · simp only [hj3, if_true] at hj1
                      obtain rfl : la.dataIndices j = dj :=
                        Option.some_injective _ hj1
                      have hne : la.dataIndices j ≠ la.dataIndices i := by
                        intro he
                        rw [he, h2] at hj3
                        exact hij hj3.symm
                      simp [hj1, hne]
                    · simp [hj3] at hj1
            · simp [h2] at hdi
      | none =>
          rw [hdi] at h
          obtain rfl : _ = la2 := Option.some_injective _ h
          -- fresh slot `numValid` claimed for `i`; `j ≠ i` keeps its entry.
          unfold getDataIndex at hdi
          simp only [get, getDataIndex, createDataIndex, hszj, if_false]
          simp only [hij, if_false]
          by_cases hj2 : la.numValid + 1 ≤ la.dataIndices j
          · have hj2' : la.numValid ≤ la.dataIndices j := Nat.le_of_succ_le hj2
            simp [hj2, hj2']
          · by_cases hj2' : la.numValid ≤ la.dataIndices j
            · -- then dataIndices j = numValid exactly; the fresh reverse
              -- entry points to i ≠ j, so both sides are none
              have he : la.dataIndices j = la.numValid :=
                Nat.le_antisymm (Nat.lt_succ_iff.mp (Nat.lt_of_not_le hj2)) hj2'
              simp [hj2, hj2', he]
              intro hh
              exact hij hh.symm
            · have hne' : la.dataIndices j ≠ la.numValid := by
                intro he; exact hj2' (he ▸ Nat.le_refl _)
              simp only [hj2, hj2', if_false, hne']
              by_cases hj3 : la.reverseIndices (la.dataIndices j) = j
              · simp [hj3, hne']
              · simp [hj3]

end LazyArray

/-! ## Directed graphs and incremental DFS (`src/algorithms/graphs/search/dfs.rs`)

A graph is given by its vertex count `n` and its out-adjacency lists
(`Graph::adjacencies(u, Direction::OUT)`), each adjacency being a sink
together with its edge data.  The data-model invariant of the container
contract — every endpoint referenced by an edge lies in `0..n` — is carried
as the field `adjwf`.  `ofEdges` mirrors `DirectedAdjacencyArrayGraph::new`:
the counting-sort construction from an edge list groups adjacencies by
source, preserving the relative order of the input edge list, which is
exactly a stable filter by source. -/

structure DGraph (ED : Type) where
  n : Nat
  adj : Nat → List (Nat × ED)
  adjwf : ∀ u p, p ∈ adj u → p.1 < n

inductive Color where
  | white
  | gray
  | black
deriving DecidableEq, Repr

def setColor (colors : Nat → Color) (u : Nat) (c : Color) : Nat → Color :=
  fun v => if v = u then c else colors v

inductive DfsEvent (ED : Type) where
  | discovered (u : Nat)
  | finished (u : Nat)
  | backEdge (u v : Nat) (d : ED)
  | treeEdge (u v : Nat) (d : ED)
deriving DecidableEq, Repr

/-- State of the incremental depth-first search `IDFS`.  The head of `stack`
is the top (`Vec::last`); each frame is a vertex together with the not yet
consumed rest of its adjacency iterator, and `loop` is the not yet consumed
rest of the outer `dfs_loop` vertex iterator. -/
structure IDFS (ED : Type) where
  colors : Nat → Color
  stack : List (Nat × List (Nat × ED))
  loop : List Nat

namespace IDFS

variable {ED : Type}

/-- `IDFS::new`. -/
def new (numVertices : Nat) : IDFS ED :=
  { colors := fun _ => .white
    stack := []
    loop := List.range numVertices }

/-- The `for u in self.dfs_loop.by_ref()` search for the next white start
vertex: consumes the iterator up to and including the first white vertex. -/
def findStart (colors : Nat → Color) : List Nat → Option Nat × List Nat
  | [] => (none, [])
  | u :: rest =>
      if colors u = .white then (some u, rest) else findStart colors rest

/-- Outcome of resuming the adjacency iterator of the top frame. -/
inductive ResumeStep (ED : Type) where
  | tree (v : Nat) (d : ED) (rest : List (Nat × ED))
  | back (v : Nat) (d : ED) (rest : List (Nat × ED))
  | exhausted

/-- The `for a in adjacencies.by_ref()` loop body: skip black sinks
(forward/cross edges), stop at the first white (tree edge) or gray (back
edge) sink. -/
def resumeAdjacencies (colors : Nat → Color) :
    List (Nat × ED) → ResumeStep ED
  | [] => .exhausted
  | (v, d) :: rest =>
      match colors v with
      | .white => .tree v d rest
      | .gray => .back v d rest
      | .black => resumeAdjacencies colors rest

/-- `IDFS::next`.  The outer `Option` is `none` exactly on the
`panic!("There should never be a black (finished) vertex on the stack.")`
path. -/
def next (g : DGraph ED) (s : IDFS ED) :
    Option (Option (DfsEvent ED) × IDFS ED) :=
  let s1 : IDFS ED :=
    if s.stack.isEmpty then
      match findStart s.colors s.loop with
      | (some u, rest) => { s with stack := [(u, g.adj u)], loop := rest }
      | (none, rest) => { s with loop := rest }
    else s
  match s1.stack with
  | [] => some (none, s1)
  | (u, advs) :: stackRest =>
      match s1.colors u with
      | .white =>
          some (some (.discovered u),
            { s1 with colors := setColor s1.colors u .gray })
      | .gray =>
          match resumeAdjacencies s1.colors advs with
          | .tree v d rest =>
              some (some (.treeEdge u v d),
                { s1 with stack := (v, g.adj v) :: (u, rest) :: stackRest })
          | .back v d rest =>
              some (some (.backEdge u v d),
                { s1 with stack := (u, rest) :: stackRest })
          | .exhausted =>
              some (some (.finished u),
                { s1 with colors := setColor s1.colors u .black
                          stack := stackRest })
      | .black => none

/-- Repeatedly call `next` until it signals exhaustion, collecting the
emitted events.  `none` means the fuel ran out or a panic path was hit. -/
def drain (g : DGraph ED) : Nat → IDFS ED → Option (List (DfsEvent ED))
  | 0, _ => none
  | fuel + 1, s =>
      match next g s with
      | none => none
      | some (none, _) => some []
      | some (some e, s2) => (drain g fuel s2).map (e :: ·)

end IDFS

/-! ### Claim C7 -/

/-- The 6-vertex, 8-edge directed graph of CRLS Figure 22.4, built as
`DirectedAdjacencyArrayGraph::new(6, edges)` does: the adjacency list of `u`
consists of the sinks of the edges with source `u`, in input order. -/
def crls224 : DGraph Unit :=
  { n := 6
    adj := fun u =>
      (([(0, 1), (0, 3), (1, 4), (2, 4), (2, 5), (3, 1), (4, 3),
         (5, 5)] : List (Nat × Nat)).filter (fun e => e.1 = u)).map
        (fun e => (e.2, ()))
    adjwf := by
      intro u p hp
      simp only [List.mem_map, List.mem_filter] at hp
      obtain ⟨e, ⟨he, -⟩, rfl⟩ := hp
      fin_cases he <;> simp }

/-- C7 counterexample: on the CRLS 22.4 graph, IDFS does *not* produce the
14-event sequence stated in the claim (tree-edge events are interleaved). -/
theorem C7_counterexample :
    IDFS.drain crls224 40 (IDFS.new 6) ≠
      some [DfsEvent.discovered 0, .discovered 1, .discovered 4,
        .discovered 3, .backEdge 3 1 (), .finished 3, .finished 4,
        .finished 1, .finished 0, .discovered 2, .discovered 5,
        .backEdge 5 5 (), .finished 5, .finished 2] := by
  decide

/-- C7 amended: running IDFS on the CRLS 22.4 graph yields, in order, exactly
the event sequence Discovered 0, TreeEdge(0,1), Discovered 1, TreeEdge(1,4),
Discovered 4, TreeEdge(4,3), Discovered 3, BackEdge(3,1), Finished 3,
Finished 4, Finished 1, Finished 0, Discovered 2, TreeEdge(2,5), Discovered 5,
BackEdge(5,5), Finished 5, Finished 2 — i.e. the claimed sequence with the
tree-edge events interleaved. -/
theorem C7_amended :
    IDFS.drain crls224 40 (IDFS.new 6) =
      some [DfsEvent.discovered 0, .treeEdge 0 1 (), .discovered 1,
        .treeEdge 1 4 (), .discovered 4, .treeEdge 4 3 (), .discovered 3,
        .backEdge 3 1 (), .finished 3, .finished 4, .finished 1,
        .finished 0, .discovered 2, .treeEdge 2 5 (), .discovered 5,
        .backEdge 5 5 (), .finished 5, .finished 2] := by
  decide

/-! ### Recursive (batch) DFS

The recursive CRLS-style `dfs`/`dfs_visit` of the source.  Recursion in
`dfs_visit` is not structural, so we give the adjacency-processing loop a
fuel argument that bounds the recursion depth; a fuel of `g.n` always
suffices because every recursive descent first turns a white vertex gray
(`whiteCount` strictly decreases and is at most `g.n`).  The body of
`dfs_visit` is inlined into the white-sink case of `visitAdj` so that the
fuel is the first, decreasing component of the termination measure. -/

/-- Number of white vertices among `0..n`. -/
def whiteCount (n : Nat) (colors : Nat → Color) : Nat :=
  (List.range n).countP (fun u => colors u = .white)

/-- Process the remaining adjacencies `l` of vertex `u`, as the
`for a in graph.adjacencies(u, OUT)` loop of `dfs_visit` does: a white sink
is a tree edge followed by the recursive visit (discovered, its adjacency
loop, finished), a gray sink is a back edge, a black sink is skipped. -/
def visitAdj (g : DGraph ED) (fuel u : Nat) (l : List (Nat × ED))
    (colors : Nat → Color) : List (DfsEvent ED) × (Nat → Color) :=
  match l with
  | [] => ([], colors)
  | (v, d) :: rest =>
      match colors v with
      | .white =>
          if hf : fuel = 0 then ([], colors)
            -- fuel exhausted; unreachable for fuel ≥ whiteCount
          else
              let colors1 := setColor colors v .gray
              let r1 := visitAdj g (fuel - 1) v (g.adj v) colors1
              let colors3 := setColor r1.2 v .black
              let r2 := visitAdj g fuel u rest colors3
              (DfsEvent.treeEdge u v d :: DfsEvent.discovered v :: r1.1
                ++ [DfsEvent.finished v] ++ r2.1, r2.2)
      | .gray =>
          let r2 := visitAdj g fuel u rest colors
          (DfsEvent.backEdge u v d :: r2.1, r2.2)
      | .black => visitAdj g fuel u rest colors
termination_by (fuel, l.length)

/-- `dfs_visit(graph, u)`: discover `u`, process its adjacencies, finish. -/
def dfsVisit (g : DGraph ED) (fuel : Nat) (u : Nat) (colors : Nat → Color) :
    List (DfsEvent ED) × (Nat → Color) :=
  let r := visitAdj g fuel u (g.adj u) (setColor colors u .gray)
  (DfsEvent.discovered u :: r.1 ++ [DfsEvent.finished u],
    setColor r.2 u .black)

/-- The `for u in graph.vertices()` loop of `dfs`. -/
def dfsLoop (g : DGraph ED) : List Nat → (Nat → Color) → List (DfsEvent ED)
  | [], _ => []
  | u :: rest, colors =>
      if colors u = .white then
        let r := dfsVisit g g.n u colors
        r.1 ++ dfsLoop g rest r.2
      else dfsLoop g rest colors

/-- The batch recursive DFS `dfs`: the full event sequence delivered to the
visitor. -/
def dfs (g : DGraph ED) : List (DfsEvent ED) :=
  dfsLoop g (List.range g.n) (fun _ => .white)

/-! ### White-count lemmas -/

theorem whiteCount_le (n : Nat) (colors : Nat → Color) :
    whiteCount n colors ≤ n := by
  simpa [whiteCount] using List.countP_le_length
    (p := fun u => decide (colors u = .white)) (l := List.range n)

theorem whiteCount_congr (n : Nat) (c1 c2 : Nat → Color)
    (h : ∀ u, u < n → c1 u = c2 u) : whiteCount n c1 = whiteCount n c2 := by
  unfold whiteCount
  apply List.countP_congr
  intro a ha
  simp only [List.mem_range] at ha
  simp [h a ha]

theorem whiteCount_succ (n : Nat) (colors : Nat → Color) :
    whiteCount (n + 1) colors =
      whiteCount n colors + (if colors n = .white then 1 else 0) := by
  unfold whiteCount
  rw [List.range_succ, List.countP_append]
  simp [List.countP_cons]

theorem whiteCount_pos (n : Nat) (colors : Nat → Color) (u : Nat)
    (hu : u < n) (hw : colors u = .white) : 0 < whiteCount n colors := by
  unfold whiteCount
  rw [List.countP_pos]
  exact ⟨u, List.mem_range.mpr hu, by simp [hw]⟩

theorem whiteCount_set_gray (n : Nat) (colors : Nat → Color) (u : Nat)
    (hu : u < n) (hw : colors u = .white) :
    whiteCount n (setColor colors u .gray) + 1 = whiteCount n colors := by
  induction n with
  | zero => omega
  | succ m ih =>
      rw [whiteCount_succ, whiteCount_succ]
      by_cases hum : u = m
      · subst hum
        have h1 : whiteCount u (setColor colors u .gray) = whiteCount u colors :=
          whiteCount_congr _ _ _ (fun w hw2 => by
            simp [setColor, Nat.ne_of_lt hw2])
        simp [h1, setColor, hw]
      · have hu2 : u < m := by omega
        have h2 : setColor colors u Color.gray m = colors m := by
          simp [setColor, Ne.symm hum]
        rw [h2]
        have := ih hu2
        omega

theorem whiteCount_set_le (n : Nat) (colors : Nat → Color) (u : Nat)
    (c : Color) (hc : c ≠ .white) :
    whiteCount n (setColor colors u c) ≤ whiteCount n colors := by
  induction n with
  | zero => simp [whiteCount]
  | succ m ih =>
      rw [whiteCount_succ, whiteCount_succ]
      by_cases hum : u = m
      · subst hum
        have h1 : whiteCount u (setColor colors u c) = whiteCount u colors :=
          whiteCount_congr _ _ _ (fun w hw2 => by
            simp [setColor, Nat.ne_of_lt hw2])
        have h3 : setColor colors u c u = c := by simp [setColor]
        rw [h1, h3]
        have h4 : (if c = Color.white then 1 else 0) = 0 := by simp [hc]
        rw [h4]
        split <;> omega
      · have h2 : setColor colors u c m = colors m := by
          simp [setColor, Ne.symm hum]
        rw [h2]
        omega

theorem visitAdj_wc_mono (g : DGraph ED) (fuel u : Nat)
    (l : List (Nat × ED)) (colors : Nat → Color) :
    whiteCount g.n (visitAdj g fuel u l colors).2 ≤ whiteCount g.n colors := by
  induction fuel, u, l, colors using visitAdj.induct (g := g) with
  | case1 fuel u colors => simp [visitAdj]
  | case2 u colors v d rest hv =>
      rw [visitAdj]
      simp [hv]
  | case3 fuel u colors v d rest hv hf colors1 r1 colors3 ih1 ih1b ih2 =>
      rw [visitAdj]
      simp only [hv, hf, dite_false]
      exact le_trans ih2 (le_trans (whiteCount_set_le _ _ _ _ (by simp))
        (le_trans ih1 (whiteCount_set_le _ _ _ _ (by simp))))
  | case4 fuel u colors v d rest hv ih =>
      rw [visitAdj]
      simp only [hv]
      exact ih
  | case5 fuel u colors v d rest hv ih =>
      rw [visitAdj]
      simp only [hv]
      exact ih

/-- Unfolding lemma: a white sink at the head of the adjacency list, with
fuel available, descends into the recursive visit. -/
theorem visitAdj_cons_white (g : DGraph ED) (fuel u v : Nat) (d : ED)
    (rest : List (Nat × ED)) (colors : Nat → Color)
    (hv : colors v = .white) (hf : ¬fuel = 0) :
    visitAdj g fuel u ((v, d) :: rest) colors =
      (DfsEvent.treeEdge u v d :: DfsEvent.discovered v ::
          (visitAdj g (fuel - 1) v (g.adj v) (setColor colors v .gray)).1
          ++ [DfsEvent.finished v]
          ++ (visitAdj g fuel u rest (setColor
              (visitAdj g (fuel - 1) v (g.adj v)
                (setColor colors v .gray)).2 v .black)).1,
        (visitAdj g fuel u rest (setColor
            (visitAdj g (fuel - 1) v (g.adj v)
              (setColor colors v .gray)).2 v .black)).2) := by
  rw [visitAdj]
  simp only [hv, hf, dite_false]

theorem visitAdj_congr_fuel (g : DGraph ED) (fuel1 fuel2 u : Nat)
    (l : List (Nat × ED)) (colors : Nat → Color)
    (hl : ∀ p ∈ l, p.1 < g.n)
    (h1 : whiteCount g.n colors ≤ fuel1)
    (h2 : whiteCount g.n colors ≤ fuel2) :
    visitAdj g fuel1 u l colors = visitAdj g fuel2 u l colors := by
  induction fuel1, u, l, colors using visitAdj.induct (g := g)
    generalizing fuel2 with
  | case1 fuel u colors => simp [visitAdj]
  | case2 u colors v d rest hv =>
      have := whiteCount_pos g.n colors v (hl (v, d) (by simp)) hv
      omega
  | case3 fuel u colors v d rest hv hf colors1 r1 colors3 ih1 ih1b ih2 =>
      have hv_lt : v < g.n := hl (v, d) (by simp)
      have hwc1 : whiteCount g.n (setColor colors v .gray) + 1 =
          whiteCount g.n colors := whiteCount_set_gray g.n colors v hv_lt hv
      have hf2 : ¬fuel2 = 0 := by
        have := whiteCount_pos g.n colors v hv_lt hv
        omega
      have e1 : visitAdj g (fuel - 1) v (g.adj v) (setColor colors v .gray) =
          visitAdj g (fuel2 - 1) v (g.adj v) (setColor colors v .gray) :=
        ih1b (fuel2 - 1) (fun p hp => g.adjwf v p hp) (by omega) (by omega)
      have hwc3a : whiteCount g.n (setColor
          (visitAdj g (fuel - 1) v (g.adj v)
            (setColor colors v .gray)).2 v .black) ≤
          whiteCount g.n (visitAdj g (fuel - 1) v (g.adj v)
            (setColor colors v .gray)).2 :=
        whiteCount_set_le _ _ _ _ (by simp)
      have hwc3b : whiteCount g.n (visitAdj g (fuel - 1) v (g.adj v)
          (setColor colors v .gray)).2 ≤
          whiteCount g.n (setColor colors v .gray) :=
        visitAdj_wc_mono g _ _ _ _
      have hkj : whiteCount g.n colors3 = whiteCount g.n (setColor
          (visitAdj g (fuel - 1) v (g.adj v)
            (setColor colors v .gray)).2 v .black) := rfl
      have e2 : visitAdj g fuel u rest (setColor
          (visitAdj g (fuel - 1) v (g.adj v)
            (setColor colors v .gray)).2 v .black) =
          visitAdj g fuel2 u rest (setColor
            (visitAdj g (fuel - 1) v (g.adj v)
              (setColor colors v .gray)).2 v .black) :=
        ih2 fuel2 (fun p hp => hl p (List.mem_cons_of_mem _ hp))
          (by omega) (by omega)
      rw [visitAdj_cons_white g fuel u v d rest colors hv hf,
        visitAdj_cons_white g fuel2 u v d rest colors hv hf2, ← e1, e2]
  | case4 fuel u colors v d rest hv ih =>
      rw [visitAdj, visitAdj]
      simp only [hv]
      rw [ih fuel2 (fun p hp => hl p (List.mem_cons_of_mem _ hp)) h1 h2]
  | case5 fuel u colors v d rest hv ih =>
      rw [visitAdj, visitAdj]
      simp only [hv]
      exact ih fuel2 (fun p hp => hl p (List.mem_cons_of_mem _ hp)) h1 h2

/-! ### Relating the `for` loops of the two implementations -/

theorem resume_exhausted (g : DGraph ED) (fuel u : Nat) (r : List (Nat × ED))
    (colors : Nat → Color)
    (h : IDFS.resumeAdjacencies colors r = .exhausted) :
    visitAdj g fuel u r colors = ([], colors) := by
  induction r with
  | nil => simp [visitAdj]
  | cons p rest ih =>
      obtain ⟨v, d⟩ := p
      rw [IDFS.resumeAdjacencies] at h
      rw [visitAdj]
      cases hv : colors v with
      | white => rw [hv] at h; exact absurd h (by simp)
      | gray => rw [hv] at h; exact absurd h (by simp)
      | black =>
          rw [hv] at h
          simp only [hv]
          exact ih h

theorem resume_back (g : DGraph ED) (fuel u : Nat) (r : List (Nat × ED))
    (colors : Nat → Color) (v : Nat) (d : ED) (rest2 : List (Nat × ED))
    (h : IDFS.resumeAdjacencies colors r = .back v d rest2) :
    colors v = .gray ∧ (∀ p ∈ rest2, p ∈ r) ∧
    visitAdj g fuel u r colors =
      (DfsEvent.backEdge u v d :: (visitAdj g fuel u rest2 colors).1,
        (visitAdj g fuel u rest2 colors).2) := by
  induction r with
  | nil => rw [IDFS.resumeAdjacencies] at h; exact absurd h (by simp)
  | cons p rest ih =>
      obtain ⟨w, e⟩ := p
      rw [IDFS.resumeAdjacencies] at h
      cases hw : colors w with
      | white => rw [hw] at h; exact absurd h (by simp)
      | gray =>
          rw [hw] at h
          simp only [IDFS.ResumeStep.back.injEq] at h
          obtain ⟨rfl, rfl, rfl⟩ := h
          refine ⟨hw, fun p hp => List.mem_cons_of_mem _ hp, ?_⟩
          rw [visitAdj]
          simp only [hw]
      | black =>
          rw [hw] at h
          obtain ⟨h1, h2, h3⟩ := ih h
          refine ⟨h1, fun p hp => List.mem_cons_of_mem _ (h2 p hp), ?_⟩
          rw [visitAdj]
          simp only [hw]
          exact h3

theorem resume_tree (g : DGraph ED) (fuel u : Nat) (r : List (Nat × ED))
    (colors : Nat → Color) (v : Nat) (d : ED) (rest2 : List (Nat × ED))
    (hfz : ¬fuel = 0)
    (h : IDFS.resumeAdjacencies colors r = .tree v d rest2) :
    colors v = .white ∧ (v, d) ∈ r ∧ (∀ p ∈ rest2, p ∈ r) ∧
    visitAdj g fuel u r colors =
      (DfsEvent.treeEdge u v d :: DfsEvent.discovered v ::
          (visitAdj g (fuel - 1) v (g.adj v) (setColor colors v .gray)).1
          ++ [DfsEvent.finished v]
          ++ (visitAdj g fuel u rest2 (setColor
              (visitAdj g (fuel - 1) v (g.adj v)
                (setColor colors v .gray)).2 v .black)).1,
        (visitAdj g fuel u rest2 (setColor
            (visitAdj g (fuel - 1) v (g.adj v)
              (setColor colors v .gray)).2 v .black)).2) := by
  induction r with
  | nil => rw [IDFS.resumeAdjacencies] at h; exact absurd h (by simp)
  | cons p rest ih =>
      obtain ⟨w, e⟩ := p
      rw [IDFS.resumeAdjacencies] at h
      cases hw : colors w with
      | white =>
          rw [hw] at h
          simp only [IDFS.ResumeStep.tree.injEq] at h
          obtain ⟨rfl, rfl, rfl⟩ := h
          refine ⟨hw, List.mem_cons_self _ _,
            fun p hp => List.mem_cons_of_mem _ hp, ?_⟩
          rw [visitAdj]
          simp only [hw, hfz, dite_false]
      | gray => rw [hw] at h; exact absurd h (by simp)
      | black =>
          rw [hw] at h
          obtain ⟨h1, h2, h3, h4⟩ := ih h
          refine ⟨h1, List.mem_cons_of_mem _ h2,
            fun p hp => List.mem_cons_of_mem _ (h3 p hp), ?_⟩
          rw [visitAdj]
          simp only [hw]
          exact h4

/-- The first non-black sink found by the resume loop is a member of the
list (fuel-free companion of `resume_tree`). -/
theorem resume_tree_mem (colors : Nat → Color) (r : List (Nat × ED))
    (v : Nat) (d : ED) (rest2 : List (Nat × ED))
    (h : IDFS.resumeAdjacencies colors r = .tree v d rest2) :
    colors v = .white ∧ (v, d) ∈ r := by
  induction r with
  | nil => rw [IDFS.resumeAdjacencies] at h; exact absurd h (by simp)
  | cons p rest ih =>
      obtain ⟨w, e⟩ := p
      rw [IDFS.resumeAdjacencies] at h
      cases hw : colors w with
      | white =>
          rw [hw] at h
          simp only [IDFS.ResumeStep.tree.injEq] at h
          obtain ⟨rfl, rfl, rfl⟩ := h
          exact ⟨hw, List.mem_cons_self _ _⟩
      | gray => rw [hw] at h; exact absurd h (by simp)
      | black =>
          rw [hw] at h
          obtain ⟨h1, h2⟩ := ih h
          exact ⟨h1, List.mem_cons_of_mem _ h2⟩

theorem findStart_none (g : DGraph ED) (colors : Nat → Color)
    (loop rest : List Nat)
    (h : IDFS.findStart colors loop = (none, rest)) :
    dfsLoop g loop colors = [] := by
  induction loop with
  | nil => simp [dfsLoop]
  | cons u lrest ih =>
      rw [IDFS.findStart] at h
      by_cases hu : colors u = .white
      · simp [hu] at h
      · rw [if_neg hu] at h
        rw [dfsLoop, if_neg hu]
        exact ih h

theorem findStart_some (g : DGraph ED) (colors : Nat → Color)
    (loop : List Nat) (u : Nat) (rest : List Nat)
    (h : IDFS.findStart colors loop = (some u, rest)) :
    colors u = .white ∧ u ∈ loop ∧ (∀ x ∈ rest, x ∈ loop) ∧
    dfsLoop g loop colors =
      (dfsVisit g g.n u colors).1 ++
        dfsLoop g rest (dfsVisit g g.n u colors).2 := by
  induction loop with
  | nil => rw [IDFS.findStart] at h; exact absurd h (by simp)
  | cons w lrest ih =>
      rw [IDFS.findStart] at h
      by_cases hw : colors w = .white
      · rw [if_pos hw] at h
        simp only [Prod.mk.injEq, Option.some.injEq] at h
        obtain ⟨rfl, rfl⟩ := h
        refine ⟨hw, List.mem_cons_self _ _,
          fun x hx => List.mem_cons_of_mem _ hx, ?_⟩
        rw [dfsLoop, if_pos hw]
      · rw [if_neg hw] at h
        obtain ⟨h1, h2, h3, h4⟩ := ih h
        refine ⟨h1, List.mem_cons_of_mem _ h2,
          fun x hx => List.mem_cons_of_mem _ (h3 x hx), ?_⟩
        rw [dfsLoop, if_neg hw]
        exact h4

/-! ### Simulation: IDFS states against the recursive DFS -/

/-- The events and final colors still owed by the frames on the IDFS stack:
each frame finishes its remaining adjacencies, emits its finished event and
turns black, top frame first. -/
def unwind (g : DGraph ED) : List (Nat × List (Nat × ED)) → (Nat → Color) →
    List (DfsEvent ED) × (Nat → Color)
  | [], colors => ([], colors)
  | (u, r) :: rest, colors =>
      let r1 := visitAdj g g.n u r colors
      let r2 := unwind g rest (setColor r1.2 u .black)
      (r1.1 ++ DfsEvent.finished u :: r2.1, r2.2)

/-- The full event sequence still to be emitted from an IDFS state: unwind
the stack (a freshly pushed white top frame still owes its discovered
event), then run the remaining outer loop. -/
def configEvents (g : DGraph ED) (s : IDFS ED) : List (DfsEvent ED) :=
  match s.stack with
  | [] => dfsLoop g s.loop s.colors
  | (u, _) :: _ =>
      if s.colors u = .white then
        let rw2 := unwind g s.stack (setColor s.colors u .gray)
        DfsEvent.discovered u :: rw2.1 ++ dfsLoop g s.loop rw2.2
      else
        let rw2 := unwind g s.stack s.colors
        rw2.1 ++ dfsLoop g s.loop rw2.2

/-- Colors of the frames on the stack: every frame below the top is gray
(discovered, not finished); the top frame is gray or still white when it was
pushed by the immediately preceding tree-edge event. -/
def StackOk (colors : Nat → Color) : List (Nat × List (Nat × ED)) → Prop
  | [] => True
  | (u, _) :: rest =>
      (colors u = .white ∨ colors u = .gray) ∧
        ∀ p ∈ rest, colors p.1 = .gray

/-- Invariant of reachable IDFS states. -/
structure WFConfig (g : DGraph ED) (s : IDFS ED) : Prop where
  stack_lt : ∀ p ∈ s.stack, p.1 < g.n
  stack_adj : ∀ p ∈ s.stack, ∀ q ∈ p.2, q.1 < g.n
  nodup : (s.stack.map Prod.fst).Nodup
  colorsOk : StackOk s.colors s.stack
  loop_lt : ∀ u ∈ s.loop, u < g.n

/-- One `next` call emits exactly the head of the remaining event sequence
(or correctly signals exhaustion), and preserves the invariant. -/
theorem step_correspondence (g : DGraph ED) (s : IDFS ED)
    (hwf : WFConfig g s) :
    (∃ s2, IDFS.next g s = some (none, s2) ∧ configEvents g s = []) ∨
    (∃ e s2, IDFS.next g s = some (some e, s2) ∧ WFConfig g s2 ∧
      configEvents g s = e :: configEvents g s2) := by
  obtain ⟨colors, stack, loop⟩ := s
  obtain ⟨hlt, hadj, hnd, hok, hloop⟩ := hwf
  dsimp only at hlt hadj hnd hok hloop
  cases stack with
  | nil =>
      rcases hfs : IDFS.findStart colors loop with ⟨ou, lrest⟩
      cases ou with
      | none =>
          left
          refine ⟨⟨colors, [], lrest⟩, ?_, ?_⟩
          · simp [IDFS.next, hfs]
          · exact findStart_none g colors loop lrest hfs
      | some u =>
          obtain ⟨hw, humem, hsub, hloopEq⟩ :=
            findStart_some g colors loop u lrest hfs
          right
          refine ⟨DfsEvent.discovered u,
            ⟨setColor colors u .gray, [(u, g.adj u)], lrest⟩, ?_, ?_, ?_⟩
          · simp [IDFS.next, hfs, hw]
          · exact
              { stack_lt := by
                  intro p hp
                  simp only [List.mem_singleton] at hp
                  subst hp
                  exact hloop u humem
                stack_adj := by
                  intro p hp q hq
                  simp only [List.mem_singleton] at hp
                  subst hp
                  exact g.adjwf u q hq
                nodup := by simp
                colorsOk := by
                  refine ⟨Or.inr ?_, by simp⟩
                  simp [setColor]
                loop_lt := fun x hx => hloop x (hsub x hx) }
          · -- configEvents g s = discovered u :: configEvents g s2
            show dfsLoop g loop colors = _
            rw [hloopEq]
            have hgray : setColor colors u Color.gray u = Color.gray := by
              simp [setColor]
            simp only [configEvents, hgray, unwind, dfsVisit]
            simp [List.append_assoc]
  | cons top stackRest =>
      obtain ⟨u, r0⟩ := top
      have hnd' : (u :: stackRest.map Prod.fst).Nodup := by simpa using hnd
      have hnotin : u ∉ stackRest.map Prod.fst := (List.nodup_cons.mp hnd').1
      have hne_u : ∀ p ∈ stackRest, p.1 ≠ u := by
        intro p hp he
        exact hnotin (he ▸ List.mem_map_of_mem Prod.fst hp)
      have hult : u < g.n := hlt (u, r0) (List.mem_cons_self _ _)
      obtain ⟨hu_wg, hrest_gray⟩ := hok
      rcases hu_wg with hw | hg
      · -- white top: emit its discovered event
        right
        refine ⟨DfsEvent.discovered u,
          ⟨setColor colors u .gray, (u, r0) :: stackRest, loop⟩, ?_, ?_, ?_⟩
        · simp [IDFS.next, hw]
        · exact
            { stack_lt := hlt
              stack_adj := hadj
              nodup := hnd
              colorsOk := by
                refine ⟨Or.inr (by simp [setColor]), ?_⟩
                intro p hp
                simp [setColor, hne_u p hp, hrest_gray p hp]
              loop_lt := hloop }
        · have h1 : setColor colors u Color.gray u = Color.gray := by
            simp [setColor]
          simp [configEvents, hw, h1]
      · -- gray top: resume the adjacency iterator
        rcases hres : @IDFS.resumeAdjacencies ED colors r0 with
          ⟨v, d, rest2⟩ | ⟨v, d, rest2⟩ | _
        · -- tree edge: push the white sink
          obtain ⟨hvw, hvmem⟩ := resume_tree_mem colors r0 v d rest2 hres
          have hvlt : v < g.n :=
            hadj (u, r0) (List.mem_cons_self _ _) (v, d) hvmem
          have hne : ¬g.n = 0 := by omega
          obtain ⟨-, -, hsub2, hvaEq⟩ :=
            resume_tree g g.n u r0 colors v d rest2 hne hres
          have hwcg : whiteCount g.n (setColor colors v .gray) + 1 =
              whiteCount g.n colors := whiteCount_set_gray g.n colors v hvlt hvw
          have hwle : whiteCount g.n colors ≤ g.n := whiteCount_le g.n colors
          have e1 : visitAdj g (g.n - 1) v (g.adj v) (setColor colors v .gray) =
              visitAdj g g.n v (g.adj v) (setColor colors v .gray) :=
            visitAdj_congr_fuel g (g.n - 1) g.n v (g.adj v)
              (setColor colors v .gray) (fun p hp => g.adjwf v p hp)
              (by omega) (by omega)
          right
          refine ⟨DfsEvent.treeEdge u v d,
            ⟨colors, (v, g.adj v) :: (u, rest2) :: stackRest, loop⟩, ?_, ?_, ?_⟩
          · simp [IDFS.next, hg, hres]
          · exact
              { stack_lt := by
                  intro p hp
                  rcases List.mem_cons.mp hp with rfl | hp2
                  · exact hvlt
                  rcases List.mem_cons.mp hp2 with rfl | hp3
                  · exact hult
                  · exact hlt p (List.mem_cons_of_mem _ hp3)
                stack_adj := by
                  intro p hp q hq
                  rcases List.mem_cons.mp hp with rfl | hp2
                  · exact g.adjwf v q hq
                  rcases List.mem_cons.mp hp2 with rfl | hp3
                  · exact hadj (u, r0) (List.mem_cons_self _ _) q (hsub2 q hq)
                  · exact hadj p (List.mem_cons_of_mem _ hp3) q hq
                nodup := by
                  simp only [List.map_cons]
                  refine List.nodup_cons.mpr ⟨?_, hnd'⟩
                  intro hv
                  rcases List.mem_cons.mp hv with he | hv2
                  · rw [he] at hvw
                    rw [hvw] at hg
                    exact absurd hg (by simp)
                  · obtain ⟨p, hp, hpe⟩ := List.mem_map.mp hv2
                    have := hrest_gray p hp
                    rw [hpe, hvw] at this
                    exact absurd this (by simp)
                colorsOk := by
                  refine ⟨Or.inl hvw, ?_⟩
                  intro p hp
                  rcases List.mem_cons.mp hp with rfl | hp2
                  · exact hg
                  · exact hrest_gray p hp2
                loop_lt := hloop }
          · have hgw : ¬colors u = Color.white := by simp [hg]
            simp only [configEvents, if_neg hgw, if_pos hvw, unwind]
            rw [hvaEq, e1]
            simp [List.append_assoc]
        · -- back edge
          obtain ⟨hvg, hsub2, hvaEq⟩ :=
            resume_back g g.n u r0 colors v d rest2 hres
          right
          refine ⟨DfsEvent.backEdge u v d,
            ⟨colors, (u, rest2) :: stackRest, loop⟩, ?_, ?_, ?_⟩
          · simp [IDFS.next, hg, hres]
          · exact
              { stack_lt := by
                  intro p hp
                  rcases List.mem_cons.mp hp with rfl | hp2
                  · exact hult
                  · exact hlt p (List.mem_cons_of_mem _ hp2)
                stack_adj := by
                  intro p hp q hq
                  rcases List.mem_cons.mp hp with rfl | hp2
                  · exact hadj (u, r0) (List.mem_cons_self _ _) q (hsub2 q hq)
                  · exact hadj p (List.mem_cons_of_mem _ hp2) q hq
                nodup := by simpa using hnd'
                colorsOk := ⟨Or.inr hg, hrest_gray⟩
                loop_lt := hloop }
          · have hgw : ¬colors u = Color.white := by simp [hg]
            simp only [configEvents, if_neg hgw, unwind]
            rw [hvaEq]
            simp [List.append_assoc]
        · -- adjacency iterator exhausted: finish and pop
          have hvaEq := resume_exhausted g g.n u r0 colors hres
          right
          refine ⟨DfsEvent.finished u,
            ⟨setColor colors u .black, stackRest, loop⟩, ?_, ?_, ?_⟩
          · simp [IDFS.next, hg, hres]
          · exact
              { stack_lt := fun p hp => hlt p (List.mem_cons_of_mem _ hp)
                stack_adj := fun p hp => hadj p (List.mem_cons_of_mem _ hp)
                nodup := (List.nodup_cons.mp hnd').2
                colorsOk := by
                  cases stackRest with
                  | nil => trivial
                  | cons p2 rest2 =>
                      obtain ⟨u2, r2⟩ := p2
                      have h2 : colors u2 = .gray :=
                        hrest_gray (u2, r2) (List.mem_cons_self _ _)
                      refine ⟨Or.inr ?_, ?_⟩
                      · have hne2 : u2 ≠ u :=
                          hne_u (u2, r2) (List.mem_cons_self _ _)
                        simp [setColor, hne2, h2]
                      · intro p hp
                        have hne2 : p.1 ≠ u :=
                          hne_u p (List.mem_cons_of_mem _ hp)
                        have h3 : colors p.1 = Color.gray :=
                          hrest_gray p (List.mem_cons_of_mem _ hp)
                        simp [setColor, hne2, h3]
                loop_lt := hloop }
          · have hgw : ¬colors u = Color.white := by simp [hg]
            simp only [configEvents, if_neg hgw, unwind]
            rw [hvaEq]
            cases stackRest with
            | nil => simp [unwind]
            | cons p2 rest2 =>
                obtain ⟨u2, r2⟩ := p2
                have h2 : setColor colors u Color.black u2 = Color.gray := by
                  rw [show setColor colors u Color.black u2 = colors u2
                    from by
                      simp [setColor, hne_u (u2, r2) (List.mem_cons_self _ _)]]
                  exact hrest_gray (u2, r2) (List.mem_cons_self _ _)
                have h2w : ¬setColor colors u Color.black u2 = Color.white := by
                  simp [h2]
                simp [if_neg h2w]

/-- With enough fuel, draining an invariant-satisfying IDFS state yields
exactly its remaining event sequence followed by the exhaustion signal. -/
theorem drain_eq_configEvents (g : DGraph ED) :
    ∀ fuel (s : IDFS ED), WFConfig g s → (configEvents g s).length < fuel →
      IDFS.drain g fuel s = some (configEvents g s) := by
  intro fuel
  induction fuel with
  | zero => intro s hwf h; omega
  | succ m ih =>
      intro s hwf h
      rcases step_correspondence g s hwf with ⟨s2, hnext, hempty⟩ |
        ⟨e, s2, hnext, hwf2, heq⟩
      · simp [IDFS.drain, hnext, hempty]
      · have hlen : (configEvents g s2).length < m := by
          rw [heq] at h
          simpa using h
        simp [IDFS.drain, hnext, ih s2 hwf2 hlen, heq]

/-! ### Claim C4 -/

/-- C4: For every directed graph, the sequence of events produced by
repeatedly calling IDFS::next until it returns None is exactly equal (same
events, same order) to the sequence of events delivered to the visitor by the
batch recursive depth-first search dfs on the same graph; in particular
Discovered(u) precedes every edge event out of u, which precede Finished(u),
and a back edge is reported for every edge whose target is
discovered-but-not-finished, including self-loops — the incremental variant
inherits these orderings from the recursive one through the equality. -/
theorem C4_idfs_matches_recursive_dfs (ED : Type) (g : DGraph ED)
    (fuel : Nat) (h : (dfs g).length < fuel) :
    IDFS.drain g fuel (IDFS.new g.n) = some (dfs g) := by
  have hwf : WFConfig g (@IDFS.new ED g.n) :=
    { stack_lt := by intro p hp; simp [IDFS.new] at hp
      stack_adj := by intro p hp; simp [IDFS.new] at hp
      nodup := by simp [IDFS.new]
      colorsOk := by trivial
      loop_lt := by intro u hu; simpa [IDFS.new] using hu }
  have hce : configEvents g (@IDFS.new ED g.n) = dfs g := rfl
  rw [← hce] at h ⊢
  exact drain_eq_configEvents g fuel _ hwf h

/-- The graph with no vertices (its batch `dfs` is kernel-computable, since
it never enters the well-founded recursion of `visitAdj`). -/
def emptyGraph : DGraph Unit :=
  { n := 0
    adj := fun _ => []
    adjwf := by intro u p hp; simp at hp }

/-- Witness for C4 on a concrete graph. -/
theorem C4_idfs_matches_recursive_dfs_witness :
    (dfs emptyGraph).length < 1 ∧
      IDFS.drain emptyGraph 1 (IDFS.new emptyGraph.n) = some (dfs emptyGraph) :=
  ⟨by decide, C4_idfs_matches_recursive_dfs Unit emptyGraph 1 (by decide)⟩

/-! ### Claim C6 -/

/-- C6: For every LazyArray of size n: before any set, get(i) returns None for
every i; get(i) with i ≥ n returns None and never panics; after set(i, v) with
i < n, get(i) returns Some(v) while get(j) for every other index j ≠ i is
unchanged; and set(i, v) panics exactly when i ≥ n. -/
theorem C6_lazy_array_contract (T : Type) (n : Nat) (junkData : Nat → T)
    (junkDI junkRI : Nat → Nat) (i0 : Nat) (la : LazyArray T)
    (i j oob : Nat) (v w : T)
    (hi : i < la.size) (hoob : la.size ≤ oob) (hij : j ≠ i) :
    LazyArray.get (LazyArray.new n junkData junkDI junkRI) i0 = none ∧
    LazyArray.get la oob = none ∧
    (∃ la2, LazyArray.set la i v = some la2 ∧
      LazyArray.get la2 i = some v ∧
      LazyArray.get la2 j = LazyArray.get la j) ∧
    LazyArray.set la oob w = none ∧
    LazyArray.set la i v ≠ none := by
  obtain ⟨la2, hla2⟩ := LazyArray.set_inb la i v hi
  refine ⟨LazyArray.get_new n junkData junkDI junkRI i0,
    LazyArray.get_oob la oob hoob,
    ⟨la2, hla2, LazyArray.get_set_same la i v la2 hla2,
      LazyArray.get_set_other la i v la2 j hij hla2⟩,
    LazyArray.set_oob la oob w hoob, ?_⟩
  rw [hla2]
  exact Option.some_ne_none la2

/-- Witness for C6 at a concrete input. -/
theorem C6_lazy_array_contract_witness :
    (0 : Nat) < (LazyArray.new 3 (fun _ => (0 : Nat)) id id).size ∧
    (LazyArray.new 3 (fun _ => (0 : Nat)) id id).size ≤ 5 ∧
    (1 : Nat) ≠ 0 ∧
    (LazyArray.get (LazyArray.new 2 (fun _ => (0 : Nat)) id id) 0 = none ∧
    LazyArray.get (LazyArray.new 3 (fun _ => (0 : Nat)) id id) 5 = none ∧
    (∃ la2,
      LazyArray.set (LazyArray.new 3 (fun _ => (0 : Nat)) id id) 0 7 =
        some la2 ∧
      LazyArray.get la2 0 = some 7 ∧
      LazyArray.get la2 1 =
        LazyArray.get (LazyArray.new 3 (fun _ => (0 : Nat)) id id) 1) ∧
    LazyArray.set (LazyArray.new 3 (fun _ => (0 : Nat)) id id) 5 9 = none ∧
    LazyArray.set (LazyArray.new 3 (fun _ => (0 : Nat)) id id) 0 7 ≠ none) :=
  ⟨by decide, by decide, by decide,
    C6_lazy_array_contract Nat 2 (fun _ => 0) id id 0
      (LazyArray.new 3 (fun _ => (0 : Nat)) id id) 0 1 5 7 9
      (by decide) (by decide) (by decide)⟩

/-! ### Claim C9 -/

/-- C9: `LazyArray::<T>::new(n)` panics whenever `T` is a zero-sized type
(`mem::size_of::<T>() == 0`); for every `T` with non-zero size it succeeds and
produces an array of logical size `n` with zero valid entries. -/
theorem C9_lazy_array_new_zst (T : Type) (szT n : Nat) (junkData : Nat → T)
    (junkDI junkRI : Nat → Nat) :
    (szT = 0 → LazyArray.newChecked szT n junkData junkDI junkRI = none) ∧
    (szT ≠ 0 → ∃ la, LazyArray.newChecked szT n junkData junkDI junkRI =
      some la ∧ la.size = n ∧ la.numValid = 0) := by
  constructor
  · intro h
    simp [LazyArray.newChecked, h]
  · intro h
    exact ⟨LazyArray.new n junkData junkDI junkRI,
      by simp [LazyArray.newChecked, h], rfl, rfl⟩

/-! ## Incremental quicksort
(`src/algorithms/sorting/incremental_quick_sort.rs`)

`IQS` holds the working array `a`, the comparator (its `compares_lt` as a
Boolean relation `lt`), the output cursor `idx` and the stack `s` of pending
partition boundaries (head of the list = `Vec::last` = top of stack).

The Rust `partition` receives the slice `&mut a[idx..top]` and works with
slice-local indices; we keep the whole array and use absolute indices (local
index `k` of the slice is absolute `lo + k`).  Bounded `for`/scan loops are
written with an explicit iteration counter so that they are structurally
recursive (and hence kernel-computable). -/

/-- Swap two positions of a list (Rust `<[T]>::swap`). -/
def lswap {T : Type} [Inhabited T] (l : List T) (i j : Nat) : List T :=
  (l.set i (l.getD j default)).set j (l.getD i default)

theorem lswap_length {T : Type} [Inhabited T] (l : List T) (i j : Nat) :
    (lswap l i j).length = l.length := by
  simp [lswap]

/-- Pulling the `k`-th element to the front is a permutation. -/
theorem takeOut_perm {T : Type} (t : List T) (x : T) :
    ∀ k (hk : k < t.length), (t.get ⟨k, hk⟩ :: t.set k x).Perm (x :: t) := by
  induction t with
  | nil => intro k hk; simp at hk
  | cons y t2 ih =>
      intro k hk
      cases k with
      | zero => simpa using List.Perm.swap x y t2
      | succ m =>
          have hm : m < t2.length := by simpa using hk
          have h0 : (y :: t2).get ⟨m + 1, hk⟩ :: (y :: t2).set (m + 1) x
              = t2.get ⟨m, hm⟩ :: y :: t2.set m x := by
            simp [List.get_eq_getElem]
          rw [h0]
          exact ((List.Perm.swap _ _ _).trans ((ih m hm).cons y)).trans
            (List.Perm.swap _ _ _)

theorem set_get_self {T : Type} (l : List T) (i : Nat) (hi : i < l.length) :
    l.set i (l.get ⟨i, hi⟩) = l := by
  apply List.ext_getElem?
  intro n
  rw [List.getElem?_set]
  split
  · next h =>
      subst h
      exact (List.getElem?_eq_getElem hi).symm
  · rfl

theorem getD_eq_get {T : Type} [Inhabited T] (l : List T) (i : Nat)
    (hi : i < l.length) : l.getD i default = l.get ⟨i, hi⟩ := by
  simp [List.getD_eq_getElem?_getD, List.getElem?_eq_getElem hi,
    List.get_eq_getElem]

theorem lswap_perm_lt {T : Type} [Inhabited T] (l : List T) (i j : Nat)
    (hij : i < j) (hj : j < l.length) : (lswap l i j).Perm l := by
  have hi : i < l.length := Nat.lt_trans hij hj
  unfold lswap
  rw [getD_eq_get l i hi, getD_eq_get l j hj]
  have h1 : l.set i (l.get ⟨j, hj⟩) =
      List.take i l ++ l.get ⟨j, hj⟩ :: List.drop (i + 1) l := by
    rw [List.set_eq_take_append_cons_drop, if_pos hi]
  rw [h1, List.set_append]
  have hlen_take : (List.take i l).length = i :=
    List.length_take_of_le (Nat.le_of_lt hi)
  rw [if_neg (by simp [hlen_take]; omega)]
  conv_rhs => rw [← List.take_append_drop i l]
  have hdrop : List.drop i l = l.get ⟨i, hi⟩ :: List.drop (i + 1) l := by
    rw [List.drop_eq_getElem_cons hi]
    simp [List.get_eq_getElem]
  rw [hdrop]
  apply List.Perm.append_left
  have hstep : (l.get ⟨j, hj⟩ :: List.drop (i + 1) l).set
      (j - (List.take i l).length) (l.get ⟨i, hi⟩) =
      l.get ⟨j, hj⟩ ::
        (List.drop (i + 1) l).set (j - (i + 1)) (l.get ⟨i, hi⟩) := by
    rw [hlen_take]
    have h2 : j - i = (j - (i + 1)) + 1 := by omega
    rw [h2, List.set_cons_succ]
  rw [hstep]
  have hj2 : j - (i + 1) < (List.drop (i + 1) l).length := by
    simp [List.length_drop]
    omega
  have hget : l.get ⟨j, hj⟩ =
      (List.drop (i + 1) l).get ⟨j - (i + 1), hj2⟩ := by
    simp [List.get_eq_getElem, List.getElem_drop]
    congr 1
    omega
  rw [hget]
  exact takeOut_perm _ _ _ hj2

theorem lswap_perm {T : Type} [Inhabited T] (l : List T) (i j : Nat)
    (hi : i < l.length) (hj : j < l.length) : (lswap l i j).Perm l := by
  rcases Nat.lt_trichotomy i j with hij | rfl | hij
  · exact lswap_perm_lt l i j hij hj
  · unfold lswap
    rw [getD_eq_get l i hi, List.set_set, set_get_self]
  · have h0 : lswap l i j = lswap l j i := by
      unfold lswap
      rw [List.set_comm _ _ _ (Nat.ne_of_gt hij)]
    rw [h0]
    exact lswap_perm_lt l j i hij hi

theorem lswap_getD_fst {T : Type} [Inhabited T] (l : List T) (i j : Nat)
    (hi : i < l.length) (hj : j < l.length) :
    (lswap l i j).getD i default = l.getD j default := by
  unfold lswap
  simp only [List.getD_eq_getElem?_getD, List.getElem?_set]
  by_cases hji : j = i
  · subst hji
    simp [List.getElem?_eq_getElem hi, hi]
  · simp [hji, List.length_set, hi, List.getElem?_eq_getElem hi]

theorem lswap_getD_snd {T : Type} [Inhabited T] (l : List T) (i j : Nat)
    (hi : i < l.length) (hj : j < l.length) :
    (lswap l i j).getD j default = l.getD i default := by
  unfold lswap
  simp [List.getD_eq_getElem?_getD, List.getElem?_set, List.length_set, hj,
    List.getElem?_eq_getElem hi]

theorem lswap_getD_other {T : Type} [Inhabited T] (l : List T) (i j k : Nat)
    (hki : k ≠ i) (hkj : k ≠ j) :
    (lswap l i j).getD k default = l.getD k default := by
  unfold lswap
  simp [List.getD_eq_getElem?_getD, List.getElem?_set, Ne.symm hki,
    Ne.symm hkj]

theorem lswap_take {T : Type} [Inhabited T] (l : List T) (i j lo : Nat)
    (hi : lo ≤ i) (hj : lo ≤ j) : (lswap l i j).take lo = l.take lo := by
  unfold lswap
  rw [List.set_take, List.set_take]
  rw [List.set_eq_of_length_le, List.set_eq_of_length_le]
  · exact le_trans (by simp) hi
  · rw [List.set_eq_of_length_le (le_trans (by simp) hi)]
    exact le_trans (by simp) hj

theorem lswap_drop {T : Type} [Inhabited T] (l : List T) (i j hi2 : Nat)
    (h1 : i < hi2) (h2 : j < hi2) :
    (lswap l i j).drop hi2 = l.drop hi2 := by
  unfold lswap
  rw [List.drop_set, if_pos h2, List.drop_set, if_pos h1]

/-- Witness for C9 at concrete inputs. -/
theorem C9_lazy_array_new_zst_witness :
    ((0 : Nat) = 0 →
      LazyArray.newChecked (T := Nat) 0 4 (fun _ => 0) id id = none) ∧
    ((8 : Nat) ≠ 0 → ∃ la,
      LazyArray.newChecked (T := Nat) 8 4 (fun _ => 0) id id = some la ∧
      la.size = 4 ∧ la.numValid = 0) :=
  ⟨(C9_lazy_array_new_zst Nat 0 4 (fun _ => 0) id id).1,
   (C9_lazy_array_new_zst Nat 8 4 (fun _ => 0) id id).2⟩

/-! ### IQS definitions -/

/-- The `for j in 0..a.len()-1` Lomuto scan of `partition` on the segment
`[lo, hi)`, with `steps` iterations remaining (`steps` starts at
`hi - 1 - lo`, the number of loop iterations); `i` is the next possible
pivot position, `j` the scan position. -/
def lomutoLoop {T : Type} [Inhabited T] (lt : T → T → Bool) (pivot : T) :
    Nat → List T → Nat → Nat → List T × Nat
  | 0, a, i, _ => (a, i)
  | steps + 1, a, i, j =>
      if lt (a.getD j default) pivot then
        lomutoLoop lt pivot steps (lswap a i j) (i + 1) (j + 1)
      else lomutoLoop lt pivot steps a i (j + 1)

/-- The second-phase pivot search of `partition` (the `.position` over
`a[l+1..=m]`, shifted back by one): scan `q` upward; at the first element
greater than the pivot return `q - 1`, after `steps` misses return the
fallback `stop` (the mid position). -/
def pivotScan {T : Type} [Inhabited T] (lt : T → T → Bool) (pivot : T)
    (a : List T) : Nat → Nat → Nat → Nat
  | 0, _, stop => stop
  | steps + 1, q, stop =>
      if lt pivot (a.getD q default) then q - 1
      else pivotScan lt pivot a steps (q + 1) stop

/-- `partition` on the segment `[lo, hi)` of `a`: Lomuto partition by `<`
with the last element as pivot, then re-center the pivot position among
equal elements toward the segment midpoint.  Returns the updated list and
the absolute pivot position (`partition(..) + self.idx` in `IQS::next`). -/
def partitionSeg {T : Type} [Inhabited T] (lt : T → T → Bool) (a : List T)
    (lo hi : Nat) : List T × Nat :=
  let pivot := a.getD (hi - 1) default
  let r1 := lomutoLoop lt pivot (hi - 1 - lo) a lo lo
  let a2 := lswap r1.1 r1.2 (hi - 1)
  let mid := lo + (hi - lo) / 2
  if mid ≤ r1.2 then (a2, r1.2)
  else (a2, pivotScan lt pivot a2 (mid - r1.2) (r1.2 + 1) mid)

/-- State of the incremental quicksort iterator `IQS`. -/
structure IQS (T : Type) where
  a : List T
  lt : T → T → Bool
  idx : Nat
  s : List Nat

/-- `IQS::with_comparator` (and `IQS::new`, whose comparator is the natural
order). -/
def IQS.new {T : Type} (elements : List T) (lt : T → T → Bool) : IQS T :=
  { a := elements, lt := lt, idx := 0, s := [elements.length] }

/-- The `while self.idx != top` loop of `IQS::next`, with an iteration
counter (each partition strictly shrinks `top`, so `a.length + 1`
iterations always suffice on reachable states). -/
def sortLoop {T : Type} [Inhabited T] (lt : T → T → Bool) (idx : Nat) :
    Nat → List T → List Nat → Nat → List T × List Nat
  | 0, a, s, _ => (a, s)
  | steps + 1, a, s, top =>
      if idx = top then (a, s)
      else
        let r := partitionSeg lt a idx top
        sortLoop lt idx steps r.1 (r.2 :: s) r.2

/-- `IQS::next`.  The outer `Option` is `none` exactly on the
`self.s.last().expect("stack can't run empty")` panic path. -/
def IQS.next {T : Type} [Inhabited T] (q : IQS T) :
    Option (Option (T × IQS T)) :=
  if q.a.length ≤ q.idx then some none
  else
    match q.s with
    | [] => none
    | top :: rest =>
        let r := sortLoop q.lt q.idx (q.a.length + 1) q.a (top :: rest) top
        some (some (r.1.getD q.idx default,
          { q with a := r.1, s := r.2.tail, idx := q.idx + 1 }))

/-- Repeatedly call `IQS::next`, collecting the yielded elements. -/
def IQS.drain {T : Type} [Inhabited T] : Nat → IQS T → Option (List T)
  | 0, _ => none
  | fuel + 1, q =>
      match IQS.next q with
      | none => none
      | some none => some []
      | some (some (x, q2)) => (IQS.drain fuel q2).map (x :: ·)

/-! ### Strict weak orders

The `Compare` contract of the comparator: `compares_lt` must be a strict
weak order (asymmetric, transitive, with transitive incomparability). -/

structure IsSWO {T : Type} (lt : T → T → Bool) : Prop where
  asymm : ∀ x y, lt x y = true → lt y x = false
  trans : ∀ x y z, lt x y = true → lt y z = true → lt x z = true
  equivTrans : ∀ x y z, lt x y = false → lt y x = false →
    lt y z = false → lt z y = false → lt x z = false ∧ lt z x = false

theorem IsSWO.irrefl {T : Type} {lt : T → T → Bool} (h : IsSWO lt) (x : T) :
    lt x x = false := by
  cases he : lt x x with
  | false => rfl
  | true => exact absurd (h.asymm x x he) (by simp [he])

/-- If `x < y` and `y` is equivalent to `p`, then `x < p`. -/
theorem IsSWO.lt_of_lt_equiv {T : Type} {lt : T → T → Bool} (h : IsSWO lt)
    (x y p : T) (hxy : lt x y = true) (h1 : lt y p = false)
    (h2 : lt p y = false) : lt x p = true := by
  cases he : lt x p with
  | true => rfl
  | false =>
      exfalso
      cases hpx : lt p x with
      | true =>
          have hpy := h.trans p x y hpx hxy
          simp [hpy] at h2
      | false =>
          obtain ⟨hf, -⟩ := h.equivTrans x p y he hpx h2 h1
          simp [hxy] at hf

/-! ### Partition correctness -/

theorem lomutoLoop_spec {T : Type} [Inhabited T] (lt : T → T → Bool)
    (pivot : T) (lo hi : Nat) :
    ∀ steps a i j, lo ≤ i → i ≤ j → j + steps + 1 = hi → hi ≤ a.length →
    (∀ k, lo ≤ k → k < i → lt (a.getD k default) pivot = true) →
    (∀ k, i ≤ k → k < j → lt (a.getD k default) pivot = false) →
    ((lomutoLoop lt pivot steps a i j).1.length = a.length ∧
     (lomutoLoop lt pivot steps a i j).1.Perm a ∧
     (lomutoLoop lt pivot steps a i j).1.take lo = a.take lo ∧
     (lomutoLoop lt pivot steps a i j).1.drop (hi - 1) = a.drop (hi - 1) ∧
     i ≤ (lomutoLoop lt pivot steps a i j).2 ∧
     (lomutoLoop lt pivot steps a i j).2 + 1 ≤ hi ∧
     (∀ k, lo ≤ k → k < (lomutoLoop lt pivot steps a i j).2 →
       lt ((lomutoLoop lt pivot steps a i j).1.getD k default) pivot
         = true) ∧
     (∀ k, (lomutoLoop lt pivot steps a i j).2 ≤ k → k + 1 < hi →
       lt ((lomutoLoop lt pivot steps a i j).1.getD k default) pivot
         = false)) := by
  intro steps
  induction steps with
  | zero =>
      intro a i j hlo hij hhi hlen pre1 pre2
      have hj : j + 1 = hi := by omega
      have e : lomutoLoop lt pivot 0 a i j = (a, i) := rfl
      rw [e]
      refine ⟨rfl, List.Perm.refl a, rfl, rfl, Nat.le_refl i, by omega,
        pre1, ?_⟩
      intro k hk1 hk2
      exact pre2 k hk1 (by omega)
  | succ steps ih =>
      intro a i j hlo hij hhi hlen pre1 pre2
      have hjlt : j + 1 < hi := by omega
      have hjlen : j < a.length := by omega
      have hilen : i < a.length := by omega
      rw [lomutoLoop]
      cases hcond : lt (a.getD j default) pivot with
      | true =>
          simp only [hcond, if_true]
          -- swap a[i] and a[j], advance both cursors
          have hlen2 : (lswap a i j).length = a.length := lswap_length a i j
          have pre1' : ∀ k, lo ≤ k → k < i + 1 →
              lt ((lswap a i j).getD k default) pivot = true := by
            intro k hk1 hk2
            by_cases hki : k = i
            · subst hki
              rw [lswap_getD_fst a k j hilen hjlen]
              exact hcond
            · have hkj : k ≠ j := by omega
              rw [lswap_getD_other a i j k hki hkj]
              exact pre1 k hk1 (by omega)
          have pre2' : ∀ k, i + 1 ≤ k → k < j + 1 →
              lt ((lswap a i j).getD k default) pivot = false := by
            intro k hk1 hk2
            by_cases hkj : k = j
            · subst hkj
              rw [lswap_getD_snd a i k hilen hjlen]
              exact pre2 i (Nat.le_refl i) (by omega)
            · have hki : k ≠ i := by omega
              rw [lswap_getD_other a i j k hki hkj]
              exact pre2 k (by omega) (by omega)
          obtain ⟨c1, c2, c3, c4, c5, c6, c7, c8⟩ :=
            ih (lswap a i j) (i + 1) (j + 1) (by omega) (by omega)
              (by omega) (by omega) pre1' pre2'
          refine ⟨c1.trans hlen2, c2.trans (lswap_perm a i j hilen hjlen),
            c3.trans (lswap_take a i j lo hlo (by omega)),
            c4.trans (lswap_drop a i j (hi - 1) (by omega) (by omega)),
            by omega, c6, c7, c8⟩
      | false =>
          simp only [hcond, if_false, Bool.false_eq_true]
          have pre2' : ∀ k, i ≤ k → k < j + 1 →
              lt (a.getD k default) pivot = false := by
            intro k hk1 hk2
            by_cases hkj : k = j
            · subst hkj; exact hcond
            · exact pre2 k hk1 (by omega)
          obtain ⟨c1, c2, c3, c4, c5, c6, c7, c8⟩ :=
            ih a i (j + 1) hlo (by omega) (by omega) hlen pre1 pre2'
          exact ⟨c1, c2, c3, c4, c5, c6, c7, c8⟩

theorem pivotScan_spec {T : Type} [Inhabited T] (lt : T → T → Bool)
    (pivot : T) (a : List T) :
    ∀ steps q stop, 1 ≤ q → q + steps = stop + 1 →
    (q ≤ pivotScan lt pivot a steps q stop + 1 ∧
     pivotScan lt pivot a steps q stop ≤ stop ∧
     (∀ k, q ≤ k → k ≤ pivotScan lt pivot a steps q stop →
       lt pivot (a.getD k default) = false)) := by
  intro steps
  induction steps with
  | zero =>
      intro q stop hq hqs
      simp only [pivotScan]
      exact ⟨by omega, by omega, fun k hk1 hk2 => by omega⟩
  | succ steps ih =>
      intro q stop hq hqs
      rw [pivotScan]
      cases hcond : lt pivot (a.getD q default) with
      | true =>
          simp only [if_true]
          exact ⟨by omega, by omega, fun k hk1 hk2 => by omega⟩
      | false =>
          simp only [Bool.false_eq_true, if_false]
          obtain ⟨c1, c2, c3⟩ := ih (q + 1) stop (by omega) (by omega)
          refine ⟨by omega, c2, ?_⟩
          intro k hk1 hk2
          by_cases hkq : k = q
          · subst hkq; exact hcond
          · exact c3 k (by omega) hk2

theorem getD_eq_of_drop_eq {T : Type} [Inhabited T] {l1 l2 : List T}
    (n : Nat) (h : l1.drop n = l2.drop n) (k : Nat) (hk : n ≤ k) :
    l1.getD k default = l2.getD k default := by
  have h1 : l1[k]? = (l1.drop n)[k - n]? := by
    rw [List.getElem?_drop]
    congr 1
    omega
  have h2 : l2[k]? = (l2.drop n)[k - n]? := by
    rw [List.getElem?_drop]
    congr 1
    omega
  rw [List.getD_eq_getElem?_getD, List.getD_eq_getElem?_getD, h1, h2, h]

theorem drop_eq_of_drop_eq {T : Type} {l1 l2 : List T} (n : Nat)
    (h : l1.drop n = l2.drop n) (m : Nat) (hnm : n ≤ m) :
    l1.drop m = l2.drop m := by
  have h1 : m = n + (m - n) := by omega
  rw [h1, ← List.drop_drop, ← List.drop_drop, h]

/-- Correctness of the body of `partition` after the Lomuto phase:
`a1`/`i1` are the array and pivot position produced by the Lomuto scan,
`res` the final result of `partition`. -/
theorem partitionCore_spec {T : Type} [Inhabited T] (lt : T → T → Bool)
    (hswo : IsSWO lt) (a a1 : List T) (i1 lo hi : Nat)
    (hlohi : lo < hi) (hhi : hi ≤ a.length)
    (L1 : a1.length = a.length) (P1 : a1.Perm a)
    (T1 : a1.take lo = a.take lo)
    (D1 : a1.drop (hi - 1) = a.drop (hi - 1))
    (I1a : lo ≤ i1) (I1b : i1 + 1 ≤ hi)
    (Z1 : ∀ k, lo ≤ k → k < i1 →
      lt (a1.getD k default) (a.getD (hi - 1) default) = true)
    (Z2 : ∀ k, i1 ≤ k → k + 1 < hi →
      lt (a1.getD k default) (a.getD (hi - 1) default) = false) :
    ∀ res : List T × Nat,
    res = (if lo + (hi - lo) / 2 ≤ i1 then (lswap a1 i1 (hi - 1), i1)
      else (lswap a1 i1 (hi - 1),
        pivotScan lt (a.getD (hi - 1) default) (lswap a1 i1 (hi - 1))
          (lo + (hi - lo) / 2 - i1) (i1 + 1) (lo + (hi - lo) / 2))) →
    (res.1.length = a.length ∧
     res.1.Perm a ∧
     res.1.take lo = a.take lo ∧
     res.1.drop hi = a.drop hi ∧
     lo ≤ res.2 ∧
     res.2 < hi ∧
     (∀ k1 k2, lo ≤ k1 → k1 < res.2 → res.2 ≤ k2 → k2 < hi →
       lt (res.1.getD k2 default) (res.1.getD k1 default) = false) ∧
     (∀ k, res.2 < k → k < hi →
       lt (res.1.getD k default) (res.1.getD res.2 default) = false)) := by
  intro res hres
  have hi1len : i1 < a1.length := by omega
  have hhi1len : hi - 1 < a1.length := by omega
  -- facts about the swapped array
  have hA2len : (lswap a1 i1 (hi - 1)).length = a.length := by
    rw [lswap_length]; exact L1
  have hA2perm : (lswap a1 i1 (hi - 1)).Perm a :=
    (lswap_perm a1 i1 (hi - 1) hi1len hhi1len).trans P1
  have hA2take : (lswap a1 i1 (hi - 1)).take lo = a.take lo :=
    (lswap_take a1 i1 (hi - 1) lo I1a (by omega)).trans T1
  have hA2drop : (lswap a1 i1 (hi - 1)).drop hi = a.drop hi := by
    have h1 : (lswap a1 i1 (hi - 1)).drop hi = a1.drop hi :=
      lswap_drop a1 i1 (hi - 1) hi (by omega) (by omega)
    have h2 : a1.drop hi = a.drop hi :=
      drop_eq_of_drop_eq (hi - 1) D1 hi (by omega)
    rw [h1, h2]
  have hA1hi : a1.getD (hi - 1) default = a.getD (hi - 1) default :=
    getD_eq_of_drop_eq (hi - 1) D1 (hi - 1) (Nat.le_refl _)
  have hA2pv : (lswap a1 i1 (hi - 1)).getD i1 default
      = a.getD (hi - 1) default := by
    rw [lswap_getD_fst a1 i1 (hi - 1) hi1len hhi1len, hA1hi]
  -- zones relative to the pivot value, in the swapped array
  have hZtrue : ∀ k, lo ≤ k → k < i1 →
      lt ((lswap a1 i1 (hi - 1)).getD k default)
        (a.getD (hi - 1) default) = true := by
    intro k h1 h2
    rw [lswap_getD_other a1 i1 (hi - 1) k (by omega) (by omega)]
    exact Z1 k h1 h2
  have hZfalse : ∀ k, i1 ≤ k → k < hi →
      lt ((lswap a1 i1 (hi - 1)).getD k default)
        (a.getD (hi - 1) default) = false := by
    intro k h1 h2
    by_cases hk1 : k = i1
    · subst hk1
      rw [hA2pv]
      exact hswo.irrefl _
    by_cases hk2 : k = hi - 1
    · subst hk2
      rw [lswap_getD_snd a1 i1 (hi - 1) hi1len hhi1len]
      exact Z2 i1 (Nat.le_refl _) (by omega)
    · rw [lswap_getD_other a1 i1 (hi - 1) k hk1 hk2]
      exact Z2 k h1 (by omega)
  by_cases hmid : lo + (hi - lo) / 2 ≤ i1
  · rw [if_pos hmid] at hres
    subst hres
    refine ⟨hA2len, hA2perm, hA2take, hA2drop, I1a, by omega, ?_, ?_⟩
    · intro k1 k2 h1 h2 h3 h4
      cases hc : lt ((lswap a1 i1 (hi - 1)).getD k2 default)
          ((lswap a1 i1 (hi - 1)).getD k1 default) with
      | false => rfl
      | true =>
          have ht := hswo.trans _ _ _ hc (hZtrue k1 h1 h2)
          rw [hZfalse k2 h3 h4] at ht
          exact ht.symm
    · intro k h1 h2
      have h3 := hZfalse k (by omega) h2
      rw [← hA2pv] at h3
      exact h3
  · rw [if_neg hmid] at hres
    subst hres
    have hmid_lt : lo + (hi - lo) / 2 < hi := by omega
    obtain ⟨S1, S2, S3⟩ := pivotScan_spec lt (a.getD (hi - 1) default)
      (lswap a1 i1 (hi - 1)) (lo + (hi - lo) / 2 - i1) (i1 + 1)
      (lo + (hi - lo) / 2) (by omega) (by omega)
    -- abbreviate the scan result
    generalize hp : pivotScan lt (a.getD (hi - 1) default)
      (lswap a1 i1 (hi - 1)) (lo + (hi - lo) / 2 - i1) (i1 + 1)
      (lo + (hi - lo) / 2) = p at S1 S2 S3 ⊢
    have hpi1 : i1 ≤ p := by omega
    have hphi : p < hi := by omega
    -- the element at p is equivalent to the pivot value
    have hEq1 : lt ((lswap a1 i1 (hi - 1)).getD p default)
        (a.getD (hi - 1) default) = false := hZfalse p hpi1 hphi
    have hEq2 : lt (a.getD (hi - 1) default)
        ((lswap a1 i1 (hi - 1)).getD p default) = false := by
      by_cases hpe : p = i1
      · subst hpe
        rw [hA2pv]
        exact hswo.irrefl _
      · exact S3 p (by omega) (Nat.le_refl _)
    refine ⟨hA2len, hA2perm, hA2take, hA2drop, by omega, hphi, ?_, ?_⟩
    · intro k1 k2 h1 h2 h3 h4
      have hk2f : lt ((lswap a1 i1 (hi - 1)).getD k2 default)
          (a.getD (hi - 1) default) = false := hZfalse k2 (by omega) h4
      cases hc : lt ((lswap a1 i1 (hi - 1)).getD k2 default)
          ((lswap a1 i1 (hi - 1)).getD k1 default) with
      | false => rfl
      | true =>
          exfalso
          by_cases hk1i : k1 < i1
          · have ht := hswo.trans _ _ _ hc (hZtrue k1 h1 hk1i)
            rw [hk2f] at ht
            exact Bool.true_eq_false.mp ht.symm
          · -- k1 in [i1, p): equivalent to the pivot value
            have hk1f : lt ((lswap a1 i1 (hi - 1)).getD k1 default)
                (a.getD (hi - 1) default) = false :=
              hZfalse k1 (by omega) (by omega)
            have hk1f2 : lt (a.getD (hi - 1) default)
                ((lswap a1 i1 (hi - 1)).getD k1 default) = false := by
              by_cases hk1e : k1 = i1
              · subst hk1e
                rw [hA2pv]
                exact hswo.irrefl _
              · exact S3 k1 (by omega) (by omega)
            have ht := hswo.lt_of_lt_equiv _ _ _ hc hk1f hk1f2
            rw [hk2f] at ht
            exact Bool.true_eq_false.mp ht.symm
    · intro k h1 h2
      have hkf : lt ((lswap a1 i1 (hi - 1)).getD k default)
          (a.getD (hi - 1) default) = false := hZfalse k (by omega) h2
      cases hc : lt ((lswap a1 i1 (hi - 1)).getD k default)
          ((lswap a1 i1 (hi - 1)).getD p default) with
      | false => rfl
      | true =>
          exfalso
          have ht := hswo.lt_of_lt_equiv _ _ _ hc hEq1 hEq2
          rw [hkf] at ht
          exact Bool.true_eq_false.mp ht.symm

theorem partitionSeg_spec {T : Type} [Inhabited T] (lt : T → T → Bool)
    (hswo : IsSWO lt) (a : List T) (lo hi : Nat)
    (hlohi : lo < hi) (hhi : hi ≤ a.length) :
    ((partitionSeg lt a lo hi).1.length = a.length ∧
     (partitionSeg lt a lo hi).1.Perm a ∧
     (partitionSeg lt a lo hi).1.take lo = a.take lo ∧
     (partitionSeg lt a lo hi).1.drop hi = a.drop hi ∧
     lo ≤ (partitionSeg lt a lo hi).2 ∧
     (partitionSeg lt a lo hi).2 < hi ∧
     (∀ k1 k2, lo ≤ k1 → k1 < (partitionSeg lt a lo hi).2 →
       (partitionSeg lt a lo hi).2 ≤ k2 → k2 < hi →
       lt ((partitionSeg lt a lo hi).1.getD k2 default)
          ((partitionSeg lt a lo hi).1.getD k1 default) = false) ∧
     (∀ k, (partitionSeg lt a lo hi).2 < k → k < hi →
       lt ((partitionSeg lt a lo hi).1.getD k default)
          ((partitionSeg lt a lo hi).1.getD
            (partitionSeg lt a lo hi).2 default) = false)) := by
  obtain ⟨L1, P1, T1, D1, I1a, I1b, Z1, Z2⟩ :=
    lomutoLoop_spec lt (a.getD (hi - 1) default) lo hi (hi - 1 - lo) a lo lo
      (Nat.le_refl lo) (Nat.le_refl lo) (by omega) hhi
      (fun k h1 h2 => ((Nat.lt_irrefl k) (Nat.lt_of_lt_of_le h2 h1)).elim)
      (fun k h1 h2 => ((Nat.lt_irrefl k) (Nat.lt_of_lt_of_le h2 h1)).elim)
  exact partitionCore_spec lt hswo a
    (lomutoLoop lt (a.getD (hi - 1) default) (hi - 1 - lo) a lo lo).1
    (lomutoLoop lt (a.getD (hi - 1) default) (hi - 1 - lo) a lo lo).2
    lo hi hlohi hhi L1 P1 T1 D1 I1a I1b Z1 Z2
    (partitionSeg lt a lo hi) rfl

/-! ### The pending-boundary stack invariant -/

/-- Partition boundary property at `b`: no element at or after `b` compares
less than an element before `b`. -/
def Sep {T : Type} [Inhabited T] (lt : T → T → Bool) (a : List T) (b : Nat) :
    Prop :=
  ∀ k1 k2, k1 < b → b ≤ k2 → k2 < a.length →
    lt (a.getD k2 default) (a.getD k1 default) = false

/-- The element at boundary `b` is a pivot: nothing after it compares less
than it. -/
def PivotOk {T : Type} [Inhabited T] (lt : T → T → Bool) (a : List T)
    (b : Nat) : Prop :=
  ∀ k, b < k → k < a.length →
    lt (a.getD k default) (a.getD b default) = false

/-- Invariant of the stack of pending partition boundaries relative to the
working array and the output cursor `idx`. -/
def StackInv {T : Type} [Inhabited T] (lt : T → T → Bool) (idx : Nat)
    (a : List T) (s : List Nat) : Prop :=
  List.Chain' (· < ·) s ∧ (∀ b ∈ s, idx ≤ b) ∧
  s.getLast? = some a.length ∧
  (∀ b ∈ s, Sep lt a b) ∧ (∀ b ∈ s, PivotOk lt a b) ∧ Sep lt a idx

theorem take_perm_of_drop_eq {T : Type} (a2 a : List T) (b : Nat)
    (hperm : a2.Perm a) (hdrop : a2.drop b = a.drop b) :
    (a2.take b).Perm (a.take b) := by
  have hp : (a2.take b ++ a2.drop b).Perm (a.take b ++ a.drop b) := by
    rw [List.take_append_drop, List.take_append_drop]
    exact hperm
  rw [hdrop] at hp
  exact (List.perm_append_right_iff _).mp hp

theorem drop_perm_of_take_eq {T : Type} (a2 a : List T) (b : Nat)
    (hperm : a2.Perm a) (htake : a2.take b = a.take b) :
    (a2.drop b).Perm (a.drop b) := by
  have hp : (a2.take b ++ a2.drop b).Perm (a.take b ++ a.drop b) := by
    rw [List.take_append_drop, List.take_append_drop]
    exact hperm
  rw [htake] at hp
  exact (List.perm_append_left_iff _).mp hp

theorem getD_mem_take {T : Type} [Inhabited T] (l : List T) (b k : Nat)
    (h1 : k < b) (h2 : k < l.length) : l.getD k default ∈ l.take b := by
  have hk : k < (l.take b).length := by
    simp [List.length_take]
    omega
  have he : (l.take b)[k] = l.getD k default := by
    rw [List.getElem_take]
    rw [getD_eq_get l k h2]
    simp [List.get_eq_getElem]
  rw [← he]
  exact List.getElem_mem hk

theorem mem_take_exists_getD {T : Type} [Inhabited T] (l : List T) (b : Nat)
    (x : T) (hx : x ∈ l.take b) :
    ∃ k, k < b ∧ k < l.length ∧ l.getD k default = x := by
  obtain ⟨k, hk, he⟩ := List.getElem_of_mem hx
  have hkb : k < b ∧ k < l.length := by
    have := hk
    simp [List.length_take] at this
    omega
  refine ⟨k, hkb.1, hkb.2, ?_⟩
  rw [getD_eq_get l k hkb.2]
  rw [← he, List.getElem_take]
  simp [List.get_eq_getElem]

theorem mem_drop_exists_getD {T : Type} [Inhabited T] (l : List T) (b : Nat)
    (x : T) (hx : x ∈ l.drop b) :
    ∃ k, b ≤ k ∧ k < l.length ∧ l.getD k default = x := by
  obtain ⟨k, hk, he⟩ := List.getElem_of_mem hx
  have hkb : b + k < l.length := by
    have := hk
    simp [List.length_drop] at this
    omega
  refine ⟨b + k, by omega, hkb, ?_⟩
  rw [getD_eq_get l (b + k) hkb]
  rw [← he, List.getElem_drop]
  simp [List.get_eq_getElem]

theorem getD_mem_drop {T : Type} [Inhabited T] (l : List T) (b k : Nat)
    (h1 : b ≤ k) (h2 : k < l.length) : l.getD k default ∈ l.drop b := by
  have hk : k - b < (l.drop b).length := by
    simp [List.length_drop]
    omega
  have he : (l.drop b)[k - b] = l.getD k default := by
    rw [List.getElem_drop]
    rw [getD_eq_get l k h2]
    simp [List.get_eq_getElem]
    congr 1
    omega
  rw [← he]
  exact List.getElem_mem hk

theorem getD_eq_of_take_eq {T : Type} [Inhabited T] {l1 l2 : List T}
    (n : Nat) (h : l1.take n = l2.take n) (k : Nat) (hk : k < n) :
    l1.getD k default = l2.getD k default := by
  have h1 : (l1.take n)[k]? = l1[k]? := by
    rw [List.getElem?_take, if_pos hk]
  have h2 : (l2.take n)[k]? = l2[k]? := by
    rw [List.getElem?_take, if_pos hk]
  rw [List.getD_eq_getElem?_getD, List.getD_eq_getElem?_getD, ← h1, ← h2, h]

/-- Transfer `Sep` across an update that permutes the region after `b` and
keeps the prefix. -/
theorem Sep_transfer_take {T : Type} [Inhabited T] {lt : T → T → Bool}
    {a a2 : List T} {b : Nat} (hsep : Sep lt a b) (hperm : a2.Perm a)
    (htake : a2.take b = a.take b) (hlen : a2.length = a.length) :
    Sep lt a2 b := by
  intro k1 k2 h1 h2 h3
  have he1 : a2.getD k1 default = a.getD k1 default :=
    getD_eq_of_take_eq b htake k1 h1
  have hx : a2.getD k2 default ∈ a2.drop b := getD_mem_drop a2 b k2 h2 h3
  have hdp := drop_perm_of_take_eq a2 a b hperm htake
  have hx2 : a2.getD k2 default ∈ a.drop b := hdp.subset hx
  obtain ⟨k2x, hk2a, hk2b, hk2e⟩ := mem_drop_exists_getD a b _ hx2
  rw [he1, ← hk2e]
  exact hsep k1 k2x h1 hk2a hk2b

/-- Transfer `Sep` across an update that permutes the region before `b` and
keeps the suffix. -/
theorem Sep_transfer_drop {T : Type} [Inhabited T] {lt : T → T → Bool}
    {a a2 : List T} {b : Nat} (hsep : Sep lt a b) (hperm : a2.Perm a)
    (hdrop : a2.drop b = a.drop b) (hlen : a2.length = a.length) :
    Sep lt a2 b := by
  intro k1 k2 h1 h2 h3
  have he2 : a2.getD k2 default = a.getD k2 default :=
    getD_eq_of_drop_eq b hdrop k2 h2
  have hx : a2.getD k1 default ∈ a2.take b := getD_mem_take a2 b k1 h1 (by omega)
  have htp := take_perm_of_drop_eq a2 a b hperm hdrop
  have hx2 : a2.getD k1 default ∈ a.take b := htp.subset hx
  obtain ⟨k1x, hk1a, hk1b, hk1e⟩ := mem_take_exists_getD a b _ hx2
  rw [he2, ← hk1e]
  exact hsep k1x k2 hk1a h2 (by omega)

/-- Transfer `PivotOk` across an update below `b` that keeps the suffix. -/
theorem PivotOk_transfer_drop {T : Type} [Inhabited T] {lt : T → T → Bool}
    {a a2 : List T} {b : Nat} (hpv : PivotOk lt a b)
    (hdrop : a2.drop b = a.drop b) (hlen : a2.length = a.length) :
    PivotOk lt a2 b := by
  intro k hk1 hk2
  rw [getD_eq_of_drop_eq b hdrop k (by omega),
    getD_eq_of_drop_eq b hdrop b (Nat.le_refl b)]
  exact hpv k hk1 (by omega)

/-- Every member of a strictly increasing list is at most its last
element. -/
theorem chain_le_getLast {s : List Nat} {L : Nat}
    (hc : List.Chain' (· < ·) s) (hl : s.getLast? = some L) :
    ∀ b ∈ s, b ≤ L := by
  intro b hb
  have hs : s ≠ [] := by
    intro he
    rw [he] at hl
    simp at hl
  have hLe : s.getLast hs = L := by
    have := List.getLast?_eq_getLast s hs
    rw [hl] at this
    exact (Option.some_injective _ this.symm)
  have hdecomp := List.dropLast_append_getLast hs
  have hpw : List.Pairwise (· < ·) s := List.chain'_iff_pairwise.mp hc
  rw [← hdecomp] at hpw hb
  rcases List.mem_append.mp hb with hb1 | hb2
  · have := (List.pairwise_append.mp hpw).2.2 b hb1 (s.getLast hs)
      (List.mem_singleton_self _)
    omega
  · simp at hb2
    omega

/-- The partition loop of `IQS::next` isolates position `idx` as a pivot
and maintains the stack invariant. -/
theorem sortLoop_spec {T : Type} [Inhabited T] (lt : T → T → Bool)
    (hswo : IsSWO lt) (idx : Nat) :
    ∀ steps a s top, s.head? = some top → StackInv lt idx a s →
    idx < a.length → top - idx < steps →
    ((sortLoop lt idx steps a s top).2.head? = some idx ∧
     StackInv lt idx (sortLoop lt idx steps a s top).1
       (sortLoop lt idx steps a s top).2 ∧
     (sortLoop lt idx steps a s top).1.Perm a ∧
     (sortLoop lt idx steps a s top).1.take idx = a.take idx ∧
     (sortLoop lt idx steps a s top).1.length = a.length) := by
  intro steps
  induction steps with
  | zero => intro a s top h1 h2 h3 h4; omega
  | succ steps ih =>
      intro a s top hhead hinv hidx hsteps
      rw [sortLoop]
      by_cases htop : idx = top
      · rw [if_pos htop]
        rw [← htop] at hhead
        exact ⟨hhead, hinv, List.Perm.refl a, rfl, rfl⟩
      · rw [if_neg htop]
        obtain ⟨hchain, hlb, hlast, hsep, hpiv, hsepIdx⟩ := hinv
        have htopmem : top ∈ s := by
          cases s with
          | nil => simp at hhead
          | cons x rest =>
              simp at hhead
              subst hhead
              exact List.mem_cons_self _ _
        have hidxtop : idx < top :=
          Nat.lt_of_le_of_ne (hlb top htopmem) htop
        have htoplen : top ≤ a.length :=
          chain_le_getLast hchain hlast top htopmem
        obtain ⟨F1, F2, F3, F4, F5, F6, F7, F8⟩ :=
          partitionSeg_spec lt hswo a idx top hidxtop htoplen
        have hge_top : ∀ b ∈ s, top ≤ b := by
          intro b hb
          cases s with
          | nil => simp at hhead
          | cons x rest =>
              simp at hhead
              subst hhead
              rcases List.mem_cons.mp hb with rfl | hb2
              · exact Nat.le_refl _
              · have hpw := List.chain'_iff_pairwise.mp hchain
                exact Nat.le_of_lt ((List.pairwise_cons.mp hpw).1 b hb2)
        have hSidx : Sep lt (partitionSeg lt a idx top).1 idx :=
          Sep_transfer_take hsepIdx F2 F3 F1
        have hseps : ∀ b ∈ s, Sep lt (partitionSeg lt a idx top).1 b := by
          intro b hb
          exact Sep_transfer_drop (hsep b hb) F2
            (drop_eq_of_drop_eq top F4 b (hge_top b hb)) F1
        have hpivs : ∀ b ∈ s, PivotOk lt (partitionSeg lt a idx top).1 b := by
          intro b hb
          exact PivotOk_transfer_drop (hpiv b hb)
            (drop_eq_of_drop_eq top F4 b (hge_top b hb)) F1
        have hSepTop : Sep lt (partitionSeg lt a idx top).1 top :=
          hseps top htopmem
        have hSepP : Sep lt (partitionSeg lt a idx top).1
            (partitionSeg lt a idx top).2 := by
          intro k1 k2 h1 h2 h3
          by_cases hk1i : k1 < idx
          · exact hSidx k1 k2 hk1i (by omega) h3
          · by_cases hk2t : k2 < top
            · exact F7 k1 k2 (by omega) h1 h2 hk2t
            · exact hSepTop k1 k2 (by omega) (by omega) h3
        have hPivP : PivotOk lt (partitionSeg lt a idx top).1
            (partitionSeg lt a idx top).2 := by
          intro k hk1 hk2
          by_cases hkt : k < top
          · exact F8 k hk1 hkt
          · exact hSepTop (partitionSeg lt a idx top).2 k F6 (by omega) hk2
        have hinv2 : StackInv lt idx (partitionSeg lt a idx top).1
            ((partitionSeg lt a idx top).2 :: s) := by
          refine ⟨?_, ?_, ?_, ?_, ?_, hSidx⟩
          · rw [List.chain'_cons']
            refine ⟨?_, hchain⟩
            intro y hy
            rw [hhead] at hy
            simp at hy
            subst hy
            exact F6
          · intro b hb
            rcases List.mem_cons.mp hb with rfl | hb2
            · exact F5
            · exact hlb b hb2
          · cases s with
            | nil => simp at hhead
            | cons x rest =>
                rw [List.getLast?_cons_cons, F1]
                exact hlast
          · intro b hb
            rcases List.mem_cons.mp hb with rfl | hb2
            · exact hSepP
            · exact hseps b hb2
          · intro b hb
            rcases List.mem_cons.mp hb with rfl | hb2
            · exact hPivP
            · exact hpivs b hb2
        obtain ⟨g1, g2, g3, g4, g5⟩ := ih (partitionSeg lt a idx top).1
          ((partitionSeg lt a idx top).2 :: s) (partitionSeg lt a idx top).2
          rfl hinv2 (by omega) (by omega)
        exact ⟨g1, g2, g3.trans F2, g4.trans F3, g5.trans F1⟩

/-- Invariant of reachable `IQS` states. -/
def IQSInv {T : Type} [Inhabited T] (q : IQS T) : Prop :=
  q.idx ≤ q.a.length ∧ StackInv q.lt q.idx q.a q.s ∧
  List.Pairwise (fun x y => q.lt y x = false) (q.a.take q.idx)

theorem take_succ_getD {T : Type} [Inhabited T] (l : List T) (n : Nat)
    (h : n < l.length) :
    l.take (n + 1) = l.take n ++ [l.getD n default] := by
  rw [List.take_succ]
  congr 1
  rw [List.getElem?_eq_getElem h, getD_eq_get l n h]
  simp [List.get_eq_getElem]

theorem IQS.next_exhausted {T : Type} [Inhabited T] (q : IQS T)
    (h : q.a.length ≤ q.idx) : IQS.next q = some none := by
  simp [IQS.next, h]

/-- One `IQS::next` call on a non-exhausted invariant state emits the next
smallest remaining element. -/
theorem IQS.next_step {T : Type} [Inhabited T] (q : IQS T)
    (hswo : IsSWO q.lt) (hinv : IQSInv q) (hlt : q.idx < q.a.length) :
    ∃ x q2, IQS.next q = some (some (x, q2)) ∧ IQSInv q2 ∧
      q2.idx = q.idx + 1 ∧ q2.lt = q.lt ∧ q2.a.length = q.a.length ∧
      q2.a.Perm q.a ∧ q2.a.take (q.idx + 1) = q.a.take q.idx ++ [x] := by
  obtain ⟨hle, hstack, hpw⟩ := hinv
  cases hs : q.s with
  | nil =>
      exfalso
      obtain ⟨-, -, hlast, -⟩ := hstack
      rw [hs] at hlast
      simp at hlast
  | cons top rest =>
      have hstack2 : StackInv q.lt q.idx q.a (top :: rest) := hs ▸ hstack
      have htoplen : top ≤ q.a.length :=
        chain_le_getLast hstack2.1 hstack2.2.2.1 top (List.mem_cons_self _ _)
      obtain ⟨g1, g2, g3, g4, g5⟩ := sortLoop_spec q.lt hswo q.idx
        (q.a.length + 1) q.a (top :: rest) top rfl hstack2 hlt (by omega)
      refine ⟨(sortLoop q.lt q.idx (q.a.length + 1) q.a (top :: rest) top).1.getD
          q.idx default,
        { a := (sortLoop q.lt q.idx (q.a.length + 1) q.a (top :: rest) top).1
          lt := q.lt
          idx := q.idx + 1
          s := (sortLoop q.lt q.idx (q.a.length + 1) q.a
            (top :: rest) top).2.tail }, ?_, ?_, rfl, rfl, g5, g3, ?_⟩
      · simp only [IQS.next, Nat.not_le.mpr hlt, if_false, hs]
      · -- the invariant for the successor state
        obtain ⟨c1, c2, c3, c4, c5, c6⟩ := g2
        cases hsf : (sortLoop q.lt q.idx (q.a.length + 1) q.a
            (top :: rest) top).2 with
        | nil => rw [hsf] at g1; simp at g1
        | cons b tl =>
            rw [hsf] at g1 c1 c2 c3 c4 c5
            have hb : b = q.idx := by simpa using g1
            subst hb
            dsimp only [IQSInv]
            have htl_ne : tl ≠ [] := by
              intro he
              rw [he] at c3
              simp at c3
              omega
            refine ⟨by omega, ⟨c1.tail, ?_, ?_, ?_, ?_, ?_⟩, ?_⟩
            · -- lower bound strengthens to idx + 1
              intro b2 hb2
              have hpw2 := List.chain'_iff_pairwise.mp c1
              have := (List.pairwise_cons.mp hpw2).1 b2 hb2
              omega
            · -- last element still the array length
              cases tl with
              | nil => exact absurd rfl htl_ne
              | cons c tl2 =>
                  rw [← c3, List.getLast?_cons_cons]
                  rfl
            · intro b2 hb2
              exact c4 b2 (List.mem_cons_of_mem _ hb2)
            · intro b2 hb2
              exact c5 b2 (List.mem_cons_of_mem _ hb2)
            · -- the prefix boundary moves one step right
              intro k1 k2 h1 h2 h3
              by_cases hk1 : k1 < q.idx
              · exact c6 k1 k2 hk1 (by omega) h3
              · have hk1e : k1 = q.idx := by omega
                subst hk1e
                exact c5 q.idx (List.mem_cons_self _ _) k2 (by omega) h3
            · -- sortedness of the emitted prefix
              rw [take_succ_getD _ q.idx (by omega), g4]
              rw [List.pairwise_append]
              refine ⟨hpw, by simp, ?_⟩
              intro x hx y hy
              simp only [List.mem_singleton] at hy
              subst hy
              rw [← g4] at hx
              obtain ⟨k, hk1, hk2, hke⟩ := mem_take_exists_getD _ _ _ hx
              rw [← hke]
              exact c6 k q.idx hk1 (Nat.le_refl _) (by omega)
      · dsimp only
        rw [take_succ_getD _ q.idx (by omega), g4]

theorem IQS.drain_spec {T : Type} [Inhabited T] :
    ∀ fuel (q : IQS T), IsSWO q.lt → IQSInv q →
    q.a.length - q.idx < fuel →
    ∃ out, IQS.drain fuel q = some out ∧
      (q.a.take q.idx ++ out).Perm q.a ∧
      List.Pairwise (fun x y => q.lt y x = false)
        (q.a.take q.idx ++ out) := by
  intro fuel
  induction fuel with
  | zero => intro q _ _ h; omega
  | succ fuel ih =>
      intro q hswo hinv hfl
      by_cases hend : q.a.length ≤ q.idx
      · have hx : q.idx = q.a.length := by
          have := hinv.1
          omega
        refine ⟨[], ?_, ?_, ?_⟩
        · simp [IQS.drain, IQS.next_exhausted q hend]
        · rw [List.append_nil, hx, List.take_length]
        · rw [List.append_nil]
          exact hinv.2.2
      · obtain ⟨x, q2, he, hinv2, hidx2, hlt2, hlen2, hperm2, htake2⟩ :=
          IQS.next_step q hswo hinv (by omega)
        obtain ⟨out2, ho1, ho2, ho3⟩ := ih q2 (by rw [hlt2]; exact hswo)
          hinv2 (by omega)
        rw [hidx2] at ho2 ho3
        rw [htake2] at ho2 ho3
        rw [hlt2] at ho3
        refine ⟨x :: out2, ?_, ?_, ?_⟩
        · simp [IQS.drain, he, ho1]
        · have hl : q.a.take q.idx ++ x :: out2 =
              (q.a.take q.idx ++ [x]) ++ out2 := by simp
          rw [hl]
          exact ho2.trans hperm2
        · have hl : q.a.take q.idx ++ x :: out2 =
              (q.a.take q.idx ++ [x]) ++ out2 := by simp
          rw [hl]
          exact ho3

theorem IQSInv_new {T : Type} [Inhabited T] (l : List T)
    (lt : T → T → Bool) : IQSInv (IQS.new l lt) := by
  dsimp only [IQSInv, IQS.new]
  refine ⟨Nat.zero_le _, ⟨?_, ?_, ?_, ?_, ?_, ?_⟩, ?_⟩
  · simp [IQS.new]
  · simp [IQS.new]
  · simp [IQS.new]
  · intro b hb
    simp [IQS.new] at hb
    subst hb
    intro k1 k2 h1 h2 h3
    omega
  · intro b hb
    simp [IQS.new] at hb
    subst hb
    intro k hk1 hk2
    omega
  · intro k1 k2 h1 h2 h3
    omega
  · simp [IQS.new]

/-- The natural order on naturals is a strict weak order. -/
theorem natLt_swo : IsSWO (fun x y : Nat => decide (x < y)) := by
  refine ⟨?_, ?_, ?_⟩
  · intro x y h
    simp at h ⊢
    omega
  · intro x y z h1 h2
    simp at h1 h2 ⊢
    omega
  · intro x y z h1 h2 h3 h4
    simp at h1 h2 h3 h4 ⊢
    omega

/-- The 16-element input of the Paredes-Navarro example. -/
def paredesNavarro : List Nat :=
  [49, 81, 74, 12, 58, 92, 86, 33, 67, 18, 25, 37, 51, 63, 29, 41]

/-- C5: for every input array and strict-weak-order comparator, draining IQS
yields an ascending sorted permutation of the input; in particular IQS over
the 16-element Paredes-Navarro example yields exactly the sorted list. -/
theorem C5_iqs_sorted_permutation {T : Type} [Inhabited T]
    (lt : T → T → Bool) (hswo : IsSWO lt) (l : List T) (fuel : Nat)
    (hfuel : l.length < fuel) :
    (∃ out, IQS.drain fuel (IQS.new l lt) = some out ∧ out.Perm l ∧
      List.Pairwise (fun x y => lt y x = false) out) ∧
    IQS.drain 17 (IQS.new paredesNavarro (fun x y : Nat => decide (x < y))) =
      some [12, 18, 25, 29, 33, 37, 41, 49, 51, 58, 63, 67, 74, 81, 86, 92] := by
  constructor
  · obtain ⟨out, h1, h2, h3⟩ := IQS.drain_spec fuel (IQS.new l lt) hswo
      (IQSInv_new l lt) (by dsimp only [IQS.new]; omega)
    refine ⟨out, h1, ?_, ?_⟩
    · simpa [IQS.new] using h2
    · simpa [IQS.new] using h3
  · decide

theorem C5_iqs_sorted_permutation_witness :
    (∃ out, IQS.drain 4 (IQS.new [3, 1, 2] (fun x y : Nat => decide (x < y))) =
        some out ∧ out.Perm [3, 1, 2] ∧
        List.Pairwise (fun x y : Nat => decide (y < x) = false) out) ∧
    IQS.drain 17 (IQS.new paredesNavarro (fun x y : Nat => decide (x < y))) =
      some [12, 18, 25, 29, 33, 37, 41, 49, 51, 58, 63, 67, 74, 81, 86, 92] :=
  C5_iqs_sorted_permutation (fun x y : Nat => decide (x < y)) natLt_swo
    [3, 1, 2] 4 (by decide)

/-! ### Union-Find (union_find.rs: disjoint-set forest with path halving) -/

/-- `UnionFind<I>`: a forest of parent entries (`None` = root). -/
structure UnionFind where
  parents : List (Option Nat)
deriving Repr

def UnionFind.newWithSize (n : Nat) : UnionFind :=
  ⟨List.replicate n none⟩

/-- `parent_of`: the stored parent, or the element itself at a root. -/
def UnionFind.parentOf (uf : UnionFind) (x : Nat) : Nat :=
  match uf.parents.getD x none with
  | none => x
  | some p => p

def UnionFind.setParent (uf : UnionFind) (child newParent : Nat) : UnionFind :=
  ⟨uf.parents.set child (some newParent)⟩

/-- The `while v != w` loop of `find` (path halving), with an explicit
iteration counter; on an acyclic forest the number of elements always
suffices.  If the counter runs out the current grandparent is returned. -/
def UnionFind.findLoop : Nat → UnionFind → Nat → Nat × UnionFind
  | 0, uf, u => (uf.parentOf (uf.parentOf u), uf)
  | fuel + 1, uf, u =>
      let v := uf.parentOf u
      let w := uf.parentOf v
      if v = w then (w, uf)
      else UnionFind.findLoop fuel (uf.setParent u w) w

/-- `find` with path halving. -/
def UnionFind.find (uf : UnionFind) (x : Nat) : Nat × UnionFind :=
  UnionFind.findLoop uf.parents.length uf x

def UnionFind.union (uf : UnionFind) (x y : Nat) : UnionFind :=
  let r1 := uf.find x
  let r2 := r1.2.find y
  if r1.1 = r2.1 then r2.2 else r2.2.setParent r1.1 r2.1

/-- `is_same`: root comparison (mutates by path halving). -/
def UnionFind.isSame (uf : UnionFind) (x y : Nat) : Bool × UnionFind :=
  let r1 := uf.find x
  let r2 := r1.2.find y
  (decide (r1.1 = r2.1), r2.2)

/-- `is_same_parent`: one-level parent comparison, no mutation. -/
def UnionFind.isSameParent (uf : UnionFind) (x y : Nat) : Bool :=
  decide (uf.parentOf x = uf.parentOf y)

/-- The parent-chain collection of `flatten` (up to but excluding the root),
with an iteration counter. -/
def UnionFind.chainOf : Nat → UnionFind → Nat → List Nat × Nat
  | 0, _, u => ([], u)
  | fuel + 1, uf, u =>
      let v := uf.parentOf u
      if u = v then ([], v)
      else
        let r := UnionFind.chainOf fuel uf v
        (u :: r.1, r.2)

def UnionFind.flattenAt (uf : UnionFind) (x : Nat) : UnionFind :=
  let r := UnionFind.chainOf uf.parents.length uf x
  r.1.foldl (fun acc e => acc.setParent e r.2) uf

/-- `flatten`: point every element directly at the root of its set. -/
def UnionFind.flatten (uf : UnionFind) : UnionFind :=
  (List.range uf.parents.length).foldl UnionFind.flattenAt uf

/-! ### Undirected weighted graphs (adjacency_array_graph.rs) -/

/-- An edge `(source, sink, weight)`. -/
abbrev WEdge := Nat × Nat × Nat

/-- `UndirectedAdjacencyArrayGraph`, kept as its construction input: `n`
vertices and the input edge list. -/
structure UWGraph where
  n : Nat
  inputEdges : List WEdge

/-- The stored directed adjacencies: every input edge in both orientations
(self-loops only once), as built by `new_with_edge_data`. -/
def UWGraph.allEdges (g : UWGraph) : List WEdge :=
  g.inputEdges ++
    (g.inputEdges.filter (fun e => e.1 ≠ e.2.1)).map
      (fun e => (e.2.1, e.1, e.2.2))

/-- `adjacencies(u, OUT)`: the counting sort by source vertex is stable, so
the adjacency list of `u` is the doubled edge list filtered by source. -/
def UWGraph.adjacencies (g : UWGraph) (u : Nat) : List (Nat × Nat) :=
  (g.allEdges.filter (fun e => e.1 = u)).map (fun e => e.2)

/-- `edges()`: all stored adjacencies in source order (each undirected edge
appears in both orientations). -/
def UWGraph.edgesList (g : UWGraph) : List WEdge :=
  (List.range g.n).flatMap
    (fun u => (g.adjacencies u).map (fun p => (u, p.1, p.2)))

/-- Comparator over edges (`Compare<(I, I, ED)>`). -/
abbrev EdgeCmp := WEdge → WEdge → Ordering

/-- `Iterator::min_by`: the first of equally minimal elements wins. -/
def minBy {α : Type} (cmp : α → α → Ordering) : List α → Option α
  | [] => none
  | x :: xs =>
      some (xs.foldl (fun b y => if cmp y b = .lt then y else b) x)

/-- The tie-broken edge order of `credit_accumulation_step`: the comparator
first, then the sink vertex id. -/
def edgeSelection (cmp : EdgeCmp) (e1 e2 : WEdge) : Ordering :=
  (cmp e1 e2).then (compare e1.2.1 e2.2.1)

/-- `credit_accumulation_step` of enumeration.rs: emit one minimum-weight
edge per vertex unless it was already selected from its other endpoint.
Outer `none` = one of the two `panic!` paths; inner `none` = the vertex
iterator is exhausted; otherwise the emitted edge and the rest of the
iterator. -/
def creditStep (g : UWGraph) (cmp : EdgeCmp) :
    List Nat → Option (Option (WEdge × List Nat))
  | [] => some none
  | u :: rest =>
      match minBy (edgeSelection cmp)
          ((g.adjacencies u).map (fun a => (u, a.1, a.2))) with
      | none => none
      | some m1 =>
          if u < m1.2.1 then some (some ((u, m1.2.1, m1.2.2), rest))
          else
            match minBy (edgeSelection cmp)
                ((g.adjacencies m1.2.1).map (fun a => (u, a.1, a.2))) with
            | none => none
            | some m2 =>
                if m2.2.1 = u then creditStep g cmp rest
                else some (some ((u, m1.2.1, m1.2.2), rest))

/-! ### Incremental Borůvka (boruvka.rs, `MstEnumerator`) -/

/-- State of the incremental Borůvka enumerator.  The `Undefined` variant is
only a transient artifact of `mem::take` during the phase switch and is not
modelled. -/
inductive IncB where
  | credit (iterator : List Nat) (components : UnionFind)
  | ext (crossingEdges : List WEdge) (components : UnionFind)
      (edgeQueue : List WEdge)

def IncB.new (g : UWGraph) : IncB :=
  .credit (List.range g.n) (UnionFind.newWithSize g.n)

/-- The `find a minimum weight crossing edge per component` selection loop
of the extension phase (`new_edges`). -/
def batchSelect (cmp : EdgeCmp) :
    List WEdge → List (Option WEdge) × UnionFind →
    List (Option WEdge) × UnionFind
  | [], acc => acc
  | e :: es, (slots, uf) =>
      let r := uf.find e.1
      let slots1 :=
        match slots.getD r.1 none with
        | none => slots.set r.1 (some e)
        | some old =>
            match cmp e old with
            | .lt => slots.set r.1 (some e)
            | .eq => slots.set r.1 (some e)
            | .gt => slots
      batchSelect cmp es (slots1, r.2)

/-- The `merge components via crossing edges` loop of the extension phase:
queue each selected edge that still crosses and union its endpoints. -/
def batchMerge :
    List (Option WEdge) → UnionFind → List WEdge → List WEdge × UnionFind
  | [], uf, q => (q, uf)
  | none :: rest, uf, q => batchMerge rest uf q
  | some e :: rest, uf, q =>
      let r := uf.isSame e.1 e.2.1
      if r.1 then batchMerge rest r.2 q
      else batchMerge rest (r.2.union e.1 e.2.1) (q ++ [e])

/-- The `ExtensionPhase` body of `MstEnumerator::next`. -/
def IncB.extNext (g : UWGraph) (cmp : EdgeCmp) (crossing : List WEdge)
    (comps : UnionFind) (queue : List WEdge) :
    Option (Option WEdge × IncB) :=
  match queue with
  | e :: qrest => some (some e, .ext crossing comps qrest)
  | [] =>
      if crossing.isEmpty then some (none, .ext crossing comps [])
      else
        let r1 := batchSelect cmp crossing (List.replicate g.n none, comps)
        let r2 := batchMerge r1.1 r1.2 []
        let uf3 := r2.2.flatten
        let crossing2 :=
          crossing.filter (fun e => ! uf3.isSameParent e.1 e.2.1)
        match r2.1 with
        | e :: qrest => some (some e, .ext crossing2 uf3 qrest)
        | [] => some (none, .ext crossing2 uf3 [])

/-- `MstEnumerator::next` of boruvka.rs.  Outer `none` = a panic path. -/
def IncB.next (g : UWGraph) (cmp : EdgeCmp) :
    IncB → Option (Option WEdge × IncB)
  | .credit it comps =>
      match creditStep g cmp it with
      | none => none
      | some (some (e, rest)) =>
          some (some e, .credit rest (comps.union e.1 e.2.1))
      | some none =>
          let crossing :=
            g.edgesList.filter (fun e => ! comps.isSameParent e.1 e.2.1)
          IncB.extNext g cmp crossing comps []
  | .ext crossing comps queue => IncB.extNext g cmp crossing comps queue

/-- The results of the first `k` calls to `next`, panic paths excluded. -/
def IncB.run (g : UWGraph) (cmp : EdgeCmp) :
    Nat → IncB → Option (List (Option WEdge))
  | 0, _ => some []
  | k + 1, s =>
      match IncB.next g cmp s with
      | none => none
      | some (r, s2) => (IncB.run g cmp k s2).map (r :: ·)

/-- Collecting the enumerator like an ordinary Rust iterator consumer: stop
at the first `None`. -/
def IncB.collect (g : UWGraph) (cmp : EdgeCmp) :
    Nat → IncB → Option (List WEdge)
  | 0, _ => none
  | k + 1, s =>
      match IncB.next g cmp s with
      | none => none
      | some (none, _) => some []
      | some (some e, s2) => (IncB.collect g cmp k s2).map (e :: ·)

/-- A connected 6-vertex undirected weighted graph on which the incremental
Borůvka enumerator mis-signals exhaustion. -/
def boruvkaBugGraph : UWGraph :=
  ⟨6, [(0, 1, 1), (1, 2, 0), (3, 4, 1), (4, 5, 0), (2, 5, 10)]⟩

/-- The natural weight order, the comparator `enumerator_for` uses
(`Extract::new(|e| e.data())`). -/
def weightCmp : EdgeCmp := fun e1 e2 => compare e1.2.2 e2.2.2

/-- One round of marking sinks of edges with marked sources. -/
def reachRound (g : UWGraph) (r : List Bool) : List Bool :=
  g.edgesList.foldl
    (fun acc e => if acc.getD e.1 false then acc.set e.2.1 true else acc) r

def reachIter (g : UWGraph) : Nat → List Bool → List Bool
  | 0, r => r
  | k + 1, r => reachIter g k (reachRound g r)

/-- Connectivity check: every vertex is reachable from vertex 0. -/
def UWGraph.connectedB (g : UWGraph) : Bool :=
  (reachIter g g.n ((List.replicate g.n false).set 0 true)).all id

set_option maxRecDepth 8000

/-- C8 counterexample: on a connected 6-vertex graph the incremental
Borůvka enumerator returns the exhaustion signal `None` on its fifth call
and then yields another edge on the sixth call — draining is not
idempotent.  (The credit-accumulation-to-extension switch filters crossing
edges by `is_same_parent` without flattening the union-find first, so stale
intra-component edges can win the per-component minimum selection and the
first extension batch can queue no edge at all.) -/
theorem C8_counterexample :
    IncB.run boruvkaBugGraph weightCmp 7 (IncB.new boruvkaBugGraph) =
      some [some (0, 1, 1), some (1, 2, 0), some (3, 4, 1),
        some (4, 5, 0), none, some (2, 5, 10), none] := by
  decide

/-- C1 counterexample: on the same connected 6-vertex graph (with
`n - 1 = 5`), consuming the incremental Borůvka enumerator as an ordinary
iterator ends at the first `None` after only 4 edges, which do not span the
graph — so it does not emit exactly `n - 1` spanning-tree edges. -/
theorem C1_counterexample :
    boruvkaBugGraph.connectedB = true ∧
    boruvkaBugGraph.n - 1 = 5 ∧
    IncB.collect boruvkaBugGraph weightCmp 20 (IncB.new boruvkaBugGraph) =
      some [(0, 1, 1), (1, 2, 0), (3, 4, 1), (4, 5, 0)] := by
  refine ⟨by decide, by decide, by decide⟩

/-! ### SSSD enumerators (sssd/unweighted_lazy.rs and sssd/weighted.rs) -/

/-- One SSSD partial result `(source, vertex, distance)`. -/
abbrev SssdPartial := Nat × Nat × Option Nat

/-- State of the unweighted (BFS-based) `SssdEnumerator`.  The `Undefined`
variant is only a transient `mem::take` artifact and not modelled. -/
inductive SssdU where
  | credit (distances : LazyArray Nat) (queue : List Nat)
  | final (distances : LazyArray Nat) (iterator : List Nat)

/-- `SssdEnumerator::new`: a fresh lazy array (with arbitrary junk in the
uninitialized buffers), the source set to distance 0 and enqueued.  `none`
models the out-of-bounds panic of `set` for a source outside the graph. -/
def SssdU.new {ED : Type} (g : DGraph ED) (src : Nat) (junkData : Nat → Nat)
    (junkDI junkRI : Nat → Nat) : Option SssdU :=
  match (LazyArray.new g.n junkData junkDI junkRI).set src 0 with
  | none => none
  | some dist => some (.credit dist [src])

/-- The `for v in graph.neighbors(u, OUT)` relaxation loop of the credit
accumulation phase: set every still-unset neighbor to `newD` and enqueue
it.  `none` models the (unreachable, by `adjwf`) out-of-bounds `set`. -/
def bfsRelax (newD : Nat) :
    List Nat → LazyArray Nat → List Nat → Option (LazyArray Nat × List Nat)
  | [], dist, q => some (dist, q)
  | v :: vs, dist, q =>
      match dist.get v with
      | some _ => bfsRelax newD vs dist q
      | none =>
          match dist.set v newD with
          | none => none
          | some dist2 => bfsRelax newD vs dist2 (q ++ [v])

/-- The `for v in iterator` walk of the output finalization phase: skip
vertices with a set distance, emit the first unset one. -/
def sssdFinalNext (src : Nat) (dist : LazyArray Nat) :
    List Nat → Option SssdPartial × SssdU
  | [] => (none, .final dist [])
  | v :: rest =>
      match dist.get v with
      | some _ => sssdFinalNext src dist rest
      | none => (some (src, v, none), .final dist rest)

/-- `SssdEnumerator::next` of unweighted_lazy.rs.  The outer `Option` is
`none` exactly on the `unwrap_unchecked` of an unset queued distance and on
an out-of-bounds `set`. -/
def SssdU.next {ED : Type} (g : DGraph ED) (src : Nat) :
    SssdU → Option (Option SssdPartial × SssdU)
  | .credit dist queue =>
      match queue with
      | u :: qrest =>
          match dist.get u with
          | none => none
          | some d =>
              match bfsRelax (d + 1) ((g.adj u).map Prod.fst) dist qrest with
              | none => none
              | some r => some (some (src, u, some d), .credit r.1 r.2)
      | [] => some (sssdFinalNext src dist (List.range g.n))
  | .final dist it => some (sssdFinalNext src dist it)

/-- Repeatedly call `next`, collecting the emitted results. -/
def SssdU.drain {ED : Type} (g : DGraph ED) (src : Nat) :
    Nat → SssdU → Option (List SssdPartial)
  | 0, _ => none
  | fuel + 1, s =>
      match SssdU.next g src s with
      | none => none
      | some (none, _) => some []
      | some (some x, s2) => (SssdU.drain g src fuel s2).map (x :: ·)

/-- Hop-reachability: a walk of `d` edges from `src` to `v`. -/
inductive HReach {ED : Type} (g : DGraph ED) (src : Nat) : Nat → Nat → Prop
  | refl : HReach g src src 0
  | step {u d v e} (h : HReach g src u d) (he : (v, e) ∈ g.adj u) :
      HReach g src v (d + 1)

/-- The queued distance of a vertex (0 as a junk default). -/
def dO (dist : LazyArray Nat) (u : Nat) : Nat :=
  (dist.get u).getD 0

/-- The number of vertices with no distance yet. -/
def unsetCount (n : Nat) (dist : LazyArray Nat) : Nat :=
  (List.range n).countP (fun v => (dist.get v).isNone)

theorem set_size {T : Type} (la : LazyArray T) (i : Nat) (v : T)
    (la2 : LazyArray T) (h : la.set i v = some la2) : la2.size = la.size := by
  unfold LazyArray.set at h
  by_cases hsz : la.size ≤ i
  · simp [hsz] at h
  · simp only [hsz, if_false] at h
    obtain rfl : _ = la2 := Option.some_injective _ h
    cases LazyArray.getDataIndex la i <;> rfl

theorem countP_flip (n v : Nat) (f1 f2 : Nat → Bool) (hv : v < n)
    (h1 : f1 v = true) (h2 : f2 v = false)
    (hother : ∀ u, u ≠ v → f2 u = f1 u) :
    (List.range n).countP f2 + 1 = (List.range n).countP f1 := by
  induction n with
  | zero => exact absurd hv (Nat.not_lt_zero v)
  | succ n ih =>
      rw [List.range_succ, List.countP_append, List.countP_append]
      by_cases hvn : v = n
      · subst hvn
        have he : (List.range v).countP f2 = (List.range v).countP f1 := by
          apply List.countP_congr
          intro u hu
          rw [hother u (by simp at hu; omega)]
        simp [List.countP_cons, h1, h2, he]
      · have hv2 : v < n := by
          omega
        have hfn : f2 n = f1 n := hother n (fun h => hvn h.symm)
        have := ih hv2
        simp only [List.countP_cons, List.countP_nil, hfn]
        omega

/-- Full characterization of the BFS relaxation loop: it appends exactly
the previously-unset listed vertices to the queue and sets them to `newD`,
leaving every other distance unchanged. -/
theorem bfsRelax_spec (nd : Nat) :
    ∀ (vs : List Nat) (dist : LazyArray Nat) (q : List Nat),
    (∀ v ∈ vs, v < dist.size) →
    ∃ dist2 qnew,
      bfsRelax nd vs dist q = some (dist2, q ++ qnew) ∧
      dist2.size = dist.size ∧
      (∀ v d, dist.get v = some d → dist2.get v = some d) ∧
      (∀ v, dist.get v = none → ¬ v ∈ vs → dist2.get v = none) ∧
      (∀ v ∈ qnew, dist.get v = none ∧ dist2.get v = some nd ∧ v ∈ vs) ∧
      (∀ v ∈ vs, dist.get v = none → v ∈ qnew) ∧
      qnew.Nodup ∧
      unsetCount dist.size dist2 + qnew.length = unsetCount dist.size dist := by
  intro vs
  induction vs with
  | nil =>
      intro dist q _
      exact ⟨dist, [], by simp [bfsRelax], rfl, fun v d h => h,
        fun v h _ => h, by simp, by simp, List.nodup_nil, by simp⟩
  | cons v vs ih =>
      intro dist q hlt
      cases hget : dist.get v with
      | some d =>
          obtain ⟨dist2, qnew, e1, e2, e3, e4, e5, e6, e7, e8⟩ :=
            ih dist q (fun x hx => hlt x (List.mem_cons_of_mem _ hx))
          refine ⟨dist2, qnew, ?_, e2, e3, ?_, ?_, ?_, e7, e8⟩
          · rw [bfsRelax, hget]
            exact e1
          · intro x hx hnx
            exact e4 x hx (fun hm => hnx (List.mem_cons_of_mem _ hm))
          · intro x hx
            obtain ⟨a, b, c⟩ := e5 x hx
            exact ⟨a, b, List.mem_cons_of_mem _ c⟩
          · intro x hx hnone
            rcases List.mem_cons.mp hx with rfl | hx2
            · rw [hget] at hnone
              exact absurd hnone (by simp)
            · exact e6 x hx2 hnone
      | none =>
          have hvlt : v < dist.size := hlt v (List.mem_cons_self _ _)
          obtain ⟨distv, hsetv⟩ := LazyArray.set_inb dist v nd hvlt
          have hsv : distv.size = dist.size := set_size dist v nd distv hsetv
          have hsame : distv.get v = some nd :=
            LazyArray.get_set_same dist v nd distv hsetv
          have hother : ∀ x, x ≠ v → distv.get x = dist.get x :=
            fun x hx => LazyArray.get_set_other dist v nd distv x hx hsetv
          obtain ⟨dist2, qnew, e1, e2, e3, e4, e5, e6, e7, e8⟩ :=
            ih distv (q ++ [v]) (fun x hx => by
              rw [hsv]
              exact hlt x (List.mem_cons_of_mem _ hx))
          refine ⟨dist2, v :: qnew, ?_, by rw [e2, hsv], ?_, ?_, ?_, ?_, ?_, ?_⟩
          · simp only [bfsRelax, hget, hsetv]
            rw [e1]
            simp
          · intro x d hx
            have hxv : x ≠ v := by
              intro he
              rw [he, hget] at hx
              exact absurd hx (by simp)
            exact e3 x d (by rw [hother x hxv]; exact hx)
          · intro x hx hnx
            have hxv : x ≠ v := fun he => hnx (he ▸ List.mem_cons_self _ _)
            refine e4 x ?_ (fun hm => hnx (List.mem_cons_of_mem _ hm))
            rw [hother x hxv]
            exact hx
          · intro x hx
            rcases List.mem_cons.mp hx with rfl | hx2
            · exact ⟨hget, e3 x nd hsame, List.mem_cons_self _ _⟩
            · obtain ⟨a, b, c⟩ := e5 x hx2
              have hxv : x ≠ v := by
                intro he
                rw [he, hsame] at a
                exact absurd a (by simp)
              rw [hother x hxv] at a
              exact ⟨a, b, List.mem_cons_of_mem _ c⟩
          · intro x hx hnone
            rcases List.mem_cons.mp hx with rfl | hx2
            · exact List.mem_cons_self _ _
            · by_cases hxv : x = v
              · subst hxv
                exact List.mem_cons_self _ _
              · refine List.mem_cons_of_mem _ (e6 x hx2 ?_)
                rw [hother x hxv]
                exact hnone
          · refine List.nodup_cons.mpr ⟨?_, e7⟩
            intro hvm
            obtain ⟨a, -, -⟩ := e5 v hvm
            rw [hsame] at a
            exact absurd a (by simp)
          · have hc : unsetCount dist.size distv + 1 =
                unsetCount dist.size dist := by
              apply countP_flip dist.size v _ _ hvlt
              · rw [hget]
                rfl
              · rw [hsame]
                rfl
              · intro u hu
                rw [hother u hu]
            rw [hsv] at e8
            simp only [List.length_cons]
            omega

/-- Invariant of the BFS credit accumulation phase. -/
structure BfsInv {ED : Type} (g : DGraph ED) (src : Nat)
    (dist : LazyArray Nat) (queue : List Nat) : Prop where
  hsize : dist.size = g.n
  hsrc : dist.get src = some 0
  hqset : ∀ u ∈ queue, (dist.get u).isSome
  hqlt : ∀ u ∈ queue, u < g.n
  hnodup : queue.Nodup
  hpair : List.Pairwise
      (fun a b => dO dist a ≤ dO dist b ∧ dO dist b ≤ dO dist a + 1) queue
  hreach : ∀ v d, dist.get v = some d → HReach g src v d
  hclosed : ∀ u du, dist.get u = some du → ¬ u ∈ queue →
      ∀ p ∈ g.adj u, ∃ dv, dist.get p.1 = some dv ∧ dv ≤ du + 1
  hband : ∀ h, queue.head? = some h →
      ∀ v dv, dist.get v = some dv → dv ≤ dO dist h + 1

theorem pairwise_of_mem {α : Type} {R : α → α → Prop} :
    ∀ {l : List α}, (∀ a ∈ l, ∀ b ∈ l, R a b) → List.Pairwise R l
  | [], _ => List.Pairwise.nil
  | x :: xs, h =>
      List.Pairwise.cons
        (fun b hb => h x (List.mem_cons_self _ _) b (List.mem_cons_of_mem _ hb))
        (pairwise_of_mem (fun a ha b hb =>
          h a (List.mem_cons_of_mem _ ha) b (List.mem_cons_of_mem _ hb)))

/-- Removing one satisfied element: if `p` and `q` agree everywhere on a
duplicate-free list except at `u ∈ l`, where `p` holds and `q` does not,
then filtering by `p` is a permutation of `u` prepended to filtering by
`q`. -/
theorem filter_flip_perm {l : List Nat} (hn : l.Nodup) (u : Nat)
    (hu : u ∈ l) (p q : Nat → Bool) (hpu : p u = true) (hqu : q u = false)
    (hothers : ∀ v ∈ l, v ≠ u → p v = q v) :
    (l.filter p).Perm (u :: l.filter q) := by
  have hperm : l.Perm (u :: l.erase u) := List.perm_cons_erase hu
  have heq : (l.erase u).filter p = (l.erase u).filter q := by
    apply List.filter_congr
    intro v hv
    have hv2 := (List.Nodup.mem_erase_iff hn).mp hv
    rw [hothers v hv2.2 hv2.1]
  have h1 : (l.filter p).Perm ((u :: l.erase u).filter p) := hperm.filter p
  have h2 : (l.filter q).Perm ((u :: l.erase u).filter q) := hperm.filter q
  rw [List.filter_cons, hpu] at h1
  rw [List.filter_cons, hqu] at h2
  simp only [if_true] at h1
  simp only [Bool.false_eq_true, if_false] at h2
  rw [heq] at h1
  exact h1.trans ((h2.symm.cons u).symm).symm

theorem finalNext_none (src : Nat) (dist : LazyArray Nat) :
    ∀ it : List Nat, it.countP (fun v => (dist.get v).isNone) = 0 →
    sssdFinalNext src dist it = (none, SssdU.final dist []) := by
  intro it
  induction it with
  | nil => intro _; rfl
  | cons v rest ih =>
      intro hc
      rw [List.countP_cons] at hc
      cases hget : dist.get v with
      | none =>
          rw [hget] at hc
          simp at hc
      | some d =>
          rw [hget] at hc
          simp only [Option.isNone_some, Bool.false_eq_true, if_false,
            Nat.add_zero] at hc
          rw [sssdFinalNext, hget]
          exact ih hc

theorem finalNext_some (src : Nat) (dist : LazyArray Nat) :
    ∀ it : List Nat, 0 < it.countP (fun v => (dist.get v).isNone) →
    ∃ v rest,
      sssdFinalNext src dist it = (some (src, v, none), .final dist rest) ∧
      dist.get v = none ∧ v ∈ it ∧
      it.filter (fun x => (dist.get x).isNone) =
        v :: rest.filter (fun x => (dist.get x).isNone) ∧
      rest.countP (fun x => (dist.get x).isNone) + 1 =
        it.countP (fun x => (dist.get x).isNone) := by
  intro it
  induction it with
  | nil => intro h; simp at h
  | cons v rest ih =>
      intro hc
      cases hget : dist.get v with
      | none =>
          refine ⟨v, rest, ?_, hget, List.mem_cons_self _ _, ?_, ?_⟩
          · rw [sssdFinalNext, hget]
          · rw [List.filter_cons, hget]
            rfl
          · rw [List.countP_cons, hget]
            rfl
      | some d =>
          rw [List.countP_cons, hget] at hc
          simp only [Option.isNone_some, Bool.false_eq_true, if_false,
            Nat.add_zero] at hc
          obtain ⟨w, rest2, e1, e2, e3, e4, e5⟩ := ih hc
          refine ⟨w, rest2, ?_, e2, List.mem_cons_of_mem _ e3, ?_, ?_⟩
          · rw [sssdFinalNext, hget]
            exact e1
          · rw [List.filter_cons, hget]
            simpa using e4
          · rw [List.countP_cons, hget]
            simpa using e5

theorem finalDrain {ED : Type} (g : DGraph ED) (src : Nat)
    (dist : LazyArray Nat) :
    ∀ fuel (it : List Nat),
    it.countP (fun v => (dist.get v).isNone) < fuel →
    SssdU.drain g src fuel (.final dist it) =
      some ((it.filter (fun v => (dist.get v).isNone)).map
        (fun v => (src, v, (none : Option Nat)))) := by
  intro fuel
  induction fuel with
  | zero => intro it h; omega
  | succ fuel ih =>
      intro it hc
      by_cases hz : it.countP (fun v => (dist.get v).isNone) = 0
      · have he := finalNext_none src dist it hz
        have hf : it.filter (fun v => (dist.get v).isNone) = [] := by
          rw [← List.length_eq_zero]
          rw [← List.countP_eq_length_filter]
          exact hz
        rw [hf]
        simp only [SssdU.drain, SssdU.next, he, List.map_nil]
      · obtain ⟨v, rest, e1, e2, e3, e4, e5⟩ :=
          finalNext_some src dist it (by omega)
        simp only [SssdU.drain, SssdU.next, e1]
        rw [ih rest (by omega), e4]
        rfl

/-- Minimality from closure: a closed distance assignment bounds every
walk. -/
theorem bfs_done_minimal {ED : Type} (g : DGraph ED) (src : Nat)
    (distF : LazyArray Nat) (hsrc : distF.get src = some 0)
    (hclosed : ∀ u du, distF.get u = some du →
      ∀ p ∈ g.adj u, ∃ dv, distF.get p.1 = some dv ∧ dv ≤ du + 1) :
    ∀ v dd, HReach g src v dd → ∃ dv, distF.get v = some dv ∧ dv ≤ dd := by
  intro v dd h
  induction h with
  | refl => exact ⟨0, hsrc, Nat.zero_le _⟩
  | step h he ih =>
      obtain ⟨du, hdu, hle⟩ := ih
      obtain ⟨dv, hdv, hle2⟩ := hclosed _ _ hdu _ he
      exact ⟨dv, hdv, by omega⟩

/-- One credit-accumulation step preserves the BFS invariant. -/
theorem BfsInv_step {ED : Type} (g : DGraph ED) (src : Nat)
    (dist dist2 : LazyArray Nat) (u d : Nat) (qrest qnew : List Nat)
    (hinv : BfsInv g src dist (u :: qrest))
    (hd : dist.get u = some d)
    (e2 : dist2.size = dist.size)
    (e3 : ∀ v dv, dist.get v = some dv → dist2.get v = some dv)
    (e4 : ∀ v, dist.get v = none → ¬ v ∈ (g.adj u).map Prod.fst →
        dist2.get v = none)
    (e5 : ∀ v ∈ qnew, dist.get v = none ∧ dist2.get v = some (d + 1) ∧
        v ∈ (g.adj u).map Prod.fst)
    (e6 : ∀ v ∈ (g.adj u).map Prod.fst, dist.get v = none → v ∈ qnew)
    (e7 : qnew.Nodup) :
    BfsInv g src dist2 (qrest ++ qnew) := by
  have hdu_dO : dO dist u = d := by simp [dO, hd]
  have hqrest_set : ∀ a ∈ qrest, ∃ da, dist.get a = some da := by
    intro a ha
    exact Option.isSome_iff_exists.mp
      (hinv.hqset a (List.mem_cons_of_mem _ ha))
  have hsame_qrest : ∀ a ∈ qrest, dist2.get a = dist.get a := by
    intro a ha
    obtain ⟨da, hda⟩ := hqrest_set a ha
    rw [hda, e3 a da hda]
  have hdO2_qrest : ∀ a ∈ qrest, dO dist2 a = dO dist a := by
    intro a ha
    rw [dO, dO, hsame_qrest a ha]
  have hdO2_qnew : ∀ b ∈ qnew, dO dist2 b = d + 1 := by
    intro b hb
    rw [dO, (e5 b hb).2.1]
    rfl
  have hpair_head : ∀ a ∈ qrest, d ≤ dO dist a ∧ dO dist a ≤ d + 1 := by
    intro a ha
    have := (List.pairwise_cons.mp hinv.hpair).1 a ha
    rw [hdu_dO] at this
    exact this
  have hset2_cases : ∀ v dv, dist2.get v = some dv →
      dist.get v = some dv ∨
        (dist.get v = none ∧ v ∈ qnew ∧ dv = d + 1) := by
    intro v dv hv
    cases hold : dist.get v with
    | some dx =>
        left
        have := e3 v dx hold
        rw [this] at hv
        obtain rfl : dx = dv := Option.some_injective _ hv
        rfl
    | none =>
        right
        by_cases hm : v ∈ (g.adj u).map Prod.fst
        · have hq := e6 v hm hold
          have := (e5 v hq).2.1
          rw [this] at hv
          exact ⟨rfl, hq, (Option.some_injective _ hv).symm⟩
        · rw [e4 v hold hm] at hv
          exact absurd hv (by simp)
  refine ⟨e2.trans hinv.hsize, e3 src 0 hinv.hsrc, ?_, ?_, ?_, ?_, ?_, ?_, ?_⟩
  · intro a ha
    rcases List.mem_append.mp ha with h1 | h2
    · rw [hsame_qrest a h1]
      exact hinv.hqset a (List.mem_cons_of_mem _ h1)
    · rw [(e5 a h2).2.1]
      rfl
  · intro a ha
    rcases List.mem_append.mp ha with h1 | h2
    · exact hinv.hqlt a (List.mem_cons_of_mem _ h1)
    · obtain ⟨p, hp, hpv⟩ := List.mem_map.mp (e5 a h2).2.2
      rw [← hpv]
      exact g.adjwf u p hp
  · refine List.Nodup.append ((List.nodup_cons.mp hinv.hnodup).2) e7 ?_
    intro a ha hb
    obtain ⟨da, hda⟩ := hqrest_set a ha
    rw [(e5 a hb).1] at hda
    exact absurd hda (by simp)
  · rw [List.pairwise_append]
    refine ⟨?_, ?_, ?_⟩
    · refine List.Pairwise.imp_of_mem ?_ (List.pairwise_cons.mp hinv.hpair).2
      intro a b ha hb hab
      rw [hdO2_qrest a ha, hdO2_qrest b hb]
      exact hab
    · refine pairwise_of_mem ?_
      intro a ha b hb
      rw [hdO2_qnew a ha, hdO2_qnew b hb]
      omega
    · intro a ha b hb
      rw [hdO2_qrest a ha, hdO2_qnew b hb]
      have := hpair_head a ha
      omega
  · intro v dv hv
    rcases hset2_cases v dv hv with h1 | ⟨h1, h2, rfl⟩
    · exact hinv.hreach v dv h1
    · obtain ⟨p, hp, hpv⟩ := List.mem_map.mp (e5 v h2).2.2
      cases p with
      | mk pv pe =>
          cases hpv
          exact HReach.step (hinv.hreach u d hd) hp
  · intro u2 du2 hu2 hnm p hp
    have hold : dist.get u2 = some du2 := by
      rcases hset2_cases u2 du2 hu2 with h1 | ⟨-, h2, -⟩
      · exact h1
      · exact absurd (List.mem_append.mpr (Or.inr h2)) hnm
    by_cases huu : u2 = u
    · subst huu
      have hdu2 : du2 = d := by
        rw [hold] at hd
        exact Option.some_injective _ hd
      rw [hdu2]
      have hv : p.1 ∈ (g.adj u2).map Prod.fst := List.mem_map_of_mem _ hp
      cases hgetv : dist.get p.1 with
      | some dv =>
          refine ⟨dv, e3 p.1 dv hgetv, ?_⟩
          have := hinv.hband u2 rfl p.1 dv hgetv
          rw [hdu_dO] at this
          exact this
      | none =>
          have hq := e6 p.1 hv hgetv
          exact ⟨d + 1, (e5 p.1 hq).2.1, Nat.le_refl _⟩
    · have hnm2 : ¬ u2 ∈ u :: qrest := by
        intro hmem
        rcases List.mem_cons.mp hmem with h1 | h1
        · exact huu h1
        · exact hnm (List.mem_append.mpr (Or.inl h1))
      obtain ⟨dv, hdv, hle⟩ := hinv.hclosed u2 du2 hold hnm2 p hp
      exact ⟨dv, e3 p.1 dv hdv, hle⟩
  · intro h hh v dv hv
    have hhm : h ∈ qrest ++ qnew := List.mem_of_mem_head? hh
    have hlow : d ≤ dO dist2 h := by
      rcases List.mem_append.mp hhm with h1 | h2
      · rw [hdO2_qrest h h1]
        exact (hpair_head h h1).1
      · rw [hdO2_qnew h h2]
        omega
    rcases hset2_cases v dv hv with h1 | ⟨-, -, rfl⟩
    · have := hinv.hband u rfl v dv h1
      rw [hdu_dO] at this
      omega
    · omega

theorem drain_credit_empty {ED : Type} (g : DGraph ED) (src : Nat)
    (dist : LazyArray Nat) (fuel : Nat) :
    SssdU.drain g src fuel (.credit dist []) =
      SssdU.drain g src fuel (.final dist (List.range g.n)) := by
  cases fuel with
  | zero => rfl
  | succ fuel => rfl

/-- Main induction for the BFS credit accumulation phase: from any
invariant state, draining succeeds and emits one result per still-open
vertex, sorted, with correct final distances. -/
theorem creditDrain {ED : Type} (g : DGraph ED) (src : Nat) :
    ∀ fuel (dist : LazyArray Nat) (queue : List Nat) (b : Nat),
    BfsInv g src dist queue →
    (∀ u ∈ queue, b ≤ dO dist u) →
    2 * unsetCount g.n dist + queue.length + 2 ≤ fuel →
    ∃ (out : List SssdPartial) (distF : LazyArray Nat),
      SssdU.drain g src fuel (.credit dist queue) = some out ∧
      (∀ v dv, dist.get v = some dv → distF.get v = some dv) ∧
      (∀ v dv, distF.get v = some dv → HReach g src v dv) ∧
      (∀ v dd, HReach g src v dd → ∃ dv, distF.get v = some dv ∧ dv ≤ dd) ∧
      (out.map (fun r => r.2.1)).Perm
        ((List.range g.n).filter
          (fun v => (dist.get v).isNone || decide (v ∈ queue))) ∧
      (∀ r ∈ out, r.1 = src) ∧
      (∀ r ∈ out, ∀ dr, r.2.2 = some dr → distF.get r.2.1 = some dr) ∧
      (∀ r ∈ out, r.2.2 = none → distF.get r.2.1 = none) ∧
      (∃ outS outN, out = outS ++ outN ∧
        (∀ r ∈ outN, r.2.2 = (none : Option Nat)) ∧
        (∀ r ∈ outS, (r.2.2).isSome) ∧
        List.Chain' (· ≤ ·) (b :: outS.map (fun r => (r.2.2).getD 0))) := by
  intro fuel
  induction fuel with
  | zero => intro dist queue b _ _ hfuel; omega
  | succ fuel ih =>
      intro dist queue b hinv hb hfuel
      cases queue with
      | nil =>
          rw [drain_credit_empty]
          have hcount : unsetCount g.n dist =
              (List.range g.n).countP (fun v => (dist.get v).isNone) := rfl
          rw [finalDrain g src dist (fuel + 1) (List.range g.n) (by omega)]
          refine ⟨_, dist, rfl, fun v dv h => h, hinv.hreach,
            bfs_done_minimal g src dist hinv.hsrc
              (fun u du h => hinv.hclosed u du h (by simp)),
            ?_, ?_, ?_, ?_, ?_⟩
          · rw [List.map_map]
            have h1 : ((fun r : SssdPartial => r.2.1) ∘
                (fun v => ((src, v, (none : Option Nat)) : SssdPartial))) =
                id := rfl
            rw [h1, List.map_id]
            have h2 : List.filter
                (fun v => (dist.get v).isNone || decide (v ∈ ([] : List Nat)))
                (List.range g.n) =
                List.filter (fun v => (dist.get v).isNone)
                  (List.range g.n) := by
              apply List.filter_congr
              intro v _
              simp
            rw [h2]
          · intro r hr
            obtain ⟨v, hv, rfl⟩ := List.mem_map.mp hr
            rfl
          · intro r hr dr hdr
            obtain ⟨v, hv, rfl⟩ := List.mem_map.mp hr
            exact absurd hdr (by simp)
          · intro r hr _
            obtain ⟨v, hv, rfl⟩ := List.mem_map.mp hr
            have := (List.mem_filter.mp hv).2
            simpa using this
          · refine ⟨[], _, rfl, ?_, by simp, by simp⟩
            intro r hr
            obtain ⟨v, hv, rfl⟩ := List.mem_map.mp hr
            rfl
      | cons u qrest =>
          obtain ⟨d, hd⟩ := Option.isSome_iff_exists.mp
            (hinv.hqset u (List.mem_cons_self _ _))
          have hbounds : ∀ v ∈ (g.adj u).map Prod.fst, v < dist.size := by
            intro v hv
            obtain ⟨p, hp, rfl⟩ := List.mem_map.mp hv
            rw [hinv.hsize]
            exact g.adjwf u p hp
          obtain ⟨dist2, qnew, e1, e2, e3, e4, e5, e6, e7, e8⟩ :=
            bfsRelax_spec (d + 1) ((g.adj u).map Prod.fst) dist qrest hbounds
          have hinv2 : BfsInv g src dist2 (qrest ++ qnew) :=
            BfsInv_step g src dist dist2 u d qrest qnew hinv hd e2 e3 e4 e5
              e6 e7
          have hdu_dO : dO dist u = d := by simp [dO, hd]
          have hb2 : ∀ a ∈ qrest ++ qnew, d ≤ dO dist2 a := by
            intro a ha
            rcases List.mem_append.mp ha with h1 | h2
            · obtain ⟨da, hda⟩ := Option.isSome_iff_exists.mp
                (hinv.hqset a (List.mem_cons_of_mem _ h1))
              have h3 := (List.pairwise_cons.mp hinv.hpair).1 a h1
              rw [hdu_dO] at h3
              rw [dO, e3 a da hda]
              rw [dO, hda] at h3
              exact h3.1
            · rw [dO, (e5 a h2).2.1]
              simp
          have hfuel2 : 2 * unsetCount g.n dist2 +
              (qrest ++ qnew).length + 2 ≤ fuel := by
            have e8b : unsetCount g.n dist2 + qnew.length =
                unsetCount g.n dist := by
              rw [← hinv.hsize]
              exact e8
            simp only [List.length_append]
            simp only [List.length_cons] at hfuel
            omega
          obtain ⟨out2, distF, ihdrain, ihpersist, ihreach, ihmin, ihperm,
            ihsrc, ihsome, ihnone, outS2, outN2, hdec, hN2, hS2, hchain⟩ :=
            ih dist2 (qrest ++ qnew) d hinv2 hb2 hfuel2
          have hnq_of_set : ∀ v dv, dist.get v = some dv → ¬ v ∈ qnew := by
            intro v dv hv hm
            have := (e5 v hm).1
            rw [hv] at this
            exact absurd this (by simp)
          have hflip := filter_flip_perm (List.nodup_range g.n) u
            (List.mem_range.mpr (hinv.hqlt u (List.mem_cons_self _ _)))
            (fun v => (dist.get v).isNone || decide (v ∈ u :: qrest))
            (fun v => (dist2.get v).isNone || decide (v ∈ qrest ++ qnew))
            (by simp)
            (by
              have h1 : dist2.get u = some d := e3 u d hd
              have h2 : ¬ u ∈ qrest := (List.nodup_cons.mp hinv.hnodup).1
              have h3 : ¬ u ∈ qnew := hnq_of_set u d hd
              simp [h1, h2, h3])
            (by
              intro v _ hvne
              cases hold : dist.get v with
              | some dx =>
                  have hnq := hnq_of_set v dx hold
                  simp only [hold, e3 v dx hold, Option.isNone_some,
                    Bool.false_or]
                  rw [decide_eq_decide]
                  simp [List.mem_cons, List.mem_append, hvne, hnq]
              | none =>
                  simp only [hold, Option.isNone_none, Bool.true_or]
                  by_cases hm : v ∈ (g.adj u).map Prod.fst
                  · have := e6 v hm hold
                    simp [List.mem_append, this]
                  · simp [e4 v hold hm])
          refine ⟨(src, u, some d) :: out2, distF, ?_,
            fun v dv h => ihpersist v dv (e3 v dv h), ihreach, ihmin,
            ?_, ?_, ?_, ?_, ?_⟩
          · simp only [SssdU.drain, SssdU.next, hd, e1]
            rw [ihdrain]
            rfl
          · simp only [List.map_cons]
            exact (ihperm.cons u).trans hflip.symm
          · intro r hr
            rcases List.mem_cons.mp hr with rfl | h2
            · rfl
            · exact ihsrc r h2
          · intro r hr dr hdr
            rcases List.mem_cons.mp hr with rfl | h2
            · obtain rfl : d = dr := Option.some_injective _ hdr
              exact ihpersist u d (e3 u d hd)
            · exact ihsome r h2 dr hdr
          · intro r hr hnone
            rcases List.mem_cons.mp hr with rfl | h2
            · exact absurd hnone (by simp)
            · exact ihnone r h2 hnone
          · refine ⟨(src, u, some d) :: outS2, outN2, ?_, hN2, ?_, ?_⟩
            · rw [hdec]
              rfl
            · intro r hr
              rcases List.mem_cons.mp hr with rfl | h2
              · rfl
              · exact hS2 r h2
            · simp only [List.map_cons, Option.getD_some]
              rw [List.chain'_cons]
              refine ⟨?_, hchain⟩
              have := hb u (List.mem_cons_self _ _)
              rw [hdu_dO] at this
              exact this

theorem BfsInv_new {ED : Type} (g : DGraph ED) (src : Nat)
    (hsrc : src < g.n) (junkData : Nat → Nat) (junkDI junkRI : Nat → Nat) :
    ∃ dist0, SssdU.new g src junkData junkDI junkRI =
        some (.credit dist0 [src]) ∧
      BfsInv g src dist0 [src] ∧
      ∀ v, v ≠ src → dist0.get v = none := by
  have hlt : src < (LazyArray.new g.n junkData junkDI junkRI).size := hsrc
  obtain ⟨dist0, hset⟩ :=
    LazyArray.set_inb (LazyArray.new g.n junkData junkDI junkRI) src 0 hlt
  have hsz : dist0.size = g.n := set_size _ _ _ _ hset
  have hgs : dist0.get src = some 0 := LazyArray.get_set_same _ _ _ _ hset
  have hgo : ∀ v, v ≠ src → dist0.get v = none := by
    intro v hv
    rw [LazyArray.get_set_other _ _ _ _ v hv hset]
    exact LazyArray.get_new _ _ _ _ v
  have hchar : ∀ v dv, dist0.get v = some dv → v = src ∧ dv = 0 := by
    intro v dv hv
    by_cases hvs : v = src
    · subst hvs
      rw [hgs] at hv
      exact ⟨rfl, (Option.some_injective _ hv).symm⟩
    · rw [hgo v hvs] at hv
      exact absurd hv (by simp)
  refine ⟨dist0, ?_, ⟨hsz, hgs, ?_, ?_, ?_, ?_, ?_, ?_, ?_⟩, hgo⟩
  · rw [SssdU.new, hset]
  · intro a ha
    obtain rfl : a = src := by simpa using ha
    rw [hgs]
    rfl
  · intro a ha
    obtain rfl : a = src := by simpa using ha
    exact hsrc
  · exact List.nodup_singleton _
  · exact List.pairwise_singleton _ _
  · intro v dv hv
    obtain ⟨rfl, rfl⟩ := hchar v dv hv
    exact HReach.refl
  · intro u du hu hnm p hp
    obtain ⟨rfl, rfl⟩ := hchar u du hu
    exact absurd (List.mem_singleton.mpr rfl) hnm
  · intro h hh v dv hv
    obtain ⟨rfl, rfl⟩ := hchar v dv hv
    omega

/-- What claim C2 asserts of a drained SSSD enumeration: one result per
vertex, correct (shortest) distances, and reachable results first, sorted
by distance. -/
def SssdOutputOk (n src : Nat) (R : Nat → Nat → Prop)
    (out : List SssdPartial) : Prop :=
  (out.map (fun r => r.2.1)).Perm (List.range n) ∧
  (∀ r ∈ out, r.1 = src) ∧
  (∀ v d, (src, v, some d) ∈ out → R v d ∧ ∀ d2, R v d2 → d ≤ d2) ∧
  (∀ v, (src, v, none) ∈ out → ∀ d2, ¬ R v d2) ∧
  ∃ outS outN, out = outS ++ outN ∧
    (∀ r ∈ outN, r.2.2 = (none : Option Nat)) ∧
    (∀ r ∈ outS, (r.2.2).isSome) ∧
    List.Chain' (· ≤ ·) (outS.map (fun r => (r.2.2).getD 0))

/-- The unweighted half of C2, over every graph and source. -/
theorem sssdU_correct {ED : Type} (g : DGraph ED) (src fuel : Nat)
    (hsrc : src < g.n) (junkData : Nat → Nat) (junkDI junkRI : Nat → Nat)
    (hfuel : 2 * g.n + 3 ≤ fuel) :
    ∃ s0 out, SssdU.new g src junkData junkDI junkRI = some s0 ∧
      SssdU.drain g src fuel s0 = some out ∧
      SssdOutputOk g.n src (HReach g src) out := by
  obtain ⟨dist0, hnew, hinv, hunset⟩ :=
    BfsInv_new g src hsrc junkData junkDI junkRI
  have hcb : unsetCount g.n dist0 ≤ g.n := by
    have := List.countP_le_length
      (p := fun v => (dist0.get v).isNone) (l := List.range g.n)
    simpa [unsetCount] using this
  obtain ⟨out, distF, hdrain, hpersist, hreachF, hmin, hperm, hsrcR, hsome,
    hnone, outS, outN, hdec, hN, hS, hchain⟩ :=
    creditDrain g src fuel dist0 [src] 0 hinv (fun u _ => Nat.zero_le _)
      (by simp only [List.length_singleton]; omega)
  refine ⟨_, out, hnew, hdrain, ?_, hsrcR, ?_, ?_, outS, outN, hdec, hN, hS,
    hchain.tail⟩
  · have hfe : (List.range g.n).filter
        (fun v => (dist0.get v).isNone || decide (v ∈ [src])) =
        List.range g.n := by
      apply List.filter_eq_self.mpr
      intro v hv
      by_cases hvs : v = src
      · simp [hvs]
      · simp [hunset v hvs]
    rw [hfe] at hperm
    exact hperm
  · intro v d hm
    have hdF : distF.get v = some d := hsome (src, v, some d) hm d rfl
    refine ⟨hreachF v d hdF, ?_⟩
    intro d2 h2
    obtain ⟨dv, hdv, hle⟩ := hmin v d2 h2
    rw [hdF] at hdv
    obtain rfl : dv = d := (Option.some_injective _ hdv).symm
    exact hle
  · intro v hm d2 h2
    have hdF : distF.get v = none := hnone (src, v, none) hm rfl
    obtain ⟨dv, hdv, -⟩ := hmin v d2 h2
    rw [hdF] at hdv
    exact absurd hdv (by simp)

/-! ### Weighted SSSD (sssd/weighted.rs): incremental Dijkstra -/

/-- The derived lexicographic order on heap entries `(distance, vertex)`
(the `Ord` of the tuple, used by the `MinComparator` min-heap). -/
def lexLe (a b : Nat × Nat) : Prop :=
  a.1 < b.1 ∨ (a.1 = b.1 ∧ a.2 ≤ b.2)

instance (a b : Nat × Nat) : Decidable (lexLe a b) := by
  unfold lexLe
  infer_instance

/-- Model of `BinaryHeap::push` of the binary_heap_plus min-heap over the
total order `lexLe` (code outside this repository): the entries are kept
sorted and `pop` takes the head, which is observationally any min-heap. -/
def heapPush (e : Nat × Nat) : List (Nat × Nat) → List (Nat × Nat)
  | [] => [e]
  | x :: xs => if lexLe e x then e :: x :: xs else x :: heapPush e xs

/-- State of the weighted (Dijkstra-based) `SssdEnumerator`; the
`Undefined` variant is a transient `mem::take` artifact and not modelled. -/
inductive SssdW where
  | credit (distances : List (Option Nat)) (pq : List (Nat × Nat))
  | final (distances : List (Option Nat)) (iterator : List Nat)

/-- `SssdEnumerator::new` of weighted.rs; `none` models the out-of-bounds
index panic for a source outside the graph. -/
def SssdW.new (g : DGraph Nat) (src : Nat) : Option SssdW :=
  if src < g.n then
    some (.credit ((List.replicate g.n none).set src (some 0))
      (heapPush (0, src) []))
  else none

/-- The `for (v, w) in graph.adjacencies(u, OUT)` relaxation loop: improve
a distance whenever `new_d` beats the stored one, pushing the new entry.
(Sinks are in bounds by `adjwf`, so the indexing never panics.) -/
def dijkstraRelax (d : Nat) :
    List (Nat × Nat) → List (Option Nat) → List (Nat × Nat) →
    List (Option Nat) × List (Nat × Nat)
  | [], dist, pq => (dist, pq)
  | (v, w) :: rest, dist, pq =>
      match dist.getD v none with
      | none =>
          dijkstraRelax d rest (dist.set v (some (d + w)))
            (heapPush (d + w, v) pq)
      | some old =>
          if d + w < old then
            dijkstraRelax d rest (dist.set v (some (d + w)))
              (heapPush (d + w, v) pq)
          else dijkstraRelax d rest dist pq

/-- The `while let Some((d, u)) = priority_queue.pop()` loop: skip entries
deprecated by a later decrease-key, emit the first current one.  The outer
`none` is the `unwrap_unchecked` of an unset popped distance. -/
def dijkstraPop (g : DGraph Nat) (src : Nat) :
    List (Option Nat) → List (Nat × Nat) →
    Option (Option (SssdPartial × (List (Option Nat) × List (Nat × Nat))))
  | _, [] => some none
  | dist, (d, u) :: rest =>
      match dist.getD u none with
      | none => none
      | some du =>
          if du < d then dijkstraPop g src dist rest
          else
            some (some ((src, u, some d),
              dijkstraRelax d (g.adj u) dist rest))

/-- The output finalization walk of weighted.rs. -/
def sssdWFinalNext (src : Nat) (dist : List (Option Nat)) :
    List Nat → Option SssdPartial × SssdW
  | [] => (none, .final dist [])
  | v :: rest =>
      match dist.getD v none with
      | some _ => sssdWFinalNext src dist rest
      | none => (some (src, v, none), .final dist rest)

/-- `SssdEnumerator::next` of weighted.rs. -/
def SssdW.next (g : DGraph Nat) (src : Nat) :
    SssdW → Option (Option SssdPartial × SssdW)
  | .credit dist pq =>
      match dijkstraPop g src dist pq with
      | none => none
      | some (some (x, r)) => some (some x, .credit r.1 r.2)
      | some none => some (sssdWFinalNext src dist (List.range g.n))
  | .final dist it => some (sssdWFinalNext src dist it)

/-- Repeatedly call `next`, collecting the emitted results. -/
def SssdW.drain (g : DGraph Nat) (src : Nat) :
    Nat → SssdW → Option (List SssdPartial)
  | 0, _ => none
  | fuel + 1, s =>
      match SssdW.next g src s with
      | none => none
      | some (none, _) => some []
      | some (some x, s2) => (SssdW.drain g src fuel s2).map (x :: ·)

/-- Weighted reachability: a walk from `src` to `v` of total weight `c`. -/
inductive WReach (g : DGraph Nat) (src : Nat) : Nat → Nat → Prop
  | refl : WReach g src src 0
  | step {u c v w} (h : WReach g src u c) (he : (v, w) ∈ g.adj u) :
      WReach g src v (c + w)

theorem lexLe_total (a b : Nat × Nat) : lexLe a b ∨ lexLe b a := by
  unfold lexLe
  omega

theorem lexLe_trans {a b c : Nat × Nat} (h1 : lexLe a b) (h2 : lexLe b c) :
    lexLe a c := by
  unfold lexLe at h1 h2 ⊢
  omega

theorem heapPush_perm (e : Nat × Nat) :
    ∀ pq : List (Nat × Nat), (heapPush e pq).Perm (e :: pq)
  | [] => List.Perm.refl _
  | x :: xs => by
      rw [heapPush]
      by_cases h : lexLe e x
      · rw [if_pos h]
      · rw [if_neg h]
        exact ((heapPush_perm e xs).cons x).trans (List.Perm.swap e x xs)

theorem heapPush_mem {e2 e : Nat × Nat} {pq : List (Nat × Nat)} :
    e2 ∈ heapPush e pq ↔ e2 = e ∨ e2 ∈ pq := by
  rw [(heapPush_perm e pq).mem_iff]
  simp

theorem heapPush_sorted (e : Nat × Nat) :
    ∀ pq : List (Nat × Nat), List.Pairwise lexLe pq →
    List.Pairwise lexLe (heapPush e pq)
  | [], _ => List.pairwise_singleton _ _
  | x :: xs, h => by
      rw [heapPush]
      obtain ⟨hx, hxs⟩ := List.pairwise_cons.mp h
      by_cases he : lexLe e x
      · rw [if_pos he]
        refine List.Pairwise.cons ?_ h
        intro b hb
        rcases List.mem_cons.mp hb with rfl | hb2
        · exact he
        · exact lexLe_trans he (hx b hb2)
      · rw [if_neg he]
        refine List.Pairwise.cons ?_ (heapPush_sorted e xs hxs)
        intro b hb
        rcases heapPush_mem.mp hb with rfl | hb2
        · rcases lexLe_total b x with h1 | h1
          · exact absurd h1 he
          · exact h1
        · exact hx b hb2

theorem heapPush_countP (e : Nat × Nat) (pq : List (Nat × Nat))
    (p : Nat × Nat → Bool) :
    (heapPush e pq).countP p =
      pq.countP p + (if p e then 1 else 0) := by
  rw [(heapPush_perm e pq).countP_eq]
  rw [List.countP_cons]

theorem getD_set_eq (l : List (Option Nat)) (v : Nat) (x : Option Nat)
    (h : v < l.length) : (l.set v x).getD v none = x := by
  rw [List.getD_eq_getElem?_getD, List.getElem?_set]
  simp [h]

theorem getD_set_ne (l : List (Option Nat)) (v u : Nat) (x : Option Nat)
    (h : u ≠ v) : (l.set v x).getD u none = l.getD u none := by
  rw [List.getD_eq_getElem?_getD, List.getElem?_set,
    if_neg (show ¬ v = u from fun hh => h hh.symm),
    ← List.getD_eq_getElem?_getD]

theorem relax_cons_update {d v w : Nat} {rest : List (Nat × Nat)}
    {dist : List (Option Nat)} {pq : List (Nat × Nat)}
    (h : dist.getD v none = none ∨
      ∃ old, dist.getD v none = some old ∧ d + w < old) :
    dijkstraRelax d ((v, w) :: rest) dist pq =
      dijkstraRelax d rest (dist.set v (some (d + w)))
        (heapPush (d + w, v) pq) := by
  rcases h with h | ⟨old, h, hlt⟩
  · simp only [dijkstraRelax, h]
  · simp only [dijkstraRelax, h, if_pos hlt]

theorem relax_cons_skip {d v w : Nat} {rest : List (Nat × Nat)}
    {dist : List (Option Nat)} {pq : List (Nat × Nat)} {old : Nat}
    (h : dist.getD v none = some old) (hge : ¬ d + w < old) :
    dijkstraRelax d ((v, w) :: rest) dist pq =
      dijkstraRelax d rest dist pq := by
  simp only [dijkstraRelax, h, if_neg hge]

/-- Distance-side characterization of the Dijkstra relaxation loop. -/
theorem dijkstraRelax_dist (d : Nat) :
    ∀ (l : List (Nat × Nat)) (dist : List (Option Nat))
      (pq : List (Nat × Nat)),
    (∀ p ∈ l, p.1 < dist.length) →
    (dijkstraRelax d l dist pq).1.length = dist.length ∧
    (∀ v dv, dist.getD v none = some dv →
      ∃ dv2, (dijkstraRelax d l dist pq).1.getD v none = some dv2 ∧
        dv2 ≤ dv) ∧
    (∀ v dv2, (dijkstraRelax d l dist pq).1.getD v none = some dv2 →
      dist.getD v none = some dv2 ∨ ∃ w, (v, w) ∈ l ∧ dv2 = d + w) ∧
    (∀ v dv, dist.getD v none = some dv →
      (∀ w, (v, w) ∈ l → dv ≤ d + w) →
      (dijkstraRelax d l dist pq).1.getD v none = some dv) ∧
    (∀ p ∈ l, ∃ dv, (dijkstraRelax d l dist pq).1.getD p.1 none = some dv ∧
      dv ≤ d + p.2) := by
  intro l
  induction l with
  | nil =>
      intro dist pq _
      exact ⟨rfl, fun v dv h => ⟨dv, h, Nat.le_refl _⟩,
        fun v dv2 h => Or.inl h, fun v dv h _ => h, by simp⟩
  | cons p rest ih =>
      obtain ⟨v, w⟩ := p
      intro dist pq hb
      have hvlt : v < dist.length := hb (v, w) (List.mem_cons_self _ _)
      have hbrest : ∀ q ∈ rest, q.1 < (dist.set v (some (d + w))).length := by
        intro q hq
        rw [List.length_set]
        exact hb q (List.mem_cons_of_mem _ hq)
      have hset_eq : (dist.set v (some (d + w))).getD v none =
          some (d + w) := getD_set_eq dist v _ hvlt
      have hset_ne : ∀ u, u ≠ v →
          (dist.set v (some (d + w))).getD u none = dist.getD u none :=
        fun u hu => getD_set_ne dist v u _ hu
      cases hold : dist.getD v none with
      | none =>
          rw [relax_cons_update (Or.inl hold)]
          obtain ⟨i1, i2, i3, i4, i5⟩ :=
            ih (dist.set v (some (d + w))) (heapPush (d + w, v) pq) hbrest
          refine ⟨by rw [i1, List.length_set], ?_, ?_, ?_, ?_⟩
          · intro x dx hx
            have hxv : x ≠ v := by
              intro he
              rw [he, hold] at hx
              exact absurd hx (by simp)
            exact i2 x dx (by rw [hset_ne x hxv]; exact hx)
          · intro x dx2 hx
            rcases i3 x dx2 hx with h1 | ⟨w2, hw2, he⟩
            · by_cases hxv : x = v
              · subst hxv
                rw [hset_eq] at h1
                exact Or.inr ⟨w, List.mem_cons_self _ _,
                  (Option.some_injective _ h1).symm⟩
              · rw [hset_ne x hxv] at h1
                exact Or.inl h1
            · exact Or.inr ⟨w2, List.mem_cons_of_mem _ hw2, he⟩
          · intro x dx hx hbound
            have hxv : x ≠ v := by
              intro he
              rw [he, hold] at hx
              exact absurd hx (by simp)
            refine i4 x dx (by rw [hset_ne x hxv]; exact hx) ?_
            intro w2 hw2
            exact hbound w2 (List.mem_cons_of_mem _ hw2)
          · intro q hq
            rcases List.mem_cons.mp hq with rfl | hq2
            · obtain ⟨dv2, h1, h2⟩ := i2 v (d + w) hset_eq
              exact ⟨dv2, h1, h2⟩
            · exact i5 q hq2
      | some old =>
          by_cases hlt : d + w < old
          · rw [relax_cons_update (Or.inr ⟨old, hold, hlt⟩)]
            obtain ⟨i1, i2, i3, i4, i5⟩ :=
              ih (dist.set v (some (d + w))) (heapPush (d + w, v) pq) hbrest
            refine ⟨by rw [i1, List.length_set], ?_, ?_, ?_, ?_⟩
            · intro x dx hx
              by_cases hxv : x = v
              · subst hxv
                rw [hold] at hx
                obtain rfl : old = dx := Option.some_injective _ hx
                obtain ⟨dv2, h1, h2⟩ := i2 x (d + w) hset_eq
                exact ⟨dv2, h1, by omega⟩
              · exact i2 x dx (by rw [hset_ne x hxv]; exact hx)
            · intro x dx2 hx
              rcases i3 x dx2 hx with h1 | ⟨w2, hw2, he⟩
              · by_cases hxv : x = v
                · subst hxv
                  rw [hset_eq] at h1
                  exact Or.inr ⟨w, List.mem_cons_self _ _,
                    (Option.some_injective _ h1).symm⟩
                · rw [hset_ne x hxv] at h1
                  exact Or.inl h1
              · exact Or.inr ⟨w2, List.mem_cons_of_mem _ hw2, he⟩
            · intro x dx hx hbound
              by_cases hxv : x = v
              · subst hxv
                rw [hold] at hx
                obtain rfl : old = dx := Option.some_injective _ hx
                have := hbound w (List.mem_cons_self _ _)
                omega
              · refine i4 x dx (by rw [hset_ne x hxv]; exact hx) ?_
                intro w2 hw2
                exact hbound w2 (List.mem_cons_of_mem _ hw2)
            · intro q hq
              rcases List.mem_cons.mp hq with rfl | hq2
              · obtain ⟨dv2, h1, h2⟩ := i2 v (d + w) hset_eq
                exact ⟨dv2, h1, h2⟩
              · exact i5 q hq2
          · rw [relax_cons_skip hold hlt]
            obtain ⟨i1, i2, i3, i4, i5⟩ := ih dist pq
              (fun q hq => hb q (List.mem_cons_of_mem _ hq))
            refine ⟨i1, i2, ?_, ?_, ?_⟩
            · intro x dx2 hx
              rcases i3 x dx2 hx with h1 | ⟨w2, hw2, he⟩
              · exact Or.inl h1
              · exact Or.inr ⟨w2, List.mem_cons_of_mem _ hw2, he⟩
            · intro x dx hx hbound
              refine i4 x dx hx ?_
              intro w2 hw2
              exact hbound w2 (List.mem_cons_of_mem _ hw2)
            · intro q hq
              rcases List.mem_cons.mp hq with rfl | hq2
              · obtain ⟨dv2, h1, h2⟩ := i2 v old hold
                exact ⟨dv2, h1, by omega⟩
              · exact i5 q hq2

/-- Queue-side characterization of the Dijkstra relaxation loop. -/
theorem dijkstraRelax_pq (d : Nat) :
    ∀ (l : List (Nat × Nat)) (dist : List (Option Nat))
      (pq : List (Nat × Nat)),
    (∀ e ∈ pq, e ∈ (dijkstraRelax d l dist pq).2) ∧
    (∀ e ∈ (dijkstraRelax d l dist pq).2,
      e ∈ pq ∨ ∃ w, (e.2, w) ∈ l ∧ e.1 = d + w) ∧
    (List.Pairwise lexLe pq →
      List.Pairwise lexLe (dijkstraRelax d l dist pq).2) := by
  intro l
  induction l with
  | nil =>
      intro dist pq
      exact ⟨fun e he => he, fun e he => Or.inl he, fun h => h⟩
  | cons p rest ih =>
      obtain ⟨v, w⟩ := p
      intro dist pq
      have hstep : ∀ (dist2 : List (Option Nat)),
          (∀ e ∈ heapPush (d + w, v) pq,
            e ∈ (dijkstraRelax d rest dist2 (heapPush (d + w, v) pq)).2) →
          (∀ e ∈ (dijkstraRelax d rest dist2 (heapPush (d + w, v) pq)).2,
            e ∈ heapPush (d + w, v) pq ∨ ∃ w2, (e.2, w2) ∈ rest ∧
              e.1 = d + w2) →
          (List.Pairwise lexLe (heapPush (d + w, v) pq) →
            List.Pairwise lexLe
              (dijkstraRelax d rest dist2 (heapPush (d + w, v) pq)).2) →
          (∀ e ∈ pq,
            e ∈ (dijkstraRelax d rest dist2 (heapPush (d + w, v) pq)).2) ∧
          (∀ e ∈ (dijkstraRelax d rest dist2 (heapPush (d + w, v) pq)).2,
            e ∈ pq ∨ ∃ w2, (e.2, w2) ∈ (v, w) :: rest ∧ e.1 = d + w2) ∧
          (List.Pairwise lexLe pq →
            List.Pairwise lexLe
              (dijkstraRelax d rest dist2 (heapPush (d + w, v) pq)).2) := by
        intro dist2 i1 i2 i3
        refine ⟨?_, ?_, ?_⟩
        · intro e he
          exact i1 e (heapPush_mem.mpr (Or.inr he))
        · intro e he
          rcases i2 e he with h1 | ⟨w2, hw2, he2⟩
          · rcases heapPush_mem.mp h1 with rfl | h2
            · exact Or.inr ⟨w, List.mem_cons_self _ _, rfl⟩
            · exact Or.inl h2
          · exact Or.inr ⟨w2, List.mem_cons_of_mem _ hw2, he2⟩
        · intro hs
          exact i3 (heapPush_sorted _ pq hs)
      cases hold : dist.getD v none with
      | none =>
          rw [relax_cons_update (Or.inl hold)]
          obtain ⟨i1, i2, i3⟩ := ih (dist.set v (some (d + w)))
            (heapPush (d + w, v) pq)
          exact hstep _ i1 i2 i3
      | some old =>
          by_cases hlt : d + w < old
          · rw [relax_cons_update (Or.inr ⟨old, hold, hlt⟩)]
            obtain ⟨i1, i2, i3⟩ := ih (dist.set v (some (d + w)))
              (heapPush (d + w, v) pq)
            exact hstep _ i1 i2 i3
          · rw [relax_cons_skip hold hlt]
            obtain ⟨i1, i2, i3⟩ := ih dist pq
            refine ⟨i1, ?_, i3⟩
            intro e he
            rcases i2 e he with h1 | ⟨w2, hw2, he2⟩
            · exact Or.inl h1
            · exact Or.inr ⟨w2, List.mem_cons_of_mem _ hw2, he2⟩

/-- Label/entry bookkeeping of the Dijkstra relaxation loop: entry keys
stay above the current labels, the current-label entry of each vertex
stays unique, and a changed label owns an entry. -/
theorem dijkstraRelax_lab (d : Nat) :
    ∀ (l : List (Nat × Nat)) (dist : List (Option Nat))
      (pq : List (Nat × Nat)),
    (∀ p ∈ l, p.1 < dist.length) →
    (∀ e ∈ pq, ∃ du, dist.getD e.2 none = some du ∧ du ≤ e.1) →
    (∀ v dv, dist.getD v none = some dv →
      pq.countP (fun e => e = (dv, v)) ≤ 1) →
    (∀ e ∈ (dijkstraRelax d l dist pq).2, ∃ du,
      (dijkstraRelax d l dist pq).1.getD e.2 none = some du ∧ du ≤ e.1) ∧
    (∀ v dv, (dijkstraRelax d l dist pq).1.getD v none = some dv →
      (dijkstraRelax d l dist pq).2.countP (fun e => e = (dv, v)) ≤ 1) ∧
    (∀ v dv2, (dijkstraRelax d l dist pq).1.getD v none = some dv2 →
      dist.getD v none = some dv2 ∨
        (dv2, v) ∈ (dijkstraRelax d l dist pq).2) := by
  intro l
  induction l with
  | nil =>
      intro dist pq _ hval hcnt
      exact ⟨hval, hcnt, fun v dv2 h => Or.inl h⟩
  | cons p rest ih =>
      obtain ⟨v, w⟩ := p
      intro dist pq hb hval hcnt
      have hvlt : v < dist.length := hb (v, w) (List.mem_cons_self _ _)
      have hbrest : ∀ q ∈ rest, q.1 < (dist.set v (some (d + w))).length := by
        intro q hq
        rw [List.length_set]
        exact hb q (List.mem_cons_of_mem _ hq)
      have hset_eq : (dist.set v (some (d + w))).getD v none =
          some (d + w) := getD_set_eq dist v _ hvlt
      have hset_ne : ∀ u, u ≠ v →
          (dist.set v (some (d + w))).getD u none = dist.getD u none :=
        fun u hu => getD_set_ne dist v u _ hu
      have hstep : ∀ (hnoentry : pq.countP
            (fun e => e = (d + w, v)) = 0)
          (hvalstep : ∀ e ∈ heapPush (d + w, v) pq, ∃ du,
            (dist.set v (some (d + w))).getD e.2 none = some du ∧
              du ≤ e.1),
          (∀ e ∈ (dijkstraRelax d rest (dist.set v (some (d + w)))
              (heapPush (d + w, v) pq)).2, ∃ du,
            (dijkstraRelax d rest (dist.set v (some (d + w)))
              (heapPush (d + w, v) pq)).1.getD e.2 none = some du ∧
              du ≤ e.1) ∧
          (∀ x dx, (dijkstraRelax d rest (dist.set v (some (d + w)))
              (heapPush (d + w, v) pq)).1.getD x none = some dx →
            (dijkstraRelax d rest (dist.set v (some (d + w)))
              (heapPush (d + w, v) pq)).2.countP
                (fun e => e = (dx, x)) ≤ 1) ∧
          (∀ x dx2, (dijkstraRelax d rest (dist.set v (some (d + w)))
              (heapPush (d + w, v) pq)).1.getD x none = some dx2 →
            (dist.set v (some (d + w))).getD x none = some dx2 ∨
              (dx2, x) ∈ (dijkstraRelax d rest (dist.set v (some (d + w)))
                (heapPush (d + w, v) pq)).2) := by
        intro hnoentry hvalstep
        refine ih (dist.set v (some (d + w))) (heapPush (d + w, v) pq)
          hbrest hvalstep ?_
        intro x dx hx
        rw [heapPush_countP]
        by_cases hxv : x = v
        · subst hxv
          rw [hset_eq] at hx
          obtain rfl : d + w = dx := Option.some_injective _ hx
          rw [hnoentry]
          simp
        · rw [hset_ne x hxv] at hx
          have h1 := hcnt x dx hx
          have h2 : ((d + w, v) = (dx, x)) = False := by
            simp
            intro _ h3
            exact absurd h3.symm hxv
          rw [if_neg (by simp [h2])]
          omega
      cases hold : dist.getD v none with
      | none =>
          rw [relax_cons_update (Or.inl hold)]
          have hnoentry : pq.countP (fun e => e = (d + w, v)) = 0 := by
            rw [List.countP_eq_zero]
            intro e he hee
            obtain rfl : e = (d + w, v) := by simpa using hee
            obtain ⟨du, hdu, -⟩ := hval _ he
            rw [hold] at hdu
            exact absurd hdu (by simp)
          have hvalstep : ∀ e ∈ heapPush (d + w, v) pq, ∃ du,
              (dist.set v (some (d + w))).getD e.2 none = some du ∧
                du ≤ e.1 := by
            intro e he
            rcases heapPush_mem.mp he with rfl | h2
            · exact ⟨d + w, hset_eq, Nat.le_refl _⟩
            · obtain ⟨du, hdu, hle⟩ := hval e h2
              by_cases hev : e.2 = v
              · rw [hev, hold] at hdu
                exact absurd hdu (by simp)
              · exact ⟨du, by rw [hset_ne e.2 hev]; exact hdu, hle⟩
          obtain ⟨j1, j2, j3⟩ := hstep hnoentry hvalstep
          refine ⟨j1, j2, ?_⟩
          intro x dx2 hx
          rcases j3 x dx2 hx with h1 | h2
          · by_cases hxv : x = v
            · subst hxv
              rw [hset_eq] at h1
              obtain rfl : d + w = dx2 := Option.some_injective _ h1
              right
              have hmem := (dijkstraRelax_pq d rest
                (dist.set x (some (d + w))) (heapPush (d + w, x) pq)).1
              exact hmem _ (heapPush_mem.mpr (Or.inl rfl))
            · rw [hset_ne x hxv] at h1
              exact Or.inl h1
          · exact Or.inr h2
      | some old =>
          by_cases hlt : d + w < old
          · rw [relax_cons_update (Or.inr ⟨old, hold, hlt⟩)]
            have hnoentry : pq.countP (fun e => e = (d + w, v)) = 0 := by
              rw [List.countP_eq_zero]
              intro e he hee
              obtain rfl : e = (d + w, v) := by simpa using hee
              obtain ⟨du, hdu, hle⟩ := hval _ he
              rw [hold] at hdu
              obtain rfl : old = du := Option.some_injective _ hdu
              simp at hle
              omega
            have hvalstep : ∀ e ∈ heapPush (d + w, v) pq, ∃ du,
                (dist.set v (some (d + w))).getD e.2 none = some du ∧
                  du ≤ e.1 := by
              intro e he
              rcases heapPush_mem.mp he with rfl | h2
              · exact ⟨d + w, hset_eq, Nat.le_refl _⟩
              · obtain ⟨du, hdu, hle⟩ := hval e h2
                by_cases hev : e.2 = v
                · rw [hev, hold] at hdu
                  obtain rfl : old = du := Option.some_injective _ hdu
                  exact ⟨d + w, by rw [hev]; exact hset_eq, by omega⟩
                · exact ⟨du, by rw [hset_ne e.2 hev]; exact hdu, hle⟩
            obtain ⟨j1, j2, j3⟩ := hstep hnoentry hvalstep
            refine ⟨j1, j2, ?_⟩
            intro x dx2 hx
            rcases j3 x dx2 hx with h1 | h2
            · by_cases hxv : x = v
              · subst hxv
                rw [hset_eq] at h1
                obtain rfl : d + w = dx2 := Option.some_injective _ h1
                right
                have hmem := (dijkstraRelax_pq d rest
                  (dist.set x (some (d + w))) (heapPush (d + w, x) pq)).1
                exact hmem _ (heapPush_mem.mpr (Or.inl rfl))
              · rw [hset_ne x hxv] at h1
                exact Or.inl h1
            · exact Or.inr h2
          · rw [relax_cons_skip hold hlt]
            exact ih dist pq
              (fun q hq => hb q (List.mem_cons_of_mem _ hq)) hval hcnt

/-- A pushed (non-inherited) entry records a strict improvement over the
distance stored before the relaxation. -/
theorem dijkstraRelax_newentry (d : Nat) :
    ∀ (l : List (Nat × Nat)) (dist : List (Option Nat))
      (pq : List (Nat × Nat)),
    (∀ p ∈ l, p.1 < dist.length) →
    ∀ e ∈ (dijkstraRelax d l dist pq).2,
      e ∈ pq ∨ dist.getD e.2 none = none ∨
        ∃ old, dist.getD e.2 none = some old ∧ e.1 < old := by
  intro l
  induction l with
  | nil => intro dist pq _ e he; exact Or.inl he
  | cons p rest ih =>
      obtain ⟨v, w⟩ := p
      intro dist pq hb e he
      have hvlt : v < dist.length := hb (v, w) (List.mem_cons_self _ _)
      have hbrest : ∀ q ∈ rest, q.1 < (dist.set v (some (d + w))).length := by
        intro q hq
        rw [List.length_set]
        exact hb q (List.mem_cons_of_mem _ hq)
      have hset_eq : (dist.set v (some (d + w))).getD v none =
          some (d + w) := getD_set_eq dist v _ hvlt
      have hset_ne : ∀ u, u ≠ v →
          (dist.set v (some (d + w))).getD u none = dist.getD u none :=
        fun u hu => getD_set_ne dist v u _ hu
      cases hold : dist.getD v none with
      | none =>
          rw [relax_cons_update (Or.inl hold)] at he
          rcases ih (dist.set v (some (d + w))) (heapPush (d + w, v) pq)
              hbrest e he with h1 | h2 | ⟨old2, h3, h4⟩
          · rcases heapPush_mem.mp h1 with rfl | h2
            · exact Or.inr (Or.inl hold)
            · exact Or.inl h2
          · by_cases hev : e.2 = v
            · rw [hev, hset_eq] at h2
              exact absurd h2 (by simp)
            · rw [hset_ne e.2 hev] at h2
              exact Or.inr (Or.inl h2)
          · by_cases hev : e.2 = v
            · rw [hev] at h3 ⊢
              exact Or.inr (Or.inl hold)
            · rw [hset_ne e.2 hev] at h3
              exact Or.inr (Or.inr ⟨old2, h3, h4⟩)
      | some old =>
          by_cases hlt : d + w < old
          · rw [relax_cons_update (Or.inr ⟨old, hold, hlt⟩)] at he
            rcases ih (dist.set v (some (d + w))) (heapPush (d + w, v) pq)
                hbrest e he with h1 | h2 | ⟨old2, h3, h4⟩
            · rcases heapPush_mem.mp h1 with rfl | h2
              · exact Or.inr (Or.inr ⟨old, hold, hlt⟩)
              · exact Or.inl h2
            · by_cases hev : e.2 = v
              · rw [hev, hset_eq] at h2
                exact absurd h2 (by simp)
              · rw [hset_ne e.2 hev] at h2
                exact Or.inr (Or.inl h2)
            · by_cases hev : e.2 = v
              · rw [hev, hset_eq] at h3
                obtain rfl : d + w = old2 := Option.some_injective _ h3
                rw [hev]
                exact Or.inr (Or.inr ⟨old, hold, by omega⟩)
              · rw [hset_ne e.2 hev] at h3
                exact Or.inr (Or.inr ⟨old2, h3, h4⟩)
          · rw [relax_cons_skip hold hlt] at he
            exact ih dist pq (fun q hq => hb q (List.mem_cons_of_mem _ hq))
              e he

/-- Invariant of the Dijkstra credit accumulation phase.  `F` is the
(ghost) set of finished vertices and `lastE` the last emitted key. -/
structure DijInv (g : DGraph Nat) (src : Nat) (F : List Nat)
    (dist : List (Option Nat)) (pq : List (Nat × Nat))
    (lastE : Nat) : Prop where
  hlen : dist.length = g.n
  hsrc : dist.getD src none = some 0
  hsorted : List.Pairwise lexLe pq
  hpq_lt : ∀ e ∈ pq, e.2 < g.n
  hpq_ge : ∀ e ∈ pq, ∃ du, dist.getD e.2 none = some du ∧ du ≤ e.1
  hpq_lastE : ∀ e ∈ pq, lastE ≤ e.1
  hreach : ∀ v dv, dist.getD v none = some dv → WReach g src v dv
  hactive : ∀ u du, dist.getD u none = some du → ¬ u ∈ F → (du, u) ∈ pq
  hfin_lt : ∀ u ∈ F, ∀ d2, (d2, u) ∈ pq →
      ∃ du, dist.getD u none = some du ∧ du < d2
  hfin_le : ∀ u ∈ F, ∃ du, dist.getD u none = some du ∧ du ≤ lastE
  hfin_closed : ∀ u ∈ F, ∀ du, dist.getD u none = some du →
      ∀ p ∈ g.adj u, ∃ dv, dist.getD p.1 none = some dv ∧ dv ≤ du + p.2
  hF_lt : ∀ u ∈ F, u < g.n
  hF_nodup : F.Nodup
  hcount : ∀ v dv, dist.getD v none = some dv →
      pq.countP (fun e => e = (dv, v)) ≤ 1

/-- Case analysis of the deprecated-entry skipping loop of
`SssdEnumerator::next`. -/
theorem dijkstraPop_cases (g : DGraph Nat) (src : Nat) :
    ∀ (pq : List (Nat × Nat)) (dist : List (Option Nat)),
    (∀ e ∈ pq, ∃ du, dist.getD e.2 none = some du ∧ du ≤ e.1) →
    (dijkstraPop g src dist pq = some none ∧
      ∀ e ∈ pq, ∃ du, dist.getD e.2 none = some du ∧ du < e.1) ∨
    (∃ pre d u rest, pq = pre ++ (d, u) :: rest ∧
      (∀ e ∈ pre, ∃ du, dist.getD e.2 none = some du ∧ du < e.1) ∧
      dist.getD u none = some d ∧
      dijkstraPop g src dist pq =
        some (some ((src, u, some d), dijkstraRelax d (g.adj u) dist rest))) := by
  intro pq
  induction pq with
  | nil => intro dist _; exact Or.inl ⟨rfl, by simp⟩
  | cons e0 rest0 ih =>
      obtain ⟨d0, u0⟩ := e0
      intro dist hval
      obtain ⟨du, hdu, hle⟩ := hval (d0, u0) (List.mem_cons_self _ _)
      simp only at hdu
      by_cases hskip : du < d0
      · rcases ih dist (fun e he => hval e (List.mem_cons_of_mem _ he)) with
          ⟨h1, h2⟩ | ⟨pre, d, u, rest, he, hpre, hu, hpop⟩
        · refine Or.inl ⟨?_, ?_⟩
          · simp only [dijkstraPop, hdu, if_pos hskip]
            exact h1
          · intro e he
            rcases List.mem_cons.mp he with rfl | he2
            · exact ⟨du, hdu, hskip⟩
            · exact h2 e he2
        · refine Or.inr ⟨(d0, u0) :: pre, d, u, rest,
            by rw [he, List.cons_append], ?_, hu, ?_⟩
          · intro e he2
            rcases List.mem_cons.mp he2 with rfl | he3
            · exact ⟨du, hdu, hskip⟩
            · exact hpre e he3
          · simp only [dijkstraPop, hdu, if_pos hskip]
            exact hpop
      · have hdeq : du = d0 := by omega
        subst hdeq
        refine Or.inr ⟨[], du, u0, rest0, rfl, by simp, hdu, ?_⟩
        simp only [dijkstraPop, hdu, if_neg hskip]

/-- Dropping a deprecated prefix of the priority queue keeps the
invariant. -/
theorem DijInv_drop_pre {g : DGraph Nat} {src : Nat} {F : List Nat}
    {dist : List (Option Nat)} {pre pq2 : List (Nat × Nat)} {lastE : Nat}
    (hinv : DijInv g src F dist (pre ++ pq2) lastE)
    (hpre : ∀ e ∈ pre, ∃ du, dist.getD e.2 none = some du ∧ du < e.1) :
    DijInv g src F dist pq2 lastE := by
  have hsub : pq2.Sublist (pre ++ pq2) := List.sublist_append_right pre pq2
  have hmem : ∀ e ∈ pq2, e ∈ pre ++ pq2 :=
    fun e he => List.mem_append.mpr (Or.inr he)
  refine ⟨hinv.hlen, hinv.hsrc, hinv.hsorted.sublist hsub,
    fun e he => hinv.hpq_lt e (hmem e he),
    fun e he => hinv.hpq_ge e (hmem e he),
    fun e he => hinv.hpq_lastE e (hmem e he),
    hinv.hreach, ?_,
    fun u hu d2 h2 => hinv.hfin_lt u hu d2 (hmem _ h2),
    hinv.hfin_le, hinv.hfin_closed, hinv.hF_lt, hinv.hF_nodup, ?_⟩
  · intro u du hdu hnf
    have h1 := hinv.hactive u du hdu hnf
    rcases List.mem_append.mp h1 with h2 | h2
    · obtain ⟨du2, hdu2, hlt⟩ := hpre (du, u) h2
      simp only at hdu2
      rw [hdu] at hdu2
      obtain rfl : du = du2 := Option.some_injective _ hdu2
      simp at hlt
    · exact h2
  · intro v dv hdv
    have h1 := hinv.hcount v dv hdv
    have h2 := List.Sublist.countP_le (fun e => e = (dv, v)) hsub
    omega

theorem dij_done_minimal (g : DGraph Nat) (src : Nat)
    (dist : List (Option Nat)) (hsrc : dist.getD src none = some 0)
    (hclosed : ∀ u du, dist.getD u none = some du →
      ∀ p ∈ g.adj u, ∃ dv, dist.getD p.1 none = some dv ∧ dv ≤ du + p.2) :
    ∀ v dd, WReach g src v dd →
      ∃ dv, dist.getD v none = some dv ∧ dv ≤ dd := by
  intro v dd h
  induction h with
  | refl => exact ⟨0, hsrc, Nat.zero_le _⟩
  | step h he ih =>
      obtain ⟨du, hdu, hle⟩ := ih
      obtain ⟨dv, hdv, hle2⟩ := hclosed _ _ hdu _ he
      exact ⟨dv, hdv, by omega⟩

theorem finalNextW_none (src : Nat) (dist : List (Option Nat)) :
    ∀ it : List Nat, it.countP (fun v => (dist.getD v none).isNone) = 0 →
    sssdWFinalNext src dist it = (none, SssdW.final dist []) := by
  intro it
  induction it with
  | nil => intro _; rfl
  | cons v rest ih =>
      intro hc
      rw [List.countP_cons] at hc
      cases hget : dist.getD v none with
      | none =>
          rw [hget] at hc
          simp at hc
      | some d =>
          rw [hget] at hc
          simp only [Option.isNone_some, Bool.false_eq_true, if_false,
            Nat.add_zero] at hc
          rw [sssdWFinalNext, hget]
          exact ih hc

theorem finalNextW_some (src : Nat) (dist : List (Option Nat)) :
    ∀ it : List Nat, 0 < it.countP (fun v => (dist.getD v none).isNone) →
    ∃ v rest,
      sssdWFinalNext src dist it = (some (src, v, none), .final dist rest) ∧
      dist.getD v none = none ∧ v ∈ it ∧
      it.filter (fun x => (dist.getD x none).isNone) =
        v :: rest.filter (fun x => (dist.getD x none).isNone) ∧
      rest.countP (fun x => (dist.getD x none).isNone) + 1 =
        it.countP (fun x => (dist.getD x none).isNone) := by
  intro it
  induction it with
  | nil => intro h; simp at h
  | cons v rest ih =>
      intro hc
      cases hget : dist.getD v none with
      | none =>
          refine ⟨v, rest, ?_, hget, List.mem_cons_self _ _, ?_, ?_⟩
          · rw [sssdWFinalNext, hget]
          · rw [List.filter_cons, hget]
            rfl
          · rw [List.countP_cons, hget]
            rfl
      | some d =>
          rw [List.countP_cons, hget] at hc
          simp only [Option.isNone_some, Bool.false_eq_true, if_false,
            Nat.add_zero] at hc
          obtain ⟨w, rest2, e1, e2, e3, e4, e5⟩ := ih hc
          refine ⟨w, rest2, ?_, e2, List.mem_cons_of_mem _ e3, ?_, ?_⟩
          · rw [sssdWFinalNext, hget]
            exact e1
          · rw [List.filter_cons, hget]
            simpa using e4
          · rw [List.countP_cons, hget]
            simpa using e5

theorem finalDrainW (g : DGraph Nat) (src : Nat)
    (dist : List (Option Nat)) :
    ∀ fuel (it : List Nat),
    it.countP (fun v => (dist.getD v none).isNone) < fuel →
    SssdW.drain g src fuel (.final dist it) =
      some ((it.filter (fun v => (dist.getD v none).isNone)).map
        (fun v => (src, v, (none : Option Nat)))) := by
  intro fuel
  induction fuel with
  | zero => intro it h; omega
  | succ fuel ih =>
      intro it hc
      by_cases hz : it.countP (fun v => (dist.getD v none).isNone) = 0
      · have he := finalNextW_none src dist it hz
        have hf : it.filter (fun v => (dist.getD v none).isNone) = [] := by
          rw [← List.length_eq_zero, ← List.countP_eq_length_filter]
          exact hz
        rw [hf]
        simp only [SssdW.drain, SssdW.next, he, List.map_nil]
      · obtain ⟨v, rest, e1, e2, e3, e4, e5⟩ :=
          finalNextW_some src dist it (by omega)
        simp only [SssdW.drain, SssdW.next, e1]
        rw [ih rest (by omega), e4]
        rfl

theorem drainW_credit_exhaust (g : DGraph Nat) (src : Nat)
    (dist : List (Option Nat)) (pq : List (Nat × Nat)) (fuel : Nat)
    (hpop : dijkstraPop g src dist pq = some none) :
    SssdW.drain g src (fuel + 1) (.credit dist pq) =
      SssdW.drain g src (fuel + 1) (.final dist (List.range g.n)) := by
  simp only [SssdW.drain, SssdW.next, hpop]

/-- One Dijkstra emission step: popping the current entry `(d, u)` and
relaxing preserves the invariant, finishing `u` at key `d`. -/
theorem DijInv_step (g : DGraph Nat) (src : Nat) (F : List Nat)
    (dist : List (Option Nat)) (rest : List (Nat × Nat)) (lastE d u : Nat)
    (hinv : DijInv g src F dist ((d, u) :: rest) lastE)
    (hu : dist.getD u none = some d) :
    DijInv g src (u :: F) (dijkstraRelax d (g.adj u) dist rest).1
      (dijkstraRelax d (g.adj u) dist rest).2 d ∧
    ¬ u ∈ F ∧ u < g.n ∧ lastE ≤ d ∧
    (∀ x dx, dist.getD x none = some dx → x ∈ F →
      (dijkstraRelax d (g.adj u) dist rest).1.getD x none = some dx) ∧
    (dijkstraRelax d (g.adj u) dist rest).1.getD u none = some d := by
  have hnotF : ¬ u ∈ F := by
    intro hF
    obtain ⟨du2, hdu2, hlt⟩ :=
      hinv.hfin_lt u hF d (List.mem_cons_self _ _)
    rw [hu] at hdu2
    obtain rfl : d = du2 := Option.some_injective _ hdu2
    omega
  have hult : u < g.n := hinv.hpq_lt (d, u) (List.mem_cons_self _ _)
  have hlastd : lastE ≤ d := hinv.hpq_lastE (d, u) (List.mem_cons_self _ _)
  have hb : ∀ p ∈ g.adj u, p.1 < dist.length := by
    intro p hp
    rw [hinv.hlen]
    exact g.adjwf u p hp
  obtain ⟨a1, a2, a3, a4, a5⟩ := dijkstraRelax_dist d (g.adj u) dist rest hb
  obtain ⟨b1, b2, b3⟩ := dijkstraRelax_pq d (g.adj u) dist rest
  have hvalrest : ∀ e ∈ rest, ∃ du,
      dist.getD e.2 none = some du ∧ du ≤ e.1 :=
    fun e he => hinv.hpq_ge e (List.mem_cons_of_mem _ he)
  have hcntrest : ∀ v dv, dist.getD v none = some dv →
      rest.countP (fun e => e = (dv, v)) ≤ 1 := by
    intro v dv hdv
    have := hinv.hcount v dv hdv
    rw [List.countP_cons] at this
    omega
  obtain ⟨c1, c2, c3⟩ :=
    dijkstraRelax_lab d (g.adj u) dist rest hb hvalrest hcntrest
  have hN := dijkstraRelax_newentry d (g.adj u) dist rest hb
  have hufreeze : (dijkstraRelax d (g.adj u) dist rest).1.getD u none =
      some d :=
    a4 u d hu (fun w _ => by omega)
  have hsrcfreeze : (dijkstraRelax d (g.adj u) dist rest).1.getD src none =
      some 0 :=
    a4 src 0 hinv.hsrc (fun w _ => Nat.zero_le _)
  have hFfreeze : ∀ x dx, dist.getD x none = some dx → x ∈ F →
      (dijkstraRelax d (g.adj u) dist rest).1.getD x none = some dx := by
    intro x dx hdx hF
    obtain ⟨dx2, hdx2, hle2⟩ := hinv.hfin_le x hF
    rw [hdx] at hdx2
    obtain rfl : dx = dx2 := Option.some_injective _ hdx2
    exact a4 x dx hdx (fun w _ => by omega)
  have hdun_rest : ¬ (d, u) ∈ rest := by
    intro hm
    have hc := hinv.hcount u d hu
    have h3 : 0 < rest.countP (fun e => e = (d, u)) := by
      rw [List.countP_pos]
      exact ⟨(d, u), hm, by simp⟩
    have h2 : ((d, u) :: rest).countP (fun e => e = (d, u)) =
        rest.countP (fun e => e = (d, u)) + 1 :=
      List.countP_cons_of_pos _ _ (by simp)
    omega
  have head_le : ∀ e ∈ rest, d ≤ e.1 := by
    intro e he
    have := (List.pairwise_cons.mp hinv.hsorted).1 e he
    unfold lexLe at this
    omega
  refine ⟨⟨a1.trans hinv.hlen, hsrcfreeze,
    b3 (List.pairwise_cons.mp hinv.hsorted).2, ?_, c1, ?_, ?_, ?_, ?_, ?_,
    ?_, ?_, List.nodup_cons.mpr ⟨hnotF, hinv.hF_nodup⟩, c2⟩,
    hnotF, hult, hlastd, hFfreeze, hufreeze⟩
  · -- hpq_lt
    intro e he
    rcases b2 e he with h1 | ⟨w, hw, -⟩
    · exact hinv.hpq_lt e (List.mem_cons_of_mem _ h1)
    · exact g.adjwf u (e.2, w) hw
  · -- hpq_lastE
    intro e he
    rcases b2 e he with h1 | ⟨w, hw, he2⟩
    · exact head_le e h1
    · omega
  · -- hreach
    intro x dx2 hx
    rcases a3 x dx2 hx with h1 | ⟨w, hw, rfl⟩
    · exact hinv.hreach x dx2 h1
    · exact WReach.step (hinv.hreach u d hu) hw
  · -- hactive
    intro x dx hx hnm
    rcases c3 x dx hx with h1 | h2
    · have hxF : ¬ x ∈ F := fun h => hnm (List.mem_cons_of_mem _ h)
      have h3 := hinv.hactive x dx h1 hxF
      rcases List.mem_cons.mp h3 with h4 | h4
      · exfalso
        have : x = u := congrArg Prod.snd h4
        exact hnm (this ▸ List.mem_cons_self _ _)
      · exact b1 _ h4
    · exact h2
  · -- hfin_lt
    intro x hx d2 h2
    rcases List.mem_cons.mp hx with rfl | hxF
    · refine ⟨d, hufreeze, ?_⟩
      obtain ⟨du2, hdu2, hle2⟩ := c1 (d2, x) h2
      simp only at hdu2
      rw [hufreeze] at hdu2
      obtain rfl : d = du2 := Option.some_injective _ hdu2
      rcases hN (d2, x) h2 with h3 | h3 | ⟨old, hold, hlt3⟩
      · have hne : d2 ≠ d := by
          intro he
          subst he
          exact hdun_rest h3
        omega
      · simp only at h3
        rw [hu] at h3
        exact absurd h3 (by simp)
      · simp only at hold
        rw [hu] at hold
        obtain rfl : d = old := Option.some_injective _ hold
        omega
    · obtain ⟨dx, hdx, hlex⟩ := hinv.hfin_le x hxF
      have hfrz := hFfreeze x dx hdx hxF
      refine ⟨dx, hfrz, ?_⟩
      rcases hN (d2, x) h2 with h3 | h3 | ⟨old, hold, hlt3⟩
      · obtain ⟨du2, hdu2, hlt2⟩ :=
          hinv.hfin_lt x hxF d2 (List.mem_cons_of_mem _ h3)
        rw [hdx] at hdu2
        obtain rfl : dx = du2 := Option.some_injective _ hdu2
        omega
      · simp only at h3
        rw [hdx] at h3
        exact absurd h3 (by simp)
      · simp only at hold
        rw [hdx] at hold
        obtain rfl : dx = old := Option.some_injective _ hold
        obtain ⟨du2, hdu2, hle2⟩ := c1 (d2, x) h2
        simp only at hdu2
        rw [hfrz] at hdu2
        obtain rfl : dx = du2 := Option.some_injective _ hdu2
        omega
  · -- hfin_le
    intro x hx
    rcases List.mem_cons.mp hx with rfl | hxF
    · exact ⟨d, hufreeze, Nat.le_refl _⟩
    · obtain ⟨dx, hdx, hlex⟩ := hinv.hfin_le x hxF
      exact ⟨dx, hFfreeze x dx hdx hxF, by omega⟩
  · -- hfin_closed
    intro x hx du2 hdu2 p hp
    rcases List.mem_cons.mp hx with rfl | hxF
    · rw [hufreeze] at hdu2
      obtain rfl : d = du2 := Option.some_injective _ hdu2
      exact a5 p hp
    · obtain ⟨dx, hdx, hlex⟩ := hinv.hfin_le x hxF
      have hfrz := hFfreeze x dx hdx hxF
      rw [hfrz] at hdu2
      obtain rfl : dx = du2 := Option.some_injective _ hdu2
      obtain ⟨dv, hdv, hledv⟩ := hinv.hfin_closed x hxF dx hdx p hp
      obtain ⟨dv2, hdv2, hle2⟩ := a2 p.1 dv hdv
      exact ⟨dv2, hdv2, by omega⟩
  · -- hF_lt
    intro x hx
    rcases List.mem_cons.mp hx with rfl | hxF
    · exact hult
    · exact hinv.hF_lt x hxF

/-- Main induction for the Dijkstra credit accumulation phase. -/
theorem dijDrain (g : DGraph Nat) (src : Nat) :
    ∀ fuel (dist : List (Option Nat)) (pq : List (Nat × Nat))
      (F : List Nat) (lastE : Nat),
    DijInv g src F dist pq lastE →
    2 * ((List.range g.n).countP (fun v => ! decide (v ∈ F))) + 2 ≤ fuel →
    ∃ (out : List SssdPartial) (distF : List (Option Nat)),
      SssdW.drain g src fuel (.credit dist pq) = some out ∧
      (∀ x ∈ F, ∀ dx, dist.getD x none = some dx →
        distF.getD x none = some dx) ∧
      (∀ v dv, distF.getD v none = some dv → WReach g src v dv) ∧
      (∀ v dd, WReach g src v dd →
        ∃ dv, distF.getD v none = some dv ∧ dv ≤ dd) ∧
      (out.map (fun r => r.2.1)).Perm
        ((List.range g.n).filter (fun v => ! decide (v ∈ F))) ∧
      (∀ r ∈ out, r.1 = src) ∧
      (∀ r ∈ out, ∀ dr, r.2.2 = some dr →
        distF.getD r.2.1 none = some dr) ∧
      (∀ r ∈ out, r.2.2 = none → distF.getD r.2.1 none = none) ∧
      (∃ outS outN, out = outS ++ outN ∧
        (∀ r ∈ outN, r.2.2 = (none : Option Nat)) ∧
        (∀ r ∈ outS, (r.2.2).isSome) ∧
        List.Chain' (· ≤ ·)
          (lastE :: outS.map (fun r => (r.2.2).getD 0))) := by
  intro fuel
  induction fuel with
  | zero => intro dist pq F lastE _ hfuel; omega
  | succ fuel ih =>
      intro dist pq F lastE hinv hfuel
      rcases dijkstraPop_cases g src pq dist hinv.hpq_ge with
        ⟨hpop, hdep⟩ | ⟨pre, d, u, rest, rfl, hpre, hu, hpop⟩
      · -- the queue is exhausted: all set vertices are finished
        have hset_to_F : ∀ v dv, dist.getD v none = some dv → v ∈ F := by
          intro v dv hdv
          by_contra hnF
          obtain ⟨du, hdu, hlt⟩ := hdep _ (hinv.hactive v dv hdv hnF)
          simp only at hdu
          rw [hdv] at hdu
          obtain rfl : dv = du := Option.some_injective _ hdu
          simp at hlt
        have hmin := dij_done_minimal g src dist hinv.hsrc
          (fun u du hdu => hinv.hfin_closed u (hset_to_F u du hdu) du hdu)
        rw [drainW_credit_exhaust g src dist pq fuel hpop]
        have hsub : (List.range g.n).countP
            (fun v => (dist.getD v none).isNone) ≤
            (List.range g.n).countP (fun v => ! decide (v ∈ F)) := by
          apply List.countP_mono_left
          intro v _ hv
          simp only [Bool.not_eq_true', decide_eq_false_iff_not]
          intro hvF
          obtain ⟨du, hdu, -⟩ := hinv.hfin_le v hvF
          rw [hdu] at hv
          simp at hv
        rw [finalDrainW g src dist (fuel + 1) (List.range g.n) (by omega)]
        refine ⟨_, dist, rfl, fun x _ dx h => h, hinv.hreach, hmin,
          ?_, ?_, ?_, ?_, ?_⟩
        · rw [List.map_map]
          have h1 : ((fun r : SssdPartial => r.2.1) ∘
              (fun v => ((src, v, (none : Option Nat)) : SssdPartial))) =
              id := rfl
          rw [h1, List.map_id]
          have h2 : List.filter (fun v => ! decide (v ∈ F))
              (List.range g.n) =
              List.filter (fun v => (dist.getD v none).isNone)
                (List.range g.n) := by
            apply List.filter_congr
            intro v _
            cases hget : dist.getD v none with
            | some dv =>
                have := hset_to_F v dv hget
                simp [this]
            | none =>
                have : ¬ v ∈ F := by
                  intro hvF
                  obtain ⟨du, hdu, -⟩ := hinv.hfin_le v hvF
                  rw [hget] at hdu
                  exact absurd hdu (by simp)
                simp [this]
          rw [h2]
        · intro r hr
          obtain ⟨v, hv, rfl⟩ := List.mem_map.mp hr
          rfl
        · intro r hr dr hdr
          obtain ⟨v, hv, rfl⟩ := List.mem_map.mp hr
          exact absurd hdr (by simp)
        · intro r hr _
          obtain ⟨v, hv, rfl⟩ := List.mem_map.mp hr
          have := (List.mem_filter.mp hv).2
          simpa using this
        · refine ⟨[], _, rfl, ?_, by simp, by simp⟩
          intro r hr
          obtain ⟨v, hv, rfl⟩ := List.mem_map.mp hr
          rfl
      · -- an emission step
        have hinv1 := DijInv_drop_pre hinv hpre
        obtain ⟨hinv2, hnotF, hult, hlastd, hFfreeze, hufreeze⟩ :=
          DijInv_step g src F dist rest lastE d u hinv1 hu
        have hcnt : (List.range g.n).countP
              (fun v => ! decide (v ∈ u :: F)) + 1 =
            (List.range g.n).countP (fun v => ! decide (v ∈ F)) := by
          apply countP_flip g.n u _ _ (by exact hult)
          · simp [hnotF]
          · simp
          · intro x hx
            simp only [Bool.not_eq_true', decide_eq_false_iff_not,
              List.mem_cons]
            by_cases hxF : x ∈ F
            · simp [hxF]
            · simp [hxF, hx]
        obtain ⟨out2, distF, ihdrain, ihpers, ihreach, ihmin, ihperm,
          ihsrc, ihsome, ihnone, outS2, outN2, hdec, hN2, hS2, hchain⟩ :=
          ih (dijkstraRelax d (g.adj u) dist rest).1
            (dijkstraRelax d (g.adj u) dist rest).2 (u :: F) d hinv2
            (by omega)
        have hflip := filter_flip_perm (List.nodup_range g.n) u
          (List.mem_range.mpr hult)
          (fun v => ! decide (v ∈ F))
          (fun v => ! decide (v ∈ u :: F))
          (by simp [hnotF]) (by simp)
          (by
            intro x _ hx
            simp only [Bool.not_eq_true', decide_eq_false_iff_not,
              List.mem_cons]
            by_cases hxF : x ∈ F
            · simp [hxF]
            · simp [hxF, hx])
        refine ⟨(src, u, some d) :: out2, distF, ?_,
          ?_, ihreach, ihmin, ?_, ?_, ?_, ?_, ?_⟩
        · simp only [SssdW.drain, SssdW.next, hpop]
          rw [ihdrain]
          rfl
        · intro x hxF dx hdx
          exact ihpers x (List.mem_cons_of_mem _ hxF) dx
            (hFfreeze x dx hdx hxF)
        · simp only [List.map_cons]
          exact (ihperm.cons u).trans hflip.symm
        · intro r hr
          rcases List.mem_cons.mp hr with rfl | h2
          · rfl
          · exact ihsrc r h2
        · intro r hr dr hdr
          rcases List.mem_cons.mp hr with rfl | h2
          · obtain rfl : d = dr := Option.some_injective _ hdr
            exact ihpers u (List.mem_cons_self _ _) d hufreeze
          · exact ihsome r h2 dr hdr
        · intro r hr hnone
          rcases List.mem_cons.mp hr with rfl | h2
          · exact absurd hnone (by simp)
          · exact ihnone r h2 hnone
        · refine ⟨(src, u, some d) :: outS2, outN2, ?_, hN2, ?_, ?_⟩
          · rw [hdec]
            rfl
          · intro r hr
            rcases List.mem_cons.mp hr with rfl | h2
            · rfl
            · exact hS2 r h2
          · simp only [List.map_cons, Option.getD_some]
            rw [List.chain'_cons]
            exact ⟨hlastd, hchain⟩

theorem getD_replicate_none (n v : Nat) :
    (List.replicate n (none : Option Nat)).getD v none = none := by
  rw [List.getD_eq_getElem?_getD, List.getElem?_replicate]
  by_cases h : v < n <;> simp [h]

theorem DijInv_new (g : DGraph Nat) (src : Nat) (hsrc : src < g.n) :
    SssdW.new g src = some (.credit
      ((List.replicate g.n (none : Option Nat)).set src (some 0))
      [(0, src)]) ∧
    DijInv g src []
      ((List.replicate g.n (none : Option Nat)).set src (some 0))
      [(0, src)] 0 := by
  have hlen0 : (List.replicate g.n (none : Option Nat)).length = g.n :=
    List.length_replicate _ _
  have hgs : ((List.replicate g.n (none : Option Nat)).set src
      (some 0)).getD src none = some 0 := by
    apply getD_set_eq
    rw [hlen0]
    exact hsrc
  have hgo : ∀ v, v ≠ src → ((List.replicate g.n (none : Option Nat)).set
      src (some 0)).getD v none = none := by
    intro v hv
    rw [getD_set_ne _ _ _ _ hv]
    exact getD_replicate_none _ _
  have hchar : ∀ v dv, ((List.replicate g.n (none : Option Nat)).set src
      (some 0)).getD v none = some dv → v = src ∧ dv = 0 := by
    intro v dv hv
    by_cases hvs : v = src
    · subst hvs
      rw [hgs] at hv
      exact ⟨rfl, (Option.some_injective _ hv).symm⟩
    · rw [hgo v hvs] at hv
      exact absurd hv (by simp)
  refine ⟨?_, ⟨by rw [List.length_set, hlen0], hgs,
    List.pairwise_singleton _ _, ?_, ?_, ?_, ?_, ?_, ?_, ?_, ?_, ?_,
    List.nodup_nil, ?_⟩⟩
  · rw [SssdW.new, if_pos hsrc]
    rfl
  · intro e he
    obtain rfl : e = (0, src) := by simpa using he
    exact hsrc
  · intro e he
    obtain rfl : e = (0, src) := by simpa using he
    exact ⟨0, hgs, Nat.le_refl _⟩
  · intro e he
    exact Nat.zero_le _
  · intro v dv hv
    obtain ⟨rfl, rfl⟩ := hchar v dv hv
    exact WReach.refl
  · intro v dv hv _
    obtain ⟨rfl, rfl⟩ := hchar v dv hv
    exact List.mem_singleton.mpr rfl
  · intro x hx
    exact absurd hx (List.not_mem_nil x)
  · intro x hx
    exact absurd hx (List.not_mem_nil x)
  · intro x hx
    exact absurd hx (List.not_mem_nil x)
  · intro x hx
    exact absurd hx (List.not_mem_nil x)
  · intro v dv hv
    obtain ⟨rfl, rfl⟩ := hchar v dv hv
    simp

/-- The weighted half of C2, over every graph and source. -/
theorem sssdW_correct (g : DGraph Nat) (src fuel : Nat) (hsrc : src < g.n)
    (hfuel : 2 * g.n + 3 ≤ fuel) :
    ∃ s0 out, SssdW.new g src = some s0 ∧
      SssdW.drain g src fuel s0 = some out ∧
      SssdOutputOk g.n src (WReach g src) out := by
  obtain ⟨hnew, hinv⟩ := DijInv_new g src hsrc
  have hcb : (List.range g.n).countP
      (fun v => ! decide (v ∈ ([] : List Nat))) ≤ g.n := by
    have := List.countP_le_length
      (p := fun v => ! decide (v ∈ ([] : List Nat)))
      (l := List.range g.n)
    simpa using this
  obtain ⟨out, distF, hdrain, hpers, hreachF, hmin, hperm, hsrcR, hsome,
    hnone, outS, outN, hdec, hN, hS, hchain⟩ :=
    dijDrain g src fuel _ [(0, src)] [] 0 hinv (by omega)
  refine ⟨_, out, hnew, hdrain, ?_, hsrcR, ?_, ?_, outS, outN, hdec, hN, hS,
    hchain.tail⟩
  · have hfe : (List.range g.n).filter
        (fun v => ! decide (v ∈ ([] : List Nat))) = List.range g.n := by
      apply List.filter_eq_self.mpr
      intro v _
      simp
    rw [hfe] at hperm
    exact hperm
  · intro v d hm
    have hdF : distF.getD v none = some d := hsome (src, v, some d) hm d rfl
    refine ⟨hreachF v d hdF, ?_⟩
    intro d2 h2
    obtain ⟨dv, hdv, hle⟩ := hmin v d2 h2
    rw [hdF] at hdv
    obtain rfl : dv = d := (Option.some_injective _ hdv).symm
    exact hle
  · intro v hm d2 h2
    have hdF : distF.getD v none = none := hnone (src, v, none) hm rfl
    obtain ⟨dv, hdv, -⟩ := hmin v d2 h2
    rw [hdF] at hdv
    exact absurd hdv (by simp)

/-- C2: each SSSD enumerator (unweighted BFS-based and weighted
Dijkstra-based) emits exactly `n` results, one per vertex, with
`Some(shortest distance)` for reachable and `None` for unreachable
vertices; the reachable results come first, in non-decreasing distance
order, followed by the `None` finalization results. -/
theorem C2_sssd_enumerators {ED : Type} (g : DGraph ED) (gw : DGraph Nat)
    (src srcw fuel fuelw : Nat) (junkData : Nat → Nat)
    (junkDI junkRI : Nat → Nat) (hsrc : src < g.n) (hsrcw : srcw < gw.n)
    (hfuel : 2 * g.n + 3 ≤ fuel) (hfuelw : 2 * gw.n + 3 ≤ fuelw) :
    (∃ s0 out, SssdU.new g src junkData junkDI junkRI = some s0 ∧
      SssdU.drain g src fuel s0 = some out ∧
      SssdOutputOk g.n src (HReach g src) out) ∧
    (∃ s0 out, SssdW.new gw srcw = some s0 ∧
      SssdW.drain gw srcw fuelw s0 = some out ∧
      SssdOutputOk gw.n srcw (WReach gw srcw) out) :=
  ⟨sssdU_correct g src fuel hsrc junkData junkDI junkRI hfuel,
   sssdW_correct gw srcw fuelw hsrcw hfuelw⟩

/-- A one-vertex graph without edges. -/
def oneVertexGraph : DGraph Unit :=
  ⟨1, fun _ => [], by intro u p hp; simp at hp⟩

/-- A one-vertex weighted graph without edges. -/
def oneVertexGraphW : DGraph Nat :=
  ⟨1, fun _ => [], by intro u p hp; simp at hp⟩

theorem C2_sssd_enumerators_witness :
    (∃ s0 out, SssdU.new oneVertexGraph 0 (fun _ => 0) id id = some s0 ∧
      SssdU.drain oneVertexGraph 0 5 s0 = some out ∧
      SssdOutputOk oneVertexGraph.n 0 (HReach oneVertexGraph 0) out) ∧
    (∃ s0 out, SssdW.new oneVertexGraphW 0 = some s0 ∧
      SssdW.drain oneVertexGraphW 0 5 s0 = some out ∧
      SssdOutputOk oneVertexGraphW.n 0 (WReach oneVertexGraphW 0) out) :=
  C2_sssd_enumerators oneVertexGraph oneVertexGraphW 0 0 5 5
    (fun _ => 0) id id (by decide) (by decide) (by decide) (by decide)

/-! ### Ranked Union-Find (union_find.rs, `RankedUnionFind`) and
incremental Kruskal (kruskal.rs, `MstEnumerator`) -/

/-- `RankedUnionFind<I>`: a plain union-find forest plus a rank per
element. -/
structure RankedUnionFind where
  forest : UnionFind
  ranks : List Nat

def RankedUnionFind.newWithSize (n : Nat) : RankedUnionFind :=
  ⟨UnionFind.newWithSize n, List.replicate n 0⟩

def RankedUnionFind.find (uf : RankedUnionFind) (x : Nat) :
    Nat × RankedUnionFind :=
  let r := uf.forest.find x
  (r.1, ⟨r.2, uf.ranks⟩)

def RankedUnionFind.rankOf (uf : RankedUnionFind) (x : Nat) : Nat :=
  uf.ranks.getD x 0

/-- `RankedUnionFind::union`: union by rank of the two roots. -/
def RankedUnionFind.union (uf : RankedUnionFind) (x y : Nat) :
    RankedUnionFind :=
  let r1 := uf.find x
  let r2 := r1.2.find y
  if r1.1 = r2.1 then r2.2
  else if r2.2.rankOf r2.1 < r2.2.rankOf r1.1 then
    ⟨r2.2.forest.setParent r2.1 r1.1, r2.2.ranks⟩
  else if r2.2.rankOf r1.1 = r2.2.rankOf r2.1 then
    ⟨r2.2.forest.setParent r1.1 r2.1,
      r2.2.ranks.set r2.1 (r2.2.rankOf r2.1 + 1)⟩
  else ⟨r2.2.forest.setParent r1.1 r2.1, r2.2.ranks⟩

/-- `DisjointSet::is_same` (default method): compare the two roots. -/
def RankedUnionFind.isSame (uf : RankedUnionFind) (x y : Nat) :
    Bool × RankedUnionFind :=
  let r1 := uf.find x
  let r2 := r1.2.find y
  (decide (r1.1 = r2.1), r2.2)

/-- State of the incremental Kruskal `MstEnumerator`. -/
structure IncKruskal where
  components : RankedUnionFind
  sortedEdges : IQS WEdge
  disjunctSets : Nat

def IncKruskal.new (g : UWGraph) (lt : WEdge → WEdge → Bool) : IncKruskal :=
  ⟨RankedUnionFind.newWithSize g.n, IQS.new g.edgesList lt, g.n⟩

/-- The `for e in self.sorted_edges.by_ref()` loop of `next`, with an
iteration counter (each emission of the inner IQS advances its index, so
`a.length + 1 - idx` iterations always suffice).  Outer `none` = a panic
of the inner IQS or counter exhaustion. -/
def kruskalLoop : Nat → RankedUnionFind → IQS WEdge → Nat →
    Option (Option WEdge × IncKruskal)
  | 0, _, _, _ => none
  | k + 1, uf, iqs, disjunct =>
      match IQS.next iqs with
      | none => none
      | some none => some (none, ⟨uf, iqs, disjunct⟩)
      | some (some (e, iqs2)) =>
          let r := uf.isSame e.1 e.2.1
          if r.1 then kruskalLoop k r.2 iqs2 disjunct
          else
            some (some e, ⟨r.2.union e.1 e.2.1, iqs2, disjunct - 1⟩)

/-- `MstEnumerator::next` of kruskal.rs. -/
def IncKruskal.next (s : IncKruskal) : Option (Option WEdge × IncKruskal) :=
  if s.disjunctSets = 1 then some (none, s)
  else kruskalLoop (s.sortedEdges.a.length + 1 - s.sortedEdges.idx)
    s.components s.sortedEdges s.disjunctSets

/-- Repeatedly call `next` until exhaustion, collecting the emitted edges
and keeping the final state. -/
def IncKruskal.drainS : Nat → IncKruskal → Option (List WEdge × IncKruskal)
  | 0, _ => none
  | fuel + 1, s =>
      match IncKruskal.next s with
      | none => none
      | some (none, s2) => some ([], s2)
      | some (some e, s2) =>
          (IncKruskal.drainS fuel s2).map (fun r => (e :: r.1, r.2))

/-! #### Union-find root theory -/

def UnionFind.iter (uf : UnionFind) : Nat → Nat → Nat
  | 0, x => x
  | k + 1, x => uf.iter k (uf.parentOf x)

/-- Computable root of `x`: follow parent pointers `parents.length` many
times (enough on any well-formed forest). -/
def UnionFind.rootD (uf : UnionFind) (x : Nat) : Nat :=
  uf.iter uf.parents.length x

/-- Well-formedness of a union-find forest on `n` elements with respect to
a measure `rk`: parents stay in range and `rk` strictly increases along
non-trivial parent edges (hence the forest is acyclic). -/
structure UFWf (uf : UnionFind) (n : Nat) (rk : Nat → Nat) : Prop where
  hlen : uf.parents.length = n
  hran : ∀ x, x < n → uf.parentOf x < n
  hrk : ∀ x, x < n → uf.parentOf x ≠ x → rk x < rk (uf.parentOf x)

/-- The invariant of a well-formed ranked union-find on `n` elements. -/
def RUFInv (uf : RankedUnionFind) (n : Nat) : Prop :=
  UFWf uf.forest n uf.rankOf ∧ uf.ranks.length = n

theorem iter_succ_out (uf : UnionFind) (k x : Nat) :
    uf.iter (k + 1) x = uf.parentOf (uf.iter k x) := by
  induction k generalizing x with
  | zero => rfl
  | succ k ih =>
      show uf.iter (k + 1) (uf.parentOf x) = _
      rw [ih (uf.parentOf x)]
      rfl

theorem iter_add (uf : UnionFind) (j k x : Nat) :
    uf.iter (j + k) x = uf.iter k (uf.iter j x) := by
  induction k with
  | zero => rfl
  | succ k ih =>
      rw [← Nat.add_assoc, iter_succ_out, ih, ← iter_succ_out]

theorem iter_fix (uf : UnionFind) (x : Nat) (hx : uf.parentOf x = x) :
    ∀ k, uf.iter k x = x := by
  intro k
  induction k with
  | zero => rfl
  | succ k ih =>
      rw [iter_succ_out, ih, hx]

theorem UnionFind.parentOf_out (uf : UnionFind) (x : Nat)
    (h : uf.parents.length ≤ x) : uf.parentOf x = x := by
  unfold UnionFind.parentOf
  rw [List.getD_eq_getElem?_getD, List.getElem?_eq_none h]
  rfl

theorem UnionFind.length_setParent (uf : UnionFind) (c p : Nat) :
    (uf.setParent c p).parents.length = uf.parents.length := by
  simp [UnionFind.setParent]

theorem UnionFind.parentOf_setParent (uf : UnionFind) (c p : Nat)
    (hc : c < uf.parents.length) (z : Nat) :
    (uf.setParent c p).parentOf z = if z = c then p else uf.parentOf z := by
  unfold UnionFind.parentOf UnionFind.setParent
  dsimp only
  rw [List.getD_eq_getElem?_getD, List.getElem?_set]
  by_cases hz : z = c
  · subst hz
    simp [hc]
  · have : ¬ c = z := fun h => hz h.symm
    simp [this, hz, List.getD_eq_getElem?_getD]

theorem UFWf.iter_lt {uf : UnionFind} {n : Nat} {rk : Nat → Nat}
    (hwf : UFWf uf n rk) {x : Nat} (hx : x < n) (k : Nat) :
    uf.iter k x < n := by
  induction k with
  | zero => exact hx
  | succ k ih =>
      rw [iter_succ_out]
      exact hwf.hran _ ih

theorem UFWf.rk_le_iter {uf : UnionFind} {n : Nat} {rk : Nat → Nat}
    (hwf : UFWf uf n rk) {x : Nat} (hx : x < n) (k : Nat) :
    rk x ≤ rk (uf.iter k x) := by
  induction k with
  | zero => exact Nat.le_refl _
  | succ k ih =>
      rw [iter_succ_out]
      by_cases hroot : uf.parentOf (uf.iter k x) = uf.iter k x
      · rw [hroot]; exact ih
      · exact Nat.le_of_lt (Nat.lt_of_le_of_lt ih
          (hwf.hrk _ (hwf.iter_lt hx k) hroot))

/-- Along any parent chain some root is reached within `n` steps: the
measure `rk` strictly increases, so the first `n + 1` iterates would
otherwise be pairwise distinct elements of `{0, …, n-1}`. -/
theorem UFWf.exists_root {uf : UnionFind} {n : Nat} {rk : Nat → Nat}
    (hwf : UFWf uf n rk) {x : Nat} (hx : x < n) :
    ∃ k, k ≤ n ∧ uf.parentOf (uf.iter k x) = uf.iter k x := by
  by_contra hcon
  push_neg at hcon
  have hmono : ∀ j, j ≤ n → ∀ i, i < j → rk (uf.iter i x) < rk (uf.iter j x) := by
    intro j
    induction j with
    | zero => intro _ i hi; omega
    | succ j ih =>
        intro hj i hi
        have hstep : rk (uf.iter j x) < rk (uf.iter (j + 1) x) := by
          rw [iter_succ_out]
          exact hwf.hrk _ (hwf.iter_lt hx j) (hcon j (by omega))
        rcases Nat.lt_or_ge i j with h | h
        · exact Nat.lt_trans (ih (by omega) i h) hstep
        · have : i = j := by omega
          rw [this]
          exact hstep
  have hnodup : ((List.range (n + 1)).map (fun k => uf.iter k x)).Nodup := by
    rw [List.nodup_map_iff_inj_on (List.nodup_range (n + 1))]
    intro i hi j hj hij
    by_contra hne
    rcases Nat.lt_or_ge i j with h | h
    · have := hmono j (by simpa using Nat.lt_succ_iff.mp (List.mem_range.mp hj)) i h
      rw [hij] at this
      omega
    · have hj2 : j < i := by omega
      have := hmono i (by simpa using Nat.lt_succ_iff.mp (List.mem_range.mp hi)) j hj2
      rw [hij] at this
      omega
  have hsub : ((List.range (n + 1)).map (fun k => uf.iter k x)) ⊆
      List.range n := by
    intro y hy
    obtain ⟨k, -, hk⟩ := List.mem_map.mp hy
    rw [List.mem_range, ← hk]
    exact hwf.iter_lt hx k
  have hsp := List.subperm_of_subset hnodup hsub
  have hlen := hsp.length_le
  simp at hlen

theorem UFWf.rootD_isRoot {uf : UnionFind} {n : Nat} {rk : Nat → Nat}
    (hwf : UFWf uf n rk) {x : Nat} (hx : x < n) :
    uf.parentOf (uf.rootD x) = uf.rootD x := by
  obtain ⟨k, hk, hfix⟩ := hwf.exists_root hx
  have hroot : uf.rootD x = uf.iter k x := by
    unfold UnionFind.rootD
    rw [hwf.hlen, show n = k + (n - k) by omega, iter_add,
      iter_fix uf _ hfix]
  rw [hroot]
  exact hfix

theorem UnionFind.rootD_of_root (uf : UnionFind) (r : Nat)
    (h : uf.parentOf r = r) : uf.rootD r = r :=
  iter_fix uf r h _

theorem UFWf.rootD_parentOf {uf : UnionFind} {n : Nat} {rk : Nat → Nat}
    (hwf : UFWf uf n rk) {x : Nat} (hx : x < n) :
    uf.rootD (uf.parentOf x) = uf.rootD x := by
  have h1 : uf.parentOf x = uf.iter 1 x := rfl
  unfold UnionFind.rootD
  rw [h1, ← iter_add, Nat.add_comm 1 _, iter_add 
    uf uf.parents.length 1 x, iter_succ_out uf 0]
  show uf.parentOf (uf.iter uf.parents.length x) = _
  have := hwf.rootD_isRoot hx
  unfold UnionFind.rootD at this
  rw [this]

theorem UFWf.rootD_iter {uf : UnionFind} {n : Nat} {rk : Nat → Nat}
    (hwf : UFWf uf n rk) {x : Nat} (hx : x < n) (k : Nat) :
    uf.rootD (uf.iter k x) = uf.rootD x := by
  induction k with
  | zero => rfl
  | succ k ih =>
      rw [iter_succ_out, hwf.rootD_parentOf (hwf.iter_lt hx k), ih]

theorem UFWf.rootD_lt {uf : UnionFind} {n : Nat} {rk : Nat → Nat}
    (hwf : UFWf uf n rk) {x : Nat} (hx : x < n) : uf.rootD x < n :=
  hwf.iter_lt hx _

theorem UnionFind.rootD_out (uf : UnionFind) (x : Nat)
    (h : uf.parents.length ≤ x) : uf.rootD x = x :=
  iter_fix uf x (uf.parentOf_out x h) _

/-- Induction over the acyclic forest: to prove `P x` for all `x < n` it
suffices to prove it at roots and to lift it down parent edges. -/
theorem UFWf.root_induction {uf : UnionFind} {n : Nat} {rk : Nat → Nat}
    (hwf : UFWf uf n rk) (P : Nat → Prop)
    (hroot : ∀ x, x < n → uf.parentOf x = x → P x)
    (hstep : ∀ x, x < n → uf.parentOf x ≠ x → P (uf.parentOf x) → P x) :
    ∀ x, x < n → P x := by
  have haux : ∀ k x, x < n → uf.parentOf (uf.iter k x) = uf.iter k x → P x := by
    intro k
    induction k with
    | zero => intro x hx hfix; exact hroot x hx hfix
    | succ k ih =>
        intro x hx hfix
        by_cases hr : uf.parentOf x = x
        · exact hroot x hx hr
        · exact hstep x hx hr (ih _ (hwf.hran x hx) hfix)
  intro x hx
  obtain ⟨k, -, hfix⟩ := hwf.exists_root hx
  exact haux k x hx hfix
/-- Redirecting a non-root element to one of its ancestors (path halving)
preserves well-formedness, every root pointer, and every root status. -/
theorem UFWf.rootD_setParent {uf : UnionFind} {n : Nat} {rk : Nat → Nat}
    (hwf : UFWf uf n rk) {u p : Nat} (hu : u < n) (hp : p < n)
    (hnr : uf.parentOf u ≠ u) (hrkup : rk u < rk p)
    (hanc : ∃ k, uf.iter k u = p) :
    UFWf (uf.setParent u p) n rk ∧
    (∀ z, (uf.setParent u p).rootD z = uf.rootD z) ∧
    (∀ z, ((uf.setParent u p).parentOf z = z ↔ uf.parentOf z = z)) := by
  have hlenu : u < uf.parents.length := by rw [hwf.hlen]; exact hu
  have hpar : ∀ z, (uf.setParent u p).parentOf z =
      if z = u then p else uf.parentOf z :=
    uf.parentOf_setParent u p hlenu
  have hpu : p ≠ u := by
    intro h
    subst h
    omega
  have hwf2 : UFWf (uf.setParent u p) n rk := by
    refine ⟨?_, ?_, ?_⟩
    · rw [uf.length_setParent, hwf.hlen]
    · intro x hx
      rw [hpar]
      by_cases hxu : x = u
      · simp [hxu, hp]
      · simp [hxu]
        exact hwf.hran x hx
    · intro x hx hne
      rw [hpar] at hne ⊢
      by_cases hxu : x = u
      · simpa [hxu] using hrkup
      · simp [hxu] at hne ⊢
        exact hwf.hrk x hx hne
  have hstat : ∀ z, ((uf.setParent u p).parentOf z = z ↔ uf.parentOf z = z) := by
    intro z
    rw [hpar]
    by_cases hz : z = u
    · subst hz
      simp only [if_pos rfl]
      constructor
      · intro h
        exact absurd h hpu
      · intro h
        exact absurd h hnr
    · simp [hz]
  refine ⟨hwf2, ?_, hstat⟩
  have hin : ∀ z, z < n → (uf.setParent u p).rootD z = uf.rootD z := by
    refine hwf2.root_induction _ ?_ ?_
    · intro z hz hr
      have hr0 : uf.parentOf z = z := (hstat z).mp hr
      rw [UnionFind.rootD_of_root _ _ hr, UnionFind.rootD_of_root _ _ hr0]
    · intro z hz hr ih
      rw [hwf2.rootD_parentOf hz] at ih
      rw [ih, hpar]
      by_cases hzu : z = u
      · subst hzu
        simp only [if_pos rfl, if_true]
        obtain ⟨k, hk⟩ := hanc
        rw [← hk, hwf.rootD_iter hu]
      · rw [if_neg hzu]
        exact hwf.rootD_parentOf hz
  intro z
  by_cases hz : z < n
  · exact hin z hz
  · have h1 : uf.rootD z = z :=
      UnionFind.rootD_out _ _ (by rw [hwf.hlen]; omega)
    have h2 : (uf.setParent u p).rootD z = z :=
      UnionFind.rootD_out _ _ (by rw [uf.length_setParent, hwf.hlen]; omega)
    rw [h1, h2]

/-- Linking one root under another (the union-by-rank link step): the
demoted root's class is absorbed, every other root pointer is unchanged,
and exactly the demoted root loses its root status.  A fresh measure `rk2`
may be supplied as long as it still certifies all old parent edges. -/
theorem UFWf.rootD_link {uf : UnionFind} {n : Nat} {rk : Nat → Nat}
    (hwf : UFWf uf n rk) (rk2 : Nat → Nat) {a b : Nat}
    (ha : a < n) (hb : b < n)
    (hra : uf.parentOf a = a) (hrb : uf.parentOf b = b) (hab : a ≠ b)
    (hrk1 : ∀ z, z < n → uf.parentOf z ≠ z → rk2 z < rk2 (uf.parentOf z))
    (hrk2 : rk2 a < rk2 b) :
    UFWf (uf.setParent a b) n rk2 ∧
    (∀ z, (uf.setParent a b).rootD z =
      if uf.rootD z = a then b else uf.rootD z) ∧
    (∀ z, ((uf.setParent a b).parentOf z = z ↔
      (uf.parentOf z = z ∧ z ≠ a))) := by
  have hlena : a < uf.parents.length := by rw [hwf.hlen]; exact ha
  have hpar : ∀ z, (uf.setParent a b).parentOf z =
      if z = a then b else uf.parentOf z :=
    uf.parentOf_setParent a b hlena
  have hwf2 : UFWf (uf.setParent a b) n rk2 := by
    refine ⟨?_, ?_, ?_⟩
    · rw [uf.length_setParent, hwf.hlen]
    · intro x hx
      rw [hpar]
      by_cases hxa : x = a
      · simp [hxa, hb]
      · simp [hxa]
        exact hwf.hran x hx
    · intro x hx hne
      rw [hpar] at hne ⊢
      by_cases hxa : x = a
      · simpa [hxa] using hrk2
      · simp [hxa] at hne ⊢
        exact hrk1 x hx hne
  have hstat : ∀ z, ((uf.setParent a b).parentOf z = z ↔
      (uf.parentOf z = z ∧ z ≠ a)) := by
    intro z
    rw [hpar]
    by_cases hz : z = a
    · subst hz
      simp only [if_pos rfl]
      constructor
      · intro h
        exact absurd h.symm hab
      · intro h
        exact absurd rfl h.2
    · simp [hz]
  refine ⟨hwf2, ?_, hstat⟩
  have hin : ∀ z, z < n → (uf.setParent a b).rootD z =
      if uf.rootD z = a then b else uf.rootD z := by
    refine hwf2.root_induction _ ?_ ?_
    · intro z hz hr
      obtain ⟨hr0, hza⟩ := (hstat z).mp hr
      rw [UnionFind.rootD_of_root _ _ hr, UnionFind.rootD_of_root _ _ hr0,
        if_neg hza]
    · intro z hz hr ih
      rw [hwf2.rootD_parentOf hz] at ih
      rw [ih, hpar]
      by_cases hza : z = a
      · subst hza
        simp only [if_pos rfl, if_true]
        rw [UnionFind.rootD_of_root _ _ hrb,
          UnionFind.rootD_of_root _ _ hra,
          if_pos rfl, if_neg (fun h => hab h.symm)]
      · rw [if_neg hza, hwf.rootD_parentOf hz]
  intro z
  by_cases hz : z < n
  · exact hin z hz
  · have hz1 : uf.rootD z = z :=
      UnionFind.rootD_out _ _ (by rw [hwf.hlen]; omega)
    have hz2 : (uf.setParent a b).rootD z = z :=
      UnionFind.rootD_out _ _ (by rw [uf.length_setParent, hwf.hlen]; omega)
    rw [hz1, hz2, if_neg (by omega)]
/-- Iterates from a higher-rank start never pass through `u`, so a
`setParent` at `u` does not disturb them. -/
theorem UFWf.iter_setParent_avoid {uf : UnionFind} {n : Nat} {rk : Nat → Nat}
    (hwf : UFWf uf n rk) {u p w : Nat} (hu : u < n) (hw : w < n)
    (hrkuw : rk u < rk w) :
    ∀ j, (uf.setParent u p).iter j w = uf.iter j w ∧ uf.iter j w ≠ u := by
  intro j
  induction j with
  | zero =>
      refine ⟨rfl, ?_⟩
      intro h
      have h2 : w = u := h
      rw [h2] at hrkuw
      omega
  | succ j ih =>
      have hne : uf.iter j w ≠ u := ih.2
      have hstep : (uf.setParent u p).iter (j + 1) w = uf.iter (j + 1) w := by
        rw [iter_succ_out, iter_succ_out, ih.1,
          uf.parentOf_setParent u p (by rw [hwf.hlen]; exact hu), if_neg hne]
      refine ⟨hstep, ?_⟩
      intro h
      have := hwf.rk_le_iter hw (j + 1)
      rw [h] at this
      omega

theorem UFWf.findLoop_go {n : Nat} {rk : Nat → Nat} :
    ∀ fuel K (uf : UnionFind) (u : Nat), UFWf uf n rk → u < n → K ≤ fuel →
    uf.parentOf (uf.iter K u) = uf.iter K u →
    ∃ uf2, UnionFind.findLoop fuel uf u = (uf.rootD u, uf2) ∧
      UFWf uf2 n rk ∧ (∀ z, uf2.rootD z = uf.rootD z) ∧
      (∀ z, (uf2.parentOf z = z ↔ uf.parentOf z = z)) := by
  intro fuel
  induction fuel with
  | zero =>
      intro K uf u hwf hu hK hfix
      have hK0 : K = 0 := by omega
      rw [hK0] at hfix
      have hroot : uf.parentOf u = u := hfix
      refine ⟨uf, ?_, hwf, fun z => rfl, fun z => Iff.rfl⟩
      show (uf.parentOf (uf.parentOf u), uf) = (uf.rootD u, uf)
      rw [hroot, hroot, UnionFind.rootD_of_root uf u hroot]
  | succ fuel ih =>
      intro K uf u hwf hu hK hfix
      rw [show UnionFind.findLoop (fuel + 1) uf u =
        (if uf.parentOf u = uf.parentOf (uf.parentOf u) then
          (uf.parentOf (uf.parentOf u), uf)
        else UnionFind.findLoop fuel
          (uf.setParent u (uf.parentOf (uf.parentOf u)))
          (uf.parentOf (uf.parentOf u))) from rfl]
      by_cases hvw : uf.parentOf u = uf.parentOf (uf.parentOf u)
      · rw [if_pos hvw]
        have hrootv : uf.parentOf (uf.parentOf u) = uf.parentOf u := hvw.symm
        refine ⟨uf, ?_, hwf, fun z => rfl, fun z => Iff.rfl⟩
        rw [← hvw, ← hwf.rootD_parentOf hu,
          UnionFind.rootD_of_root uf _ hrootv]
      · rw [if_neg hvw]
        have hv : uf.parentOf u < n := hwf.hran u hu
        have hw : uf.parentOf (uf.parentOf u) < n := hwf.hran _ hv
        have hnr : uf.parentOf u ≠ u := by
          intro h
          apply hvw
          rw [h, h]
        have hnrv : uf.parentOf (uf.parentOf u) ≠ uf.parentOf u :=
          fun h => hvw h.symm
        have hrk1 : rk u < rk (uf.parentOf u) := hwf.hrk u hu hnr
        have hrk2 : rk (uf.parentOf u) < rk (uf.parentOf (uf.parentOf u)) :=
          hwf.hrk _ hv hnrv
        have hiter2 : uf.iter 2 u = uf.parentOf (uf.parentOf u) := rfl
        have hK2 : ∃ K2, K = K2 + 2 := by
          match K, hfix with
          | 0, hfix =>
              exact absurd hfix hnr
          | 1, hfix =>
              have h1 : uf.iter 1 u = uf.parentOf u := rfl
              rw [h1] at hfix
              exact absurd hfix hnrv
          | K2 + 2, _ => exact ⟨K2, rfl⟩
        obtain ⟨K2, hKe⟩ := hK2
        obtain ⟨hwf2, hroots2, hstat2⟩ := hwf.rootD_setParent hu hw hnr
          (Nat.lt_trans hrk1 hrk2) ⟨2, hiter2⟩
        have havoid := hwf.iter_setParent_avoid
          (p := uf.parentOf (uf.parentOf u)) hu hw (Nat.lt_trans hrk1 hrk2)
        have hfix2 : (uf.setParent u (uf.parentOf (uf.parentOf u))).parentOf
            ((uf.setParent u (uf.parentOf (uf.parentOf u))).iter K2
              (uf.parentOf (uf.parentOf u))) =
            (uf.setParent u (uf.parentOf (uf.parentOf u))).iter K2
              (uf.parentOf (uf.parentOf u)) := by
          rw [(havoid K2).1]
          have hKiter : uf.iter K2 (uf.parentOf (uf.parentOf u)) =
              uf.iter K u := by
            rw [← hiter2, ← iter_add, Nat.add_comm, ← hKe]
          rw [hKiter,
            uf.parentOf_setParent u _ (by rw [hwf.hlen]; exact hu),
            if_neg (by rw [← hKiter]; exact (havoid K2).2), hfix]
        obtain ⟨uf2, heq, hwf3, hroots3, hstat3⟩ := ih K2
          (uf.setParent u (uf.parentOf (uf.parentOf u)))
          (uf.parentOf (uf.parentOf u)) hwf2 hw (by omega) hfix2
        refine ⟨uf2, ?_, hwf3, ?_, ?_⟩
        · rw [heq, hroots2 _, show uf.parentOf (uf.parentOf u) = uf.iter 2 u
            from rfl, hwf.rootD_iter hu]
        · intro z
          rw [hroots3 z, hroots2 z]
        · intro z
          rw [hstat3 z, hstat2 z]

theorem UFWf.find_spec {uf : UnionFind} {n : Nat} {rk : Nat → Nat}
    (hwf : UFWf uf n rk) {x : Nat} (hx : x < n) :
    ∃ uf2, uf.find x = (uf.rootD x, uf2) ∧ UFWf uf2 n rk ∧
      (∀ z, uf2.rootD z = uf.rootD z) ∧
      (∀ z, (uf2.parentOf z = z ↔ uf.parentOf z = z)) := by
  obtain ⟨K, hKn, hfix⟩ := hwf.exists_root hx
  exact UFWf.findLoop_go uf.parents.length K uf x hwf hx
    (by rw [hwf.hlen]; omega) hfix
theorem getDN_set_eq (l : List Nat) (v x : Nat) (h : v < l.length) :
    (l.set v x).getD v 0 = x := by
  rw [List.getD_eq_getElem?_getD, List.getElem?_set]
  simp [h]

theorem getDN_set_ne (l : List Nat) (v u x : Nat) (h : u ≠ v) :
    (l.set v x).getD u 0 = l.getD u 0 := by
  rw [List.getD_eq_getElem?_getD, List.getElem?_set,
    if_neg (show ¬ v = u from fun hh => h hh.symm),
    ← List.getD_eq_getElem?_getD]

theorem RUFInv.rfind_spec {uf : RankedUnionFind} {n : Nat}
    (hinv : RUFInv uf n) {x : Nat} (hx : x < n) :
    ∃ uf2, uf.find x = (uf.forest.rootD x, uf2) ∧ RUFInv uf2 n ∧
      uf2.ranks = uf.ranks ∧
      (∀ z, uf2.forest.rootD z = uf.forest.rootD z) ∧
      (∀ z, (uf2.forest.parentOf z = z ↔ uf.forest.parentOf z = z)) := by
  obtain ⟨huf, hrlen⟩ := hinv
  obtain ⟨f2, heq, hwf2, hroots, hstat⟩ := huf.find_spec hx
  refine ⟨⟨f2, uf.ranks⟩, ?_, ⟨hwf2, hrlen⟩, rfl, hroots, hstat⟩
  simp only [RankedUnionFind.find]
  rw [heq]

theorem RUFInv.isSame_spec {uf : RankedUnionFind} {n : Nat}
    (hinv : RUFInv uf n) {x y : Nat} (hx : x < n) (hy : y < n) :
    ∃ uf2, uf.isSame x y =
      (decide (uf.forest.rootD x = uf.forest.rootD y), uf2) ∧ RUFInv uf2 n ∧
      uf2.ranks = uf.ranks ∧
      (∀ z, uf2.forest.rootD z = uf.forest.rootD z) ∧
      (∀ z, (uf2.forest.parentOf z = z ↔ uf.forest.parentOf z = z)) := by
  obtain ⟨uf1, heq1, hinv1, hrk1, hroots1, hstat1⟩ := hinv.rfind_spec hx
  obtain ⟨uf2, heq2, hinv2, hrk2, hroots2, hstat2⟩ := hinv1.rfind_spec hy
  refine ⟨uf2, ?_, hinv2, hrk2.trans hrk1, ?_, ?_⟩
  · simp only [RankedUnionFind.isSame]
    rw [heq1]
    dsimp only
    rw [heq2]
    rw [hroots1 y]
  · intro z
    rw [hroots2 z, hroots1 z]
  · intro z
    rw [hstat2 z, hstat1 z]

/-- `RankedUnionFind::union`: if the two roots already agree nothing
observable changes; otherwise one of the two roots is absorbed into the
other and exactly it loses its root status. -/
theorem RUFInv.union_spec {uf : RankedUnionFind} {n : Nat}
    (hinv : RUFInv uf n) {x y : Nat} (hx : x < n) (hy : y < n) :
    RUFInv (uf.union x y) n ∧
    ((uf.forest.rootD x = uf.forest.rootD y ∧
      (∀ z, (uf.union x y).forest.rootD z = uf.forest.rootD z) ∧
      (∀ z, ((uf.union x y).forest.parentOf z = z ↔
        uf.forest.parentOf z = z))) ∨
     (uf.forest.rootD x ≠ uf.forest.rootD y ∧
      ∃ a b, a < n ∧ b < n ∧ a ≠ b ∧
        uf.forest.parentOf a = a ∧
        ((a = uf.forest.rootD x ∧ b = uf.forest.rootD y) ∨
         (a = uf.forest.rootD y ∧ b = uf.forest.rootD x)) ∧
        (∀ z, (uf.union x y).forest.rootD z =
          if uf.forest.rootD z = a then b else uf.forest.rootD z) ∧
        (∀ z, ((uf.union x y).forest.parentOf z = z ↔
          (uf.forest.parentOf z = z ∧ z ≠ a))))) := by
  obtain ⟨uf1, heq1, hinv1, hrkeq1, hroots1, hstat1⟩ := hinv.rfind_spec hx
  obtain ⟨uf2, heq2, hinv2, hrkeq2, hroots2, hstat2⟩ := hinv1.rfind_spec hy
  have hru : uf.union x y =
      (if uf.forest.rootD x = uf1.forest.rootD y then uf2
       else if uf2.rankOf (uf1.forest.rootD y) <
           uf2.rankOf (uf.forest.rootD x) then
         ⟨uf2.forest.setParent (uf1.forest.rootD y) (uf.forest.rootD x),
           uf2.ranks⟩
       else if uf2.rankOf (uf.forest.rootD x) =
           uf2.rankOf (uf1.forest.rootD y) then
         ⟨uf2.forest.setParent (uf.forest.rootD x) (uf1.forest.rootD y),
           uf2.ranks.set (uf1.forest.rootD y)
             (uf2.rankOf (uf1.forest.rootD y) + 1)⟩
       else ⟨uf2.forest.setParent (uf.forest.rootD x) (uf1.forest.rootD y),
         uf2.ranks⟩) := by
    simp only [RankedUnionFind.union]
    rw [heq1]
    dsimp only
    rw [heq2]
  rw [hroots1 y] at hru
  set rx := uf.forest.rootD x with hrxdef
  set ry := uf.forest.rootD y with hrydef
  have hrxn : rx < n := hinv.1.rootD_lt hx
  have hryn : ry < n := hinv.1.rootD_lt hy
  have hrxroot : uf.forest.parentOf rx = rx := hinv.1.rootD_isRoot hx
  have hryroot : uf.forest.parentOf ry = ry := hinv.1.rootD_isRoot hy
  have hrxroot2 : uf2.forest.parentOf rx = rx :=
    (hstat2 rx).mpr ((hstat1 rx).mpr hrxroot)
  have hryroot2 : uf2.forest.parentOf ry = ry :=
    (hstat2 ry).mpr ((hstat1 ry).mpr hryroot)
  have hrkfun : uf2.rankOf = uf.rankOf := by
    funext z
    show uf2.ranks.getD z 0 = uf.ranks.getD z 0
    rw [hrkeq2, hrkeq1]
  by_cases hxy : rx = ry
  · rw [hru, if_pos hxy]
    refine ⟨hinv2, Or.inl ⟨hxy, ?_, ?_⟩⟩
    · intro z
      rw [hroots2 z, hroots1 z]
    · intro z
      rw [hstat2 z, hstat1 z]
  · rw [hru, if_neg hxy]
    have hwf2 : UFWf uf2.forest n uf.rankOf := by
      have := hinv2.1
      rwa [show uf2.rankOf = uf.rankOf from hrkfun] at this
    by_cases hc1 : uf2.rankOf ry < uf2.rankOf rx
    · rw [if_pos hc1]
      obtain ⟨hwfL, hrootsL, hstatL⟩ := hwf2.rootD_link uf.rankOf hryn hrxn
        hryroot2 hrxroot2 (fun h => hxy h.symm) hwf2.hrk
        (by rw [hrkfun] at hc1; exact hc1)
      refine ⟨⟨?_, ?_⟩, Or.inr ⟨hxy, ry, rx, hryn, hrxn,
        fun h => hxy h.symm, hryroot, Or.inr ⟨rfl, rfl⟩, ?_, ?_⟩⟩
      · show UFWf _ n (RankedUnionFind.rankOf ⟨_, uf2.ranks⟩)
        have hsame : RankedUnionFind.rankOf
            (⟨uf2.forest.setParent ry rx, uf2.ranks⟩ : RankedUnionFind) =
            uf.rankOf := hrkfun
        rw [hsame]
        exact hwfL
      · show uf2.ranks.length = n
        rw [hrkeq2, hrkeq1]
        exact hinv.2
      · intro z
        show (uf2.forest.setParent ry rx).rootD z = _
        rw [hrootsL z, hroots2 z, hroots1 z]
      · intro z
        show (uf2.forest.setParent ry rx).parentOf z = z ↔ _
        rw [hstatL z, hstat2 z, hstat1 z]
    · rw [if_neg hc1]
      by_cases hc2 : uf2.rankOf rx = uf2.rankOf ry
      · rw [if_pos hc2]
        have hrk2fun : ∀ z, RankedUnionFind.rankOf
            (⟨uf2.forest.setParent rx ry,
              uf2.ranks.set ry (uf2.rankOf ry + 1)⟩ : RankedUnionFind) z =
            if z = ry then uf.rankOf ry + 1 else uf.rankOf z := by
          intro z
          show (uf2.ranks.set ry (uf2.rankOf ry + 1)).getD z 0 = _
          by_cases hz : z = ry
          · subst hz
            rw [if_pos rfl, getDN_set_eq]
            · rw [hrkfun]
            · rw [hrkeq2, hrkeq1]
              exact Nat.lt_of_lt_of_le hryn (Nat.le_of_eq hinv.2.symm)
          · rw [if_neg hz, getDN_set_ne _ _ _ _ hz]
            show uf2.rankOf z = uf.rankOf z
            rw [hrkfun]
        have hside1 : ∀ z, z < n → uf2.forest.parentOf z ≠ z →
            (fun w => if w = ry then uf.rankOf ry + 1 else uf.rankOf w) z <
            (fun w => if w = ry then uf.rankOf ry + 1 else uf.rankOf w)
              (uf2.forest.parentOf z) := by
          intro z hz hne
          dsimp only
          have hold := hwf2.hrk z hz hne
          by_cases h1 : z = ry
          · exfalso
            rw [h1] at hne
            exact hne hryroot2
          · rw [if_neg h1]
            by_cases h2 : uf2.forest.parentOf z = ry
            · rw [if_pos h2]
              rw [h2] at hold
              omega
            · rw [if_neg h2]
              exact hold
        have hside2 :
            (fun w => if w = ry then uf.rankOf ry + 1 else uf.rankOf w) rx <
            (fun w => if w = ry then uf.rankOf ry + 1 else uf.rankOf w)
              ry := by
          dsimp only
          rw [if_neg hxy, if_pos rfl]
          rw [hrkfun] at hc2
          rw [hc2]
          omega
        obtain ⟨hwfL, hrootsL, hstatL⟩ := hwf2.rootD_link
          (fun w => if w = ry then uf.rankOf ry + 1 else uf.rankOf w)
          hrxn hryn hrxroot2 hryroot2 hxy hside1 hside2
        refine ⟨⟨?_, ?_⟩, Or.inr ⟨hxy, rx, ry, hrxn, hryn, hxy, hrxroot,
          Or.inl ⟨rfl, rfl⟩, ?_, ?_⟩⟩
        · show UFWf _ n _
          have hfn : RankedUnionFind.rankOf
              (⟨uf2.forest.setParent rx ry,
                uf2.ranks.set ry (uf2.rankOf ry + 1)⟩ : RankedUnionFind) =
              fun w => if w = ry then uf.rankOf ry + 1 else uf.rankOf w := by
            funext z
            exact hrk2fun z
          rw [hfn]
          exact hwfL
        · show (uf2.ranks.set ry (uf2.rankOf ry + 1)).length = n
          rw [List.length_set, hrkeq2, hrkeq1]
          exact hinv.2
        · intro z
          show (uf2.forest.setParent rx ry).rootD z = _
          rw [hrootsL z, hroots2 z, hroots1 z]
        · intro z
          show (uf2.forest.setParent rx ry).parentOf z = z ↔ _
          rw [hstatL z, hstat2 z, hstat1 z]
      · rw [if_neg hc2]
        have hc3 : uf.rankOf rx < uf.rankOf ry := by
          rw [hrkfun] at hc1 hc2
          omega
        obtain ⟨hwfL, hrootsL, hstatL⟩ := hwf2.rootD_link uf.rankOf hrxn hryn
          hrxroot2 hryroot2 hxy hwf2.hrk hc3
        refine ⟨⟨?_, ?_⟩, Or.inr ⟨hxy, rx, ry, hrxn, hryn, hxy, hrxroot,
          Or.inl ⟨rfl, rfl⟩, ?_, ?_⟩⟩
        · show UFWf _ n (RankedUnionFind.rankOf ⟨_, uf2.ranks⟩)
          have hsame : RankedUnionFind.rankOf
              (⟨uf2.forest.setParent rx ry, uf2.ranks⟩ : RankedUnionFind) =
              uf.rankOf := hrkfun
          rw [hsame]
          exact hwfL
        · show uf2.ranks.length = n
          rw [hrkeq2, hrkeq1]
          exact hinv.2
        · intro z
          show (uf2.forest.setParent rx ry).rootD z = _
          rw [hrootsL z, hroots2 z, hroots1 z]
        · intro z
          show (uf2.forest.setParent rx ry).parentOf z = z ↔ _
          rw [hstatL z, hstat2 z, hstat1 z]
/-! #### Connectivity over an undirected edge list -/

/-- Connectivity generated by an edge list, each edge usable in both
directions. -/
inductive ConnE (E : List WEdge) : Nat → Nat → Prop where
  | refl (x : Nat) : ConnE E x x
  | stepF {x y z w : Nat} (h : ConnE E x y) (he : (y, z, w) ∈ E) : ConnE E x z
  | stepB {x y z w : Nat} (h : ConnE E x y) (he : (z, y, w) ∈ E) : ConnE E x z

theorem ConnE.trans {E : List WEdge} {x y z : Nat} (h1 : ConnE E x y)
    (h2 : ConnE E y z) : ConnE E x z := by
  induction h2 with
  | refl => exact h1
  | stepF h he ih => exact ConnE.stepF ih he
  | stepB h he ih => exact ConnE.stepB ih he

theorem ConnE.symm {E : List WEdge} {x y : Nat} (h : ConnE E x y) :
    ConnE E y x := by
  induction h with
  | refl => exact ConnE.refl _
  | stepF h he ih => exact ConnE.trans (ConnE.stepB (ConnE.refl _) he) ih
  | stepB h he ih => exact ConnE.trans (ConnE.stepF (ConnE.refl _) he) ih

theorem ConnE.mono {E F : List WEdge} (hsub : ∀ e, e ∈ E → e ∈ F)
    {x y : Nat} (h : ConnE E x y) : ConnE F x y := by
  induction h with
  | refl => exact ConnE.refl _
  | stepF h he ih => exact ConnE.stepF ih (hsub _ he)
  | stepB h he ih => exact ConnE.stepB ih (hsub _ he)

theorem ConnE.edge {E : List WEdge} {u v w : Nat} (he : (u, v, w) ∈ E) :
    ConnE E u v :=
  ConnE.stepF (ConnE.refl u) he

theorem conn_nil {x y : Nat} : ConnE [] x y ↔ x = y := by
  constructor
  · intro h
    induction h with
    | refl => rfl
    | stepF h he ih => simp at he
    | stepB h he ih => simp at he
  · intro h
    rw [h]
    exact ConnE.refl y

theorem conn_perm {E F : List WEdge} (hp : E.Perm F) (x y : Nat) :
    ConnE E x y ↔ ConnE F x y :=
  ⟨ConnE.mono (fun e he => hp.mem_iff.mp he),
   ConnE.mono (fun e he => hp.mem_iff.mpr he)⟩

/-- Well-formed edges: both endpoints below `n`. -/
def EdgesWf (n : Nat) (E : List WEdge) : Prop :=
  ∀ e, e ∈ E → e.1 < n ∧ e.2.1 < n

theorem ConnE.lt_of_ne {n : Nat} {E : List WEdge} (hwf : EdgesWf n E)
    {x y : Nat} (h : ConnE E x y) (hne : x ≠ y) : x < n ∧ y < n := by
  induction h with
  | refl => exact absurd rfl hne
  | @stepF y1 z1 w1 h he ih =>
      refine ⟨?_, (hwf _ he).2⟩
      by_cases hxy : x = y1
      · rw [hxy]
        exact (hwf _ he).1
      · exact (ih hxy).1
  | @stepB y1 z1 w1 h he ih =>
      refine ⟨?_, (hwf _ he).1⟩
      by_cases hxy : x = y1
      · rw [hxy]
        exact (hwf _ he).2
      · exact (ih hxy).1

/-- Appending one edge merges exactly the two classes of its endpoints. -/
theorem conn_append_single {E : List WEdge} {e : WEdge} {x y : Nat} :
    ConnE (E ++ [e]) x y ↔ ConnE E x y ∨
      (ConnE E x e.1 ∧ ConnE E e.2.1 y) ∨
      (ConnE E x e.2.1 ∧ ConnE E e.1 y) := by
  constructor
  · intro h
    induction h with
    | refl => exact Or.inl (ConnE.refl _)
    | @stepF y1 z1 w1 h he ih =>
        rw [List.mem_append] at he
        rcases he with he | he
        · rcases ih with h1 | ⟨h1, h2⟩ | ⟨h1, h2⟩
          · exact Or.inl (ConnE.stepF h1 he)
          · exact Or.inr (Or.inl ⟨h1, ConnE.stepF h2 he⟩)
          · exact Or.inr (Or.inr ⟨h1, ConnE.stepF h2 he⟩)
        · rw [List.mem_singleton] at he
          subst he
          rcases ih with h1 | ⟨h1, h2⟩ | ⟨h1, h2⟩
          · exact Or.inr (Or.inl ⟨h1, ConnE.refl _⟩)
          · exact Or.inl (ConnE.trans h1 h2.symm)
          · exact Or.inl h1
    | @stepB y1 z1 w1 h he ih =>
        rw [List.mem_append] at he
        rcases he with he | he
        · rcases ih with h1 | ⟨h1, h2⟩ | ⟨h1, h2⟩
          · exact Or.inl (ConnE.stepB h1 he)
          · exact Or.inr (Or.inl ⟨h1, ConnE.stepB h2 he⟩)
          · exact Or.inr (Or.inr ⟨h1, ConnE.stepB h2 he⟩)
        · rw [List.mem_singleton] at he
          subst he
          rcases ih with h1 | ⟨h1, h2⟩ | ⟨h1, h2⟩
          · exact Or.inr (Or.inr ⟨h1, ConnE.refl _⟩)
          · exact Or.inl h1
          · exact Or.inl (ConnE.trans h1 h2.symm)
  · intro h
    have hsub : ∀ f, f ∈ E → f ∈ E ++ [e] := by
      intro f hf
      exact List.mem_append.mpr (Or.inl hf)
    have hee : ConnE (E ++ [e]) e.1 e.2.1 := by
      have hm : e ∈ E ++ [e] := List.mem_append.mpr (Or.inr (by simp))
      exact ConnE.stepF (ConnE.refl e.1)
        (show (e.1, e.2.1, e.2.2) ∈ _ from hm)
    rcases h with h1 | ⟨h1, h2⟩ | ⟨h1, h2⟩
    · exact h1.mono hsub
    · exact ((h1.mono hsub).trans hee).trans (h2.mono hsub)
    · exact ((h1.mono hsub).trans hee.symm).trans (h2.mono hsub)
/-- One relaxation of one undirected edge on a reachability bit vector
(reference definition used to decide connectivity). -/
def connUpd (acc : List Bool) (e : WEdge) : List Bool :=
  let acc1 := if acc.getD e.1 false && !(acc.getD e.2.1 false) then
    acc.set e.2.1 true else acc
  if acc1.getD e.2.1 false && !(acc1.getD e.1 false) then
    acc1.set e.1 true else acc1

/-- One full round of edge relaxations. -/
def connStep (E : List WEdge) (r : List Bool) : List Bool :=
  E.foldl connUpd r

def connIterB (E : List WEdge) : Nat → List Bool → List Bool
  | 0, r => r
  | k + 1, r => connIterB E k (connStep E r)

/-- Decidable connectivity: iterate rounds of relaxation `n` times starting
from `{x}` and read off `y`. -/
def connB (n : Nat) (E : List WEdge) (x y : Nat) : Bool :=
  (connIterB E n ((List.replicate n false).set x true)).getD y false

/-- `v` is the least element of its connectivity class. -/
def classMin (n : Nat) (E : List WEdge) (v : Nat) : Bool :=
  !((List.range v).any (fun u => connB n E u v))

/-- The number of connectivity classes of `{0, …, n-1}`, counted by their
least elements. -/
def classCount (n : Nat) (E : List WEdge) : Nat :=
  ((List.range n).filter (fun v => classMin n E v)).length

theorem setB_getD_of (l : List Bool) (i y : Nat)
    (h : l.getD y false = true) : (l.set i true).getD y false = true := by
  by_cases hyi : y = i
  · subst hyi
    rcases Nat.lt_or_ge y l.length with hlt | hge
    · rw [List.getD_eq_getElem?_getD, List.getElem?_set, if_pos rfl]
      simp [hlt]
    · rw [List.set_eq_of_length_le hge]
      exact h
  · rw [List.getD_eq_getElem?_getD, List.getElem?_set,
      if_neg (fun hh => hyi hh.symm), ← List.getD_eq_getElem?_getD]
    exact h

theorem setB_getD_self (l : List Bool) (i : Nat) (h : i < l.length) :
    (l.set i true).getD i false = true := by
  rw [List.getD_eq_getElem?_getD, List.getElem?_set, if_pos rfl]
  simp [h]

theorem setB_getD_cases (l : List Bool) (i y : Nat)
    (h : (l.set i true).getD y false = true) :
    y = i ∨ l.getD y false = true := by
  by_cases hyi : y = i
  · exact Or.inl hyi
  · refine Or.inr ?_
    rw [List.getD_eq_getElem?_getD, List.getElem?_set,
      if_neg (fun hh => hyi hh.symm), ← List.getD_eq_getElem?_getD] at h
    exact h

theorem connUpd_length (acc : List Bool) (e : WEdge) :
    (connUpd acc e).length = acc.length := by
  unfold connUpd
  dsimp only
  by_cases h1 : acc.getD e.1 false && !(acc.getD e.2.1 false)
  · rw [if_pos h1]
    by_cases h2 : (acc.set e.2.1 true).getD e.2.1 false &&
        !((acc.set e.2.1 true).getD e.1 false)
    · rw [if_pos h2]
      simp
    · rw [if_neg h2]
      simp
  · rw [if_neg h1]
    by_cases h2 : acc.getD e.2.1 false && !(acc.getD e.1 false)
    · rw [if_pos h2]
      simp
    · rw [if_neg h2]

theorem connUpd_mono (acc : List Bool) (e : WEdge) (y : Nat)
    (h : acc.getD y false = true) : (connUpd acc e).getD y false = true := by
  unfold connUpd
  dsimp only
  by_cases h1 : acc.getD e.1 false && !(acc.getD e.2.1 false)
  · rw [if_pos h1]
    by_cases h2 : (acc.set e.2.1 true).getD e.2.1 false &&
        !((acc.set e.2.1 true).getD e.1 false)
    · rw [if_pos h2]
      exact setB_getD_of _ _ _ (setB_getD_of _ _ _ h)
    · rw [if_neg h2]
      exact setB_getD_of _ _ _ h
  · rw [if_neg h1]
    by_cases h2 : acc.getD e.2.1 false && !(acc.getD e.1 false)
    · rw [if_pos h2]
      exact setB_getD_of _ _ _ h
    · rw [if_neg h2]
      exact h

theorem connUpd_sound (acc : List Bool) (e : WEdge) (y : Nat)
    (h : (connUpd acc e).getD y false = true) :
    acc.getD y false = true ∨
    (y = e.2.1 ∧ acc.getD e.1 false = true) ∨
    (y = e.1 ∧ acc.getD e.2.1 false = true) := by
  unfold connUpd at h
  dsimp only at h
  by_cases h1 : acc.getD e.1 false && !(acc.getD e.2.1 false)
  · rw [if_pos h1] at h
    have h1a : acc.getD e.1 false = true := by
      simp only [Bool.and_eq_true] at h1
      exact h1.1
    have hmk : (acc.set e.2.1 true).getD e.1 false = true :=
      setB_getD_of _ _ _ h1a
    rw [if_neg (fun hc => by rw [hmk] at hc; simp at hc)] at h
    rcases setB_getD_cases _ _ _ h with hy | h3
    · exact Or.inr (Or.inl ⟨hy, h1a⟩)
    · exact Or.inl h3
  · rw [if_neg h1] at h
    by_cases h2 : acc.getD e.2.1 false && !(acc.getD e.1 false)
    · rw [if_pos h2] at h
      have ha : acc.getD e.2.1 false = true := by
        simp only [Bool.and_eq_true] at h2
        exact h2.1
      rcases setB_getD_cases _ _ _ h with hy | h3
      · exact Or.inr (Or.inr ⟨hy, ha⟩)
      · exact Or.inl h3
    · rw [if_neg h2] at h
      exact Or.inl h
theorem connUpd_fwd (acc : List Bool) (e : WEdge)
    (h : acc.getD e.1 false = true) (hb : e.2.1 < acc.length) :
    (connUpd acc e).getD e.2.1 false = true := by
  by_cases hm : acc.getD e.2.1 false = true
  · exact connUpd_mono acc e e.2.1 hm
  · have hmf : acc.getD e.2.1 false = false := by
      cases hcc : acc.getD e.2.1 false
      · rfl
      · exact absurd hcc hm
    unfold connUpd
    dsimp only
    have hg : (acc.getD e.1 false && !(acc.getD e.2.1 false)) = true := by
      rw [h, hmf]
      rfl
    rw [if_pos hg]
    have hset : (acc.set e.2.1 true).getD e.2.1 false = true :=
      setB_getD_self _ _ hb
    by_cases h2 : ((acc.set e.2.1 true).getD e.2.1 false &&
        !((acc.set e.2.1 true).getD e.1 false)) = true
    · rw [if_pos h2]
      exact setB_getD_of _ _ _ hset
    · rw [if_neg h2]
      exact hset

theorem connUpd_bwd (acc : List Bool) (e : WEdge)
    (h : acc.getD e.2.1 false = true) (hb : e.1 < acc.length) :
    (connUpd acc e).getD e.1 false = true := by
  by_cases hm : acc.getD e.1 false = true
  · exact connUpd_mono acc e e.1 hm
  · have hmf : acc.getD e.1 false = false := by
      cases hcc : acc.getD e.1 false
      · rfl
      · exact absurd hcc hm
    unfold connUpd
    dsimp only
    have h1f : ¬ ((acc.getD e.1 false && !(acc.getD e.2.1 false)) = true) := by
      rw [hmf]
      simp
    rw [if_neg h1f]
    have hg : (acc.getD e.2.1 false && !(acc.getD e.1 false)) = true := by
      rw [h, hmf]
      rfl
    rw [if_pos hg]
    exact setB_getD_self _ _ hb

theorem connStep_length (E : List WEdge) :
    ∀ r, (connStep E r).length = r.length := by
  unfold connStep
  induction E with
  | nil => intro r; rfl
  | cons e E ih =>
      intro r
      show (List.foldl connUpd (connUpd r e) E).length = _
      rw [ih (connUpd r e), connUpd_length]

theorem connStep_mono (E : List WEdge) :
    ∀ r y, r.getD y false = true → (connStep E r).getD y false = true := by
  unfold connStep
  induction E with
  | nil => intro r y h; exact h
  | cons e E ih =>
      intro r y h
      exact ih (connUpd r e) y (connUpd_mono r e y h)

theorem connStep_sound (E0 : List WEdge) (x : Nat) (E : List WEdge) :
    ∀ r, (∀ e, e ∈ E → e ∈ E0) →
    (∀ y, r.getD y false = true → ConnE E0 x y) →
    ∀ y, (connStep E r).getD y false = true → ConnE E0 x y := by
  unfold connStep
  induction E with
  | nil => intro r _ hr y h; exact hr y h
  | cons e E ih =>
      intro r hsub hr y h
      refine ih (connUpd r e) (fun f hf => hsub f (List.mem_cons_of_mem _ hf))
        ?_ y h
      intro z hz
      rcases connUpd_sound r e z hz with h1 | ⟨h1, h2⟩ | ⟨h1, h2⟩
      · exact hr z h1
      · rw [h1]
        exact ConnE.stepF (hr _ h2)
          (show (e.1, e.2.1, e.2.2) ∈ E0 from hsub e (List.mem_cons_self _ _))
      · rw [h1]
        exact ConnE.stepB (hr _ h2)
          (show (e.1, e.2.1, e.2.2) ∈ E0 from hsub e (List.mem_cons_self _ _))

theorem connStep_fwd (E : List WEdge) :
    ∀ r e, e ∈ E → r.getD e.1 false = true → e.2.1 < r.length →
    (connStep E r).getD e.2.1 false = true := by
  unfold connStep
  induction E with
  | nil => intro r e h; simp at h
  | cons f E ih =>
      intro r e he h hb
      rcases List.mem_cons.mp he with hef | hef
      · subst hef
        show (List.foldl connUpd (connUpd r e) E).getD e.2.1 false = true
        exact connStep_mono E (connUpd r e) e.2.1 (connUpd_fwd r e h hb)
      · show (List.foldl connUpd (connUpd r f) E).getD e.2.1 false = true
        refine ih (connUpd r f) e hef (connUpd_mono r f e.1 h) ?_
        rw [connUpd_length]
        exact hb

theorem connStep_bwd (E : List WEdge) :
    ∀ r e, e ∈ E → r.getD e.2.1 false = true → e.1 < r.length →
    (connStep E r).getD e.1 false = true := by
  unfold connStep
  induction E with
  | nil => intro r e h; simp at h
  | cons f E ih =>
      intro r e he h hb
      rcases List.mem_cons.mp he with hef | hef
      · subst hef
        show (List.foldl connUpd (connUpd r e) E).getD e.1 false = true
        exact connStep_mono E (connUpd r e) e.1 (connUpd_bwd r e h hb)
      · show (List.foldl connUpd (connUpd r f) E).getD e.1 false = true
        refine ih (connUpd r f) e hef (connUpd_mono r f e.2.1 h) ?_
        rw [connUpd_length]
        exact hb

theorem connIterB_length (E : List WEdge) :
    ∀ k r, (connIterB E k r).length = r.length := by
  intro k
  induction k with
  | zero => intro r; rfl
  | succ k ih =>
      intro r
      show (connIterB E k (connStep E r)).length = _
      rw [ih, connStep_length]

theorem connIterB_mono (E : List WEdge) :
    ∀ k r y, r.getD y false = true →
    (connIterB E k r).getD y false = true := by
  intro k
  induction k with
  | zero => intro r y h; exact h
  | succ k ih =>
      intro r y h
      exact ih (connStep E r) y (connStep_mono E r y h)

theorem connIterB_sound (E : List WEdge) (x : Nat) :
    ∀ k r, (∀ y, r.getD y false = true → ConnE E x y) →
    ∀ y, (connIterB E k r).getD y false = true → ConnE E x y := by
  intro k
  induction k with
  | zero => intro r hr y h; exact hr y h
  | succ k ih =>
      intro r hr y h
      exact ih (connStep E r) (connStep_sound E x E r (fun e he => he) hr) y h

theorem connIterB_fix (E : List WEdge) :
    ∀ k r, connStep E r = r → connIterB E k r = r := by
  intro k
  induction k with
  | zero => intro r _; rfl
  | succ k ih =>
      intro r h
      show connIterB E k (connStep E r) = r
      rw [h, ih r h]
theorem countT_le_of_pointwise :
    ∀ (r r2 : List Bool), r.length = r2.length →
    (∀ i, r.getD i false = true → r2.getD i false = true) →
    r.countP (fun b => b) ≤ r2.countP (fun b => b) := by
  intro r
  induction r with
  | nil => intro r2 _ _; exact Nat.zero_le _
  | cons a t ih =>
      intro r2 hlen hpt
      cases r2 with
      | nil => simp at hlen
      | cons b t2 =>
          have hht : ∀ i, t.getD i false = true → t2.getD i false = true := by
            intro i hi
            have h2 := hpt (i + 1) (by rw [List.getD_cons_succ]; exact hi)
            rw [List.getD_cons_succ] at h2
            exact h2
          have hle := ih t2 (by simpa using hlen) hht
          rw [List.countP_cons, List.countP_cons]
          cases a with
          | false =>
              have hz : (if (fun x : Bool => x) false = true then 1 else 0) =
                  0 := rfl
              rw [hz]
              omega
          | true =>
              have hB : b = true := by
                have h2 := hpt 0 (by rw [List.getD_cons_zero])
                rw [List.getD_cons_zero] at h2
                exact h2
              rw [hB]
              have ho : (if (fun x : Bool => x) true = true then 1 else 0) =
                  1 := rfl
              rw [ho]
              omega

theorem countT_lt_of_pointwise :
    ∀ (r r2 : List Bool), r.length = r2.length →
    (∀ i, r.getD i false = true → r2.getD i false = true) →
    r ≠ r2 → r.countP (fun b => b) < r2.countP (fun b => b) := by
  intro r
  induction r with
  | nil =>
      intro r2 hlen _ hne
      cases r2 with
      | nil => exact absurd rfl hne
      | cons b t2 => simp at hlen
  | cons a t ih =>
      intro r2 hlen hpt hne
      cases r2 with
      | nil => simp at hlen
      | cons b t2 =>
          have hht : ∀ i, t.getD i false = true → t2.getD i false = true := by
            intro i hi
            have h2 := hpt (i + 1) (by rw [List.getD_cons_succ]; exact hi)
            rw [List.getD_cons_succ] at h2
            exact h2
          by_cases hab : a = b
          · have htne : t ≠ t2 := by
              intro h
              apply hne
              rw [hab, h]
            have hlt := ih t2 (by simpa using hlen) hht htne
            rw [List.countP_cons, List.countP_cons, hab]
            omega
          · have hA0 : a = false := by
              cases ha : a
              · rfl
              · have hB : b = true := by
                  have h2 := hpt 0 (by rw [List.getD_cons_zero, ha])
                  rw [List.getD_cons_zero] at h2
                  exact h2
                rw [ha, hB] at hab
                exact absurd rfl hab
            have hB1 : b = true := by
              cases hbv : b
              · rw [hA0, hbv] at hab
                exact absurd rfl hab
              · rfl
            have hle := countT_le_of_pointwise t t2 (by simpa using hlen) hht
            rw [List.countP_cons, List.countP_cons, hA0, hB1]
            have hz : (if (fun x : Bool => x) false = true then 1 else 0) =
                0 := rfl
            have ho : (if (fun x : Bool => x) true = true then 1 else 0) =
                1 := rfl
            rw [hz, ho]
            omega

theorem getD_true_of_all (r : List Bool) (hall : ∀ a, a ∈ r → a = true)
    (i : Nat) (hi : i < r.length) : r.getD i false = true := by
  rw [List.getD_eq_getElem?_getD, List.getElem?_eq_getElem hi]
  exact hall _ (List.getElem_mem hi)

theorem connUpd_id (acc : List Bool) (e : WEdge)
    (hall : ∀ a, a ∈ acc → a = true) (h1 : e.1 < acc.length)
    (h2 : e.2.1 < acc.length) : connUpd acc e = acc := by
  have hm1 : acc.getD e.1 false = true := getD_true_of_all acc hall _ h1
  have hm2 : acc.getD e.2.1 false = true := getD_true_of_all acc hall _ h2
  unfold connUpd
  dsimp only
  have hg1 : ¬ ((acc.getD e.1 false && !(acc.getD e.2.1 false)) = true) := by
    rw [hm1, hm2]
    simp
  rw [if_neg hg1]
  have hg2 : ¬ ((acc.getD e.2.1 false && !(acc.getD e.1 false)) = true) := by
    rw [hm1, hm2]
    simp
  rw [if_neg hg2]

theorem connStep_id (n : Nat) (E : List WEdge) (hwfE : EdgesWf n E) :
    ∀ r, r.length = n → (∀ a, a ∈ r → a = true) → connStep E r = r := by
  unfold connStep
  induction E with
  | nil => intro r _ _; rfl
  | cons e E ih =>
      intro r hlen hall
      have hwfE2 : EdgesWf n E := fun f hf => hwfE f (List.mem_cons_of_mem _ hf)
      show List.foldl connUpd (connUpd r e) E = r
      rw [connUpd_id r e hall (by rw [hlen]; exact (hwfE e (List.mem_cons_self _ _)).1)
        (by rw [hlen]; exact (hwfE e (List.mem_cons_self _ _)).2)]
      exact ih hwfE2 r hlen hall

theorem connStep_reaches_fix (E : List WEdge) (n : Nat) (hwfE : EdgesWf n E) :
    ∀ k r, r.length = n → n ≤ r.countP (fun b => b) + k →
    connStep E (connIterB E k r) = connIterB E k r := by
  intro k
  induction k with
  | zero =>
      intro r hlen hcnt
      have hcle : r.countP (fun b => b) ≤ r.length := List.countP_le_length _
      have hall : ∀ a, a ∈ r → (fun b => b) a = true :=
        List.countP_eq_length.mp (Nat.le_antisymm hcle (by omega))
      exact connStep_id n E hwfE r hlen hall
  | succ k ih =>
      intro r hlen hcnt
      by_cases hfix : connStep E r = r
      · show connStep E (connIterB E k (connStep E r)) =
          connIterB E k (connStep E r)
        rw [hfix, connIterB_fix E k r hfix]
        exact hfix
      · have hlt : r.countP (fun b => b) <
            (connStep E r).countP (fun b => b) :=
          countT_lt_of_pointwise r (connStep E r)
            (connStep_length E r).symm (connStep_mono E r)
            (fun h => hfix h.symm)
        exact ih (connStep E r) ((connStep_length E r).trans hlen) (by omega)

theorem connB_complete {n : Nat} {E : List WEdge} {x y : Nat}
    (hwfE : EdgesWf n E) (hx : x < n) (h : ConnE E x y) :
    connB n E x y = true := by
  unfold connB
  have hlen0 : ((List.replicate n false).set x true).length = n := by simp
  have hfix := connStep_reaches_fix E n hwfE n
    ((List.replicate n false).set x true) hlen0 (by omega)
  have hlenN : (connIterB E n ((List.replicate n false).set x true)).length =
      n := by rw [connIterB_length, hlen0]
  have hx0 : ((List.replicate n false).set x true).getD x false = true :=
    setB_getD_self _ _ (by simp; exact hx)
  have hxN : (connIterB E n ((List.replicate n false).set x true)).getD x
      false = true := connIterB_mono E n _ x hx0
  induction h with
  | refl => exact hxN
  | @stepF y1 z1 w1 h he ih =>
      rw [← hfix]
      exact connStep_fwd E _ (y1, z1, w1) he ih
        (by rw [hlenN]; exact (hwfE _ he).2)
  | @stepB y1 z1 w1 h he ih =>
      rw [← hfix]
      exact connStep_bwd E _ (z1, y1, w1) he ih
        (by rw [hlenN]; exact (hwfE _ he).1)

theorem connB_sound {n : Nat} {E : List WEdge} {x y : Nat}
    (h : connB n E x y = true) : ConnE E x y := by
  unfold connB at h
  refine connIterB_sound E x n _ ?_ y h
  intro z hz
  rcases setB_getD_cases _ _ _ hz with h1 | h1
  · rw [h1]
    exact ConnE.refl x
  · rw [List.getD_eq_getElem?_getD, List.getElem?_replicate] at h1
    by_cases hzn : z < n
    · rw [if_pos hzn] at h1
      simp at h1
    · rw [if_neg hzn] at h1
      simp at h1

theorem connB_iff {n : Nat} {E : List WEdge} {x y : Nat}
    (hwfE : EdgesWf n E) (hx : x < n) :
    connB n E x y = true ↔ ConnE E x y :=
  ⟨connB_sound, connB_complete hwfE hx⟩
theorem bool_eq_of_iff {a b : Bool} (h : a = true ↔ b = true) : a = b := by
  cases a with
  | true => exact (h.mp rfl).symm
  | false =>
      cases b with
      | true => exact absurd (h.mpr rfl) (by simp)
      | false => rfl

theorem classMin_iff {n : Nat} {E : List WEdge} {v : Nat}
    (hwfE : EdgesWf n E) (hv : v < n) :
    classMin n E v = true ↔ ∀ u, u < v → ¬ ConnE E u v := by
  constructor
  · intro h u hu hconn
    have hub : connB n E u v = true :=
      connB_complete hwfE (Nat.lt_trans hu hv) hconn
    unfold classMin at h
    rw [Bool.not_eq_true'] at h
    have h2 : (List.range v).any (fun u => connB n E u v) = true :=
      List.any_eq_true.mpr ⟨u, List.mem_range.mpr hu, hub⟩
    rw [h] at h2
    simp at h2
  · intro h
    unfold classMin
    rw [Bool.not_eq_true']
    by_cases hany : (List.range v).any (fun u => connB n E u v) = true
    · obtain ⟨u, hu, hub⟩ := List.any_eq_true.mp hany
      exact absurd (connB_sound hub) (h u (List.mem_range.mp hu))
    · cases hx : (List.range v).any (fun u => connB n E u v)
      · rfl
      · exact absurd hx hany

theorem classCount_congr {n : Nat} {E F : List WEdge}
    (hwfE : EdgesWf n E) (hwfF : EdgesWf n F)
    (h : ∀ u v, u < n → v < n → (ConnE E u v ↔ ConnE F u v)) :
    classCount n E = classCount n F := by
  unfold classCount
  rw [List.filter_congr]
  intro v hv
  have hvn : v < n := List.mem_range.mp hv
  refine bool_eq_of_iff ?_
  rw [classMin_iff hwfE hvn, classMin_iff hwfF hvn]
  constructor
  · intro hm u hu hc
    exact hm u hu ((h u v (Nat.lt_trans hu hvn) hvn).mpr hc)
  · intro hm u hu hc
    exact hm u hu ((h u v (Nat.lt_trans hu hvn) hvn).mp hc)

/-- Every vertex has a least element of its connectivity class. -/
theorem exists_classRep {n : Nat} (E : List WEdge) :
    ∀ v, v < n → ∃ m, m ≤ v ∧ m < n ∧ ConnE E m v ∧
      (∀ u, u < m → ¬ ConnE E u m) := by
  intro v
  induction v using Nat.strong_induction_on with
  | _ v ih =>
      intro hv
      by_cases hmin : ∀ u, u < v → ¬ ConnE E u v
      · exact ⟨v, Nat.le_refl v, hv, ConnE.refl v, hmin⟩
      · push_neg at hmin
        obtain ⟨u, hu, hconn⟩ := hmin
        obtain ⟨m, hm1, hm2, hm3, hm4⟩ := ih u hu (Nat.lt_trans hu hv)
        exact ⟨m, Nat.le_trans hm1 (Nat.le_of_lt hu), hm2,
          hm3.trans hconn, hm4⟩

theorem classRep_unique {E : List WEdge} {m1 m2 v : Nat}
    (h1c : ConnE E m1 v) (h1m : ∀ u, u < m1 → ¬ ConnE E u m1)
    (h2c : ConnE E m2 v) (h2m : ∀ u, u < m2 → ¬ ConnE E u m2) :
    m1 = m2 := by
  rcases Nat.lt_trichotomy m1 m2 with h | h | h
  · exact absurd (h1c.trans h2c.symm) (h2m m1 h)
  · exact h
  · exact absurd (h2c.trans h1c.symm) (h1m m2 h)
theorem length_filter_and_ne :
    ∀ (l : List Nat) (p q : Nat → Bool) (a : Nat), l.Nodup → a ∈ l →
    p a = true → (∀ v, v ∈ l → (q v = true ↔ (p v = true ∧ v ≠ a))) →
    (l.filter q).length + 1 = (l.filter p).length := by
  intro l
  induction l with
  | nil => intro p q a _ ha; simp at ha
  | cons b t ih =>
      intro p q a hnd ha hpa hq
      rcases List.mem_cons.mp ha with hba | hat
      · subst hba
        have hqa : q a = false := by
          cases hx : q a
          · rfl
          · obtain ⟨-, hne⟩ := (hq a (List.mem_cons_self _ _)).mp hx
            exact absurd rfl hne
        have hnotmem : a ∉ t := (List.nodup_cons.mp hnd).1
        have hfeq : t.filter q = t.filter p := by
          refine List.filter_congr ?_
          intro v hv
          refine bool_eq_of_iff ?_
          rw [hq v (List.mem_cons_of_mem _ hv)]
          have hvb : v ≠ a := fun h => hnotmem (h ▸ hv)
          constructor
          · intro hh
            exact hh.1
          · intro hh
            exact ⟨hh, hvb⟩
        rw [List.filter_cons, List.filter_cons, if_pos hpa, if_neg ?_, hfeq]
        · simp
        · rw [hqa]
          simp
      · have hba : b ≠ a := by
          intro h
          subst h
          exact (List.nodup_cons.mp hnd).1 hat
        have hqb : q b = p b := by
          refine bool_eq_of_iff ?_
          rw [hq b (List.mem_cons_self _ _)]
          constructor
          · intro hh
            exact hh.1
          · intro hh
            exact ⟨hh, hba⟩
        have hrec := ih p q a (List.nodup_cons.mp hnd).2 hat hpa
          (fun v hv => hq v (List.mem_cons_of_mem _ hv))
        rw [List.filter_cons, List.filter_cons, hqb]
        by_cases hpb : p b = true
        · rw [if_pos hpb, if_pos hpb]
          simp only [List.length_cons]
          omega
        · rw [if_neg hpb, if_neg hpb]
          exact hrec

/-- Appending an edge between two distinct classes decreases the class
count by exactly one. -/
theorem classCount_append_merge {n : Nat} {E : List WEdge} {e : WEdge}
    (hwfE : EdgesWf n E) (he1 : e.1 < n) (he2 : e.2.1 < n)
    (hnc : ¬ ConnE E e.1 e.2.1) :
    classCount n (E ++ [e]) + 1 = classCount n E := by
  have hwfE2 : EdgesWf n (E ++ [e]) := by
    intro f hf
    rcases List.mem_append.mp hf with hf | hf
    · exact hwfE f hf
    · rw [List.mem_singleton] at hf
      subst hf
      exact ⟨he1, he2⟩
  obtain ⟨m1, hm1le, hm1n, hm1c, hm1min⟩ := exists_classRep E e.1 he1
  obtain ⟨m2, hm2le, hm2n, hm2c, hm2min⟩ := exists_classRep E e.2.1 he2
  have hm12 : m1 ≠ m2 := by
    intro h
    subst h
    exact hnc (hm1c.symm.trans hm2c)
  -- the larger representative loses its minimum status
  have hM : ∃ M mo, (M = m1 ∧ mo = m2 ∨ M = m2 ∧ mo = m1) ∧ mo < M := by
    rcases Nat.lt_or_ge m1 m2 with h | h
    · exact ⟨m2, m1, Or.inr ⟨rfl, rfl⟩, h⟩
    · exact ⟨m1, m2, Or.inl ⟨rfl, rfl⟩, by omega⟩
  obtain ⟨M, mo, hMcase, hmoM⟩ := hM
  have hMn : M < n := by
    rcases hMcase with ⟨h1, -⟩ | ⟨h1, -⟩
    · rw [h1]; exact hm1n
    · rw [h1]; exact hm2n
  have hMmin : ∀ u, u < M → ¬ ConnE E u M := by
    rcases hMcase with ⟨h1, -⟩ | ⟨h1, -⟩
    · rw [h1]; exact hm1min
    · rw [h1]; exact hm2min
  have hconn12 : ConnE (E ++ [e]) m1 m2 := by
    have hsub : ∀ f, f ∈ E → f ∈ E ++ [e] :=
      fun f hf => List.mem_append.mpr (Or.inl hf)
    have hee : ConnE (E ++ [e]) e.1 e.2.1 :=
      conn_append_single.mpr (Or.inr (Or.inl ⟨ConnE.refl _, ConnE.refl _⟩))
    exact ((hm1c.mono hsub).trans hee).trans (hm2c.mono hsub).symm
  have hconnMo : ConnE (E ++ [e]) mo M := by
    rcases hMcase with ⟨h1, h2⟩ | ⟨h1, h2⟩
    · rw [h1, h2]; exact hconn12.symm
    · rw [h1, h2]; exact hconn12
  refine length_filter_and_ne (List.range n) (classMin n E)
    (classMin n (E ++ [e])) M (List.nodup_range n)
    (List.mem_range.mpr hMn) ((classMin_iff hwfE hMn).mpr hMmin) ?_
  intro v hv
  have hvn : v < n := List.mem_range.mp hv
  rw [classMin_iff hwfE2 hvn, classMin_iff hwfE hvn]
  constructor
  · intro hmin
    refine ⟨?_, ?_⟩
    · intro u hu hc
      exact hmin u hu (hc.mono (fun f hf => List.mem_append.mpr (Or.inl hf)))
    · intro hvM
      subst hvM
      exact hmin mo hmoM hconnMo
  · intro hmin u hu hc
    obtain ⟨hvmin, hvM⟩ := hmin
    rcases conn_append_single.mp hc with h1 | ⟨h1, h2⟩ | ⟨h1, h2⟩
    · exact hvmin u hu h1
    · have hvm2 : v = m2 :=
        classRep_unique (ConnE.refl v) hvmin (hm2c.trans h2) hm2min
      have hum1 : m1 ≤ u := by
        by_contra hlt
        push_neg at hlt
        exact hm1min u hlt (h1.trans hm1c.symm)
      have hMm1 : M = m1 ∧ mo = m2 := by
        rcases hMcase with hcc | hcc
        · exact hcc
        · exfalso
          apply hvM
          rw [hvm2, hcc.1]
      have h5 : m2 < m1 := by
        rw [hMm1.1, hMm1.2] at hmoM
        exact hmoM
      rw [hvm2] at hu
      omega
    · have hvm1 : v = m1 :=
        classRep_unique (ConnE.refl v) hvmin (hm1c.trans h2) hm1min
      have hum2 : m2 ≤ u := by
        by_contra hlt
        push_neg at hlt
        exact hm2min u hlt (h1.trans hm2c.symm)
      have hMm2 : M = m2 ∧ mo = m1 := by
        rcases hMcase with hcc | hcc
        · exfalso
          apply hvM
          rw [hvm1, hcc.1]
        · exact hcc
      have h5 : m1 < m2 := by
        rw [hMm2.1, hMm2.2] at hmoM
        exact hmoM
      rw [hvm1] at hu
      omega
theorem connB_nil (n : Nat) (u v : Nat) (hne : u ≠ v) :
    connB n [] u v = false := by
  unfold connB
  rw [connIterB_fix [] n _ rfl]
  cases hx : ((List.replicate n false).set u true).getD v false
  · rfl
  · rcases setB_getD_cases _ _ _ hx with h | h
    · exact absurd h.symm hne
    · rw [List.getD_eq_getElem?_getD, List.getElem?_replicate] at h
      by_cases hvn : v < n
      · rw [if_pos hvn] at h
        simp at h
      · rw [if_neg hvn] at h
        simp at h

theorem classCount_nil (n : Nat) : classCount n [] = n := by
  unfold classCount
  rw [List.filter_eq_self.mpr, List.length_range]
  intro v hv
  unfold classMin
  have hany : (List.range v).any (fun u => connB n [] u v) = false := by
    rw [List.any_eq_false]
    intro u hu
    rw [connB_nil n u v (by have := List.mem_range.mp hu; omega)]
    simp
  rw [hany]
  rfl

theorem classCount_append_intra {n : Nat} {E : List WEdge} {e : WEdge}
    (hwfE : EdgesWf n E) (he1 : e.1 < n) (he2 : e.2.1 < n)
    (hc : ConnE E e.1 e.2.1) :
    classCount n (E ++ [e]) = classCount n E := by
  have hwfE2 : EdgesWf n (E ++ [e]) := by
    intro f hf
    rcases List.mem_append.mp hf with hf | hf
    · exact hwfE f hf
    · rw [List.mem_singleton] at hf
      subst hf
      exact ⟨he1, he2⟩
  refine classCount_congr hwfE2 hwfE ?_
  intro u v _ _
  rw [conn_append_single]
  constructor
  · intro h
    rcases h with h | ⟨h1, h2⟩ | ⟨h1, h2⟩
    · exact h
    · exact (h1.trans hc).trans h2
    · exact (h1.trans hc.symm).trans h2
  · intro h
    exact Or.inl h

theorem classCount_le_of_conn_imp {n : Nat} {E F : List WEdge}
    (hwfE : EdgesWf n E) (hwfF : EdgesWf n F)
    (h : ∀ u v, u < n → v < n → ConnE E u v → ConnE F u v) :
    classCount n F ≤ classCount n E := by
  unfold classCount
  rw [← List.countP_eq_length_filter, ← List.countP_eq_length_filter]
  refine List.countP_mono_left ?_
  intro v hv hqv
  have hvn : v < n := List.mem_range.mp hv
  rw [classMin_iff hwfF hvn] at hqv
  rw [classMin_iff hwfE hvn]
  intro u hu hc
  exact hqv u hu (h u v (Nat.lt_trans hu hvn) hvn hc)

theorem classCount_le (n : Nat) (E : List WEdge) : classCount n E ≤ n := by
  unfold classCount
  have h := List.length_filter_le (fun v => classMin n E v) (List.range n)
  rw [List.length_range] at h
  exact h

theorem classCount_pos (n : Nat) (E : List WEdge) (hn : 0 < n) :
    1 ≤ classCount n E := by
  unfold classCount
  have hzero : (0 : Nat) ∈ (List.range n).filter (fun v => classMin n E v) := by
    rw [List.mem_filter]
    refine ⟨List.mem_range.mpr hn, ?_⟩
    unfold classMin
    simp
  have hpos := List.length_pos.mpr
    (show (List.range n).filter (fun v => classMin n E v) ≠ [] from by
      intro hh
      rw [hh] at hzero
      simp at hzero)
  omega
/-- Pure greedy spanning-forest selection over an edge stream: skip an edge
whose endpoints are already connected by the accepted set, accept it
otherwise, and stop once a single component is left (the `disjunct_sets`
early exit). -/
def greedyK (n : Nat) : List WEdge → List WEdge → List WEdge
  | [], _ => []
  | e :: S, acc =>
      if n - acc.length = 1 then []
      else if connB n acc e.1 e.2.1 then greedyK n S acc
      else e :: greedyK n S (acc ++ [e])

theorem two_distinct_le_length {l : List Nat} {a b : Nat}
    (ha : a ∈ l) (hb : b ∈ l) (hab : a ≠ b) : 2 ≤ l.length := by
  have hbe : b ∈ l.erase a := (List.mem_erase_of_ne (fun h => hab h.symm)).mpr hb
  have h1 := List.length_pos.mpr (List.ne_nil_of_mem hbe)
  have h2 : (l.erase a).length = l.length - 1 := List.length_erase_of_mem ha
  omega

theorem all_conn_of_classCount_one {n : Nat} {A : List WEdge}
    (h1 : classCount n A = 1) :
    ∀ u v, u < n → v < n → ConnE A u v := by
  intro u v hu hv
  by_contra hnc
  obtain ⟨mu, -, hmun, hmuc, hmum⟩ := exists_classRep A u hu
  obtain ⟨mv, -, hmvn, hmvc, hmvm⟩ := exists_classRep A v hv
  have hne : mu ≠ mv := by
    intro h
    exact hnc (hmuc.symm.trans (h ▸ hmvc))
  have hmem1 : mu ∈ (List.range n).filter (fun w => classMin n A w) := by
    rw [List.mem_filter]
    refine ⟨List.mem_range.mpr hmun, ?_⟩
    unfold classMin
    rw [Bool.not_eq_true']
    rw [List.any_eq_false]
    intro z hz
    intro hcz
    exact absurd (connB_sound hcz) (hmum z (List.mem_range.mp hz))
  have hmem2 : mv ∈ (List.range n).filter (fun w => classMin n A w) := by
    rw [List.mem_filter]
    refine ⟨List.mem_range.mpr hmvn, ?_⟩
    unfold classMin
    rw [Bool.not_eq_true']
    rw [List.any_eq_false]
    intro z hz
    intro hcz
    exact absurd (connB_sound hcz) (hmvm z (List.mem_range.mp hz))
  have h2 := two_distinct_le_length hmem1 hmem2 hne
  unfold classCount at h1
  omega

/-- The main invariant of the greedy selection: its output is a sub-stream
of the input whose union with the accepted set stays a forest, and every
rejected edge is already connected by the accepted edges of key at most its
own. -/
theorem greedyK_spec (n : Nat) (key : WEdge → Nat) :
    ∀ (S acc : List WEdge), EdgesWf n S → EdgesWf n acc →
    classCount n acc + acc.length = n →
    List.Pairwise (fun e f => ¬ key f < key e) S →
    (greedyK n S acc).Sublist S ∧
    classCount n (acc ++ greedyK n S acc) +
      (acc ++ greedyK n S acc).length = n ∧
    (∀ f, f ∈ S → f ∉ greedyK n S acc →
      ConnE (acc ++ (greedyK n S acc).filter
        (fun a => !(decide (key f < key a)))) f.1 f.2.1) := by
  intro S
  induction S with
  | nil =>
      intro acc _ hwfacc hforest _
      refine ⟨List.Sublist.refl [], ?_, ?_⟩
      · rw [show greedyK n [] acc = [] from rfl, List.append_nil]
        exact hforest
      · intro f hf
        simp at hf
  | cons e S ih =>
      intro acc hwfS hwfacc hforest hsorted
      have hwfS2 : EdgesWf n S := fun f hf => hwfS f (List.mem_cons_of_mem _ hf)
      have hwfe : e.1 < n ∧ e.2.1 < n := hwfS e (List.mem_cons_self _ _)
      by_cases hstop : n - acc.length = 1
      · rw [show greedyK n (e :: S) acc = [] from by
          simp only [greedyK]; rw [if_pos hstop]]
        refine ⟨List.nil_sublist _, ?_, ?_⟩
        · rw [List.append_nil]
          exact hforest
        · intro f hf _
          rw [List.filter_nil, List.append_nil]
          have hcc1 : classCount n acc = 1 := by omega
          exact all_conn_of_classCount_one hcc1 f.1 f.2.1
            (hwfS f hf).1 (hwfS f hf).2
      · by_cases hconn : connB n acc e.1 e.2.1 = true
        · rw [show greedyK n (e :: S) acc = greedyK n S acc from by
            simp only [greedyK]; rw [if_neg hstop, if_pos hconn]]
          obtain ⟨g1, g2, g3⟩ := ih acc hwfS2 hwfacc hforest
            (List.pairwise_cons.mp hsorted).2
          refine ⟨g1.cons e, g2, ?_⟩
          intro f hf hfo
          rcases List.mem_cons.mp hf with hfe | hfS
          · subst hfe
            refine (connB_sound hconn).mono ?_
            intro g hg
            exact List.mem_append.mpr (Or.inl hg)
          · exact g3 f hfS hfo
        · have hnconn : ¬ ConnE acc e.1 e.2.1 := by
            intro hcc
            rw [connB_complete hwfacc hwfe.1 hcc] at hconn
            exact hconn rfl
          rw [show greedyK n (e :: S) acc = e :: greedyK n S (acc ++ [e]) from by
            simp only [greedyK]; rw [if_neg hstop, if_neg hconn]]
          have hwfacc2 : EdgesWf n (acc ++ [e]) := by
            intro f hf
            rcases List.mem_append.mp hf with hf | hf
            · exact hwfacc f hf
            · rw [List.mem_singleton] at hf
              subst hf
              exact hwfe
          have hforest2 : classCount n (acc ++ [e]) +
              (acc ++ [e]).length = n := by
            have hm := classCount_append_merge hwfacc hwfe.1 hwfe.2 hnconn
            rw [List.length_append]
            simp only [List.length_singleton]
            omega
          obtain ⟨g1, g2, g3⟩ := ih (acc ++ [e]) hwfS2 hwfacc2 hforest2
            (List.pairwise_cons.mp hsorted).2
          have hassoc : ∀ (X : List WEdge), acc ++ (e :: X) = (acc ++ [e]) ++ X := by
            intro X
            simp
          refine ⟨g1.cons₂ e, ?_, ?_⟩
          · rw [hassoc]
            exact g2
          · intro f hf hfo
            have hfe2 : f ≠ e := by
              intro h
              exact hfo (h ▸ List.mem_cons_self _ _)
            have hfS : f ∈ S := by
              rcases List.mem_cons.mp hf with h | h
              · exact absurd h hfe2
              · exact h
            have hfo2 : f ∉ greedyK n S (acc ++ [e]) := by
              intro h
              exact hfo (List.mem_cons_of_mem _ h)
            have hkey : ¬ key f < key e :=
              (List.pairwise_cons.mp hsorted).1 f hfS
            have hfilter : (e :: greedyK n S (acc ++ [e])).filter
                (fun a => !(decide (key f < key a))) =
                e :: (greedyK n S (acc ++ [e])).filter
                  (fun a => !(decide (key f < key a))) := by
              rw [List.filter_cons, if_pos (by simp [hkey])]
            rw [hfilter, hassoc]
            exact g3 f hfS hfo2
/-- The future emission stream of an IQS state (with canonical fuel). -/
def streamK (iqs : IQS WEdge) : List WEdge :=
  (IQS.drain (iqs.a.length + 1 - iqs.idx) iqs).getD []

theorem keyLt_swo (key : WEdge → Nat) :
    IsSWO (fun e f : WEdge => decide (key e < key f)) := by
  refine ⟨?_, ?_, ?_⟩
  · intro x y h
    simp at h ⊢
    omega
  · intro x y z h1 h2
    simp at h1 h2 ⊢
    omega
  · intro x y z h1 h2 h3 h4
    simp at h1 h2 h3 h4 ⊢
    omega

theorem streamK_exhausted (iqs : IQS WEdge)
    (h : iqs.a.length ≤ iqs.idx) : streamK iqs = [] := by
  unfold streamK
  rcases Nat.eq_zero_or_eq_succ_pred (iqs.a.length + 1 - iqs.idx) with h0 | hs
  · rw [h0]
    rfl
  · rw [hs]
    simp only [IQS.drain, IQS.next_exhausted iqs h]
    rfl

theorem streamK_step (iqs : IQS WEdge) (e : WEdge) (iqs2 : IQS WEdge)
    (hswo : IsSWO iqs2.lt) (hinv2 : IQSInv iqs2)
    (hnext : IQS.next iqs = some (some (e, iqs2)))
    (hlen : iqs2.a.length = iqs.a.length) (hidx : iqs2.idx = iqs.idx + 1) :
    streamK iqs = e :: streamK iqs2 := by
  have hfuel : iqs.a.length + 1 - iqs.idx =
      (iqs2.a.length + 1 - iqs2.idx) + 1 := by
    rw [hlen, hidx]
    have := hinv2.1
    rw [hlen, hidx] at this
    omega
  unfold streamK
  rw [hfuel]
  have hd : IQS.drain ((iqs2.a.length + 1 - iqs2.idx) + 1) iqs =
      (IQS.drain (iqs2.a.length + 1 - iqs2.idx) iqs2).map (e :: ·) := by
    simp only [IQS.drain, hnext]
  rw [hd]
  obtain ⟨T, hT, -, -⟩ := IQS.drain_spec (iqs2.a.length + 1 - iqs2.idx) iqs2
    hswo hinv2 (by have := hinv2.1; omega)
  rw [hT]
  rfl

/-- Sortedness and permutation facts about the stream of an invariant
state. -/
theorem streamK_spec (iqs : IQS WEdge) (hswo : IsSWO iqs.lt)
    (hinv : IQSInv iqs) :
    (iqs.a.take iqs.idx ++ streamK iqs).Perm iqs.a ∧
    List.Pairwise (fun x y => iqs.lt y x = false)
      (iqs.a.take iqs.idx ++ streamK iqs) := by
  obtain ⟨T, hT, hp, hs⟩ := IQS.drain_spec (iqs.a.length + 1 - iqs.idx) iqs
    hswo hinv (by have := hinv.1; omega)
  unfold streamK
  rw [hT]
  exact ⟨hp, hs⟩
theorem collapse_eq_iff {a b c1 c2 : Nat} (hab : a ≠ b) :
    ((if c1 = a then b else c1) = (if c2 = a then b else c2) ↔
     (c1 = c2 ∨ (c1 = a ∧ c2 = b) ∨ (c1 = b ∧ c2 = a))) := by
  by_cases h1 : c1 = a
  · by_cases h2 : c2 = a
    · rw [if_pos h1, if_pos h2]
      constructor
      · intro _
        exact Or.inl (h1.trans h2.symm)
      · intro _
        rfl
    · rw [if_pos h1, if_neg h2]
      constructor
      · intro h
        exact Or.inr (Or.inl ⟨h1, h.symm⟩)
      · intro h
        rcases h with h | ⟨ha, hb⟩ | ⟨ha, hb⟩
        · exact absurd (h ▸ h1) h2
        · exact hb.symm
        · exact absurd (h1.symm.trans ha) hab
  · by_cases h2 : c2 = a
    · rw [if_neg h1, if_pos h2]
      constructor
      · intro h
        exact Or.inr (Or.inr ⟨h, h2⟩)
      · intro h
        rcases h with h | ⟨ha, hb⟩ | ⟨ha, hb⟩
        · exact absurd (h.trans h2) h1
        · exact absurd ha h1
        · exact ha
    · rw [if_neg h1, if_neg h2]
      constructor
      · intro h
        exact Or.inl h
      · intro h
        rcases h with h | ⟨ha, hb⟩ | ⟨ha, hb⟩
        · exact h
        · exact absurd ha h1
        · exact absurd hb h2

/-- One `next` call of the Kruskal enumerator, related to the pure greedy
over the IQS stream: either the stream is exhausted with every popped edge
rejected, or the first crossing edge of the stream is returned and
union-ed. -/
theorem kruskalLoop_spec (n : Nat) (key : WEdge → Nat) :
    ∀ (k : Nat) (uf : RankedUnionFind) (iqs : IQS WEdge) (dis : Nat)
      (acc : List WEdge),
    iqs.lt = (fun e f : WEdge => decide (key e < key f)) →
    IQSInv iqs →
    EdgesWf n iqs.a →
    iqs.a.length - iqs.idx < k →
    RUFInv uf n →
    (∀ u v, u < n → v < n →
      (uf.forest.rootD u = uf.forest.rootD v ↔ ConnE acc u v)) →
    EdgesWf n acc →
    n - acc.length ≠ 1 →
    ∃ res, kruskalLoop k uf iqs dis = some res ∧
      ((∃ uf2 iqs2,
          res = (none, ⟨uf2, iqs2, dis⟩) ∧
          iqs2.lt = iqs.lt ∧ IQSInv iqs2 ∧ EdgesWf n iqs2.a ∧
          iqs2.a.Perm iqs.a ∧
          iqs2.a.length ≤ iqs2.idx ∧
          RUFInv uf2 n ∧
          (∀ u v, u < n → v < n →
            (uf2.forest.rootD u = uf2.forest.rootD v ↔ ConnE acc u v)) ∧
          greedyK n (streamK iqs) acc = []) ∨
       (∃ e uf2 iqs2,
          res = (some e, ⟨uf2, iqs2, dis - 1⟩) ∧
          iqs2.lt = iqs.lt ∧ IQSInv iqs2 ∧ EdgesWf n iqs2.a ∧
          iqs2.a.Perm iqs.a ∧
          iqs2.a.length = iqs.a.length ∧ iqs.idx < iqs2.idx ∧
          e.1 < n ∧ e.2.1 < n ∧ ¬ ConnE acc e.1 e.2.1 ∧
          e ∈ iqs.a ∧
          RUFInv uf2 n ∧
          (∀ u v, u < n → v < n →
            (uf2.forest.rootD u = uf2.forest.rootD v ↔
              ConnE (acc ++ [e]) u v)) ∧
          greedyK n (streamK iqs) acc =
            e :: greedyK n (streamK iqs2) (acc ++ [e]))) := by
  intro k
  induction k with
  | zero =>
      intro uf iqs dis acc _ _ _ hk
      omega
  | succ k ih =>
      intro uf iqs dis acc hlt hinv hwfa hk hruf hriff hwfacc hdis
      have hswo : IsSWO iqs.lt := by
        rw [hlt]
        exact keyLt_swo key
      by_cases hend : iqs.a.length ≤ iqs.idx
      · refine ⟨(none, ⟨uf, iqs, dis⟩), ?_, Or.inl
          ⟨uf, iqs, rfl, rfl, hinv, hwfa, List.Perm.refl _, hend, hruf,
            hriff, ?_⟩⟩
        · show (match IQS.next iqs with
            | none => none
            | some none => some (none, (⟨uf, iqs, dis⟩ : IncKruskal))
            | some (some (e, iqs2)) =>
                let r := uf.isSame e.1 e.2.1
                if r.1 then kruskalLoop k r.2 iqs2 dis
                else some (some e, ⟨r.2.union e.1 e.2.1, iqs2, dis - 1⟩)) =
            some (none, ⟨uf, iqs, dis⟩)
          rw [IQS.next_exhausted iqs hend]
        · rw [streamK_exhausted iqs hend]
          rfl
      · obtain ⟨e0, q2, hnext, hinv2, hidx2, hlt2, hlen2, hperm2, htake2⟩ :=
          IQS.next_step iqs hswo hinv (by omega)
        have hswo2 : IsSWO q2.lt := by
          rw [hlt2]
          exact hswo
        have he0mem : e0 ∈ iqs.a := by
          have h1 : e0 ∈ q2.a.take (iqs.idx + 1) := by
            rw [htake2]
            exact List.mem_append.mpr (Or.inr (List.mem_singleton.mpr rfl))
          exact hperm2.mem_iff.mp (List.mem_of_mem_take h1)
        have he0wf : e0.1 < n ∧ e0.2.1 < n := hwfa e0 he0mem
        have hwfa2 : EdgesWf n q2.a := by
          intro f hf
          exact hwfa f (hperm2.mem_iff.mp hf)
        obtain ⟨uf1, hsame, hruf1, hrk1, hroots1, hstat1⟩ :=
          hruf.isSame_spec he0wf.1 he0wf.2
        have hriff1 : ∀ u v, u < n → v < n →
            (uf1.forest.rootD u = uf1.forest.rootD v ↔ ConnE acc u v) := by
          intro u v hu hv
          rw [hroots1 u, hroots1 v]
          exact hriff u v hu hv
        have hstreamsplit : streamK iqs = e0 :: streamK q2 :=
          streamK_step iqs e0 q2 hswo2 hinv2 hnext hlen2 hidx2
        by_cases hcross : uf.forest.rootD e0.1 = uf.forest.rootD e0.2.1
        · -- already connected: skipped
          have hconn : ConnE acc e0.1 e0.2.1 :=
            (hriff e0.1 e0.2.1 he0wf.1 he0wf.2).mp hcross
          have hcb : connB n acc e0.1 e0.2.1 = true :=
            connB_complete hwfacc he0wf.1 hconn
          have hloopeq : kruskalLoop (k + 1) uf iqs dis =
              kruskalLoop k uf1 q2 dis := by
            show (match IQS.next iqs with
              | none => none
              | some none => some (none, (⟨uf, iqs, dis⟩ : IncKruskal))
              | some (some (e, iqs2)) =>
                  let r := uf.isSame e.1 e.2.1
                  if r.1 then kruskalLoop k r.2 iqs2 dis
                  else some (some e, ⟨r.2.union e.1 e.2.1, iqs2, dis - 1⟩)) =
              kruskalLoop k uf1 q2 dis
            rw [hnext]
            dsimp only
            rw [hsame]
            dsimp only
            rw [if_pos (by rw [hcross]; simp)]
          have hgr : greedyK n (streamK iqs) acc =
              greedyK n (streamK q2) acc := by
            rw [hstreamsplit]
            show (if n - acc.length = 1 then []
              else if connB n acc e0.1 e0.2.1 then greedyK n (streamK q2) acc
              else e0 :: greedyK n (streamK q2) (acc ++ [e0])) = _
            rw [if_neg hdis, if_pos hcb]
          obtain ⟨res, hres, hcase⟩ := ih uf1 q2 dis acc
            (hlt2.trans hlt) hinv2 hwfa2 (by omega) hruf1 hriff1 hwfacc hdis
          refine ⟨res, by rw [hloopeq]; exact hres, ?_⟩
          rcases hcase with ⟨uf2, iqs2, hr1, hr2, hr3, hr4, hr5, hr6, hr7,
              hr8, hr9⟩ | ⟨e, uf2, iqs2, hr1, hr2, hr3, hr4, hr5, hr6, hr7,
              hr8, hr9, hr10, hr11, hr12, hr13, hr14⟩
          · exact Or.inl ⟨uf2, iqs2, hr1, hr2.trans hlt2, hr3, hr4,
              hr5.trans hperm2, hr6, hr7, hr8, by rw [hgr]; exact hr9⟩
          · exact Or.inr ⟨e, uf2, iqs2, hr1, hr2.trans hlt2, hr3, hr4,
              hr5.trans hperm2, by rw [hr6, hlen2], by omega,
              hr8, hr9, hr10, hperm2.mem_iff.mp hr11, hr12, hr13,
              by rw [hgr]; exact hr14⟩
        · -- crossing edge: accepted
          have hncon : ¬ ConnE acc e0.1 e0.2.1 := by
            intro hcc
            exact hcross ((hriff e0.1 e0.2.1 he0wf.1 he0wf.2).mpr hcc)
          have hcb : connB n acc e0.1 e0.2.1 = false := by
            cases hcbv : connB n acc e0.1 e0.2.1
            · rfl
            · exact absurd (connB_sound hcbv) hncon
          have hloopeq : kruskalLoop (k + 1) uf iqs dis =
              some (some e0, ⟨uf1.union e0.1 e0.2.1, q2, dis - 1⟩) := by
            show (match IQS.next iqs with
              | none => none
              | some none => some (none, (⟨uf, iqs, dis⟩ : IncKruskal))
              | some (some (e, iqs2)) =>
                  let r := uf.isSame e.1 e.2.1
                  if r.1 then kruskalLoop k r.2 iqs2 dis
                  else some (some e, ⟨r.2.union e.1 e.2.1, iqs2, dis - 1⟩)) =
              _
            rw [hnext]
            dsimp only
            rw [hsame]
            dsimp only
            rw [if_neg (by simp; exact hcross)]
          have hcross1 : uf1.forest.rootD e0.1 ≠ uf1.forest.rootD e0.2.1 := by
            rw [hroots1, hroots1]
            exact hcross
          obtain ⟨hrufU, hUcase⟩ := hruf1.union_spec he0wf.1 he0wf.2
          rcases hUcase with ⟨heq, -⟩ | ⟨-, a, b, han, hbn, hab, haroot,
              habcase, hrootsU, hstatU⟩
          · exact absurd heq hcross1
          · have hriffU : ∀ u v, u < n → v < n →
                ((uf1.union e0.1 e0.2.1).forest.rootD u =
                 (uf1.union e0.1 e0.2.1).forest.rootD v ↔
                  ConnE (acc ++ [e0]) u v) := by
              intro u v hu hv
              rw [hrootsU u, hrootsU v, collapse_eq_iff hab,
                conn_append_single]
              have hcu1 : (uf1.forest.rootD u = uf1.forest.rootD e0.1 ↔
                  ConnE acc u e0.1) := hriff1 u e0.1 hu he0wf.1
              have hcu2 : (uf1.forest.rootD u = uf1.forest.rootD e0.2.1 ↔
                  ConnE acc u e0.2.1) := hriff1 u e0.2.1 hu he0wf.2
              have hcv1 : (uf1.forest.rootD v = uf1.forest.rootD e0.1 ↔
                  ConnE acc v e0.1) := hriff1 v e0.1 hv he0wf.1
              have hcv2 : (uf1.forest.rootD v = uf1.forest.rootD e0.2.1 ↔
                  ConnE acc v e0.2.1) := hriff1 v e0.2.1 hv he0wf.2
              have hmain := hriff1 u v hu hv
              rcases habcase with ⟨ha1, hb1⟩ | ⟨ha1, hb1⟩
              · subst ha1
                subst hb1
                constructor
                · intro h
                  rcases h with h | ⟨h1, h2⟩ | ⟨h1, h2⟩
                  · exact Or.inl (hmain.mp h)
                  · exact Or.inr (Or.inl ⟨hcu1.mp h1, (hcv2.mp h2).symm⟩)
                  · exact Or.inr (Or.inr ⟨hcu2.mp h1, (hcv1.mp h2).symm⟩)
                · intro h
                  rcases h with h | ⟨h1, h2⟩ | ⟨h1, h2⟩
                  · exact Or.inl (hmain.mpr h)
                  · exact Or.inr (Or.inl ⟨hcu1.mpr h1, hcv2.mpr h2.symm⟩)
                  · exact Or.inr (Or.inr ⟨hcu2.mpr h1, hcv1.mpr h2.symm⟩)
              · subst ha1
                subst hb1
                constructor
                · intro h
                  rcases h with h | ⟨h1, h2⟩ | ⟨h1, h2⟩
                  · exact Or.inl (hmain.mp h)
                  · exact Or.inr (Or.inr ⟨hcu2.mp h1, (hcv1.mp h2).symm⟩)
                  · exact Or.inr (Or.inl ⟨hcu1.mp h1, (hcv2.mp h2).symm⟩)
                · intro h
                  rcases h with h | ⟨h1, h2⟩ | ⟨h1, h2⟩
                  · exact Or.inl (hmain.mpr h)
                  · exact Or.inr (Or.inr ⟨hcu1.mpr h1, hcv2.mpr h2.symm⟩)
                  · exact Or.inr (Or.inl ⟨hcu2.mpr h1, hcv1.mpr h2.symm⟩)
            have hgr : greedyK n (streamK iqs) acc =
                e0 :: greedyK n (streamK q2) (acc ++ [e0]) := by
              rw [hstreamsplit]
              show (if n - acc.length = 1 then []
                else if connB n acc e0.1 e0.2.1 then
                  greedyK n (streamK q2) acc
                else e0 :: greedyK n (streamK q2) (acc ++ [e0])) = _
              rw [if_neg hdis, if_neg (by rw [hcb]; simp)]
            exact ⟨(some e0, ⟨uf1.union e0.1 e0.2.1, q2, dis - 1⟩), hloopeq,
              Or.inr ⟨e0, uf1.union e0.1 e0.2.1, q2, rfl, hlt2, hinv2, hwfa2,
                hperm2, hlen2, by omega, he0wf.1, he0wf.2, hncon, he0mem,
                hrufU, hriffU, hgr⟩⟩
theorem greedyK_dis_one (n : Nat) (S acc : List WEdge)
    (h : n - acc.length = 1) : greedyK n S acc = [] := by
  cases S with
  | nil => rfl
  | cons e S =>
      show (if n - acc.length = 1 then []
        else if connB n acc e.1 e.2.1 then greedyK n S acc
        else e :: greedyK n S (acc ++ [e])) = []
      rw [if_pos h]

theorem IncKruskal.next_self (uf : RankedUnionFind) (iqs : IQS WEdge)
    (dis : Nat) (hend : iqs.a.length ≤ iqs.idx)
    (hidx : iqs.idx ≤ iqs.a.length) :
    IncKruskal.next ⟨uf, iqs, dis⟩ = some (none, ⟨uf, iqs, dis⟩) := by
  unfold IncKruskal.next
  dsimp only
  by_cases hdis : dis = 1
  · rw [if_pos hdis]
  · rw [if_neg hdis]
    have hk : iqs.a.length + 1 - iqs.idx = 1 := by omega
    rw [hk]
    show (match IQS.next iqs with
      | none => none
      | some none => some (none, (⟨uf, iqs, dis⟩ : IncKruskal))
      | some (some (e, iqs2)) =>
          let r := uf.isSame e.1 e.2.1
          if r.1 then kruskalLoop 0 r.2 iqs2 dis
          else some (some e, ⟨r.2.union e.1 e.2.1, iqs2, dis - 1⟩)) = _
    rw [IQS.next_exhausted iqs hend]

/-- Draining the Kruskal enumerator computes the pure greedy selection over
the sorted stream, and its final state answers `None` forever after. -/
theorem kruskal_drain_go (n : Nat) (key : WEdge → Nat) :
    ∀ (fuel r : Nat) (uf : RankedUnionFind) (iqs : IQS WEdge)
      (acc : List WEdge),
    iqs.lt = (fun e f : WEdge => decide (key e < key f)) →
    IQSInv iqs →
    EdgesWf n iqs.a →
    iqs.a.length - iqs.idx = r →
    r < fuel →
    RUFInv uf n →
    (∀ u v, u < n → v < n →
      (uf.forest.rootD u = uf.forest.rootD v ↔ ConnE acc u v)) →
    EdgesWf n acc →
    classCount n acc + acc.length = n →
    ∃ out sF,
      IncKruskal.drainS fuel ⟨uf, iqs, n - acc.length⟩ = some (out, sF) ∧
      out = greedyK n (streamK iqs) acc ∧
      (∀ f, f ∈ out → f ∈ iqs.a) ∧
      IncKruskal.next sF = some (none, sF) := by
  intro fuel
  induction fuel with
  | zero =>
      intro r uf iqs acc _ _ _ _ hfl
      omega
  | succ fuel ih =>
      intro r uf iqs acc hlt hinv hwfa hr hfl hruf hriff hwfacc hforest
      by_cases hdis1 : n - acc.length = 1
      · refine ⟨[], ⟨uf, iqs, n - acc.length⟩, ?_, ?_, ?_, ?_⟩
        · show (match IncKruskal.next ⟨uf, iqs, n - acc.length⟩ with
            | none => none
            | some (none, s2) => some (([] : List WEdge), s2)
            | some (some e, s2) =>
                (IncKruskal.drainS fuel s2).map (fun (r : List WEdge × IncKruskal) => (e :: r.1, r.2))) =
            _
          rw [show IncKruskal.next ⟨uf, iqs, n - acc.length⟩ =
            some (none, ⟨uf, iqs, n - acc.length⟩) from by
              unfold IncKruskal.next
              dsimp only
              rw [if_pos hdis1]]
        · rw [greedyK_dis_one n _ acc hdis1]
        · intro f hf
          simp at hf
        · unfold IncKruskal.next
          dsimp only
          rw [if_pos hdis1]
      · obtain ⟨res, hres, hcase⟩ := kruskalLoop_spec n key
          (iqs.a.length + 1 - iqs.idx) uf iqs (n - acc.length) acc hlt hinv
          hwfa (by have := hinv.1; omega) hruf hriff hwfacc hdis1
        have hnext : IncKruskal.next ⟨uf, iqs, n - acc.length⟩ = some res := by
          unfold IncKruskal.next
          dsimp only
          rw [if_neg hdis1]
          exact hres
        rcases hcase with ⟨uf2, iqs2, hr1, hr2, hr3, hr4, hr5, hr6, hr7,
            hr8, hr9⟩ | ⟨e, uf2, iqs2, hr1, hr2, hr3, hr4, hr5, hr6, hr7,
            hr8, hr9, hr10, hr11, hr12, hr13, hr14⟩
        · refine ⟨[], ⟨uf2, iqs2, n - acc.length⟩, ?_, ?_, ?_, ?_⟩
          · show (match IncKruskal.next ⟨uf, iqs, n - acc.length⟩ with
              | none => none
              | some (none, s2) => some (([] : List WEdge), s2)
              | some (some e, s2) =>
                  (IncKruskal.drainS fuel s2).map
                    (fun (r : List WEdge × IncKruskal) =>
                      (e :: r.1, r.2))) = _
            rw [hnext, hr1]
          · exact hr9.symm
          · intro f hf
            simp at hf
          · exact IncKruskal.next_self uf2 iqs2 _ hr6 hr3.1
        · have hwfacc2 : EdgesWf n (acc ++ [e]) := by
            intro f hf
            rcases List.mem_append.mp hf with hf | hf
            · exact hwfacc f hf
            · rw [List.mem_singleton] at hf
              subst hf
              exact ⟨hr8, hr9⟩
          have hforest2 : classCount n (acc ++ [e]) +
              (acc ++ [e]).length = n := by
            have hm := classCount_append_merge hwfacc hr8 hr9 hr10
            rw [List.length_append]
            simp only [List.length_singleton]
            omega
          have hlen1 : acc.length < n := by
            have h1 := classCount_pos n acc (by
              rcases Nat.eq_zero_or_pos n with h0 | h0
              · exfalso
                rw [h0] at hdis1
                simp at hdis1
                omega
              · exact h0)
            omega
          have hdisq : n - acc.length - 1 = n - (acc ++ [e]).length := by
            rw [List.length_append]
            simp only [List.length_singleton]
            omega
          obtain ⟨out2, sF, heq2, hgr2, hmem2, hfix⟩ := ih
            (iqs2.a.length - iqs2.idx) uf2 iqs2 (acc ++ [e])
            (hr2.trans hlt) hr3 hr4 rfl
            (by have h5 := hr3.1; rw [hr6] at h5; omega) hr12 hr13
            hwfacc2 hforest2
          refine ⟨e :: out2, sF, ?_, ?_, ?_, hfix⟩
          · show (match IncKruskal.next ⟨uf, iqs, n - acc.length⟩ with
              | none => none
              | some (none, s2) => some (([] : List WEdge), s2)
              | some (some f, s2) =>
                  (IncKruskal.drainS fuel s2).map
                    (fun (r : List WEdge × IncKruskal) =>
                      (f :: r.1, r.2))) = _
            rw [hnext, hr1]
            dsimp only
            rw [← hdisq] at heq2
            rw [heq2]
            rfl
          · rw [hr14, hgr2]
          · intro f hf
            rcases List.mem_cons.mp hf with hf | hf
            · subst hf
              exact hr11
            · exact hr5.mem_iff.mp (hmem2 f hf)
theorem classCount_append_ge {n : Nat} {E : List WEdge} {e : WEdge}
    (hwfE : EdgesWf n E) (he1 : e.1 < n) (he2 : e.2.1 < n) :
    classCount n E ≤ classCount n (E ++ [e]) + 1 := by
  by_cases hc : ConnE E e.1 e.2.1
  · rw [classCount_append_intra hwfE he1 he2 hc]
    omega
  · rw [← classCount_append_merge hwfE he1 he2 hc]

theorem classCount_append_le {n : Nat} {E : List WEdge} {e : WEdge}
    (hwfE : EdgesWf n E) (he1 : e.1 < n) (he2 : e.2.1 < n) :
    classCount n (E ++ [e]) ≤ classCount n E := by
  by_cases hc : ConnE E e.1 e.2.1
  · rw [classCount_append_intra hwfE he1 he2 hc]
  · rw [← classCount_append_merge hwfE he1 he2 hc]
    omega

theorem phi_append (n : Nat) :
    ∀ (t E0 : List WEdge), EdgesWf n (E0 ++ t) →
    classCount n E0 + E0.length ≤
      classCount n (E0 ++ t) + (E0 ++ t).length := by
  intro t
  induction t with
  | nil =>
      intro E0 _
      rw [List.append_nil]
  | cons a t ih =>
      intro E0 hwf
      have hwf0 : EdgesWf n E0 := by
        intro f hf
        exact hwf f (List.mem_append.mpr (Or.inl hf))
      have hawf : a.1 < n ∧ a.2.1 < n :=
        hwf a (List.mem_append.mpr (Or.inr (List.mem_cons_self _ _)))
      have hstep : classCount n E0 + E0.length ≤
          classCount n (E0 ++ [a]) + (E0 ++ [a]).length := by
        have h1 := classCount_append_ge hwf0 hawf.1 hawf.2
        rw [List.length_append]
        simp only [List.length_singleton]
        omega
      have hre : E0 ++ a :: t = (E0 ++ [a]) ++ t := by simp
      rw [hre]
      refine Nat.le_trans hstep (ih (E0 ++ [a]) ?_)
      rw [← hre]
      exact hwf

theorem phi_ge (n : Nat) (E : List WEdge) (hwf : EdgesWf n E) :
    n ≤ classCount n E + E.length := by
  have h := phi_append n E [] (by simpa using hwf)
  rw [classCount_nil] at h
  simpa using h

theorem classCount_perm {n : Nat} {E F : List WEdge} (hp : E.Perm F)
    (hwfE : EdgesWf n E) : classCount n E = classCount n F := by
  refine classCount_congr hwfE (fun f hf => hwfE f (hp.mem_iff.mpr hf)) ?_
  intro u v _ _
  exact conn_perm hp u v

/-- A sublist of a spanning forest (in the counting sense) is again a
forest. -/
theorem subforest {n : Nat} {F E : List WEdge} (hs : F.Sublist E)
    (hwf : EdgesWf n E) (hphi : classCount n E + E.length = n) :
    classCount n F + F.length = n := by
  obtain ⟨l, hp⟩ := hs.exists_perm_append
  have hwfFl : EdgesWf n (F ++ l) := by
    intro f hf
    exact hwf f (hp.mem_iff.mpr hf)
  have hwfF : EdgesWf n F :=
    fun f hf => hwfFl f (List.mem_append.mpr (Or.inl hf))
  have hcc : classCount n E = classCount n (F ++ l) := classCount_perm hp hwf
  have hlen : E.length = (F ++ l).length := hp.length_eq
  have h1 := phi_append n l F hwfFl
  have h2 := phi_ge n F hwfF
  omega

/-- If every edge of `E` has its endpoints connected in `A`, then `A`
connects at least as much as `E`. -/
theorem conn_of_edges_conn {A E : List WEdge}
    (h : ∀ f, f ∈ E → ConnE A f.1 f.2.1) {u v : Nat}
    (hc : ConnE E u v) : ConnE A u v := by
  induction hc with
  | refl => exact ConnE.refl _
  | @stepF y1 z1 w1 hcc he ih => exact ih.trans (h (y1, z1, w1) he)
  | @stepB y1 z1 w1 hcc he ih => exact ih.trans (h (z1, y1, w1) he).symm

/-- Insertion sort by key (reference definition for the optimality
argument). -/
def insertK (key : WEdge → Nat) (e : WEdge) : List WEdge → List WEdge
  | [] => [e]
  | f :: t => if key e ≤ key f then e :: f :: t else f :: insertK key e t

def sortK (key : WEdge → Nat) : List WEdge → List WEdge
  | [] => []
  | e :: t => insertK key e (sortK key t)

theorem insertK_perm (key : WEdge → Nat) (e : WEdge) :
    ∀ l, (insertK key e l).Perm (e :: l) := by
  intro l
  induction l with
  | nil => exact List.Perm.refl _
  | cons f t ih =>
      show (if key e ≤ key f then e :: f :: t else f :: insertK key e t).Perm _
      by_cases h : key e ≤ key f
      · rw [if_pos h]
      · rw [if_neg h]
        exact (ih.cons f).trans (List.Perm.swap e f t)

theorem sortK_perm (key : WEdge → Nat) : ∀ l, (sortK key l).Perm l := by
  intro l
  induction l with
  | nil => exact List.Perm.refl _
  | cons e t ih =>
      exact (insertK_perm key e (sortK key t)).trans (ih.cons e)

theorem insertK_sorted (key : WEdge → Nat) (e : WEdge) :
    ∀ l, List.Pairwise (fun a b => key a ≤ key b) l →
    List.Pairwise (fun a b => key a ≤ key b) (insertK key e l) := by
  intro l
  induction l with
  | nil =>
      intro _
      exact List.pairwise_singleton _ _
  | cons f t ih =>
      intro hp
      obtain ⟨hf, ht⟩ := List.pairwise_cons.mp hp
      show List.Pairwise _ (if key e ≤ key f then e :: f :: t
        else f :: insertK key e t)
      by_cases h : key e ≤ key f
      · rw [if_pos h]
        refine List.pairwise_cons.mpr ⟨?_, hp⟩
        intro b hb
        rcases List.mem_cons.mp hb with hb | hb
        · rw [hb]
          exact h
        · exact Nat.le_trans h (hf b hb)
      · rw [if_neg h]
        refine List.pairwise_cons.mpr ⟨?_, ih ht⟩
        intro b hb
        have hb2 := (insertK_perm key e t).mem_iff.mp hb
        rcases List.mem_cons.mp hb2 with hb2 | hb2
        · rw [hb2]
          omega
        · exact hf b hb2

theorem sortK_sorted (key : WEdge → Nat) :
    ∀ l, List.Pairwise (fun a b => key a ≤ key b) (sortK key l) := by
  intro l
  induction l with
  | nil => exact List.Pairwise.nil
  | cons e t ih => exact insertK_sorted key e (sortK key t) ih

theorem sum_le_of_pointwise_getD :
    ∀ (l1 l2 : List Nat), l1.length = l2.length →
    (∀ i, i < l1.length → l1.getD i 0 ≤ l2.getD i 0) →
    l1.sum ≤ l2.sum := by
  intro l1
  induction l1 with
  | nil => intro l2 _ _; exact Nat.zero_le _
  | cons a t ih =>
      intro l2 hlen hpt
      cases l2 with
      | nil => simp at hlen
      | cons b t2 =>
          have h0 := hpt 0 (by simp)
          rw [List.getD_cons_zero, List.getD_cons_zero] at h0
          have hrest := ih t2 (by simpa using hlen) ?_
          · rw [List.sum_cons, List.sum_cons]
            omega
          · intro i hi
            have := hpt (i + 1) (by simp; omega)
            rw [List.getD_cons_succ, List.getD_cons_succ] at this
            exact this
theorem sorted_take_le (key : WEdge → Nat) (l : List WEdge)
    (hs : List.Pairwise (fun a b => key a ≤ key b) l) (i : Nat)
    (hi : i < l.length) :
    ∀ b, b ∈ l.take (i + 1) → key b ≤ key (l.getD i default) := by
  intro b hb
  rw [take_succ_getD l i hi] at hb
  rcases List.mem_append.mp hb with hb | hb
  · have hpw : List.Pairwise (fun a b => key a ≤ key b)
        (l.take i ++ [l.getD i default]) := by
      rw [← take_succ_getD l i hi]
      exact hs.sublist (List.take_sublist _ _)
    exact (List.pairwise_append.mp hpw).2.2 b hb _ (List.mem_singleton.mpr rfl)
  · rw [List.mem_singleton.mp hb]

theorem sorted_small_mem_take (key : WEdge → Nat) (l : List WEdge)
    (hs : List.Pairwise (fun a b => key a ≤ key b) l) (i : Nat)
    (hi : i < l.length) :
    ∀ a, a ∈ l → key a < key (l.getD i default) → a ∈ l.take i := by
  intro a ha hk
  rw [← List.take_append_drop (i + 1) l] at ha
  rcases List.mem_append.mp ha with ha | ha
  · rw [take_succ_getD l i hi] at ha
    rcases List.mem_append.mp ha with ha | ha
    · exact ha
    · rw [List.mem_singleton.mp ha] at hk
      omega
  · exfalso
    have hmem : l.getD i default ∈ l.take (i + 1) := by
      rw [take_succ_getD l i hi]
      exact List.mem_append.mpr (Or.inr (List.mem_singleton.mpr rfl))
    have hpw : List.Pairwise (fun a b => key a ≤ key b)
        (l.take (i + 1) ++ l.drop (i + 1)) := by
      rw [List.take_append_drop]
      exact hs
    have := (List.pairwise_append.mp hpw).2.2 _ hmem a ha
    omega

theorem conn_self_edge {A : List WEdge} {f : WEdge} (hf : f ∈ A) :
    ConnE A f.1 f.2.1 :=
  ConnE.stepF (ConnE.refl f.1) (show (f.1, f.2.1, f.2.2) ∈ A from hf)

theorem getD_map_key (key : WEdge → Nat) (l : List WEdge) (i : Nat)
    (h : i < l.length) :
    (l.map key).getD i 0 = key (l.getD i default) := by
  rw [List.getD_eq_getElem?_getD, List.getD_eq_getElem?_getD,
    List.getElem?_map, List.getElem?_eq_getElem h]
  rfl

/-- Greedy optimality: the greedy forest has minimal total key among all
spanning forests drawn from the stream. -/
theorem greedy_opt (n : Nat) (key : WEdge → Nat) (S out T : List WEdge)
    (hwfS : EdgesWf n S)
    (hsorted : List.Pairwise (fun a b => key a ≤ key b) S)
    (hsub : out.Sublist S)
    (hforest : classCount n out + out.length = n)
    (hrej : ∀ f, f ∈ S → f ∉ out →
      ConnE (out.filter (fun a => !(decide (key f < key a)))) f.1 f.2.1)
    (hwfT : EdgesWf n T)
    (hTconn : ∀ u v, u < n → v < n → (ConnE T u v ↔ ConnE S u v))
    (hTforest : classCount n T + T.length = n)
    (hTsub : ∀ f, f ∈ T → f ∈ S) :
    (out.map key).sum ≤ (T.map key).sum := by
  have hwfout : EdgesWf n out := fun f hf => hwfS f (hsub.subset hf)
  have houtsorted : List.Pairwise (fun a b => key a ≤ key b) out :=
    hsorted.sublist hsub
  -- `out` spans as much as `S`
  have houtconn : ∀ u v, u < n → v < n → (ConnE out u v ↔ ConnE S u v) := by
    intro u v _ _
    constructor
    · exact ConnE.mono (fun f hf => hsub.subset hf)
    · refine conn_of_edges_conn ?_
      intro f hf
      by_cases hfo : f ∈ out
      · exact conn_self_edge hfo
      · refine (hrej f hf hfo).mono ?_
        intro g hg
        exact List.mem_of_mem_filter hg
  -- equal lengths
  have hccS : classCount n out = classCount n T := by
    refine classCount_congr hwfout hwfT ?_
    intro u v hu hv
    rw [houtconn u v hu hv, hTconn u v hu hv]
  have hlenTout : T.length = out.length := by omega
  -- the sorted copy of T
  have hBperm : (sortK key T).Perm T := sortK_perm key T
  have hBsorted := sortK_sorted key T
  have hBlen : (sortK key T).length = out.length := by
    rw [hBperm.length_eq]
    exact hlenTout
  have hwfB : EdgesWf n (sortK key T) :=
    fun f hf => hwfT f (hBperm.mem_iff.mp hf)
  have hBforest : classCount n (sortK key T) + (sortK key T).length = n := by
    rw [classCount_perm hBperm hwfB, hBperm.length_eq]
    exact hTforest
  -- pointwise comparison of the two sorted key sequences
  have hpoint : ∀ i, i < out.length →
      key (out.getD i default) ≤ key ((sortK key T).getD i default) := by
    intro i hi
    by_contra hgt
    push_neg at hgt
    have hiB : i < (sortK key T).length := by omega
    -- the two prefixes
    have hAforest : classCount n (out.take i) + (out.take i).length = n :=
      subforest (List.take_sublist i out) hwfout hforest
    have hBpforest : classCount n ((sortK key T).take (i + 1)) +
        ((sortK key T).take (i + 1)).length = n :=
      subforest (List.take_sublist (i + 1) _) hwfB hBforest
    have hAlen : (out.take i).length = i := by
      rw [List.length_take]
      omega
    have hBplen : ((sortK key T).take (i + 1)).length = i + 1 := by
      rw [List.length_take]
      omega
    -- exchange: some edge of the longer forest crosses the shorter one
    have hex : ∃ b, b ∈ (sortK key T).take (i + 1) ∧
        ¬ ConnE (out.take i) b.1 b.2.1 := by
      by_contra hno
      push_neg at hno
      have himp := classCount_le_of_conn_imp
        (fun f hf => hwfB f (List.mem_of_mem_take hf))
        (fun f hf => hwfout f (List.mem_of_mem_take hf))
        (fun u v _ _ hc => conn_of_edges_conn hno hc)
      omega
    obtain ⟨b, hbBp, hbnc⟩ := hex
    have hbB : b ∈ sortK key T := List.mem_of_mem_take hbBp
    have hbS : b ∈ S := hTsub b (hBperm.mem_iff.mp hbB)
    have hbk : key b ≤ key ((sortK key T).getD i default) :=
      sorted_take_le key _ hBsorted i hiB b hbBp
    have hbko : key b < key (out.getD i default) := by omega
    have hbout : b ∉ out := by
      intro hbo
      exact hbnc (conn_self_edge
        (sorted_small_mem_take key out houtsorted i hi b hbo hbko))
    have hbrej := hrej b hbS hbout
    refine hbnc (hbrej.mono ?_)
    intro g hg
    have hgo : g ∈ out := List.mem_of_mem_filter hg
    have hgk : ¬ (key b < key g) := by
      have := List.of_mem_filter hg
      simpa using this
    exact sorted_small_mem_take key out houtsorted i hi g hgo (by omega)
  -- sum up
  have hsum : (out.map key).sum ≤ ((sortK key T).map key).sum := by
    refine sum_le_of_pointwise_getD _ _ (by simp [hBlen]) ?_
    intro i hil
    rw [List.length_map] at hil
    rw [getD_map_key key out i hil, getD_map_key key _ i (by omega)]
    exact hpoint i hil
  refine Nat.le_trans hsum (Nat.le_of_eq ?_)
  exact (hBperm.map key).sum_eq
theorem UWGraph.edgesList_wf (g : UWGraph)
    (hwf : ∀ e, e ∈ g.inputEdges → e.1 < g.n ∧ e.2.1 < g.n) :
    EdgesWf g.n g.edgesList := by
  intro e he
  unfold UWGraph.edgesList at he
  rw [List.mem_flatMap] at he
  obtain ⟨u, hu, he2⟩ := he
  rw [List.mem_map] at he2
  obtain ⟨p, hp, he3⟩ := he2
  subst he3
  refine ⟨List.mem_range.mp hu, ?_⟩
  unfold UWGraph.adjacencies at hp
  rw [List.mem_map] at hp
  obtain ⟨f, hf, hp2⟩ := hp
  rw [List.mem_filter] at hf
  unfold UWGraph.allEdges at hf
  rcases List.mem_append.mp hf.1 with hfi | hfi
  · rw [← hp2]
    exact (hwf f hfi).2
  · rw [List.mem_map] at hfi
    obtain ⟨f0, hf0, hfe⟩ := hfi
    rw [← hp2, ← hfe]
    exact (hwf f0 (List.mem_filter.mp hf0).1).1

theorem newWithSize_parentOf (n x : Nat) :
    (UnionFind.newWithSize n).parentOf x = x := by
  unfold UnionFind.newWithSize UnionFind.parentOf
  dsimp only
  rw [List.getD_eq_getElem?_getD, List.getElem?_replicate]
  by_cases hx : x < n
  · rw [if_pos hx]
    rfl
  · rw [if_neg hx]
    rfl

theorem newWithSize_rootD (n x : Nat) :
    (UnionFind.newWithSize n).rootD x = x :=
  UnionFind.rootD_of_root _ _ (newWithSize_parentOf n x)

theorem RUFInv_new (n : Nat) : RUFInv (RankedUnionFind.newWithSize n) n := by
  refine ⟨⟨?_, ?_, ?_⟩, ?_⟩
  · simp [RankedUnionFind.newWithSize, UnionFind.newWithSize]
  · intro x hx
    rw [show (RankedUnionFind.newWithSize n).forest =
      UnionFind.newWithSize n from rfl, newWithSize_parentOf]
    exact hx
  · intro x hx hne
    exact absurd (newWithSize_parentOf n x) hne
  · simp [RankedUnionFind.newWithSize]

/-- A spanning forest of `g`: a subset of its edges of the right size that
realizes exactly the connectivity of `g`. -/
def IsSpanningForest (g : UWGraph) (T : List WEdge) : Prop :=
  (∀ f, f ∈ T → f ∈ g.edgesList) ∧
  classCount g.n T + T.length = g.n ∧
  (∀ u v, u < g.n → v < g.n → (ConnE T u v ↔ ConnE g.edgesList u v))

set_option maxHeartbeats 1000000

/-- C10: on every undirected weighted graph (connected or not, with
`c = classCount` components), the incremental Kruskal enumerator, drained
with sufficient fuel, never hits a panic path, emits exactly `n - c` edges
that form a spanning forest of minimum total weight under the supplied
comparator key, and afterwards every further `next` call returns `None`
and leaves the state unchanged. -/
theorem C10_kruskal_min_spanning_forest (g : UWGraph) (key : WEdge → Nat)
    (hwf : ∀ e, e ∈ g.inputEdges → e.1 < g.n ∧ e.2.1 < g.n)
    (fuel : Nat) (hfuel : g.edgesList.length < fuel) :
    ∃ out sF,
      IncKruskal.drainS fuel
        (IncKruskal.new g (fun e f => decide (key e < key f))) =
        some (out, sF) ∧
      out.length + classCount g.n g.edgesList = g.n ∧
      IsSpanningForest g out ∧
      (∀ T, IsSpanningForest g T →
        (out.map key).sum ≤ (T.map key).sum) ∧
      IncKruskal.next sF = some (none, sF) := by
  have hwfE : EdgesWf g.n g.edgesList := g.edgesList_wf hwf
  have hriff0 : ∀ u v, u < g.n → v < g.n →
      ((RankedUnionFind.newWithSize g.n).forest.rootD u =
       (RankedUnionFind.newWithSize g.n).forest.rootD v ↔
        ConnE [] u v) := by
    intro u v _ _
    rw [show (RankedUnionFind.newWithSize g.n).forest =
      UnionFind.newWithSize g.n from rfl, newWithSize_rootD,
      newWithSize_rootD, conn_nil]
  obtain ⟨out, sF, heq, hgr, hmem, hfix⟩ := kruskal_drain_go g.n key fuel
    g.edgesList.length (RankedUnionFind.newWithSize g.n)
    (IQS.new g.edgesList (fun e f : WEdge => decide (key e < key f))) []
    rfl (IQSInv_new _ _) hwfE rfl hfuel (RUFInv_new g.n) hriff0
    (fun f hf => by simp at hf) (by simp [classCount_nil])
  refine ⟨out, sF, heq, ?_⟩
  -- properties of the stream
  have hswo0 : IsSWO (IQS.new g.edgesList
      (fun e f : WEdge => decide (key e < key f))).lt := keyLt_swo key
  obtain ⟨hSperm0, hSsort0⟩ := streamK_spec _ hswo0 (IQSInv_new _ _)
  have hSperm : (streamK (IQS.new g.edgesList
      (fun e f : WEdge => decide (key e < key f)))).Perm g.edgesList := by
    simpa [IQS.new] using hSperm0
  have hSsort : List.Pairwise (fun a b => key a ≤ key b)
      (streamK (IQS.new g.edgesList
        (fun e f : WEdge => decide (key e < key f)))) := by
    have h2 : List.Pairwise (fun x y : WEdge => decide (key y < key x) = false)
        (streamK (IQS.new g.edgesList
          (fun e f : WEdge => decide (key e < key f)))) := by
      simpa [IQS.new] using hSsort0
    refine h2.imp ?_
    intro a b hab
    simp at hab
    omega
  have hSsort2 : List.Pairwise (fun e f => ¬ key f < key e)
      (streamK (IQS.new g.edgesList
        (fun e f : WEdge => decide (key e < key f)))) := by
    refine hSsort.imp ?_
    intro a b hab
    omega
  have hwfS : EdgesWf g.n (streamK (IQS.new g.edgesList
      (fun e f : WEdge => decide (key e < key f)))) :=
    fun f hf => hwfE f (hSperm.mem_iff.mp hf)
  obtain ⟨hg1, hg2, hg3⟩ := greedyK_spec g.n key
    (streamK (IQS.new g.edgesList
      (fun e f : WEdge => decide (key e < key f)))) []
    hwfS (fun f hf => by simp at hf) (by simp [classCount_nil]) hSsort2
  rw [← hgr] at hg1 hg2 hg3
  rw [List.nil_append] at hg2
  have hg3s : ∀ f, f ∈ (streamK (IQS.new g.edgesList
      (fun e f : WEdge => decide (key e < key f)))) → f ∉ out →
      ConnE (out.filter (fun a => !(decide (key f < key a)))) f.1 f.2.1 := by
    intro f hf hfo
    have := hg3 f hf hfo
    rw [List.nil_append] at this
    exact this
  have hwfout : EdgesWf g.n out := fun f hf => hwfE f (hmem f hf)
  -- out spans as much as the graph
  have houtconn : ∀ u v, u < g.n → v < g.n →
      (ConnE out u v ↔ ConnE g.edgesList u v) := by
    intro u v hu hv
    rw [← conn_perm hSperm u v]
    constructor
    · exact ConnE.mono (fun f hf => hg1.subset hf)
    · refine conn_of_edges_conn ?_
      intro f hf
      by_cases hfo : f ∈ out
      · exact conn_self_edge hfo
      · refine (hg3s f hf hfo).mono ?_
        intro g2 hg2m
        exact List.mem_of_mem_filter hg2m
  have hcount : classCount g.n out = classCount g.n g.edgesList :=
    classCount_congr hwfout hwfE houtconn
  refine ⟨by omega, ⟨hmem, hg2, houtconn⟩, ?_, hfix⟩
  intro T hT
  obtain ⟨hT1, hT2, hT3⟩ := hT
  refine greedy_opt g.n key _ out T hwfS hSsort hg1 hg2 hg3s
    (fun f hf => hwfE f (hT1 f hf)) ?_ hT2
    (fun f hf => hSperm.mem_iff.mpr (hT1 f hf))
  intro u v hu hv
  rw [hT3 u v hu hv, conn_perm hSperm u v]
theorem C10_kruskal_min_spanning_forest_witness :
    (∀ e, e ∈ (UWGraph.mk 2 [(0, 1, 5)]).inputEdges →
      e.1 < (UWGraph.mk 2 [(0, 1, 5)]).n ∧
      e.2.1 < (UWGraph.mk 2 [(0, 1, 5)]).n) ∧
    (UWGraph.mk 2 [(0, 1, 5)]).edgesList.length < 3 ∧
    ∃ out sF,
      IncKruskal.drainS 3
        (IncKruskal.new (UWGraph.mk 2 [(0, 1, 5)])
          (fun e f => decide ((fun e : WEdge => e.2.2) e <
            (fun e : WEdge => e.2.2) f))) = some (out, sF) ∧
      out.length + classCount (UWGraph.mk 2 [(0, 1, 5)]).n
        (UWGraph.mk 2 [(0, 1, 5)]).edgesList =
        (UWGraph.mk 2 [(0, 1, 5)]).n ∧
      IsSpanningForest (UWGraph.mk 2 [(0, 1, 5)]) out ∧
      (∀ T, IsSpanningForest (UWGraph.mk 2 [(0, 1, 5)]) T →
        (out.map (fun e : WEdge => e.2.2)).sum ≤
          (T.map (fun e : WEdge => e.2.2)).sum) ∧
      IncKruskal.next sF = some (none, sF) :=
  ⟨by decide, by decide,
    C10_kruskal_min_spanning_forest (UWGraph.mk 2 [(0, 1, 5)])
      (fun e : WEdge => e.2.2) (by decide) 3 (by decide)⟩
/-! ### Sorted APSD merge enumerators (apsd/weighted_sorted.rs and
apsd/unweighted_sorted.rs) -/

/-- The `MinDijkstraComparator` order on heap keys: compare the optional
distances, treating `None` as largest. -/
def wkeyLe (a b : Option Nat) : Bool :=
  match a, b with
  | some x, some y => decide (x ≤ y)
  | some _, none => true
  | none, some _ => false
  | none, none => true

/-- A heap entry `(part, search)` of `ParallelDijkstra`; the search source
(a field of the Rust search struct) is carried explicitly. -/
abbrev PDEntry := Nat × SssdPartial × SssdW

/-- Model of `BinaryHeap::push` for the `MinDijkstraComparator` min-heap
(code outside this repository): entries are kept sorted by key and `pop`
takes the head, which is observationally any such min-heap. -/
def pdPush (e : PDEntry) : List PDEntry → List PDEntry
  | [] => [e]
  | x :: xs =>
      if wkeyLe e.2.1.2.2 x.2.1.2.2 then e :: x :: xs else x :: pdPush e xs

/-- `BinaryHeap::from_vec_cmp` (heapify), modelled as repeated insertion. -/
def heapify (l : List PDEntry) : List PDEntry :=
  l.foldl (fun h e => pdPush e h) []

/-- The body of `initialize_searches` for one source: create the SSSD
search, skip the already-emitted self part, and keep the search keyed by
its next part if any.  Outer `none` = a panic of the inner search. -/
def initSearch (g : DGraph Nat) (src : Nat) : Option (Option PDEntry) :=
  match SssdW.new g src with
  | none => none
  | some s0 =>
      match SssdW.next g src s0 with
      | none => none
      | some (_, s1) =>
          match SssdW.next g src s1 with
          | none => none
          | some (none, _) => some none
          | some (some part, s2) => some (some (src, part, s2))

def initList (g : DGraph Nat) : List Nat → Option (List PDEntry)
  | [] => some []
  | s :: rest =>
      match initSearch g s with
      | none => none
      | some none => initList g rest
      | some (some e) => (initList g rest).map (e :: ·)

/-- `initialize_searches` of `ParallelDijkstra`. -/
def initW (g : DGraph Nat) : Option (List PDEntry) :=
  (initList g (List.range g.n)).map heapify

/-- One `ParallelDijkstra::next` call on an initialized heap. -/
def pdStep (g : DGraph Nat) (heap : List PDEntry) :
    Option (Option SssdPartial × List PDEntry) :=
  match heap with
  | [] => some (none, [])
  | (src, part, s) :: rest =>
      match SssdW.next g src s with
      | none => none
      | some (none, _) => some (some part, rest)
      | some (some part2, s2) => some (some part, pdPush (src, part2, s2) rest)

/-- State of `apsd-enum-dijkstra-sorted`: the trivial self-distance pass
chained with the (lazily initialized) parallel Dijkstra merge. -/
inductive APSDW where
  | selfW (vs : List Nat)
  | mergeW (heap : List PDEntry)

def APSDW.next (g : DGraph Nat) : APSDW → Option (Option SssdPartial × APSDW)
  | .selfW (v :: rest) => some (some (v, v, some 0), .selfW rest)
  | .selfW [] =>
      match initW g with
      | none => none
      | some entries =>
          match pdStep g entries with
          | none => none
          | some (r, heap2) => some (r, .mergeW heap2)
  | .mergeW heap =>
      match pdStep g heap with
      | none => none
      | some (r, heap2) => some (r, .mergeW heap2)

def APSDW.drain (g : DGraph Nat) : Nat → APSDW → Option (List SssdPartial)
  | 0, _ => none
  | fuel + 1, s =>
      match APSDW.next g s with
      | none => none
      | some (none, _) => some []
      | some (some x, s2) => (APSDW.drain g fuel s2).map (x :: ·)
theorem wkeyLe_trans {a b c : Option Nat} (h1 : wkeyLe a b = true)
    (h2 : wkeyLe b c = true) : wkeyLe a c = true := by
  cases a with
  | none =>
      cases b with
      | none =>
          cases c with
          | none => rfl
          | some z => simp [wkeyLe] at h2
      | some y => simp [wkeyLe] at h1
  | some x =>
      cases c with
      | none => rfl
      | some z =>
          cases b with
          | none => simp [wkeyLe] at h2
          | some y =>
              simp [wkeyLe] at h1 h2 ⊢
              omega

theorem wkeyLe_total (a b : Option Nat) :
    wkeyLe a b = true ∨ wkeyLe b a = true := by
  cases a with
  | none =>
      cases b with
      | none => exact Or.inl rfl
      | some y => exact Or.inr rfl
  | some x =>
      cases b with
      | none => exact Or.inl rfl
      | some y =>
          simp [wkeyLe]
          omega

theorem wkeyLe_none (a : Option Nat) : wkeyLe a none = true := by
  cases a with
  | none => rfl
  | some x => rfl

theorem drainW_succ (g : DGraph Nat) (src fuel : Nat) (s : SssdW) :
    SssdW.drain g src (fuel + 1) s =
      (match SssdW.next g src s with
       | none => none
       | some (none, _) => some []
       | some (some x, s2) =>
           (SssdW.drain g src fuel s2).map (x :: ·)) := rfl

/-- Fuel monotonicity of the weighted SSSD drain. -/
theorem drainW_mono (g : DGraph Nat) (src : Nat) :
    ∀ fuel s out, SssdW.drain g src fuel s = some out →
    SssdW.drain g src (fuel + 1) s = some out := by
  intro fuel
  induction fuel with
  | zero => intro s out h; simp [SssdW.drain] at h
  | succ fuel ih =>
      intro s out h
      rw [drainW_succ] at h
      rw [show fuel + 1 + 1 = (fuel + 1) + 1 from rfl, drainW_succ]
      rcases hn : SssdW.next g src s with - | ⟨r, s2⟩
      · rw [hn] at h
        simp at h
      · rw [hn] at h
        cases r with
        | none => exact h
        | some x =>
            dsimp only at h ⊢
            rcases hd : SssdW.drain g src fuel s2 with - | out2
            · rw [hd] at h
              simp at h
            · rw [hd] at h
              rw [ih s2 out2 hd]
              exact h

/-- A good running search: with canonical fuel it drains to a stream of
parts of its own source whose keys are bounded below by `k`, non-`None`
parts first in non-decreasing order. -/
def GoodW (g : DGraph Nat) (src : Nat) (k : Option Nat) (s : SssdW) : Prop :=
  ∃ out, SssdW.drain g src (2 * g.n + 2) s = some out ∧
    (∀ r, r ∈ out → r.1 = src) ∧
    (∀ r, r ∈ out → wkeyLe k r.2.2 = true) ∧
    ∃ outS outN, out = outS ++ outN ∧
      (∀ r, r ∈ outN → r.2.2 = (none : Option Nat)) ∧
      (∀ r, r ∈ outS → (r.2.2).isSome) ∧
      List.Chain' (· ≤ ·) (outS.map (fun r => (r.2.2).getD 0))
theorem drainW_mono_le (g : DGraph Nat) (src : Nat) {f1 f2 : Nat}
    (hle : f1 ≤ f2) :
    ∀ s out, SssdW.drain g src f1 s = some out →
    SssdW.drain g src f2 s = some out := by
  induction f2, hle using Nat.le_induction with
  | base => intro s out h; exact h
  | succ f2 hf ih =>
      intro s out h
      exact drainW_mono g src f2 s out (ih s out h)

theorem chain_le_of_mem {a : Nat} {l : List Nat}
    (h : List.Chain' (· ≤ ·) (a :: l)) : ∀ b, b ∈ l → a ≤ b := by
  induction l generalizing a with
  | nil => intro b hb; simp at hb
  | cons c t ih =>
      intro b hb
      obtain ⟨hac, hct⟩ := List.chain'_cons.mp h
      rcases List.mem_cons.mp hb with hb | hb
      · rw [hb]
        exact hac
      · exact Nat.le_trans hac (ih hct b hb)

theorem GoodW_step {g : DGraph Nat} {src : Nat} {k : Option Nat} {s : SssdW}
    (hg : GoodW g src k s) :
    ∃ ri s2, SssdW.next g src s = some (ri, s2) ∧
      (ri = none ∨
       ∃ part2, ri = some part2 ∧ part2.1 = src ∧
         wkeyLe k part2.2.2 = true ∧ GoodW g src part2.2.2 s2) := by
  obtain ⟨out, hdr, hsrc, hbd, outS, outN, hsplit, hN, hS, hch⟩ := hg
  rw [show 2 * g.n + 2 = (2 * g.n + 1) + 1 from rfl, drainW_succ] at hdr
  rcases hn : SssdW.next g src s with - | ⟨r, s2⟩
  · rw [hn] at hdr
    simp at hdr
  · rw [hn] at hdr
    refine ⟨r, s2, rfl, ?_⟩
    cases r with
    | none => exact Or.inl rfl
    | some x =>
        dsimp only at hdr
        rcases hd2 : SssdW.drain g src (2 * g.n + 1) s2 with - | out2
        · rw [hd2] at hdr
          simp at hdr
        · rw [hd2] at hdr
          have hout : out = x :: out2 := by
            rw [← Option.some_inj]
            rw [← hdr]
            rfl
          have hd2c : SssdW.drain g src (2 * g.n + 2) s2 = some out2 :=
            drainW_mono g src _ s2 out2 hd2
          have hxout : x ∈ out := by
            rw [hout]
            exact List.mem_cons_self _ _
          refine Or.inr ⟨x, rfl, hsrc x hxout, hbd x hxout, out2, hd2c,
            ?_, ?_, ?_⟩
          · intro rr hrr
            exact hsrc rr (by rw [hout]; exact List.mem_cons_of_mem _ hrr)
          · -- key bound rebases to the emitted key
            cases outS with
            | nil =>
                intro rr hrr
                have hxN : x.2.2 = (none : Option Nat) := by
                  refine hN x ?_
                  rw [hsplit] at hxout
                  simpa using hxout
                have hrrN : rr.2.2 = (none : Option Nat) := by
                  refine hN rr ?_
                  have : rr ∈ out := by
                    rw [hout]
                    exact List.mem_cons_of_mem _ hrr
                  rw [hsplit] at this
                  simpa using this
                rw [hxN, hrrN]
                rfl
            | cons a outS2 =>
                have hxa : x = a ∧ out2 = outS2 ++ outN := by
                  rw [hout] at hsplit
                  have := List.cons.injEq x out2 a (outS2 ++ outN)
                  rw [List.cons_append] at hsplit
                  constructor
                  · exact (List.cons.inj hsplit).1
                  · exact (List.cons.inj hsplit).2
                intro rr hrr
                rw [hxa.2] at hrr
                rcases List.mem_append.mp hrr with hrr | hrr
                · have hrrS : (rr.2.2).isSome :=
                    hS rr (List.mem_cons_of_mem _ hrr)
                  have hxS : (x.2.2).isSome := by
                    rw [hxa.1]
                    exact hS a (List.mem_cons_self _ _)
                  obtain ⟨kx, hkx⟩ := Option.isSome_iff_exists.mp hxS
                  obtain ⟨kr, hkr⟩ := Option.isSome_iff_exists.mp hrrS
                  have hkxa : (a.2.2).getD 0 = kx := by
                    rw [← hxa.1, hkx]
                    rfl
                  have hle2 : (a.2.2).getD 0 ≤ (rr.2.2).getD 0 := by
                    have hchm := chain_le_of_mem (show List.Chain' (· ≤ ·)
                      ((a.2.2).getD 0 ::
                        outS2.map (fun r => (r.2.2).getD 0)) from by
                          simpa using hch)
                    exact hchm _ (List.mem_map.mpr ⟨rr, hrr, rfl⟩)
                  rw [hkx, hkr]
                  show decide (kx ≤ kr) = true
                  rw [hkxa] at hle2
                  rw [hkr] at hle2
                  simpa using hle2
                · rw [hN rr hrr, wkeyLe_none]
          · cases outS with
            | nil =>
                refine ⟨[], out2, rfl, ?_, by intro rr h; simp at h,
                  List.chain'_nil⟩
                intro rr hrr
                refine hN rr ?_
                have : rr ∈ out := by
                  rw [hout]
                  exact List.mem_cons_of_mem _ hrr
                rw [hsplit] at this
                simpa using this
            | cons a outS2 =>
                have hxa : out2 = outS2 ++ outN := by
                  rw [hout, List.cons_append] at hsplit
                  exact (List.cons.inj hsplit).2
                refine ⟨outS2, outN, hxa, hN,
                  fun rr hrr => hS rr (List.mem_cons_of_mem _ hrr), ?_⟩
                have := hch.tail
                simpa using this

/-- `some 0` is below every key in the `MinDijkstraComparator` order. -/
theorem wkeyLe_zero (a : Option Nat) : wkeyLe (some 0) a = true := by
  cases a with
  | none => rfl
  | some x => simp [wkeyLe]

theorem wkeyLe_refl (a : Option Nat) : wkeyLe a a = true := by
  cases a with
  | none => rfl
  | some x => simp [wkeyLe]

/-- Peeling the first emitted part off a somes-then-nones shaped output
keeps the shape. -/
theorem shapeW_tail {x : SssdPartial} {out out2 : List SssdPartial}
    (hout : out = x :: out2)
    (h : ∃ outS outN, out = outS ++ outN ∧
      (∀ r, r ∈ outN → r.2.2 = (none : Option Nat)) ∧
      (∀ r, r ∈ outS → (r.2.2).isSome) ∧
      List.Chain' (· ≤ ·) (outS.map (fun r => (r.2.2).getD 0))) :
    ∃ outS outN, out2 = outS ++ outN ∧
      (∀ r, r ∈ outN → r.2.2 = (none : Option Nat)) ∧
      (∀ r, r ∈ outS → (r.2.2).isSome) ∧
      List.Chain' (· ≤ ·) (outS.map (fun r => (r.2.2).getD 0)) := by
  obtain ⟨outS, outN, hsplit, hN, hS, hch⟩ := h
  cases outS with
  | nil =>
      refine ⟨[], out2, rfl, ?_, by intro rr h2; simp at h2,
        List.chain'_nil⟩
      intro rr hrr
      refine hN rr ?_
      have : rr ∈ out := by
        rw [hout]
        exact List.mem_cons_of_mem _ hrr
      rw [hsplit] at this
      simpa using this
  | cons a outS2 =>
      have hxa : out2 = outS2 ++ outN := by
        rw [hout, List.cons_append] at hsplit
        exact (List.cons.inj hsplit).2
      refine ⟨outS2, outN, hxa, hN,
        fun rr hrr => hS rr (List.mem_cons_of_mem _ hrr), ?_⟩
      have := hch.tail
      simpa using this

/-- Seed of the `initialize_searches` invariant: every in-range source
search is created, first emits its self part, and the remaining stream is
good below the universal bound `some 0`. -/
theorem GoodW_init (g : DGraph Nat) (src : Nat) (hsrc : src < g.n) :
    ∃ s0 x1 s1, SssdW.new g src = some s0 ∧
      SssdW.next g src s0 = some (some x1, s1) ∧
      GoodW g src (some 0) s1 := by
  obtain ⟨s0, out, hnew, hdrain, hOk⟩ :=
    sssdW_correct g src (2 * g.n + 3) hsrc (by omega)
  obtain ⟨hperm, hsrcC, hmin, hunr, hshape⟩ := hOk
  have hlen : out.length = g.n := by
    have h2 := hperm.length_eq
    simpa using h2
  rw [show 2 * g.n + 3 = (2 * g.n + 2) + 1 from rfl, drainW_succ] at hdrain
  rcases hn : SssdW.next g src s0 with - | ⟨r, s1⟩
  · rw [hn] at hdrain
    simp at hdrain
  · rw [hn] at hdrain
    cases r with
    | none =>
        exfalso
        dsimp only at hdrain
        have hnil : out = [] := by
          rw [← Option.some_inj]
          exact hdrain.symm
        rw [hnil] at hlen
        simp at hlen
        omega
    | some x1 =>
        dsimp only at hdrain
        rcases hd1 : SssdW.drain g src (2 * g.n + 2) s1 with - | out1
        · rw [hd1] at hdrain
          simp at hdrain
        · rw [hd1] at hdrain
          have hout : out = x1 :: out1 := by
            rw [← Option.some_inj, ← hdrain]
            rfl
          refine ⟨s0, x1, s1, hnew, hn, out1, hd1, ?_, ?_, ?_⟩
          · intro rr hrr
            exact hsrcC rr (by rw [hout]; exact List.mem_cons_of_mem _ hrr)
          · intro rr hrr
            exact wkeyLe_zero _
          · exact shapeW_tail hout hshape

theorem pdPush_perm (e : PDEntry) : ∀ l, (pdPush e l).Perm (e :: l) := by
  intro l
  induction l with
  | nil => exact List.Perm.refl _
  | cons x xs ih =>
      simp only [pdPush]
      by_cases hc : wkeyLe e.2.1.2.2 x.2.1.2.2 = true
      · rw [if_pos hc]
      · rw [if_neg hc]
        exact (ih.cons x).trans (List.Perm.swap e x xs)

theorem pdPush_mem {a e : PDEntry} {l : List PDEntry} :
    a ∈ pdPush e l ↔ a = e ∨ a ∈ l := by
  rw [(pdPush_perm e l).mem_iff]
  simp

/-- Sorted insertion keeps the heap model sorted by key. -/
theorem pdPush_sorted (e : PDEntry) :
    ∀ l, List.Chain' (fun a b => wkeyLe a.2.1.2.2 b.2.1.2.2 = true) l →
    List.Chain' (fun a b => wkeyLe a.2.1.2.2 b.2.1.2.2 = true) (pdPush e l) := by
  intro l
  induction l with
  | nil => intro h; exact List.chain'_singleton _
  | cons x xs ih =>
      intro h
      simp only [pdPush]
      by_cases hc : wkeyLe e.2.1.2.2 x.2.1.2.2 = true
      · rw [if_pos hc]
        exact List.Chain'.cons hc h
      · rw [if_neg hc]
        have hxe : wkeyLe x.2.1.2.2 e.2.1.2.2 = true := by
          rcases wkeyLe_total e.2.1.2.2 x.2.1.2.2 with h1 | h1
          · exact absurd h1 hc
          · exact h1
        obtain ⟨hhd, htl⟩ := List.chain'_cons'.mp h
        refine List.chain'_cons'.mpr ⟨?_, ih htl⟩
        intro y hy
        cases xs with
        | nil =>
            simp [pdPush] at hy
            rw [← hy]
            exact hxe
        | cons z zs =>
            simp only [pdPush] at hy
            by_cases hc2 : wkeyLe e.2.1.2.2 z.2.1.2.2 = true
            · rw [if_pos hc2] at hy
              simp at hy
              rw [← hy]
              exact hxe
            · rw [if_neg hc2] at hy
              simp at hy
              rw [← hy]
              exact hhd z rfl

theorem heapify_go_sorted :
    ∀ (l acc : List PDEntry),
    List.Chain' (fun a b => wkeyLe a.2.1.2.2 b.2.1.2.2 = true) acc →
    List.Chain' (fun a b => wkeyLe a.2.1.2.2 b.2.1.2.2 = true)
      (l.foldl (fun h e => pdPush e h) acc) := by
  intro l
  induction l with
  | nil => intro acc h; exact h
  | cons x xs ih => intro acc h; exact ih _ (pdPush_sorted x acc h)

theorem heapify_sorted (l : List PDEntry) :
    List.Chain' (fun a b => wkeyLe a.2.1.2.2 b.2.1.2.2 = true) (heapify l) :=
  heapify_go_sorted l [] List.chain'_nil

theorem heapify_go_mem :
    ∀ (l acc : List PDEntry) (e : PDEntry),
    e ∈ l.foldl (fun h e2 => pdPush e2 h) acc → e ∈ acc ∨ e ∈ l := by
  intro l
  induction l with
  | nil => intro acc e h; exact Or.inl h
  | cons x xs ih =>
      intro acc e h
      rcases ih _ e h with h2 | h2
      · rcases pdPush_mem.mp h2 with h3 | h3
        · exact Or.inr (by rw [h3]; exact List.mem_cons_self _ _)
        · exact Or.inl h3
      · exact Or.inr (List.mem_cons_of_mem _ h2)

theorem heapify_mem {l : List PDEntry} {e : PDEntry} (h : e ∈ heapify l) :
    e ∈ l := by
  rcases heapify_go_mem l [] e h with h2 | h2
  · exact absurd h2 (List.not_mem_nil e)
  · exact h2

/-- `initialize_searches`, one source at a time: every in-range source
either contributes a good heap entry keyed by its first non-self part, or
is dropped because it has no such part. -/
theorem initList_ok (g : DGraph Nat) :
    ∀ l, (∀ v, v ∈ l → v < g.n) →
    ∃ es, initList g l = some es ∧
      ∀ e, e ∈ es → GoodW g e.1 e.2.1.2.2 e.2.2 := by
  intro l
  induction l with
  | nil =>
      intro h
      exact ⟨[], rfl, by intro e he; simp at he⟩
  | cons v rest ih =>
      intro h
      obtain ⟨es, hes, hgood⟩ := ih (fun u hu => h u (List.mem_cons_of_mem _ hu))
      obtain ⟨s0, x1, s1, hnew, hn1, hg1⟩ :=
        GoodW_init g v (h v (List.mem_cons_self _ _))
      obtain ⟨ri, s2, hn2, hri⟩ := GoodW_step hg1
      rcases hri with hri | ⟨part2, hri, hpsrc, hpk, hg2⟩
      · subst hri
        have hinit : initSearch g v = some none := by
          simp only [initSearch, hnew, hn1, hn2]
        refine ⟨es, ?_, hgood⟩
        simp only [initList, hinit]
        exact hes
      · subst hri
        have hinit : initSearch g v = some (some (v, part2, s2)) := by
          simp only [initSearch, hnew, hn1, hn2]
        refine ⟨(v, part2, s2) :: es, ?_, ?_⟩
        · simp only [initList, hinit, hes, Option.map_some']
        · intro e he
          rcases List.mem_cons.mp he with he | he
          · rw [he]
            exact hg2
          · exact hgood e he

theorem initW_ok (g : DGraph Nat) :
    ∃ hp, initW g = some hp ∧
      List.Chain' (fun a b => wkeyLe a.2.1.2.2 b.2.1.2.2 = true) hp ∧
      ∀ e, e ∈ hp → GoodW g e.1 e.2.1.2.2 e.2.2 := by
  obtain ⟨es, hes, hgood⟩ := initList_ok g (List.range g.n)
    (fun v hv => List.mem_range.mp hv)
  refine ⟨heapify es, ?_, heapify_sorted es, ?_⟩
  · simp only [initW, hes, Option.map_some']
  · intro e he
    exact hgood e (heapify_mem he)

/-- Repeated `ParallelDijkstra::next` on an initialized heap. -/
def pdDrain (g : DGraph Nat) : Nat → List PDEntry → Option (List SssdPartial)
  | 0, _ => none
  | fuel + 1, heap =>
      match pdStep g heap with
      | none => none
      | some (none, _) => some []
      | some (some x, h2) => (pdDrain g fuel h2).map (x :: ·)

theorem pdDrain_succ (g : DGraph Nat) (fuel : Nat) (heap : List PDEntry) :
    pdDrain g (fuel + 1) heap =
      (match pdStep g heap with
       | none => none
       | some (none, _) => some []
       | some (some x, h2) => (pdDrain g fuel h2).map (x :: ·)) := rfl

theorem APSDW_merge_drain (g : DGraph Nat) :
    ∀ fuel heap, APSDW.drain g fuel (.mergeW heap) = pdDrain g fuel heap := by
  intro fuel
  induction fuel with
  | zero => intro heap; rfl
  | succ fuel ih =>
      intro heap
      show (match APSDW.next g (.mergeW heap) with
            | none => none
            | some (none, _) => some []
            | some (some x, s2) => (APSDW.drain g fuel s2).map (x :: ·)) = _
      rw [pdDrain_succ]
      simp only [APSDW.next]
      rcases hs : pdStep g heap with - | ⟨r, h2⟩
      · rfl
      · cases r with
        | none => rfl
        | some x =>
            dsimp only
            rw [ih]

/-- A sorted heap bounds every member key by the head key. -/
theorem chainW_le_of_mem {a : PDEntry} {l : List PDEntry}
    (h : List.Chain' (fun x y => wkeyLe x.2.1.2.2 y.2.1.2.2 = true) (a :: l)) :
    ∀ b, b ∈ l → wkeyLe a.2.1.2.2 b.2.1.2.2 = true := by
  induction l generalizing a with
  | nil => intro b hb; simp at hb
  | cons c t ih =>
      intro b hb
      obtain ⟨hac, hct⟩ := List.chain'_cons.mp h
      rcases List.mem_cons.mp hb with hb | hb
      · rw [hb]
        exact hac
      · exact wkeyLe_trans hac (ih hct b hb)

/-- Termination measure of the merge: the number of stored parts plus the
parts still to be drained from each member search. -/
def heapM (g : DGraph Nat) (heap : List PDEntry) : Nat :=
  (heap.map (fun e =>
    1 + ((SssdW.drain g e.1 (2 * g.n + 2) e.2.2).getD []).length)).sum

theorem heapM_pdPush (g : DGraph Nat) (e : PDEntry) (l : List PDEntry) :
    heapM g (pdPush e l) = heapM g (e :: l) :=
  List.Perm.sum_eq (List.Perm.map _ (pdPush_perm e l))

/-- The parallel Dijkstra merge loop: on a sorted heap of good searches it
drains without panicking, every emission is bounded below by any bound on
the heap keys, and the emitted keys are globally nondecreasing. -/
theorem pdDrain_ok (g : DGraph Nat) :
    ∀ fuel heap,
    List.Chain' (fun a b => wkeyLe a.2.1.2.2 b.2.1.2.2 = true) heap →
    (∀ e, e ∈ heap → GoodW g e.1 e.2.1.2.2 e.2.2) →
    heapM g heap < fuel →
    ∃ out, pdDrain g fuel heap = some out ∧
      (∀ k, (∀ e, e ∈ heap → wkeyLe k e.2.1.2.2 = true) →
        ∀ r, r ∈ out → wkeyLe k r.2.2 = true) ∧
      List.Chain' (fun a b => wkeyLe a.2.2 b.2.2 = true) out := by
  intro fuel
  induction fuel with
  | zero => intro heap _ _ hM; omega
  | succ fuel ih =>
      intro heap hsort hgood hM
      cases heap with
      | nil =>
          refine ⟨[], by rw [pdDrain_succ]; rfl, ?_, List.chain'_nil⟩
          intro k _ r hr
          simp at hr
      | cons e rest =>
          obtain ⟨src, part, s⟩ := e
          have hge : GoodW g src part.2.2 s :=
            hgood _ (List.mem_cons_self _ _)
          obtain ⟨ri, s2, hn, hri⟩ := GoodW_step hge
          obtain ⟨out, hdr, hsrcO, hbdO, hshO⟩ := hge
          simp only [heapM, List.map_cons, List.sum_cons, hdr,
            Option.getD_some] at hM
          rcases hri with hri | ⟨part2, hri, hpsrc, hpk, hg2⟩
          · subst hri
            have hMr : heapM g rest < fuel := by
              simp only [heapM]
              omega
            obtain ⟨out2, hdr2, hlb2, hch2⟩ := ih rest hsort.tail
              (fun e2 he2 => hgood _ (List.mem_cons_of_mem _ he2)) hMr
            refine ⟨part :: out2, ?_, ?_, ?_⟩
            · rw [pdDrain_succ]
              simp only [pdStep, hn]
              rw [hdr2]
              rfl
            · intro k hk r hr
              rcases List.mem_cons.mp hr with hr | hr
              · rw [hr]
                exact hk _ (List.mem_cons_self _ _)
              · exact hlb2 k
                  (fun e2 he2 => hk e2 (List.mem_cons_of_mem _ he2)) r hr
            · refine List.chain'_cons'.mpr ⟨?_, hch2⟩
              intro b hb
              exact hlb2 part.2.2
                (fun e2 he2 => chainW_le_of_mem hsort e2 he2) b
                (List.mem_of_mem_head? hb)
          · subst hri
            have hdr1 : SssdW.drain g src (2 * g.n + 2) s = some out := hdr
            rw [show 2 * g.n + 2 = (2 * g.n + 1) + 1 from rfl, drainW_succ,
              hn] at hdr1
            dsimp only at hdr1
            rcases hd2 : SssdW.drain g src (2 * g.n + 1) s2 with - | out2
            · rw [hd2] at hdr1
              simp at hdr1
            · rw [hd2] at hdr1
              have hout : out = part2 :: out2 := by
                rw [← Option.some_inj, ← hdr1]
                rfl
              have hd2c : SssdW.drain g src (2 * g.n + 2) s2 = some out2 :=
                drainW_mono g src _ s2 out2 hd2
              have hlen : out.length = out2.length + 1 := by
                rw [hout]
                rfl
              have hMr : heapM g (pdPush (src, part2, s2) rest) < fuel := by
                rw [heapM_pdPush]
                simp only [heapM, List.map_cons, List.sum_cons, hd2c,
                  Option.getD_some]
                omega
              have hgood2 : ∀ e2, e2 ∈ pdPush (src, part2, s2) rest →
                  GoodW g e2.1 e2.2.1.2.2 e2.2.2 := by
                intro e2 he2
                rcases pdPush_mem.mp he2 with he2 | he2
                · rw [he2]
                  exact hg2
                · exact hgood _ (List.mem_cons_of_mem _ he2)
              obtain ⟨out3, hdr3, hlb3, hch3⟩ :=
                ih (pdPush (src, part2, s2) rest)
                  (pdPush_sorted _ _ hsort.tail) hgood2 hMr
              have hbound : ∀ e2, e2 ∈ pdPush (src, part2, s2) rest →
                  wkeyLe part.2.2 e2.2.1.2.2 = true := by
                intro e2 he2
                rcases pdPush_mem.mp he2 with he2 | he2
                · rw [he2]
                  exact hpk
                · exact chainW_le_of_mem hsort e2 he2
              refine ⟨part :: out3, ?_, ?_, ?_⟩
              · rw [pdDrain_succ]
                simp only [pdStep, hn]
                rw [hdr3]
                rfl
              · intro k hk r hr
                rcases List.mem_cons.mp hr with hr | hr
                · rw [hr]
                  exact hk _ (List.mem_cons_self _ _)
                · refine hlb3 k ?_ r hr
                  intro e2 he2
                  exact wkeyLe_trans (hk _ (List.mem_cons_self _ _))
                    (hbound e2 he2)
              · refine List.chain'_cons'.mpr ⟨?_, hch3⟩
                intro b hb
                exact hlb3 part.2.2 hbound b (List.mem_of_mem_head? hb)

/-- The trivial self-distance pass: the first `n` calls emit `(v, v, 0)`
for every vertex in order, in front of whatever the merge then yields. -/
theorem APSDW_self_drain (g : DGraph Nat) :
    ∀ vs fuel, APSDW.drain g (vs.length + fuel) (.selfW vs) =
      (APSDW.drain g fuel (.selfW [])).map
        ((vs.map (fun v => (v, v, some 0))) ++ ·) := by
  intro vs
  induction vs with
  | nil =>
      intro fuel
      rw [List.length_nil, Nat.zero_add]
      rcases h : APSDW.drain g fuel (.selfW []) with - | out
      · rfl
      · simp
  | cons v rest ih =>
      intro fuel
      show APSDW.drain g (rest.length + 1 + fuel) (.selfW (v :: rest)) = _
      rw [show rest.length + 1 + fuel = (rest.length + fuel) + 1 by omega]
      show (match APSDW.next g (.selfW (v :: rest)) with
            | none => none
            | some (none, _) => some []
            | some (some x, s2) =>
                (APSDW.drain g (rest.length + fuel) s2).map (x :: ·)) = _
      simp only [APSDW.next]
      rw [ih fuel]
      rcases h : APSDW.drain g fuel (.selfW []) with - | out
      · rfl
      · simp

theorem APSDW_init_drain (g : DGraph Nat) (es : List PDEntry) (fuel : Nat)
    (hinit : initW g = some es) :
    APSDW.drain g (fuel + 1) (.selfW []) = pdDrain g (fuel + 1) es := by
  show (match APSDW.next g (.selfW []) with
        | none => none
        | some (none, _) => some []
        | some (some x, s2) => (APSDW.drain g fuel s2).map (x :: ·)) = _
  rw [pdDrain_succ]
  simp only [APSDW.next, hinit]
  rcases hs : pdStep g es with - | ⟨r, h2⟩
  · rfl
  · cases r with
    | none => rfl
    | some x =>
        dsimp only
        rw [APSDW_merge_drain]

/-- The weighted half of C3: the sorted parallel Dijkstra merge drains to
the self-distance pass followed by a merge stream whose keys are globally
nondecreasing. -/
theorem APSDW_ok (g : DGraph Nat) :
    ∃ fuel out merged,
      APSDW.drain g fuel (.selfW (List.range g.n)) = some out ∧
      out = (List.range g.n).map (fun v => (v, v, some 0)) ++ merged ∧
      List.Chain' (fun a b => wkeyLe a.2.2 b.2.2 = true) merged := by
  obtain ⟨hp, hinit, hsort, hgood⟩ := initW_ok g
  obtain ⟨merged, hdr, hlb, hch⟩ :=
    pdDrain_ok g (heapM g hp + 1) hp hsort hgood (by omega)
  refine ⟨g.n + (heapM g hp + 1),
    (List.range g.n).map (fun v => (v, v, some 0)) ++ merged, merged,
    ?_, rfl, hch⟩
  have h1 := APSDW_self_drain g (List.range g.n) (heapM g hp + 1)
  rw [List.length_range] at h1
  rw [h1, APSDW_init_drain g hp (heapM g hp) hinit, hdr]
  rfl

/-! ### The hop-distance lock-step variant (unweighted_sorted.rs)

The inner search type `sssd::unweighted::SssdEnumerator` is declared in
sssd/mod.rs but the file sssd/unweighted.rs is not part of this
repository snapshot, so the inner searches are contract-modelled: a
search is the abstract list of the parts it will still emit, and the
hypothesis `BfsTail` below states the BFS contract that
unweighted_sorted.rs relies on (and which holds of the sibling
unweighted_lazy.rs variant, cf. C2): after the skipped self part, the
reachable parts come first with hop distances starting at exactly 1 and
nondecreasing in steps of at most one, followed by the parts for the
unreachable vertices. -/

abbrev BfsStream := List SssdPartial

/-- Contract of an inner BFS search stream after its self part was
skipped. -/
def BfsTail (t : BfsStream) : Prop :=
  ∃ sS sN, t = sS ++ sN ∧
    (∀ r, r ∈ sN → r.2.2 = (none : Option Nat)) ∧
    (∀ r, r ∈ sS → (r.2.2).isSome) ∧
    List.Chain' (fun a b => a ≤ b ∧ b ≤ a + 1)
      (sS.map (fun r => (r.2.2).getD 0)) ∧
    (∀ r, sS.head? = some r → r.2.2 = some 1)

/-- Shape of a queued stream behind a head part at hop distance `c`:
reachable parts continuing from `c` in unit steps, then unreachable
parts. -/
def TailAt (c : Nat) (t : BfsStream) : Prop :=
  ∃ sS sN, t = sS ++ sN ∧
    (∀ r, r ∈ sN → r.2.2 = (none : Option Nat)) ∧
    (∀ r, r ∈ sS → (r.2.2).isSome) ∧
    List.Chain' (fun a b => a ≤ b ∧ b ≤ a + 1)
      (c :: sS.map (fun r => (r.2.2).getD 0))

/-- A queued search whose next part has hop distance exactly `c`. -/
def StreamAt (c : Nat) (s : BfsStream) : Prop :=
  ∃ r0 t, s = r0 :: t ∧ r0.2.2 = some c ∧ TailAt c t

/-- `advance_head_search` of `ParallelBfs`: re-queue, discard, or move
the current head search to the finalization chain. -/
def advanceHead (current : Nat) :
    List BfsStream → List SssdPartial → List BfsStream × List SssdPartial
  | [], f => ([], f)
  | s :: rest, f =>
      match s.head? with
      | none => (rest, f)
      | some (_, _, none) => (rest, f ++ s)
      | some (_, _, some d) =>
          if d = current then (s :: rest, f) else (rest ++ [s], f)

/-- The rotation loop of `initialize_searches`. -/
def initCycle : Nat → Nat → List BfsStream × List SssdPartial →
    List BfsStream × List SssdPartial
  | 0, _, qf => qf
  | k + 1, c, qf => initCycle k c (advanceHead c qf.1 qf.2)

/-- `ParallelBfs` state: the (lazily initialized) rotation queue, the
current hop distance, and the finalization chain. -/
structure PBfsState where
  queue : Option (List BfsStream)
  current : Nat
  finalization : List SssdPartial

/-- One `ParallelBfs::next` call on an initialized state. -/
def pbfsGo (q : List BfsStream) (cur : Nat) (fin : List SssdPartial) :
    Option SssdPartial × List BfsStream × Nat × List SssdPartial :=
  match q with
  | [] =>
      match fin with
      | [] => (none, [], cur, [])
      | p :: rest => (some p, [], cur, rest)
  | s :: qrest =>
      let part := s.head?
      let cur2 :=
        match part with
        | some (_, _, some d) => if cur < d then cur + 1 else cur
        | _ => cur
      let qf := advanceHead cur2 (s.tail :: qrest) fin
      (part, qf.1, cur2, qf.2)

/-- `ParallelBfs::next`, including the lazy `initialize_searches` (which
skips each search's self part, rotates once through all `n` searches at
hop distance 0, and then sets the current hop distance to 1). -/
def PBfs.next (n : Nat) (S : Nat → List SssdPartial) (st : PBfsState) :
    Option SssdPartial × PBfsState :=
  match st.queue with
  | none =>
      let qf := initCycle n 0
        ((List.range n).map (fun v => (S v).tail), st.finalization)
      match pbfsGo qf.1 1 qf.2 with
      | (r, q2, c2, f2) => (r, ⟨some q2, c2, f2⟩)
  | some q =>
      match pbfsGo q st.current st.finalization with
      | (r, q2, c2, f2) => (r, ⟨some q2, c2, f2⟩)

def pbfsDrain : Nat → List BfsStream → Nat → List SssdPartial →
    Option (List SssdPartial)
  | 0, _, _, _ => none
  | fuel + 1, q, cur, fin =>
      match pbfsGo q cur fin with
      | (none, _, _, _) => some []
      | (some x, q2, c2, f2) => (pbfsDrain fuel q2 c2 f2).map (x :: ·)

/-- State of `apsd-enum-bfs-sorted`: the trivial self-distance pass
chained with the lock-step parallel BFS merge. -/
inductive APSDU where
  | selfU (vs : List Nat)
  | bfsU (st : PBfsState)

def APSDU.next (n : Nat) (S : Nat → List SssdPartial) :
    APSDU → Option SssdPartial × APSDU
  | .selfU (v :: rest) => (some (v, v, some 0), .selfU rest)
  | .selfU [] =>
      match PBfs.next n S ⟨none, 0, []⟩ with
      | (r, st2) => (r, .bfsU st2)
  | .bfsU st =>
      match PBfs.next n S st with
      | (r, st2) => (r, .bfsU st2)

def APSDU.drain (n : Nat) (S : Nat → List SssdPartial) :
    Nat → APSDU → Option (List SssdPartial)
  | 0, _ => none
  | fuel + 1, s =>
      match APSDU.next n S s with
      | (none, _) => some []
      | (some x, s2) => (APSDU.drain n S fuel s2).map (x :: ·)

/-- Queue invariant of the lock-step rotation: a front section at the
current hop distance followed by a back section at the next one. -/
def QInv (c : Nat) (q : List BfsStream) : Prop :=
  ∃ F B, q = F ++ B ∧ (∀ s, s ∈ F → StreamAt c s) ∧
    (∀ s, s ∈ B → StreamAt (c + 1) s)

/-- Termination measure: queued parts plus one per live search plus the
finalization backlog. -/
def bfsM (q : List BfsStream) (fin : List SssdPartial) : Nat :=
  (q.map (fun s => s.length + 1)).sum + fin.length

/-- Case analysis of `advance_head_search` on the tail of a search whose
head part at hop distance `cs` was just consumed: the search is
discarded, moved (all-`None`) to the finalization chain, re-queued at the
front still at `cs`, or re-queued at the back at `cs + 1`. -/
theorem advanceHead_ok (cs : Nat) (t : BfsStream) (qrest : List BfsStream)
    (fin : List SssdPartial) (ht : TailAt cs t) :
    (advanceHead cs (t :: qrest) fin = (qrest, fin)) ∨
    (advanceHead cs (t :: qrest) fin = (qrest, fin ++ t) ∧
      ∀ r, r ∈ t → r.2.2 = (none : Option Nat)) ∨
    (advanceHead cs (t :: qrest) fin = (t :: qrest, fin) ∧ StreamAt cs t) ∨
    (advanceHead cs (t :: qrest) fin = (qrest ++ [t], fin) ∧
      StreamAt (cs + 1) t) := by
  obtain ⟨sS, sN, hsplit, hN, hS, hch⟩ := ht
  cases sS with
  | nil =>
      rw [List.nil_append] at hsplit
      subst hsplit
      cases t with
      | nil => exact Or.inl rfl
      | cons p t2 =>
          obtain ⟨pu, pv, pk⟩ := p
          have hpk : pk = none := hN _ (List.mem_cons_self _ _)
          subst hpk
          exact Or.inr (Or.inl ⟨rfl, hN⟩)
  | cons p sS2 =>
      obtain ⟨pu, pv, pk⟩ := p
      obtain ⟨d, hd⟩ := Option.isSome_iff_exists.mp
        (hS _ (List.mem_cons_self _ _))
      subst hd
      rw [List.cons_append] at hsplit
      subst hsplit
      simp only [List.map_cons] at hch
      have hstep : cs ≤ d ∧ d ≤ cs + 1 := by
        have h2 := (List.chain'_cons.mp hch).1
        simpa using h2
      have hch2 : List.Chain' (fun a b => a ≤ b ∧ b ≤ a + 1)
          (d :: sS2.map (fun r => (r.2.2).getD 0)) := by
        have h2 := (List.chain'_cons.mp hch).2
        simpa using h2
      by_cases hdc : d = cs
      · refine Or.inr (Or.inr (Or.inl ⟨?_, ?_⟩))
        · show (if d = cs then _ else _) = _
          rw [if_pos hdc]
        · refine ⟨(pu, pv, some d), sS2 ++ sN, rfl, by rw [hdc], sS2, sN,
            rfl, hN, fun r hr => hS r (List.mem_cons_of_mem _ hr), ?_⟩
          rw [hdc] at hch2
          exact hch2
      · have hd1 : d = cs + 1 := by omega
        refine Or.inr (Or.inr (Or.inr ⟨?_, ?_⟩))
        · show (if d = cs then _ else _) = _
          rw [if_neg hdc]
        · refine ⟨(pu, pv, some d), sS2 ++ sN, rfl, by rw [hd1], sS2, sN,
            rfl, hN, fun r hr => hS r (List.mem_cons_of_mem _ hr), ?_⟩
          rw [hd1] at hch2
          exact hch2

/-- `advance_head_search` during the initialization rotation (current
hop distance 0, all self parts already skipped): the head search is
discarded, moved to the finalization chain, or re-queued at the back at
hop distance 1; it is never re-queued at the front. -/
theorem advanceHead_init (t : BfsStream) (qrest : List BfsStream)
    (fin : List SssdPartial) (ht : BfsTail t) :
    (advanceHead 0 (t :: qrest) fin = (qrest, fin)) ∨
    (advanceHead 0 (t :: qrest) fin = (qrest, fin ++ t) ∧
      ∀ r, r ∈ t → r.2.2 = (none : Option Nat)) ∨
    (advanceHead 0 (t :: qrest) fin = (qrest ++ [t], fin) ∧
      StreamAt 1 t) := by
  obtain ⟨sS, sN, hsplit, hN, hS, hch, hone⟩ := ht
  cases sS with
  | nil =>
      rw [List.nil_append] at hsplit
      subst hsplit
      cases t with
      | nil => exact Or.inl rfl
      | cons p t2 =>
          obtain ⟨pu, pv, pk⟩ := p
          have hpk : pk = none := hN _ (List.mem_cons_self _ _)
          subst hpk
          exact Or.inr (Or.inl ⟨rfl, hN⟩)
  | cons p sS2 =>
      have hp1 : p.2.2 = some 1 := hone p rfl
      obtain ⟨pu, pv, pk⟩ := p
      rw [show ((pu, pv, pk) : SssdPartial).2.2 = pk from rfl] at hp1
      subst hp1
      rw [List.cons_append] at hsplit
      subst hsplit
      simp only [List.map_cons] at hch
      have hch2 : List.Chain' (fun a b => a ≤ b ∧ b ≤ a + 1)
          (1 :: sS2.map (fun r => (r.2.2).getD 0)) := by
        simpa using hch
      refine Or.inr (Or.inr ⟨?_, ?_⟩)
      · rfl
      · exact ⟨(pu, pv, some 1), sS2 ++ sN, rfl, rfl, sS2, sN, rfl, hN,
          fun r hr => hS r (List.mem_cons_of_mem _ hr), hch2⟩

/-- The initialization rotation: cycling once through all searches at
hop distance 0 leaves a queue of searches whose next parts all have hop
distance 1, an all-`None` finalization chain, and no larger measure. -/
theorem initCycle_ok :
    ∀ k U P fin, (∀ t, t ∈ U → BfsTail t) → (∀ s, s ∈ P → StreamAt 1 s) →
    (∀ r, r ∈ fin → r.2.2 = (none : Option Nat)) → U.length = k →
    ∃ P2 fin2, initCycle k 0 (U ++ P, fin) = (P2, fin2) ∧
      (∀ s, s ∈ P2 → StreamAt 1 s) ∧
      (∀ r, r ∈ fin2 → r.2.2 = (none : Option Nat)) ∧
      bfsM P2 fin2 ≤ bfsM (U ++ P) fin := by
  intro k
  induction k with
  | zero =>
      intro U P fin hU hP hfin hlen
      have hUnil : U = [] := List.length_eq_zero.mp hlen
      subst hUnil
      exact ⟨P, fin, rfl, hP, hfin, Nat.le_refl _⟩
  | succ k ih =>
      intro U P fin hU hP hfin hlen
      cases U with
      | nil => simp at hlen
      | cons u U2 =>
          have hlen2 : U2.length = k := by simpa using hlen
          have hstep : initCycle (k + 1) 0 ((u :: U2) ++ P, fin) =
              initCycle k 0 (advanceHead 0 (u :: (U2 ++ P)) fin) := rfl
          rcases advanceHead_init u (U2 ++ P) fin
              (hU u (List.mem_cons_self _ _)) with
            hadv | ⟨hadv, hnn⟩ | ⟨hadv, hst⟩
          · rw [hstep, hadv]
            obtain ⟨P2, fin2, heq, h1, h2, h3⟩ := ih U2 P fin
              (fun t2 ht2 => hU t2 (List.mem_cons_of_mem _ ht2)) hP hfin hlen2
            refine ⟨P2, fin2, heq, h1, h2, Nat.le_trans h3 ?_⟩
            simp only [bfsM, List.cons_append, List.map_cons, List.sum_cons]
            omega
          · rw [hstep, hadv]
            obtain ⟨P2, fin2, heq, h1, h2, h3⟩ := ih U2 P (fin ++ u)
              (fun t2 ht2 => hU t2 (List.mem_cons_of_mem _ ht2)) hP
              (by
                intro r hr
                rcases List.mem_append.mp hr with hr | hr
                · exact hfin r hr
                · exact hnn r hr) hlen2
            refine ⟨P2, fin2, heq, h1, h2, Nat.le_trans h3 ?_⟩
            simp only [bfsM, List.cons_append, List.map_cons, List.sum_cons,
              List.length_append]
            omega
          · rw [hstep, hadv, List.append_assoc]
            obtain ⟨P2, fin2, heq, h1, h2, h3⟩ := ih U2 (P ++ [u]) fin
              (fun t2 ht2 => hU t2 (List.mem_cons_of_mem _ ht2))
              (by
                intro s hs
                rcases List.mem_append.mp hs with hs | hs
                · exact hP s hs
                · rw [List.mem_singleton.mp hs]
                  exact hst) hfin hlen2
            refine ⟨P2, fin2, heq, h1, h2, Nat.le_trans h3 ?_⟩
            simp only [bfsM, List.cons_append, List.map_cons, List.sum_cons,
              List.map_append, List.sum_append, List.map_cons, List.sum_cons,
              List.map_nil, List.sum_nil]
            omega

theorem pbfsDrain_succ (fuel : Nat) (q : List BfsStream) (cur : Nat)
    (fin : List SssdPartial) :
    pbfsDrain (fuel + 1) q cur fin =
      (match pbfsGo q cur fin with
       | (none, _, _, _) => some []
       | (some x, q2, c2, f2) => (pbfsDrain fuel q2 c2 f2).map (x :: ·)) := rfl

/-- Re-establishing the rotation invariant after the head search at hop
distance `cs` emitted a part: on the remaining tail `t`,
`advance_head_search` yields a queue satisfying the invariant again, an
all-`None` finalization chain, and no larger measure. -/
theorem advanceHead_step (cs : Nat) (t : BfsStream) (F2 B2 : List BfsStream)
    (fin : List SssdPartial) (ht : TailAt cs t)
    (hF : ∀ s, s ∈ F2 → StreamAt cs s)
    (hB : ∀ s, s ∈ B2 → StreamAt (cs + 1) s)
    (hfin : ∀ r, r ∈ fin → r.2.2 = (none : Option Nat)) :
    ∃ q2 fin2, advanceHead cs (t :: (F2 ++ B2)) fin = (q2, fin2) ∧
      QInv cs q2 ∧ (∀ r, r ∈ fin2 → r.2.2 = (none : Option Nat)) ∧
      bfsM q2 fin2 ≤ bfsM (t :: (F2 ++ B2)) fin := by
  rcases advanceHead_ok cs t (F2 ++ B2) fin ht with
    hadv | ⟨hadv, hnn⟩ | ⟨hadv, hst⟩ | ⟨hadv, hst⟩
  · refine ⟨F2 ++ B2, fin, hadv, ⟨F2, B2, rfl, hF, hB⟩, hfin, ?_⟩
    simp only [bfsM, List.map_cons, List.sum_cons]
    omega
  · refine ⟨F2 ++ B2, fin ++ t, hadv, ⟨F2, B2, rfl, hF, hB⟩, ?_, ?_⟩
    · intro r hr
      rcases List.mem_append.mp hr with hr | hr
      · exact hfin r hr
      · exact hnn r hr
    · simp only [bfsM, List.map_cons, List.sum_cons, List.length_append]
      omega
  · refine ⟨t :: (F2 ++ B2), fin, hadv,
      ⟨t :: F2, B2, by rw [List.cons_append], ?_, hB⟩, hfin, Nat.le_refl _⟩
    intro s hs
    rcases List.mem_cons.mp hs with hs | hs
    · rw [hs]
      exact hst
    · exact hF s hs
  · refine ⟨(F2 ++ B2) ++ [t], fin, hadv,
      ⟨F2, B2 ++ [t], by rw [List.append_assoc], hF, ?_⟩, hfin, ?_⟩
    · intro s hs
      rcases List.mem_append.mp hs with hs | hs
      · exact hB s hs
      · rw [List.mem_singleton.mp hs]
        exact hst
    · simp only [bfsM, List.map_cons, List.sum_cons, List.map_append,
        List.sum_append, List.map_nil, List.sum_nil]
      omega

/-- The lock-step merge loop: under the rotation invariant it drains
without panicking, every emission is bounded below by the current hop
distance, the emitted keys are globally nondecreasing, and once the
rotation queue is empty only `None` parts are emitted. -/
theorem pbfsDrain_ok :
    ∀ fuel c q fin, QInv c q →
    (∀ r, r ∈ fin → r.2.2 = (none : Option Nat)) →
    bfsM q fin < fuel →
    ∃ out, pbfsDrain fuel q c fin = some out ∧
      (∀ r, r ∈ out → wkeyLe (some c) r.2.2 = true) ∧
      List.Chain' (fun a b => wkeyLe a.2.2 b.2.2 = true) out ∧
      (q = [] → ∀ r, r ∈ out → r.2.2 = (none : Option Nat)) := by
  intro fuel
  induction fuel with
  | zero => intro c q fin _ _ hM; omega
  | succ fuel ih =>
      intro c q fin hQ hfin hM
      cases q with
      | nil =>
          cases fin with
          | nil =>
              refine ⟨[], rfl, ?_, List.chain'_nil, ?_⟩
              · intro r hr; simp at hr
              · intro _ r hr; simp at hr
          | cons p rest =>
              have hMr : bfsM [] rest < fuel := by
                simp only [bfsM, List.map_nil, List.sum_nil,
                  List.length_cons] at hM ⊢
                omega
              obtain ⟨out2, hdr2, hlb2, hch2, hnn2⟩ := ih c [] rest
                ⟨[], [], rfl, by intro s hs; simp at hs,
                  by intro s hs; simp at hs⟩
                (fun r hr => hfin r (List.mem_cons_of_mem _ hr)) hMr
              refine ⟨p :: out2, ?_, ?_, ?_, ?_⟩
              · rw [pbfsDrain_succ]
                dsimp only [pbfsGo]
                rw [hdr2]
                rfl
              · intro r hr
                rcases List.mem_cons.mp hr with hr | hr
                · rw [hr, hfin p (List.mem_cons_self _ _)]
                  exact wkeyLe_none _
                · exact hlb2 r hr
              · refine List.chain'_cons'.mpr ⟨?_, hch2⟩
                intro b hb
                rw [hnn2 rfl b (List.mem_of_mem_head? hb)]
                exact wkeyLe_none _
              · intro _ r hr
                rcases List.mem_cons.mp hr with hr | hr
                · rw [hr]
                  exact hfin p (List.mem_cons_self _ _)
                · exact hnn2 rfl r hr
      | cons s qrest =>
          obtain ⟨F, B, hq, hF, hB⟩ := hQ
          cases F with
          | nil =>
              rw [List.nil_append] at hq
              subst hq
              obtain ⟨r0, t, hs, hr0, ht⟩ := hB s (List.mem_cons_self _ _)
              obtain ⟨ru, rv, rk⟩ := r0
              rw [show ((ru, rv, rk) : SssdPartial).2.2 = rk from rfl] at hr0
              subst hr0
              subst hs
              have hgo : pbfsGo (((ru, rv, some (c + 1)) :: t) :: qrest) c fin
                  = (some (ru, rv, some (c + 1)),
                    (advanceHead (c + 1) (t :: qrest) fin).1, c + 1,
                    (advanceHead (c + 1) (t :: qrest) fin).2) := by
                simp only [pbfsGo, List.head?_cons, List.tail_cons]
                rw [if_pos (show c < c + 1 from by omega)]
              have hBr : ∀ s2, s2 ∈ qrest → StreamAt (c + 1) s2 :=
                fun s2 hs2 => hB s2 (List.mem_cons_of_mem _ hs2)
              obtain ⟨q2, fin2, hadv2, hQ2, hfin2, hmeas⟩ :=
                advanceHead_step (c + 1) t qrest [] fin ht hBr
                  (by intro s2 hs2; simp at hs2) hfin
              rw [List.append_nil] at hadv2 hmeas
              rw [hadv2] at hgo
              dsimp only at hgo
              have hMlt : bfsM q2 fin2 < fuel := by
                simp only [bfsM, List.map_cons, List.sum_cons,
                  List.length_cons] at hM hmeas ⊢
                omega
              obtain ⟨out2, hdr2, hlb2, hch2, hnn2⟩ :=
                ih (c + 1) q2 fin2 hQ2 hfin2 hMlt
              refine ⟨(ru, rv, some (c + 1)) :: out2, ?_, ?_, ?_, ?_⟩
              · rw [pbfsDrain_succ, hgo]
                dsimp only
                rw [hdr2]
                rfl
              · intro r hr
                rcases List.mem_cons.mp hr with hr | hr
                · rw [hr]
                  show wkeyLe (some c) (some (c + 1)) = true
                  simp [wkeyLe]
                · exact wkeyLe_trans
                    (show wkeyLe (some c) (some (c + 1)) = true from
                      by simp [wkeyLe])
                    (hlb2 r hr)
              · refine List.chain'_cons'.mpr ⟨?_, hch2⟩
                intro b hb
                exact hlb2 b (List.mem_of_mem_head? hb)
              · intro h
                simp at h
          | cons f0 F2 =>
              rw [List.cons_append] at hq
              have hs0 : s = f0 := (List.cons.inj hq).1
              have hqr : qrest = F2 ++ B := (List.cons.inj hq).2
              subst hqr
              rw [← hs0] at hF
              obtain ⟨r0, t, hs, hr0, ht⟩ := hF s (List.mem_cons_self _ _)
              obtain ⟨ru, rv, rk⟩ := r0
              rw [show ((ru, rv, rk) : SssdPartial).2.2 = rk from rfl] at hr0
              subst hr0
              subst hs
              have hgo : pbfsGo (((ru, rv, some c) :: t) :: (F2 ++ B)) c fin
                  = (some (ru, rv, some c),
                    (advanceHead c (t :: (F2 ++ B)) fin).1, c,
                    (advanceHead c (t :: (F2 ++ B)) fin).2) := by
                simp only [pbfsGo, List.head?_cons, List.tail_cons]
                rw [if_neg (show ¬ c < c from by omega)]
              obtain ⟨q2, fin2, hadv2, hQ2, hfin2, hmeas⟩ :=
                advanceHead_step c t F2 B fin ht
                  (fun s2 hs2 => hF s2 (List.mem_cons_of_mem _ hs2)) hB hfin
              rw [hadv2] at hgo
              dsimp only at hgo
              have hMlt : bfsM q2 fin2 < fuel := by
                simp only [bfsM, List.map_cons, List.sum_cons,
                  List.length_cons] at hM hmeas ⊢
                omega
              obtain ⟨out2, hdr2, hlb2, hch2, hnn2⟩ :=
                ih c q2 fin2 hQ2 hfin2 hMlt
              refine ⟨(ru, rv, some c) :: out2, ?_, ?_, ?_, ?_⟩
              · rw [pbfsDrain_succ, hgo]
                dsimp only
                rw [hdr2]
                rfl
              · intro r hr
                rcases List.mem_cons.mp hr with hr | hr
                · rw [hr]
                  exact wkeyLe_refl _
                · exact hlb2 r hr
              · refine List.chain'_cons'.mpr ⟨?_, hch2⟩
                intro b hb
                exact hlb2 b (List.mem_of_mem_head? hb)
              · intro h
                simp at h

theorem APSDU_bfs_drain (n : Nat) (S : Nat → List SssdPartial) :
    ∀ fuel q c f, APSDU.drain n S fuel (.bfsU ⟨some q, c, f⟩) =
      pbfsDrain fuel q c f := by
  intro fuel
  induction fuel with
  | zero => intro q c f; rfl
  | succ fuel ih =>
      intro q c f
      rw [pbfsDrain_succ]
      show (match APSDU.next n S (.bfsU ⟨some q, c, f⟩) with
            | (none, _) => some []
            | (some x, s2) => (APSDU.drain n S fuel s2).map (x :: ·)) = _
      simp only [APSDU.next, PBfs.next]
      rcases hgo : pbfsGo q c f with ⟨r, q2, c2, f2⟩
      cases r with
      | none => rfl
      | some x =>
          dsimp only
          rw [ih]

/-- The trivial self-distance pass of the unweighted variant. -/
theorem APSDU_self_drain (n : Nat) (S : Nat → List SssdPartial) :
    ∀ vs fuel, APSDU.drain n S (vs.length + fuel) (.selfU vs) =
      (APSDU.drain n S fuel (.selfU [])).map
        ((vs.map (fun v => (v, v, some 0))) ++ ·) := by
  intro vs
  induction vs with
  | nil =>
      intro fuel
      rw [List.length_nil, Nat.zero_add]
      rcases h : APSDU.drain n S fuel (.selfU []) with - | out
      · rfl
      · simp
  | cons v rest ih =>
      intro fuel
      show APSDU.drain n S (rest.length + 1 + fuel) (.selfU (v :: rest)) = _
      rw [show rest.length + 1 + fuel = (rest.length + fuel) + 1 by omega]
      show (match APSDU.next n S (.selfU (v :: rest)) with
            | (none, _) => some []
            | (some x, s2) =>
                (APSDU.drain n S (rest.length + fuel) s2).map (x :: ·)) = _
      simp only [APSDU.next]
      rw [ih fuel]
      rcases h : APSDU.drain n S fuel (.selfU []) with - | out
      · rfl
      · simp

theorem APSDU_init_drain (n : Nat) (S : Nat → List SssdPartial)
    (q1 : List BfsStream) (f1 : List SssdPartial) (fuel : Nat)
    (hinit : initCycle n 0 ((List.range n).map (fun v => (S v).tail), []) =
      (q1, f1)) :
    APSDU.drain n S (fuel + 1) (.selfU []) = pbfsDrain (fuel + 1) q1 1 f1 := by
  rw [pbfsDrain_succ]
  show (match APSDU.next n S (.selfU []) with
        | (none, _) => some []
        | (some x, s2) => (APSDU.drain n S fuel s2).map (x :: ·)) = _
  simp only [APSDU.next, PBfs.next, hinit]
  rcases hgo : pbfsGo q1 1 f1 with ⟨r, q2, c2, f2⟩
  cases r with
  | none => rfl
  | some x =>
      dsimp only
      rw [APSDU_bfs_drain]

/-- The unweighted half of C3: the lock-step parallel BFS merge drains
to the self-distance pass followed by a merge stream whose keys are
globally nondecreasing. -/
theorem APSDU_ok (n : Nat) (S : Nat → List SssdPartial)
    (hS : ∀ v, v < n → BfsTail (S v).tail) :
    ∃ fuel out merged,
      APSDU.drain n S fuel (.selfU (List.range n)) = some out ∧
      out = (List.range n).map (fun v => (v, v, some 0)) ++ merged ∧
      List.Chain' (fun a b => wkeyLe a.2.2 b.2.2 = true) merged := by
  obtain ⟨q1, f1, hinit, hP, hfin, hmeas⟩ := initCycle_ok n
    ((List.range n).map (fun v => (S v).tail)) [] []
    (by
      intro t htm
      obtain ⟨v, hv, rfl⟩ := List.mem_map.mp htm
      exact hS v (List.mem_range.mp hv))
    (by intro s hs; simp at hs) (by intro r hr; simp at hr)
    (by simp)
  rw [List.append_nil] at hinit
  obtain ⟨merged, hdr, hlb, hch, hnil⟩ := pbfsDrain_ok (bfsM q1 f1 + 1) 1 q1
    f1 ⟨q1, [], (List.append_nil q1).symm, hP, by intro s hs; simp at hs⟩
    hfin (by omega)
  refine ⟨n + (bfsM q1 f1 + 1),
    (List.range n).map (fun v => (v, v, some 0)) ++ merged, merged,
    ?_, rfl, hch⟩
  have h1 := APSDU_self_drain n S (List.range n) (bfsM q1 f1 + 1)
  rw [List.length_range] at h1
  rw [h1, APSDU_init_drain n S q1 f1 (bfsM q1 f1) hinit, hdr]
  rfl

/-- C3: each sorted APSD merge enumerator — the weighted binary-min-heap
`ParallelDijkstra` variant (apsd-enum-dijkstra-sorted), and, under the
BFS contract `BfsTail` for its inner searches (whose source file
sssd/unweighted.rs is missing from this snapshot), the hop-distance
lock-step `ParallelBfs` variant (apsd-enum-bfs-sorted) — first emits the
trivial self-distance part `(v, v, some 0)` for every vertex as a
separate initial pass, and all subsequent results are emitted with
distance keys nondecreasing across all sources simultaneously (the
reachable `some` distances never decrease, and the unreachable `none`
parts come after all of them). -/
theorem C3_apsd_sorted_merge (g : DGraph Nat) (n : Nat)
    (S : Nat → List SssdPartial) (hS : ∀ v, v < n → BfsTail (S v).tail) :
    (∃ fuel out merged,
      APSDW.drain g fuel (.selfW (List.range g.n)) = some out ∧
      out = (List.range g.n).map (fun v => (v, v, some 0)) ++ merged ∧
      List.Chain' (fun a b => wkeyLe a.2.2 b.2.2 = true) merged) ∧
    (∃ fuel out merged,
      APSDU.drain n S fuel (.selfU (List.range n)) = some out ∧
      out = (List.range n).map (fun v => (v, v, some 0)) ++ merged ∧
      List.Chain' (fun a b => wkeyLe a.2.2 b.2.2 = true) merged) :=
  ⟨APSDW_ok g, APSDU_ok n S hS⟩

theorem C3_apsd_sorted_merge_witness :
    (∃ fuel out merged,
      APSDW.drain oneVertexGraphW fuel
        (.selfW (List.range oneVertexGraphW.n)) = some out ∧
      out = (List.range oneVertexGraphW.n).map (fun v => (v, v, some 0)) ++
        merged ∧
      List.Chain' (fun a b => wkeyLe a.2.2 b.2.2 = true) merged) ∧
    (∃ fuel out merged,
      APSDU.drain 1 (fun _ => [(0, 0, some 0)]) fuel
        (.selfU (List.range 1)) = some out ∧
      out = (List.range 1).map (fun v => (v, v, some 0)) ++ merged ∧
      List.Chain' (fun a b => wkeyLe a.2.2 b.2.2 = true) merged) :=
  C3_apsd_sorted_merge oneVertexGraphW 1 (fun _ => [(0, 0, some 0)])
    (by
      intro v hv
      exact ⟨[], [], rfl, by intro r hr; simp at hr,
        by intro r hr; simp at hr, List.chain'_nil,
        by intro r hr; simp at hr⟩)
end Spec2Proof
